import Mathlib

/-!
# Zero storage manager: log archiver and B-tree structure modifications

A shallow embedding of the log-archiver pipeline of `src/sm/logarchiver.cpp`
and `src/sm/logarchiver.h`, and of the entry points and the foster split and
adopt operations of the B-tree (`src/sm/btree.cpp`, `src/sm/btree_page.h`,
`src/sm/btree_impl_split.cpp`), together with the properties proved about them.

Conventions of the embedding

* `PageID` (an unsigned 32-bit integer) is a `Nat`; `run_number_t`
  (a signed 32-bit integer) is an `Int`.  Signed overflow is undefined in C++
  and no operation below relies on wrap-around, so counters are unbounded.
* Pointers into the sort workspace are addresses (`Nat`); the null pointer is
  address `0`.
* A failed `w_assert0` / `W_FATAL` is the result `none`.
* A function that returns a `w_rc_t` returns it next to the state it leaves
  behind; services outside the sources (log, buffer manager) are a record of
  their answers (`sm_env`) and a record of what was asked of them (`sm_world`).
-/

namespace Zero

/-! ## Basic types -/

/-- Modelled from the spec: `lsn_t` is declared in a header that is not part of
the sources at hand.  Section 3 of the specification: "Pair (partition, offset)
with total order; advance(n) = (partition, offset+n); null is a sentinel least
element".  `hi` is the partition, `lo` the offset. -/
structure lsn_t where
  hi : Nat
  lo : Nat
deriving DecidableEq, Repr

/-- The sentinel `lsn_t::null`. -/
def lsn_t.null : lsn_t := ⟨0, 0⟩

/-- The method `lsn_t::advance`. -/
def lsn_t.advance (l : lsn_t) (n : Nat) : lsn_t := ⟨l.hi, l.lo + n⟩

/-- The total order of LSNs: lexicographic on (partition, offset). -/
instance : LT lsn_t := ⟨fun a b => a.hi < b.hi ∨ (a.hi = b.hi ∧ a.lo < b.lo)⟩

instance : LE lsn_t := ⟨fun a b => a.hi < b.hi ∨ (a.hi = b.hi ∧ a.lo ≤ b.lo)⟩

instance (a b : lsn_t) : Decidable (a < b) :=
  inferInstanceAs (Decidable (a.hi < b.hi ∨ (a.hi = b.hi ∧ a.lo < b.lo)))

instance (a b : lsn_t) : Decidable (a ≤ b) :=
  inferInstanceAs (Decidable (a.hi < b.hi ∨ (a.hi = b.hi ∧ a.lo ≤ b.lo)))

/-- The fields of `logrec_t` that the archiver reads or writes.  The class is
declared in a header that is not part of the sources at hand; `lsn` is the value
returned by both `lsn()` and `lsn_ck()`. -/
structure logrec_t where
  length : Nat
  type : Nat
  pid : Nat
  pid2 : Nat
  lsn : lsn_t
  page_prev_lsn : lsn_t
  page2_prev_lsn : lsn_t
deriving DecidableEq, Repr

/-- The setter `logrec_t::set_pid`. -/
def logrec_t.set_pid (lr : logrec_t) (p : Nat) : logrec_t := { lr with pid := p }

/-- The setter `logrec_t::set_page_prev_lsn`. -/
def logrec_t.set_page_prev_lsn (lr : logrec_t) (l : lsn_t) : logrec_t :=
  { lr with page_prev_lsn := l }

/-- A slot of the workspace, `mem_mgmt_t::slot_t`: start address and length.
Address `0` is the null pointer. -/
structure slot_t where
  address : Nat
  length : Nat
deriving DecidableEq, Repr

/-! ## ArchiverHeap -/

/-- The sort key kept in the heap, `ArchiverHeap::HeapEntry`. -/
structure HeapEntry where
  slot : slot_t
  lsn : lsn_t
  run : Int
  pid : Nat
deriving DecidableEq, Repr

/-- The comparator `ArchiverHeap::Cmp::gt` ("gt is actually a less than function,
to produce ascending order"). -/
def ArchiverHeap.Cmp.gt (a b : HeapEntry) : Bool :=
  if a.run ≠ b.run then
    decide (a.run < b.run)
  else if a.pid ≠ b.pid then
    decide (a.pid < b.pid)
  else
    decide (a.lsn < b.lsn)

/-- Modelled from the spec: the class template `Heap<T, Cmp>` (w_heap.h) is not
part of the sources at hand.  Sections 3 and 4.6 of the specification describe it
as a min-heap under the comparator ("`pop()` returns the min-entry", "Order:
ascending").  The model keeps the elements in a list whose head is `First()`;
the list is ordered by the comparator `gt` ("a less than function"). -/
structure Heap (T : Type) where
  elems : List T
deriving DecidableEq, Repr

/-- Number of elements, `Heap::NumElements`. -/
def Heap.NumElements {T : Type} (h : Heap T) : Nat := h.elems.length

/-- The top of the heap, `Heap::First`; `none` on an empty heap, where the C++
call is not defined. -/
def Heap.First {T : Type} (h : Heap T) : Option T := h.elems.head?

/-- Insertion that keeps the heap order, `Heap::AddElement`. -/
def Heap.AddElement {T : Type} (gt : T → T → Bool) (h : Heap T) (x : T) : Heap T :=
  ⟨h.elems.orderedInsert (fun a b => gt b a = false) x⟩

/-- Insertion without restoring the heap order, `Heap::AddElementDontHeapify`. -/
def Heap.AddElementDontHeapify {T : Type} (h : Heap T) (x : T) : Heap T :=
  ⟨h.elems ++ [x]⟩

/-- Establish the heap order on all elements, `Heap::Heapify`. -/
def Heap.Heapify {T : Type} (gt : T → T → Bool) (h : Heap T) : Heap T :=
  ⟨h.elems.insertionSort (fun a b => gt b a = false)⟩

/-- Restore the heap order after the top was modified in place,
`Heap::ReplacedFirst`. -/
def Heap.ReplacedFirst {T : Type} (gt : T → T → Bool) (h : Heap T) : Heap T :=
  match h.elems with
  | [] => h
  | x :: rest => ⟨rest.orderedInsert (fun a b => gt b a = false) x⟩

/-- Remove the top, `Heap::RemoveFirst`. -/
def Heap.RemoveFirst {T : Type} (h : Heap T) : Heap T := ⟨h.elems.tail⟩

/-- The interface `mem_mgmt_t` of the workspace allocator, whose implementation
(`fixed_lists_mem_t`) is not part of the sources at hand.  `W` is the state of
the allocator.  `allocate` returns the slot it hands out; a slot with address
`0` reports a full workspace. -/
structure mem_mgmt_t (W : Type) where
  allocate : W → Nat → slot_t × W
  free : W → slot_t → W

/-- The state of `ArchiverHeap`.  `memory` holds what `memcpy` wrote into the
workspace: the most recent record stored at each address. -/
structure ArchiverHeap (W : Type) where
  currentRun : Int
  filledFirst : Bool
  workspace : W
  memory : List (Nat × logrec_t)
  w_heap : Heap HeapEntry

/-- The constructor `ArchiverHeap::ArchiverHeap`, on a fresh workspace `w`. -/
def ArchiverHeap.init {W : Type} (w : W) : ArchiverHeap W :=
  { currentRun := 0, filledFirst := false, workspace := w, memory := [],
    w_heap := ⟨[]⟩ }

/-- The accessor `ArchiverHeap::size`. -/
def ArchiverHeap.size {W : Type} (h : ArchiverHeap W) : Nat := h.w_heap.NumElements

/-- The accessor `ArchiverHeap::topRun`. -/
def ArchiverHeap.topRun {W : Type} (h : ArchiverHeap W) : Option Int :=
  h.w_heap.First.map (fun e => e.run)

/-- The record stored at an address of the workspace. -/
def ArchiverHeap.load {W : Type} (h : ArchiverHeap W) (address : Nat) : Option logrec_t :=
  (h.memory.find? (fun p => p.1 = address)).map (fun p => p.2)

/-- The accessor `ArchiverHeap::top`: the record in the slot of the heap top. -/
def ArchiverHeap.top {W : Type} (h : ArchiverHeap W) : Option logrec_t :=
  h.w_heap.First.bind (fun e => h.load e.slot.address)

/-- The method `ArchiverHeap::allocate`. -/
def ArchiverHeap.allocate {W : Type} (mm : mem_mgmt_t W) (h : ArchiverHeap W)
    (length : Nat) : slot_t × ArchiverHeap W :=
  let r := mm.allocate h.workspace length
  let dest := r.1
  let h1 := { h with workspace := r.2 }
  if dest.address = 0 then
    -- workspace full -> do selection until space available
    if !h1.filledFirst then
      -- first run generated by first full load of w_heap
      (dest, { h1 with currentRun := h1.currentRun + 1, filledFirst := true })
    else
      (dest, h1)
  else
    (dest, h1)

/-- The body of `ArchiverHeap::push`; `self` stands for the recursive call
`push(lr, false)`.  The result is the returned flag, the heap afterwards and the
contents of the caller's record `*lr` afterwards. -/
def ArchiverHeap.pushBody {W : Type} (mm : mem_mgmt_t W)
    (self : ArchiverHeap W → logrec_t → Bool × ArchiverHeap W × logrec_t)
    (h : ArchiverHeap W) (lr : logrec_t) (duplicate : Bool) :
    Bool × ArchiverHeap W × logrec_t :=
  let a := ArchiverHeap.allocate mm h lr.length
  let dest := a.1
  let h1 := a.2
  if dest.address = 0 then
    (false, h1, lr)
  else
    let pid := lr.pid
    let lsn := lr.lsn
    -- memcpy(dest.address, lr, lr->length())
    let h2 := { h1 with memory := (dest.address, lr) :: h1.memory }
    if duplicate then
      let lr1 := lr.set_pid lr.pid2
      let lr2 := lr1.set_page_prev_lsn lr1.page2_prev_lsn
      let r := self h2 lr2
      if !r.1 then
        -- memcpy(lr, dest.address, lr->length()); workspace->free(dest)
        let h3 := r.2.1
        let restored := (h3.load dest.address).getD r.2.2
        (false, { h3 with workspace := mm.free h3.workspace dest }, restored)
      else
        let h3 := r.2.1
        let k : HeapEntry := ⟨dest, lsn, h3.currentRun, pid⟩
        (true, { h3 with w_heap := h3.w_heap.AddElement ArchiverHeap.Cmp.gt k }, r.2.2)
    else
      let h3 :=
        if h2.filledFirst &&
            (h2.size == 0 || h2.w_heap.First.map (fun e => e.run) == some h2.currentRun) then
          { h2 with currentRun := h2.currentRun + 1 }
        else h2
      let k : HeapEntry := ⟨dest, lsn, h3.currentRun, pid⟩
      (true, { h3 with w_heap := h3.w_heap.AddElement ArchiverHeap.Cmp.gt k }, lr)

/-- The method `ArchiverHeap::push`.  The call nests at most once: the inner call
has `duplicate = false` and does not call itself again. -/
def ArchiverHeap.push {W : Type} (mm : mem_mgmt_t W) (h : ArchiverHeap W)
    (lr : logrec_t) (duplicate : Bool) : Bool × ArchiverHeap W × logrec_t :=
  ArchiverHeap.pushBody mm
    (fun h1 lr1 => ArchiverHeap.pushBody mm (fun h2 lr2 => (false, h2, lr2)) h1 lr1 false)
    h lr duplicate

/-- The method `ArchiverHeap::pop`; `none` on an empty heap, where `First()` is
not defined. -/
def ArchiverHeap.pop {W : Type} (mm : mem_mgmt_t W) (h : ArchiverHeap W) :
    Option (ArchiverHeap W) :=
  match h.w_heap.First with
  | none => none
  | some e =>
    let h1 := { h with workspace := mm.free h.workspace e.slot,
                       w_heap := h.w_heap.RemoveFirst }
    if h1.size = 0 then
      -- If heap becomes empty, run generation must be reset with a new run
      some { h1 with filledFirst := false, currentRun := h1.currentRun + 1 }
    else
      some h1

/-- A call of the public interface of `ArchiverHeap`. -/
inductive HeapCall where
  | push (lr : logrec_t) (duplicate : Bool)
  | pop
deriving DecidableEq, Repr

/-- What one successful `push` did, as observed from outside: the run of the heap
top just before the call (`none` for an empty heap) and the entries that are in
the heap after the call and were not before. -/
structure PushEvent where
  topRunBefore : Option Int
  added : List HeapEntry
deriving DecidableEq, Repr

/-- Execute a sequence of calls and collect one event per successful `push`, in
call order.  The result is `none` when `pop` is called on an empty heap. -/
def ArchiverHeap.exec {W : Type} (mm : mem_mgmt_t W) :
    ArchiverHeap W → List HeapCall → Option (ArchiverHeap W × List PushEvent)
  | h, [] => some (h, [])
  | h, HeapCall.push lr duplicate :: rest =>
    let r := ArchiverHeap.push mm h lr duplicate
    match ArchiverHeap.exec mm r.2.1 rest with
    | none => none
    | some (hf, evs) =>
      if r.1 then
        some (hf, ⟨h.topRun, r.2.1.w_heap.elems.diff h.w_heap.elems⟩ :: evs)
      else
        some (hf, evs)
  | h, HeapCall.pop :: rest =>
    match ArchiverHeap.pop mm h with
    | none => none
    | some h1 => ArchiverHeap.exec mm h1 rest

/-- The entries pushed by a sequence of events, in push order. -/
def pushedEntries (evs : List PushEvent) : List HeapEntry :=
  evs.flatMap (fun ev => ev.added)

/-- A workspace of fixed capacity with a bump pointer, used to run the heap on
concrete inputs: `live` are the slots handed out and not yet freed. -/
structure Arena where
  capacity : Nat
  next : Nat
  live : List slot_t
deriving DecidableEq, Repr

/-- An allocator over `Arena`: allocation fails (address `0`) when the live slots
plus the request exceed the capacity. -/
def Arena.mem_mgmt : mem_mgmt_t Arena where
  allocate := fun w n =>
    if (w.live.map (fun s => s.length)).sum + n ≤ w.capacity then
      (⟨w.next, n⟩, { w with next := w.next + n, live := ⟨w.next, n⟩ :: w.live })
    else
      (⟨0, 0⟩, w)
  free := fun w s => { w with live := w.live.erase s }

/-- An empty arena of the given capacity; addresses start at `1`. -/
def Arena.empty (capacity : Nat) : Arena := ⟨capacity, 1, []⟩

/-! ## ArchiveIndex (the part used while runs are generated) -/

/-- An index entry, `ArchiveIndex::BlockEntry`. -/
structure BlockEntry where
  offset : Nat
  pid : Nat
deriving DecidableEq, Repr

/-- Per-run information of the index, `ArchiveIndex::RunInfo`. -/
structure RunInfo where
  firstLSN : lsn_t
  lastLSN : lsn_t
  lastPID : Nat
  entries : List BlockEntry
deriving DecidableEq, Repr

/-- The state of `ArchiveIndex`: `runs[level]` is the list of runs of a level,
`lastFinished[level]` the index of the last finished run of the level. -/
structure ArchiveIndex where
  blockSize : Nat
  bucketSize : Nat
  maxLevel : Nat
  runs : List (List RunInfo)
  lastFinished : List Int
deriving DecidableEq, Repr

/-- The constructor `ArchiveIndex::ArchiveIndex`. -/
def ArchiveIndex.init (blockSize bucketSize : Nat) : ArchiveIndex :=
  { blockSize := blockSize, bucketSize := bucketSize, maxLevel := 0, runs := [],
    lastFinished := [] }

/-- The operation `std::vector::resize(n, d)`. -/
def vector_resize {T : Type} (v : List T) (n : Nat) (d : T) : List T :=
  (v ++ List.replicate (n - v.length) d).take n

/-- The method `ArchiveIndex::appendNewEntry`; `none` when `runs[level]` is out
of bounds. -/
def ArchiveIndex.appendNewEntry (ix : ArchiveIndex) (level : Nat) : Option ArchiveIndex :=
  let newRun : RunInfo := ⟨lsn_t.null, lsn_t.null, 0, []⟩
  let ix1 :=
    if level > ix.maxLevel then
      { ix with maxLevel := level,
                runs := vector_resize ix.runs (level + 1) [],
                lastFinished := vector_resize ix.lastFinished (level + 1) (-1) }
    else ix
  match ix1.runs[level]? with
  | none => none
  | some rs => some { ix1 with runs := ix1.runs.set level (rs ++ [newRun]) }

/-- One iteration of the loop of `ArchiveIndex::newBlock`:
`runs[level].back().entries.push_back(e)`. -/
def ArchiveIndex.pushEntry (ix : ArchiveIndex) (level : Nat) (e : BlockEntry) :
    Option ArchiveIndex :=
  match ix.runs[level]? with
  | none => none
  | some rs =>
    match rs.getLast? with
    | none => none
    | some r =>
      some { ix with
        runs := ix.runs.set level (rs.dropLast ++ [{ r with entries := r.entries ++ [e] }]) }

/-- The method `ArchiveIndex::newBlock(buckets, level)`; a bucket is the pair
(first page id, offset). -/
def ArchiveIndex.newBlock (ix : ArchiveIndex) : List (Nat × Nat) → Nat → Option ArchiveIndex
  | [], _ => some ix
  | b :: rest, level =>
    match ix.pushEntry level ⟨b.2, b.1⟩ with
    | none => none
    | some ix1 => ArchiveIndex.newBlock ix1 rest level

/-! ## BlockAssembly -/

/-- The header of an output block, `BlockAssembly::BlockHeader`. -/
structure BlockHeader where
  lsn : lsn_t
  blockEnd : Nat
  run : Int
deriving DecidableEq, Repr

/-- The size `sizeof(BlockHeader)`: an 8-byte LSN and two 4-byte integers. -/
def sizeof_BlockHeader : Nat := 16

/-- An output block as handed to the writer: the header and the records copied
behind it, in order. -/
structure Block where
  header : BlockHeader
  records : List logrec_t
deriving DecidableEq, Repr

/-- Modelled from the spec: `AsyncRingBuffer` (ringbuffer.h) is not part of the
sources at hand.  Section 4.3: a producer request yields a free block, or null
once the buffer is marked finished.  `released` are the blocks handed over by
`producerRelease`, oldest first; blocking is not modelled. -/
structure AsyncRingBuffer where
  finished : Bool
  released : List Block
deriving DecidableEq, Repr

/-- The state of `BlockAssembly`.  `dest` is the block being filled: `none` for
the null pointer, otherwise the records copied so far. -/
structure BlockAssembly where
  dest : Option (List logrec_t)
  writebuf : AsyncRingBuffer
  archIndex : ArchiveIndex
  blockSize : Nat
  pos : Nat
  fpos : Nat
  firstPID : Nat
  maxLSNInBlock : lsn_t
  maxLSNLength : Nat
  lastRun : Int
  bucketSize : Nat
  buckets : List (Nat × Nat)
  nextBucket : Nat
  level : Nat
deriving DecidableEq, Repr

/-- The constructor `BlockAssembly::BlockAssembly`.  The members `pos`, `fpos`
and `firstPID` are not initialised by the constructor; their initial values are
the arguments `pos0`, `fpos0` and `firstPID0`. -/
def BlockAssembly.init (archIndex : ArchiveIndex) (blockSize level : Nat)
    (pos0 fpos0 firstPID0 : Nat) : BlockAssembly :=
  { dest := none, writebuf := ⟨false, []⟩, archIndex := archIndex,
    blockSize := blockSize, pos := pos0, fpos := fpos0, firstPID := firstPID0,
    maxLSNInBlock := lsn_t.null, maxLSNLength := 0, lastRun := -1,
    bucketSize := archIndex.bucketSize, buckets := [], nextBucket := 0, level := level }

/-- The method `BlockAssembly::start`; `none` when the index access of
`appendNewEntry` is out of bounds. -/
def BlockAssembly.start (b : BlockAssembly) (run : Int) : Option (Bool × BlockAssembly) :=
  if b.writebuf.finished then
    -- producerRequest returned null on a finished buffer
    some (false, { b with dest := none })
  else
    let b1 := { b with dest := some [], pos := sizeof_BlockHeader }
    if run ≠ b1.lastRun then
      match b1.archIndex.appendNewEntry b1.level with
      | none => none
      | some ix =>
        some (true, { b1 with archIndex := ix, nextBucket := 0, fpos := 0, lastRun := run,
                              buckets := [] })
    else
      some (true, { b1 with buckets := [] })

/-- The method `BlockAssembly::add`; `sizeof_baseLogHeader` is the size of the
log record header, a constant of a header file that is not part of the sources
at hand.  `size_t` subtraction wraps around.  `none` when `dest` is null
(`w_assert0`) or on the division by a zero bucket size. -/
def BlockAssembly.add (sizeof_baseLogHeader : Nat) (b : BlockAssembly) (lr : logrec_t) :
    Option (Bool × BlockAssembly) :=
  match b.dest with
  | none => none
  | some recs =>
    let available := (b.blockSize + 2 ^ 64 - (b.pos + sizeof_baseLogHeader)) % 2 ^ 64
    if lr.length > available then
      some (false, b)
    else
      let b1 := if b.firstPID = 0 then { b with firstPID := lr.pid } else b
      let b2 :=
        if b1.maxLSNInBlock < lr.lsn then
          { b1 with maxLSNInBlock := lr.lsn, maxLSNLength := lr.length }
        else b1
      if b2.bucketSize = 0 then
        none
      else
        let b3 :=
          if lr.pid / b2.bucketSize ≥ b2.nextBucket then
            let shpid := (lr.pid / b2.bucketSize) * b2.bucketSize
            { b2 with buckets := b2.buckets ++ [(shpid, b2.fpos)],
                      nextBucket := shpid / b2.bucketSize + 1 }
          else b2
        -- memcpy(dest + pos, lr, lr->length())
        some (true, { b3 with dest := some (recs ++ [lr]),
                              pos := b3.pos + lr.length,
                              fpos := b3.fpos + lr.length })

/-- The method `BlockAssembly::finish`; `none` when `dest` is null (`w_assert0`)
or when `newBlock` accesses the index out of bounds. -/
def BlockAssembly.finish (b : BlockAssembly) : Option BlockAssembly :=
  match b.dest with
  | none => none
  | some recs =>
    match b.archIndex.newBlock b.buckets b.level with
    | none => none
    | some ix =>
      let h : BlockHeader :=
        { run := b.lastRun, blockEnd := b.pos,
          lsn := b.maxLSNInBlock.advance b.maxLSNLength }
      some { b with archIndex := ix, firstPID := 0, maxLSNInBlock := lsn_t.null,
                    writebuf := { b.writebuf with
                      released := b.writebuf.released ++ [⟨h, recs⟩] },
                    dest := none }

/-- Offer the records to `add` one after the other; a record that does not fit
is left out. -/
def BlockAssembly.addAll (sizeof_baseLogHeader : Nat) :
    BlockAssembly → List logrec_t → Option BlockAssembly
  | b, [] => some b
  | b, lr :: rest =>
    match BlockAssembly.add sizeof_baseLogHeader b lr with
    | none => none
    | some r => BlockAssembly.addAll sizeof_baseLogHeader r.2 rest

/-- One block: `start(run)`, `add` for each record offered, `finish()`.  When
`start` returns false nothing else is called. -/
def BlockAssembly.produce (sizeof_baseLogHeader : Nat) (b : BlockAssembly) (run : Int)
    (recs : List logrec_t) : Option BlockAssembly :=
  match b.start run with
  | none => none
  | some (false, b1) => some b1
  | some (true, b1) =>
    match BlockAssembly.addAll sizeof_baseLogHeader b1 recs with
    | none => none
    | some b2 => b2.finish

/-- A sequence of blocks, each given by its run number and the records
offered. -/
def BlockAssembly.produceAll (sizeof_baseLogHeader : Nat) :
    BlockAssembly → List (Int × List logrec_t) → Option BlockAssembly
  | b, [] => some b
  | b, c :: rest =>
    match BlockAssembly.produce sizeof_baseLogHeader b c.1 c.2 with
    | none => none
    | some b1 => BlockAssembly.produceAll sizeof_baseLogHeader b1 rest

/-! ## ArchiveScanner: RunScanner, MergeHeapEntry, RunMerger -/

/-- A run scanner, seen through its interface to the merger: the page-id bounds
`firstPID` and `lastPID` and `pending`, the records that the following calls of
`next` yield, in order, before `next` returns false.  Block input and record
parsing of `RunScanner::next` are not modelled. -/
structure RunScanner where
  firstPID : Nat
  lastPID : Nat
  pending : List logrec_t
deriving DecidableEq, Repr

/-- The method `RunScanner::next`, on the stream of records. -/
def RunScanner.next (r : RunScanner) : Option logrec_t × RunScanner :=
  match r.pending with
  | [] => (none, r)
  | x :: rest => (some x, { r with pending := rest })

/-- An entry of the merge heap, `ArchiveScanner::MergeHeapEntry`; `lr` is the
record the entry points to (`none` while the pointer is not set). -/
structure MergeHeapEntry where
  active : Bool
  pid : Nat
  lsn : lsn_t
  lr : Option logrec_t
  runScan : RunScanner
deriving DecidableEq, Repr

/-- The loop of the constructor of `MergeHeapEntry`:
`while (hasNext && lr->pid() < startPID) hasNext = runScan->next(lr)`.  The
result is `hasNext`, the record `lr` points to and the scanner afterwards. -/
def MergeHeapEntry.advance (startPID : Nat) :
    logrec_t → List logrec_t → RunScanner → Bool × logrec_t × RunScanner
  | lr, [], r =>
    if lr.pid < startPID then (false, lr, { r with pending := [] })
    else (true, lr, { r with pending := [] })
  | lr, x :: rest, r =>
    if lr.pid < startPID then MergeHeapEntry.advance startPID x rest r
    else (true, lr, { r with pending := x :: rest })

/-- The constructor `MergeHeapEntry::MergeHeapEntry(RunScanner*)`.  Members the
constructor leaves unset are 0 / null. -/
def MergeHeapEntry.mk1 (runScan : RunScanner) : MergeHeapEntry :=
  let startPID := runScan.firstPID
  match runScan.next with
  | (some next, rs) =>
    -- bring scanner up to starting point
    if next.pid < startPID then
      let a := MergeHeapEntry.advance startPID next rs.pending rs
      if a.1 then
        { active := true, pid := a.2.1.pid, lsn := a.2.1.lsn, lr := some a.2.1,
          runScan := a.2.2 }
      else
        { active := false, pid := next.pid, lsn := next.lsn, lr := some a.2.1,
          runScan := a.2.2 }
    else
      { active := true, pid := next.pid, lsn := next.lsn, lr := some next, runScan := rs }
  | (none, rs) =>
    { active := false, pid := 0, lsn := lsn_t.null, lr := none, runScan := rs }

/-- The method `MergeHeapEntry::moveToNext`. -/
def MergeHeapEntry.moveToNext (e : MergeHeapEntry) : MergeHeapEntry :=
  match e.runScan.next with
  | (some x, rs) => { e with pid := x.pid, lsn := x.lsn, lr := some x, runScan := rs }
  | (none, rs) => { e with active := false, runScan := rs }

/-- The comparator `ArchiveScanner::MergeHeapCmp::gt`. -/
def MergeHeapCmp.gt (a b : MergeHeapEntry) : Bool :=
  if !a.active then false
  else if !b.active then true
  else if a.pid ≠ b.pid then decide (a.pid < b.pid)
  else decide (a.lsn < b.lsn)

/-- The state of `ArchiveScanner::RunMerger`. -/
structure RunMerger where
  heap : Heap MergeHeapEntry
  started : Bool
  endPID : Nat
deriving DecidableEq, Repr

/-- The constructor `RunMerger::RunMerger`. -/
def RunMerger.init : RunMerger := { heap := ⟨[]⟩, started := false, endPID := 0 }

/-- The method `RunMerger::addInput`; `none` when the merger was started
(`w_assert0`). -/
def RunMerger.addInput (m : RunMerger) (r : RunScanner) : Option RunMerger :=
  if m.started then none
  else
    let entry := MergeHeapEntry.mk1 r
    let m1 := { m with heap := m.heap.AddElementDontHeapify entry }
    if m1.endPID = 0 then some { m1 with endPID := r.lastPID } else some m1

/-- The method `RunMerger::close`: all entries are removed from the heap. -/
def RunMerger.close (m : RunMerger) : RunMerger := { m with heap := ⟨[]⟩ }

/-- The method `RunMerger::next`: the record returned (`none` when the method
returns false) and the merger afterwards. -/
def RunMerger.next (m : RunMerger) : Option logrec_t × RunMerger :=
  if m.heap.NumElements = 0 then
    (none, m)
  else
    let m1 :=
      if !m.started then
        { m with started := true, heap := m.heap.Heapify MergeHeapCmp.gt }
      else
        match m.heap.elems with
        | [] => m
        | e :: rest =>
          -- heap.First().moveToNext(); heap.ReplacedFirst()
          { m with heap := Heap.ReplacedFirst MergeHeapCmp.gt ⟨e.moveToNext :: rest⟩ }
    match m1.heap.First with
    | none => (none, m1)
    | some f =>
      if !f.active then
        (none, m1.close)
      else
        (f.lr, m1)

/-- Add the scanners one after the other, as `ArchiveScanner::open` does. -/
def RunMerger.addInputs : RunMerger → List RunScanner → Option RunMerger
  | m, [] => some m
  | m, r :: rest =>
    match m.addInput r with
    | none => none
    | some m1 => RunMerger.addInputs m1 rest

/-- The records returned by at most `n` successive calls of `next`, up to the
first call that returns false. -/
def RunMerger.scan : Nat → RunMerger → List logrec_t
  | 0, _ => []
  | n + 1, m =>
    match m.next with
    | (none, _) => []
    | (some r, m1) => r :: RunMerger.scan n m1

/-- The records a scanner contributes to a merge: those it yields from the
first record with a page id of at least `firstPID` on. -/
def RunScanner.yield (r : RunScanner) : List logrec_t :=
  r.pending.dropWhile (fun x => decide (x.pid < r.firstPID))

/-- The order of the merge: non-decreasing (page id, LSN). -/
def keyLe (a b : logrec_t) : Prop :=
  a.pid < b.pid ∨ (a.pid = b.pid ∧ a.lsn ≤ b.lsn)

instance (a b : logrec_t) : Decidable (keyLe a b) :=
  inferInstanceAs (Decidable (a.pid < b.pid ∨ (a.pid = b.pid ∧ a.lsn ≤ b.lsn)))

/-! ## ArchiveIndex: finished runs -/

/-- The method `ArchiveIndex::getFirstLSN`; `none` on an index out of bounds. -/
def ArchiveIndex.getFirstLSN (ix : ArchiveIndex) : Nat → Option lsn_t
  | 0 => some ⟨1, 0⟩
  | 1 => some ⟨1, 0⟩
  | level + 2 =>
    match ix.lastFinished[level + 2]? with
    | none => none
    | some lf =>
      -- If no runs exist at this level, recurse down to previous level
      if lf < 0 then ArchiveIndex.getFirstLSN ix (level + 1)
      else
        match ix.runs[level + 2]? with
        | none => none
        | some rs => (rs[0]?).map (fun r => r.firstLSN)

/-- The method `ArchiveIndex::getLastLSN`; `none` on an index out of bounds. -/
def ArchiveIndex.getLastLSN (ix : ArchiveIndex) (level : Nat) : Option lsn_t :=
  if level > ix.maxLevel then some lsn_t.null
  else
    match ix.lastFinished[level]? with
    | none => none
    | some lf =>
      if lf < 0 then
        -- No runs exist in the given level
        if level = 0 then some ⟨1, 0⟩
        else ArchiveIndex.getFirstLSN ix (level - 1)
      else
        match ix.runs[level]? with
        | none => none
        | some rs => (rs[lf.toNat]?).map (fun r => r.lastLSN)

/-- The method `ArchiveIndex::finishRun`, as far as the index in memory is
concerned (the index blocks that `serializeRunInfo` writes behind the data
blocks of the file are not part of this state); `none` on an index out of
bounds. -/
def ArchiveIndex.finishRun (ix : ArchiveIndex) (first last : lsn_t) (offset : Nat)
    (level : Nat) : Option ArchiveIndex :=
  match ix.lastFinished[level]? with
  | none => none
  | some lf =>
    -- check if it isn't an empty run (from truncation)
    if offset > 0 then
      match ix.runs[level]? with
      | none => none
      | some rs =>
        if lf < (rs.length : Int) then
          let lf1 := lf + 1
          if lf1 < 0 then none
          else
            match rs[lf1.toNat]? with
            | none => none
            | some r =>
              some { ix with
                lastFinished := ix.lastFinished.set level lf1,
                runs := ix.runs.set level
                  (rs.set lf1.toNat { r with firstLSN := first, lastLSN := last }) }
        else some ix
    else some ix

/-! ## ArchiveDirectory: run generation -/

/-- Name of a finished run file, `archive_<level>_<begin>-<end>`, as the
triple that `make_run_path` prints (`ArchiveDirectory::RunFileStats`). -/
structure RunFileStats where
  beginLSN : lsn_t
  endLSN : lsn_t
  level : Nat
deriving DecidableEq, Repr

/-- The state of `ArchiveDirectory` that run generation uses.  `nextFd` is the
descriptor the next `open` returns; `renamed` lists the run files that were
created by renaming `current_run`, oldest first. -/
structure ArchiveDirectory where
  archIndex : ArchiveIndex
  appendFd : List Int
  appendPos : List Nat
  blockSize : Nat
  nextFd : Int
  renamed : List RunFileStats
deriving DecidableEq, Repr

/-- The constant `DFT_BLOCK_SIZE`, to which the constructor of
`ArchiveDirectory` sets the block size. -/
def DFT_BLOCK_SIZE : Nat := 1024 * 1024

/-- The method `ArchiveDirectory::openNewRun`: the returned flag tells whether
the result is `RCOK`. -/
def ArchiveDirectory.openNewRun (d : ArchiveDirectory) (level : Nat) :
    Bool × ArchiveDirectory :=
  if d.appendFd.length > level ∧ (d.appendFd[level]?).getD (-1) ≥ 0 then
    (false, d)
  else
    let fd := d.nextFd
    let fds := vector_resize d.appendFd (level + 1) (-1)
    let poss := vector_resize d.appendPos (level + 1) 0
    (true, { d with nextFd := d.nextFd + 1, appendFd := fds.set level fd,
                    appendPos := poss.set level 0 })

/-- The constructor `ArchiveDirectory::ArchiveDirectory` on an empty archive
directory: a fresh index, then `openNewRun(1)`.  The first descriptor that
`open` returns is `fd0`. -/
def ArchiveDirectory.init (blockSize bucketSize : Nat) (fd0 : Int) : ArchiveDirectory :=
  (ArchiveDirectory.openNewRun
    { archIndex := ArchiveIndex.init blockSize bucketSize, appendFd := [], appendPos := [],
      blockSize := blockSize, nextFd := fd0, renamed := [] } 1).2

/-- The method `ArchiveDirectory::append` for a block of `length` bytes; `none`
on an index out of bounds, and on a descriptor that is not open: `pwrite` on
`appendFd[level] == -1` returns `-1` and `CHECK_ERRNO` ends in `W_FATAL`. -/
def ArchiveDirectory.append (d : ArchiveDirectory) (length : Nat) (level : Nat) :
    Option ArchiveDirectory :=
  match d.appendFd[level]?, d.appendPos[level]? with
  | some fd, some pos =>
    if fd < 0 then none
    else some { d with appendPos := d.appendPos.set level (pos + length) }
  | _, _ => none

/-- The method `ArchiveDirectory::closeCurrentRun`; `none` on an index out of
bounds or a remainder by a zero block size. -/
def ArchiveDirectory.closeCurrentRun (sizeof_baseLogHeader : Nat) (d : ArchiveDirectory)
    (runEndLSN : lsn_t) (level : Nat) : Option ArchiveDirectory :=
  match d.appendFd[level]?, d.appendPos[level]? with
  | some fd, some pos =>
    if fd ≥ 0 then
      if pos = 0 ∧ runEndLSN = lsn_t.null then
        -- nothing was appended -- just close file and return
        some { d with appendFd := d.appendFd.set level (-1) }
      else
        match d.archIndex.getLastLSN level with
        | none => none
        | some lastLSN =>
          let d1 : Option ArchiveDirectory :=
            if lastLSN ≠ runEndLSN then
              -- register index information and write it on end of file
              let d2 : Option ArchiveDirectory :=
                if pos > 0 then
                  if d.blockSize = 0 then none else
                  -- take into account space for skip log record
                  let p1 := pos + sizeof_baseLogHeader
                  -- and make sure data is written aligned to block boundary
                  let p2 := p1 - p1 % d.blockSize
                  let p3 := p2 + d.blockSize
                  match d.archIndex.finishRun lastLSN runEndLSN p3 level with
                  | none => none
                  | some ix =>
                    some { d with appendPos := d.appendPos.set level p3, archIndex := ix }
                else some d
              d2.map (fun d3 =>
                { d3 with renamed := d3.renamed ++ [⟨lastLSN, runEndLSN, level⟩] })
            else some d
          d1.map (fun d4 =>
            (ArchiveDirectory.openNewRun
              { d4 with appendFd := d4.appendFd.set level (-1) } level).2)
    else
      some (ArchiveDirectory.openNewRun d level).2
  | _, _ => none

/-- A call on the archive directory of one level during run generation:
`appendNewEntry` is what `BlockAssembly::start` does on the index when a run
begins. -/
inductive DirCall where
  | appendNewEntry
  | append (length : Nat)
  | closeCurrentRun (runEndLSN : lsn_t)
deriving DecidableEq, Repr

/-- Execute a sequence of calls on one level. -/
def ArchiveDirectory.exec (sizeof_baseLogHeader : Nat) (level : Nat) :
    ArchiveDirectory → List DirCall → Option ArchiveDirectory
  | d, [] => some d
  | d, DirCall.appendNewEntry :: rest =>
    match d.archIndex.appendNewEntry level with
    | none => none
    | some ix => ArchiveDirectory.exec sizeof_baseLogHeader level { d with archIndex := ix } rest
  | d, DirCall.append length :: rest =>
    match d.append length level with
    | none => none
    | some d1 => ArchiveDirectory.exec sizeof_baseLogHeader level d1 rest
  | d, DirCall.closeCurrentRun runEndLSN :: rest =>
    match d.closeCurrentRun sizeof_baseLogHeader runEndLSN level with
    | none => none
    | some d1 => ArchiveDirectory.exec sizeof_baseLogHeader level d1 rest

/-- Consecutive run files join: the end LSN of each is the first LSN of the
next. -/
def runsContiguous : List RunFileStats → Prop
  | [] => True
  | [_] => True
  | a :: b :: rest => a.endLSN = b.beginLSN ∧ runsContiguous (b :: rest)

/-! ## ArchiverControl -/

/-- The state of `ArchiverControl` (mutex and condition variable apart). -/
structure ArchiverControl where
  endLSN : lsn_t
  activated : Bool
  listening : Bool
deriving DecidableEq, Repr

/-- The constructor `ArchiverControl::ArchiverControl`. -/
def ArchiverControl.init : ArchiverControl :=
  { endLSN := lsn_t.null, activated := false, listening := false }

/-- The method `ArchiverControl::activate`.  `mutexFree` tells whether
`pthread_mutex_trylock` finds the mutex free; with `wait` the call blocks until
it holds the mutex.  The result is `none` when `w_assert0(lsn >= endLSN)`
fails. -/
def ArchiverControl.activate (c : ArchiverControl) (wait : Bool) (lsn : lsn_t)
    (mutexFree : Bool) : Option (Bool × ArchiverControl) :=
  if !wait && !mutexFree then
    some (false, c)
  else
    -- activation may not decrease the endLSN
    if lsn ≥ c.endLSN then
      let c1 := { c with endLSN := lsn, activated := true }
      some (c1.activated, c1)
    else none

/-! ## LogArchiver: activation -/

/-- The members of `LogArchiver` that decide about an activation. -/
structure LogArchiver where
  directory : ArchiveDirectory
  control : ArchiverControl
  eager : Bool
  readWholeBlocks : Bool
  nextActLSN : lsn_t
  flushReqLSN : lsn_t
deriving DecidableEq, Repr

/-- The method `LogArchiver::shouldActivate`; `durable_lsn` is the value of
`smlevel_0::log->durable_lsn()`.  The result is the returned flag and the
archiver afterwards (the method may round `control.endLSN` down); `none` on a
division by a zero block size. -/
def LogArchiver.shouldActivate (a : LogArchiver) (logTooSlow : Bool) (durable_lsn : lsn_t) :
    Option (Bool × LogArchiver) :=
  if a.flushReqLSN = a.control.endLSN then
    some (decide (a.control.endLSN > a.nextActLSN), a)
  else if logTooSlow && decide (a.control.endLSN = durable_lsn) then
    -- Log seems halted -- accepting small window
    some (decide (a.control.endLSN > a.nextActLSN), a)
  else
    let last : LogArchiver → Option (Bool × LogArchiver) := fun a2 =>
      if a2.control.endLSN = lsn_t.null ∨ a2.control.endLSN ≤ a2.nextActLSN then
        -- Archiver already passed this range
        some (false, a2)
      else
        some (true, a2)
    -- Try to keep activation window at block boundaries
    if a.eager && a.readWholeBlocks && !logTooSlow then
      if a.directory.blockSize = 0 then none
      else
        let boundary := a.directory.blockSize * (a.control.endLSN.lo / a.directory.blockSize)
        let a1 := { a with control := { a.control with
          endLSN := ⟨a.control.endLSN.hi, boundary⟩ } }
        if a1.control.endLSN ≤ a1.nextActLSN then
          some (false, a1)
        else if a1.control.endLSN.lo = 0 then
          some (false, a1)
        else
          last a1
    else
      last a

/-! ## LogScanner -/

/-- Modelled from the spec: the layout of a log record header (logrec.h) is not
part of the sources at hand.  The record starts with its length in two bytes
("we need at least two bytes to read the length", and section 4.5: "< 2 bytes
remaining"), low byte first; the type tag is the byte after the length.
`logrec_length mem off` is `((logrec_t*) (mem + off))->length()`; it is `none`
when one of the two bytes lies outside the memory `mem` that is known. -/
def logrec_length (mem : List Nat) (off : Nat) : Option Nat :=
  match mem[off]?, mem[off + 1]? with
  | some b0, some b1 => some (b0 + 256 * b1)
  | _, _ => none

/-- The type tag `((logrec_t*) (mem + off))->type()`, see `logrec_length`. -/
def logrec_type (mem : List Nat) (off : Nat) : Option Nat := mem[off + 2]?

/-- The library function `memcpy(dst + dstOff, src + srcOff, n)`; `none` when
the copy leaves the memory that is known. -/
def memcpy (dst : List Nat) (dstOff : Nat) (src : List Nat) (srcOff n : Nat) :
    Option (List Nat) :=
  if srcOff + n ≤ src.length ∧ dstOff + n ≤ dst.length then
    some (dst.take dstOff ++ (src.drop srcOff).take n ++ dst.drop (dstOff + n))
  else none

/-- Constants and predicates of the log record format that `nextLogrec` uses and
that are declared outside the sources at hand: `sizeof(baseLogHeader)`,
`sizeof(logrec_t)` and `logrec_t::valid_header` (on the bytes from the start of
the record on). -/
structure LogrecFormat where
  sizeof_baseLogHeader : Nat
  sizeof_logrec_t : Nat
  valid_header : List Nat → Bool

/-- The state of `LogScanner`; `truncBuf` is the truncation buffer with all its
bytes, `ignore` lists the record types whose bit is set. -/
structure LogScanner where
  truncCopied : Nat
  truncMissing : Nat
  toSkip : Nat
  blockSize : Nat
  truncBuf : List Nat
  ignore : List Nat
deriving DecidableEq, Repr

/-- Where the pointer `lr` points after a call of `nextLogrec`: into the block
at an offset, or to the truncation buffer. -/
inductive LrPtr where
  | inBlock (off : Nat)
  | truncBuf
deriving DecidableEq, Repr

/-- The outcome of a call of `nextLogrec`: the returned flag, the output
parameters and the scanner afterwards.  `lrLength` is the value stored through
the pointer `lrLength`, if one was stored. -/
structure ScanResult where
  ok : Bool
  pos : Nat
  lr : Option LrPtr
  nextLSN : Option lsn_t
  lrLength : Option Int
  scanner : LogScanner
deriving DecidableEq, Repr

/-- The method `LogScanner::nextLogrec`.  `src` is the memory from the start of
the block on (the block and what follows it), `nextLSN` and `stopLSN` are `none`
for null pointers.  Each `goto tryagain` uses one unit of `fuel`.  The result is
`none` when a `w_assert0` fails, when memory outside `src` or the truncation
buffer is touched, or when the fuel is used up. -/
def LogScanner.nextLogrec (fmt : LogrecFormat) :
    Nat → LogScanner → List Nat → Nat → Option lsn_t → Option lsn_t → Option Int →
      Option ScanResult
  | 0, _, _, _, _, _, _ => none
  | fuel + 1, sc, src, pos, nextLSN, stopLSN, lrLength =>
    if nextLSN.isSome ∧ stopLSN.isSome ∧ stopLSN = nextLSN then
      some ⟨false, pos, none, nextLSN, lrLength, sc⟩
    else
      -- whole log record is not guaranteed to fit in a block
      let remaining := (sc.blockSize + 2 ^ 64 - pos) % 2 ^ 64
      if remaining = 0 then
        some ⟨false, pos, none, nextLSN, lrLength, sc⟩
      else
        -- the common part after `lr` and `pos` are settled
        let finish : LogScanner → Nat → LrPtr → Nat → Nat → Option ScanResult :=
          fun sc1 pos1 lr len type =>
            let nextLSN1 := nextLSN.map (fun l => l.advance len)
            let lrLength1 : Option Int := some (len : Int)
            -- handle ignorred logrecs
            if type ∈ sc1.ignore ∧ lr = LrPtr.truncBuf then
              LogScanner.nextLogrec fmt fuel sc1 src pos1 nextLSN1 stopLSN lrLength1
            else
              let sc2 :=
                if type ∈ sc1.ignore then { sc1 with toSkip := sc1.toSkip + len } else sc1
              -- see if we have something to skip
              if sc2.toSkip > 0 then
                if sc2.toSkip ≤ remaining then
                  -- stay in the same block after skipping
                  LogScanner.nextLogrec fmt fuel { sc2 with toSkip := 0 } src
                    (pos1 + sc2.toSkip) nextLSN1 stopLSN lrLength1
                else
                  some ⟨false, pos1, some lr, nextLSN1, lrLength1,
                    { sc2 with toSkip := sc2.toSkip - remaining }⟩
              else
                -- if logrec was assembled from truncation, pos was already incremented
                let pos2 := if lr ≠ LrPtr.truncBuf then pos1 + len else pos1
                some ⟨true, pos2, some lr, nextLSN1, lrLength1, sc2⟩
        if sc.truncMissing > 0 then
          -- finish up the trunc logrec from last block
          match memcpy sc.truncBuf sc.truncCopied src pos sc.truncMissing with
          | none => none
          | some buf =>
            let sc1 := { sc with truncBuf := buf,
                                 truncCopied := sc.truncCopied + sc.truncMissing,
                                 truncMissing := 0 }
            match logrec_length buf 0, logrec_type buf 0 with
            | some len, some type =>
              finish sc1 (pos + sc.truncMissing) LrPtr.truncBuf len type
            | _, _ => none
        else
          -- we need at least two bytes to read the length
          let truncated : Option Bool :=
            if remaining = 1 then some true
            else (logrec_length src pos).map (fun len => decide (len > remaining))
          match truncated with
          | none => none
          | some true =>
            -- remainder of logrec must be read from next block
            if ¬ (remaining < fmt.sizeof_baseLogHeader ∨
                fmt.valid_header (src.drop pos) = true) then none
            else if ¬ (remaining ≤ fmt.sizeof_logrec_t) then none
            else
              match memcpy sc.truncBuf 0 src pos remaining, logrec_length src pos with
              | some buf, some len =>
                some ⟨false, pos + remaining, some (LrPtr.inBlock pos), nextLSN,
                  some (if remaining > 1 then (len : Int) else -1),
                  { sc with truncBuf := buf, truncCopied := remaining,
                            truncMissing := (len + 2 ^ 64 - remaining) % 2 ^ 64 }⟩
              | _, _ => none
          | some false =>
            match logrec_length src pos, logrec_type src pos with
            | some len, some type => finish sc pos (LrPtr.inBlock pos) len type
            | _, _ => none

/-- The constructor `LogScanner::LogScanner`; the truncation buffer has
`truncBufSize` bytes (three log pages), which hold `truncBuf0` initially. -/
def LogScanner.init (blockSize : Nat) (truncBuf0 : List Nat) (ignore : List Nat) :
    LogScanner :=
  { truncCopied := 0, truncMissing := 0, toSkip := 0, blockSize := blockSize,
    truncBuf := truncBuf0, ignore := ignore }

/-- The bytes of the record that `lr` points to after a call on the block `src`:
`lr->length()` bytes from the pointer on. -/
def ScanResult.record (res : ScanResult) (src : List Nat) : Option (List Nat) :=
  match res.lr with
  | none => none
  | some (LrPtr.inBlock off) =>
    (logrec_length src off).map (fun len => (src.drop off).take len)
  | some LrPtr.truncBuf =>
    (logrec_length res.scanner.truncBuf 0).map (fun len => res.scanner.truncBuf.take len)

/-! ## B-tree: return codes and the entry points of `btree_m` (btree.cpp) -/

/-- The error numbers the code below names; every other value of
`w_error_t::err_num_t` (w_error.h) is `other n`.  The numbers themselves come
from a generated header and play no role here. -/
inductive err_num_t where
  | eRECWONTFIT
  | eNDXNOTEMPTY
  | other (n : Nat)
deriving DecidableEq, Repr

/-- The return code `w_rc_t`, by what callers test: no error, or an error with its
number.  The file and line entries that the error-propagation step `W_DO` pushes
on the error on its way up are diagnostics and are left out. -/
inductive w_rc_t where
  | RCOK
  | RC (e : err_num_t)
deriving DecidableEq, Repr

/-- The test `w_rc_t::is_error`. -/
def w_rc_t.is_error : w_rc_t → Bool
  | w_rc_t.RCOK => false
  | w_rc_t.RC _ => true

/-- Modelled from the spec: `lpid_t` is declared in a header that is not part of
the sources at hand ("Page identifier. (volume, store, page-number)"). -/
structure lpid_t where
  vol : Nat
  store : Nat
  page : Nat
deriving DecidableEq, Repr

/-- Modelled from the spec: `w_keystr_t` is declared in a header that is not part
of the sources at hand.  A key in its serialized form: the bytes of the key
string. -/
structure w_keystr_t where
  keystr : List Nat
deriving DecidableEq, Repr

/-- The accessor `w_keystr_t::get_length_as_keystr`. -/
def w_keystr_t.get_length_as_keystr (k : w_keystr_t) : Nat := k.keystr.length

/-- Modelled from the spec: `cvec_t` is declared in a header that is not part of
the sources at hand.  A value: its bytes. -/
structure cvec_t where
  bytes : List Nat
deriving DecidableEq, Repr

/-- The accessor `cvec_t::size`. -/
def cvec_t.size (v : cvec_t) : Nat := v.bytes.length

/-- The tree operations of `btree_impl` that `btree_m` forwards to, acting on a
state `σ` of the tree and its transaction. -/
structure btree_impl_ops (σ : Type) where
  _ux_insert : σ → lpid_t → w_keystr_t → cvec_t → w_rc_t × σ
  _ux_update : σ → lpid_t → w_keystr_t → cvec_t → w_rc_t × σ

/-- The step `W_DO(x); return RCOK;`: an error of `x` is returned, anything else
becomes `RCOK`. -/
def W_DO_RCOK {σ : Type} (r : w_rc_t × σ) : w_rc_t × σ :=
  if r.1.is_error then r else (w_rc_t.RCOK, r.2)

/-- The method `btree_m::insert`.  The sum of the two lengths is a `size_t`. -/
def btree_m.insert {σ : Type} (impl : btree_impl_ops σ) (max_entry_size : Nat) (s : σ)
    (root : lpid_t) (key : w_keystr_t) (el : cvec_t) : w_rc_t × σ :=
  if (key.get_length_as_keystr + el.size) % 2 ^ 64 > max_entry_size then
    (w_rc_t.RC err_num_t.eRECWONTFIT, s)
  else
    W_DO_RCOK (impl._ux_insert s root key el)

/-- The method `btree_m::update`. -/
def btree_m.update {σ : Type} (impl : btree_impl_ops σ) (max_entry_size : Nat) (s : σ)
    (root : lpid_t) (key : w_keystr_t) (elem : cvec_t) : w_rc_t × σ :=
  if (key.get_length_as_keystr + elem.size) % 2 ^ 64 > max_entry_size then
    (w_rc_t.RC err_num_t.eRECWONTFIT, s)
  else
    W_DO_RCOK (impl._ux_update s root key elem)


/-! ## B-tree pages (btree_page.h) -/

/-- One record of a page, an item other than item 0: `(key, value)` in a leaf,
`(child, key)` in an interior page, with its ghost mark.  The key is kept in
full; the stored form leaves out the first `btree_prefix_length` bytes. -/
structure btree_rec where
  ghost : Bool
  child : Nat
  key : w_keystr_t
  el : cvec_t
deriving DecidableEq, Repr

/-- The page image `btree_page`: identity and LSN of the generic page header, the
header fields of `btree_page_data`, the bytes of item 0 (`fence`: the low fence
key, the high fence key without the prefix, the chain high fence key) and the
records held by the other items. -/
structure btree_page where
  pid : lpid_t
  lsn : lsn_t
  btree_root : Nat
  btree_pid0 : Nat
  btree_foster : Nat
  btree_level : Int
  btree_fence_low_length : Nat
  btree_fence_high_length : Nat
  btree_chain_fence_high_length : Nat
  btree_prefix_length : Nat
  btree_consecutive_skewed_insertions : Int
  fence : List Nat
  recs : List btree_rec
deriving DecidableEq, Repr

/-- Modelled from the spec: the latch modes of the buffer manager ("latch modes
(SH/EX)"), declared in a header that is not part of the sources at hand. -/
inductive latch_mode_t where
  | LATCH_NL
  | LATCH_SH
  | LATCH_EX
deriving DecidableEq, Repr

/-- The handle `btree_page_h` on a fixed page: the page image `_pp` it points to,
the latch it holds, the dirty mark of the frame and whether it is still fixed. -/
structure btree_page_h where
  _pp : btree_page
  latch : latch_mode_t
  dirty : Bool
  fixed : Bool
deriving DecidableEq, Repr

/-- Modelled from the spec: the accessors of `btree_page_h` live in a header that
is not part of the sources at hand.  `nrecs`: the number of records. -/
def btree_page_h.nrecs (p : btree_page_h) : Nat := p._pp.recs.length

/-- Modelled from the spec: accessor `level` ("1 = leaf, >1 = interior"). -/
def btree_page_h.level (p : btree_page_h) : Int := p._pp.btree_level

/-- Modelled from the spec: accessor `is_leaf` ("1 = leaf"). -/
def btree_page_h.is_leaf (p : btree_page_h) : Bool := p._pp.btree_level == 1

/-- Modelled from the spec: accessor `is_node` ("level > 1 = interior"), the
negation of `is_leaf`. -/
def btree_page_h.is_node (p : btree_page_h) : Bool := !p.is_leaf

/-- Modelled from the spec: accessor `get_foster` ("right-sibling (0 when none)"). -/
def btree_page_h.get_foster (p : btree_page_h) : Nat := p._pp.btree_foster

/-- Modelled from the spec: accessor `get_chain_fence_high_length`. -/
def btree_page_h.get_chain_fence_high_length (p : btree_page_h) : Nat :=
  p._pp.btree_chain_fence_high_length

/-- Modelled from the spec: accessor `copy_fence_low_key`; by the layout comments
of btree_page.h the low fence key is the first `btree_fence_low_length` bytes of
item 0. -/
def btree_page_h.copy_fence_low_key (p : btree_page_h) : w_keystr_t :=
  ⟨p._pp.fence.take p._pp.btree_fence_low_length⟩

/-- Modelled from the spec: accessor `copy_fence_high_key`; the prefix comes from
the low fence key, the rest follows the low fence key in item 0. -/
def btree_page_h.copy_fence_high_key (p : btree_page_h) : w_keystr_t :=
  ⟨p._pp.fence.take p._pp.btree_prefix_length ++
    (p._pp.fence.drop p._pp.btree_fence_low_length).take
      (p._pp.btree_fence_high_length - p._pp.btree_prefix_length)⟩

/-- Modelled from the spec: accessor `copy_chain_fence_high_key`; the chain high
fence key follows the high fence key in item 0 and has
`btree_chain_fence_high_length` bytes. -/
def btree_page_h.copy_chain_fence_high_key (p : btree_page_h) : w_keystr_t :=
  ⟨(p._pp.fence.drop (p._pp.btree_fence_low_length +
      (p._pp.btree_fence_high_length - p._pp.btree_prefix_length))).take
    p._pp.btree_chain_fence_high_length⟩

/-- Modelled from the spec: accessor `child(slot)`, the child pointer of a record
of an interior page; `none` for a slot that does not exist. -/
def btree_page_h.child (p : btree_page_h) (slot : Nat) : Option Nat :=
  p._pp.recs[slot]?.map (fun r => r.child)

/-- Modelled from the spec: `set_dirty` of the buffer facade. -/
def btree_page_h.set_dirty (p : btree_page_h) : btree_page_h := { p with dirty := true }

/-- Modelled from the spec: `set_lsns`, which stores an LSN in the page. -/
def btree_page_h.set_lsns (p : btree_page_h) (l : lsn_t) : btree_page_h :=
  { p with _pp := { p._pp with lsn := l } }

/-- Modelled from the spec: `unfix` of the buffer facade; the handle lets go of
its page and latch. -/
def btree_page_h.unfix (p : btree_page_h) : btree_page_h :=
  { p with fixed := false, latch := latch_mode_t.LATCH_NL }

/-- Modelled from the spec: the comparison of `w_keystr_t` is not part of the
sources at hand; key strings are compared byte by byte, a proper prefix being
smaller. -/
def keystr_lt : List Nat → List Nat → Bool
  | [], [] => false
  | [], _ :: _ => true
  | _ :: _, [] => false
  | a :: as, b :: bs => decide (a < b) || (decide (a = b) && keystr_lt as bs)

/-- Modelled from the spec: `w_keystr_t::common_leading_bytes` is not part of the
sources at hand ("`prefix_len` is the common-byte count of fence_low and
fence_high"). -/
def common_leading_bytes : List Nat → List Nat → Nat
  | a :: as, b :: bs => if a = b then common_leading_bytes as bs + 1 else 0
  | _, _ => 0

/-- Modelled from the spec: `fence_contains` ("Every key in a page is ≥ fence_low
and < fence_high"). -/
def btree_page_h.fence_contains (p : btree_page_h) (key : w_keystr_t) : Bool :=
  !keystr_lt key.keystr p.copy_fence_low_key.keystr &&
    keystr_lt key.keystr p.copy_fence_high_key.keystr

/-- Modelled from the spec: `search_node` ("returns the slot whose separator is the
greatest ≤ key"); `-1` stands for `pid0`, when every separator is above the key. -/
def btree_page_h.search_node (p : btree_page_h) (key : w_keystr_t) : Int :=
  ((p._pp.recs.takeWhile (fun r => !keystr_lt key.keystr r.key.keystr)).length : Int) - 1
/-! ## The services around the B-tree: log, buffer manager, hints -/

/-- The log records issued by the structure modifications modelled here. -/
inductive log_kind where
  | page_img_format
  | btree_noop
  | btree_foster_split
  | btree_foster_norecord_split
  | btree_foster_adopt_parent
  | btree_foster_adopt_child
deriving DecidableEq, Repr

/-- What the modelled code leaves behind outside the pages it is handed: the log
records it issued (with the page each is about), the calls it made to
`register_write_order_dependency` (source page, then destination page), the two
hint tables, and the number of system transactions opened. -/
structure sm_world where
  log : List (log_kind × lpid_t)
  wod : List (lpid_t × lpid_t)
  foster_children : Nat → Nat
  ex_need : Nat → Nat
  sys_xct : Nat

/-- The answers of the collaborators that are outside the sources at hand; every
function may depend on what happened so far.  `log_rc`: whether a log record can
be written and the LSN it gets.  `fix_rc`: whether the buffer manager can fix a
fresh page.  `bf_register`: the answer of `register_write_order_dependency`.
`suggest_fence_for_split`: the split policy of the page layout (middle key and
first slot of the right part).  `check_space_for_insert_node`: whether a
separator fits in a page.  `upgrade_ok`: whether a conditional latch upgrade
succeeds.  `sys_xct_start`: the result of opening a system transaction.
`sys_xct_end`: the result of closing it, given the result of its body. -/
structure sm_env where
  log_rc : sm_world → log_kind → lpid_t → w_rc_t × lsn_t
  fix_rc : sm_world → lpid_t → w_rc_t
  bf_register : sm_world → lpid_t → lpid_t → Bool
  suggest_fence_for_split : btree_page → w_keystr_t → w_keystr_t × Nat
  check_space_for_insert_node : btree_page → w_keystr_t → Bool
  upgrade_ok : sm_world → btree_page → Bool
  sys_xct_start : sm_world → w_rc_t
  sys_xct_end : sm_world → w_rc_t → w_rc_t

/-- Modelled from the spec: the `log_btree_*` functions are not part of the sources
at hand ("It issues its own physiological log records").  On success the record
is appended to the log and the page takes its LSN. -/
def sm_env.log (env : sm_env) (w : sm_world) (k : log_kind) (p : btree_page_h) :
    w_rc_t × sm_world × btree_page_h :=
  let r := env.log_rc w k p._pp.pid
  if r.1.is_error then (r.1, w, p)
  else (w_rc_t.RCOK, { w with log := w.log ++ [(k, p._pp.pid)] }, p.set_lsns r.2)

/-- Modelled from the spec: `register_write_order_dependency(src, dst)` of the
buffer manager; the call is recorded, the answer is the buffer manager's. -/
def sm_env.register_write_order_dependency (env : sm_env) (w : sm_world)
    (src dst : btree_page) : Bool × sm_world :=
  (env.bf_register w src.pid dst.pid, { w with wod := w.wod ++ [(src.pid, dst.pid)] })

/-- Modelled from the spec: hint `increase_forster_child` ("foster-children
(incremented on successful splits that produce fosters)"). -/
def increase_forster_child (w : sm_world) (pid : Nat) : sm_world :=
  { w with foster_children := Function.update w.foster_children pid (w.foster_children pid + 1) }

/-- Modelled from the spec: hint `clear_forster_child`. -/
def clear_forster_child (w : sm_world) (pid : Nat) : sm_world :=
  { w with foster_children := Function.update w.foster_children pid 0 }

/-- Modelled from the spec: hint `increase_ex_need` ("exclusive-latch-need
(incremented on failed conditional upgrades)"). -/
def increase_ex_need (w : sm_world) (pid : Nat) : sm_world :=
  { w with ex_need := Function.update w.ex_need pid (w.ex_need pid + 1) }

/-- Modelled from the spec: the page image that formatting leaves (part of
`btree_page_h::format_steal`, which is not in the sources at hand): the header
fields as given, item 0 built from the three fence keys (the prefix is what the
two fences share), the records as given, no LSN yet. -/
def btree_page.formatted (pid : lpid_t) (root : Nat) (l : Int) (pid0 foster : Nat)
    (fence_low fence_high chain_fence_high : w_keystr_t) (recs : List btree_rec) :
    btree_page :=
  let pfx := common_leading_bytes fence_low.keystr fence_high.keystr
  { pid := pid, lsn := lsn_t.null, btree_root := root, btree_pid0 := pid0,
    btree_foster := foster, btree_level := l,
    btree_fence_low_length := fence_low.keystr.length,
    btree_fence_high_length := fence_high.keystr.length,
    btree_chain_fence_high_length := chain_fence_high.keystr.length,
    btree_prefix_length := pfx,
    btree_consecutive_skewed_insertions := 0,
    fence := fence_low.keystr ++ fence_high.keystr.drop pfx ++ chain_fence_high.keystr,
    recs := recs }

/-- Modelled from the spec: the records a format steals (part of
`btree_page_h::format_steal`): the slots `[steal_from, steal_to)` of the page to
steal from; none without such a page. -/
def steal_records (steal_src : Option btree_page_h) (steal_from steal_to : Nat) :
    List btree_rec :=
  match steal_src with
  | none => []
  | some src => (src._pp.recs.drop steal_from).take (steal_to - steal_from)

/-- Modelled from the spec: `btree_page_h::format_steal` is not part of the sources
at hand ("Pages are created by system sub-transactions that allocate, format, and
optionally steal a slot range from another page"; "Prefix ... Recomputed lazily
on format/steal").  The page is formatted with the given header and fences, takes
the records `[steal_from, steal_to)` of `steal_src` and, with `log_it`, is logged
as a page image.  Its LSN is cleared by the formatting. -/
def btree_page_h.format_steal (env : sm_env) (w : sm_world) (h : btree_page_h)
    (pid : lpid_t) (root : Nat) (l : Int) (pid0 foster : Nat)
    (fence_low fence_high chain_fence_high : w_keystr_t) (log_it : Bool)
    (steal_src : Option btree_page_h) (steal_from steal_to : Nat) :
    w_rc_t × sm_world × btree_page_h :=
  let img := btree_page.formatted pid root l pid0 foster fence_low fence_high
    chain_fence_high (steal_records steal_src steal_from steal_to)
  let h1 := { h with _pp := img }
  if log_it then env.log w log_kind.page_img_format h1 else (w_rc_t.RCOK, w, h1)

/-- Modelled from the spec: `btree_page_h::init_fix_steal` is not part of the
sources at hand.  It fixes the fresh page `pid` with an exclusive latch and
formats it as `format_steal` does; without a fixed page the handle is `none`. -/
def btree_page_h.init_fix_steal (env : sm_env) (w : sm_world)
    (pid : lpid_t) (root : Nat) (l : Int) (pid0 foster : Nat)
    (fence_low fence_high chain_fence_high : w_keystr_t)
    (steal_src : Option btree_page_h) (steal_from steal_to : Nat) (log_it : Bool) :
    w_rc_t × sm_world × Option btree_page_h :=
  let rc := env.fix_rc w pid
  if rc.is_error then (rc, w, none)
  else
    let img := btree_page.formatted pid root l pid0 foster fence_low fence_high
      chain_fence_high []
    let h0 : btree_page_h :=
      { _pp := img, latch := latch_mode_t.LATCH_EX, dirty := false, fixed := true }
    let r := h0.format_steal env w pid root l pid0 foster fence_low fence_high
      chain_fence_high log_it steal_src steal_from steal_to
    (r.1, r.2.1, some r.2.2)

/-- Modelled from the spec: `btree_page_h::norecord_split` is not part of the
sources at hand ("parent's fence_high is advanced to mid_key and its foster is
set to R"; the source calls it with "these both log and apply" and "page is just
setting new fence key and foster pointer").  The records stay. -/
def btree_page_h.norecord_split (env : sm_env) (w : sm_world) (p : btree_page_h)
    (foster : Nat) (fence_high chain_fence_high : w_keystr_t) :
    w_rc_t × sm_world × btree_page_h :=
  let r := env.log w log_kind.btree_foster_norecord_split p
  if r.1.is_error then r
  else
    let p1 := r.2.2
    let low := p1.copy_fence_low_key
    let pfx := common_leading_bytes low.keystr fence_high.keystr
    (w_rc_t.RCOK, r.2.1,
      { p1 with _pp := { p1._pp with
          btree_foster := foster,
          btree_fence_low_length := low.keystr.length,
          btree_fence_high_length := fence_high.keystr.length,
          btree_chain_fence_high_length := chain_fence_high.keystr.length,
          btree_prefix_length := pfx,
          fence := low.keystr ++ fence_high.keystr.drop pfx ++ chain_fence_high.keystr } })

/-- Modelled from the spec: `btree_page_h::insert_node` is not part of the sources
at hand.  It puts the separator `(key, child)` at `slot` when the page has room
and reports `eRECWONTFIT` otherwise. -/
def btree_page_h.insert_node (env : sm_env) (p : btree_page_h) (key : w_keystr_t)
    (slot : Int) (child : Nat) : w_rc_t × btree_page_h :=
  if !env.check_space_for_insert_node p._pp key then
    (w_rc_t.RC err_num_t.eRECWONTFIT, p)
  else
    (w_rc_t.RCOK,
      { p with _pp := { p._pp with
          recs := p._pp.recs.take slot.toNat ++ [⟨false, child, key, ⟨[]⟩⟩] ++
            p._pp.recs.drop slot.toNat } })
/-- Modelled from the spec: `upgrade_latch_conditional` of the buffer facade.  A
handle that already holds the exclusive latch keeps it; otherwise the buffer
manager decides. -/
def btree_page_h.upgrade_latch_conditional (env : sm_env) (w : sm_world)
    (p : btree_page_h) : Bool × btree_page_h :=
  if p.latch = latch_mode_t.LATCH_EX then (true, p)
  else if env.upgrade_ok w p._pp then (true, { p with latch := latch_mode_t.LATCH_EX })
  else (false, p)

/-- Modelled from the spec: the guard object `sys_xct_section_t` is not part of the
sources at hand ("An SSX is opened, executes its logged mutations, and is
committed before returning").  Its constructor opens a system transaction and
`check_error_on_start` reports whether that worked. -/
def sys_xct_section_t.check_error_on_start (env : sm_env) (w : sm_world) :
    w_rc_t × sm_world :=
  let rc := env.sys_xct_start w
  if rc.is_error then (rc, w) else (w_rc_t.RCOK, { w with sys_xct := w.sys_xct + 1 })

/-! ## Foster split and foster adopt (btree_impl_split.cpp) -/

/-- What a split hands back: the return code, the services afterwards, the page
that was split and the new page when one was fixed. -/
structure split_result where
  rc : w_rc_t
  world : sm_world
  page : btree_page_h
  new_page : Option btree_page_h

/-- The function `btree_impl::_ux_adopt_foster_apply_parent`. -/
def btree_impl._ux_adopt_foster_apply_parent (env : sm_env) (parent : btree_page_h)
    (new_child_pid : Nat) (new_child_key : w_keystr_t) : w_rc_t × btree_page_h :=
  -- where to insert?
  let slot_to_insert := parent.search_node new_child_key
  -- search_node returns the slot the key potentially belongs to.
  -- we want to adopt this key AFTER the slot, so ++.
  let slot_to_insert := slot_to_insert + 1
  let r := parent.insert_node env new_child_key slot_to_insert new_child_pid
  if r.1.is_error then r else (w_rc_t.RCOK, r.2)

/-- The function `btree_impl::_ux_adopt_foster_apply_child`. -/
def btree_impl._ux_adopt_foster_apply_child (w : sm_world) (child : btree_page_h) :
    sm_world × btree_page_h :=
  -- just clears up foster and chain-fence-high
  -- note, chain-fence-high's string data is left there, but it does no harm
  let c1 := { child with _pp := { child._pp with btree_foster := 0 } }
  let c2 := { c1 with _pp := { c1._pp with btree_chain_fence_high_length := 0 } }
  (clear_forster_child w c2._pp.pid.page, c2)

/-- The function `btree_impl::_ux_split_foster_apply`.  `new_child_key` is a
pointer in the source: `none` is the null pointer, and reading through it is
`none` as a result. -/
def btree_impl._ux_split_foster_apply (env : sm_env) (w : sm_world) (page : btree_page_h)
    (right_begins_from : Nat) (mid_key : w_keystr_t) (new_pid : lpid_t)
    (new_child_key : Option w_keystr_t) (new_child_pid : Nat) : Option split_result :=
  let low_key := page.copy_fence_low_key
  let high_key := page.copy_fence_high_key
  let was_right_most := page.get_chain_fence_high_length == 0
  -- this means there was no chain or the page was the right-most of it.
  let chain_high_key :=
    if was_right_most then page.copy_fence_high_key else page.copy_chain_fence_high_key
  -- create a new page as a right sibling of the page, stealing half of entries
  let new_pid0 : Option Nat :=
    if page.is_node then page.child right_begins_from else some 0
  let steal_from := if page.is_node then right_begins_from + 1 else right_begins_from
  let steal_to := page.nrecs
  match new_pid0 with
  | none => none
  | some new_pid0 =>
    let empty_key : w_keystr_t := ⟨[]⟩
    match btree_page_h.init_fix_steal env w new_pid page._pp.btree_root page.level new_pid0
        page.get_foster mid_key high_key
        (if was_right_most then empty_key else chain_high_key)
        (some page) steal_from steal_to false with
    | (rc, w1, none) => some ⟨rc, w1, page, none⟩
    | (rc, w1, some new_page) =>
      if rc.is_error then some ⟨rc, w1, page, some new_page⟩
      else
        -- just for updating the LSN of new_page
        let r2 := env.log w1 log_kind.btree_noop new_page
        if r2.1.is_error then some ⟨r2.1, r2.2.1, page, some r2.2.2⟩
        else
          -- foster-parent should be written later because it's the data source
          let page1 := page.set_dirty
          let new_page1 := r2.2.2.set_dirty
          let reg := env.register_write_order_dependency r2.2.1 page1._pp new_page1._pp
          let w3 := reg.2
          -- next, we refactor the left page in a similar way.
          let scratch_p := page1
          let r4 := page1.format_steal env w3 scratch_p._pp.pid scratch_p._pp.btree_root
            scratch_p.level scratch_p._pp.btree_pid0 new_page1._pp.pid.page
            low_key mid_key chain_high_key false (some scratch_p) 0 right_begins_from
          if r4.1.is_error then some ⟨r4.1, r4.2.1, r4.2.2, some new_page1⟩
          else
            let page2 := r4.2.2.set_lsns scratch_p._pp.lsn
            if page2.is_node then
              -- if this split is because of adopt, we also combine adopt
              match new_child_key with
              | none => none
              | some k =>
                if page2.fence_contains k then
                  let r5 := btree_impl._ux_adopt_foster_apply_parent env page2 new_child_pid k
                  some ⟨r5.1, r4.2.1, r5.2, some new_page1⟩
                else
                  let r5 :=
                    btree_impl._ux_adopt_foster_apply_parent env new_page1 new_child_pid k
                  some ⟨r5.1, r4.2.1, page2, some r5.2⟩
            else some ⟨w_rc_t.RCOK, r4.2.1, page2, some new_page1⟩

/-- The function `btree_impl::_ux_split_foster_core`. -/
def btree_impl._ux_split_foster_core (env : sm_env) (w : sm_world) (page : btree_page_h)
    (new_page_id : lpid_t) (triggering_key : w_keystr_t)
    (new_child_key : Option w_keystr_t) (new_child_pid : Nat) : Option split_result :=
  -- get new fence key in the middle
  let sug := env.suggest_fence_for_split page._pp triggering_key
  let mid_key := sug.1
  let right_begins_from := sug.2
  let done (r : split_result) : split_result :=
    -- give hint to subsequent accesses
    { r with rc := w_rc_t.RCOK, world := increase_forster_child r.world r.page._pp.pid.page }
  if right_begins_from = page.nrecs then
    -- no-record split. this doesn't cause write-order dependency
    let empty_key : w_keystr_t := ⟨[]⟩
    let chain_high :=
      if page.get_chain_fence_high_length = 0 then page.copy_fence_high_key
      else page.copy_chain_fence_high_key
    let new_chain_high :=
      if page.get_chain_fence_high_length = 0 then empty_key
      else page.copy_chain_fence_high_key
    let old_high := page.copy_fence_high_key
    -- these both log and apply; child is just making an empty page
    match btree_page_h.init_fix_steal env w new_page_id page._pp.btree_root page.level
        new_child_pid page.get_foster mid_key old_high new_chain_high none 0 0 true with
    | (rc, w1, none) => some ⟨rc, w1, page, none⟩
    | (rc, w1, some new_page) =>
      if rc.is_error then some ⟨rc, w1, page, some new_page⟩
      else
        -- page is just setting new fence key and foster pointer
        let r2 := page.norecord_split env w1 new_page_id.page mid_key chain_high
        if r2.1.is_error then some ⟨r2.1, r2.2.1, r2.2.2, some new_page⟩
        else some (done ⟨r2.1, r2.2.1, r2.2.2, some new_page⟩)
  else
    -- usual split (if non-leaf, + adopt)
    let r1 := env.log w log_kind.btree_foster_split page
    if r1.1.is_error then some ⟨r1.1, r1.2.1, r1.2.2, none⟩
    else
      match btree_impl._ux_split_foster_apply env r1.2.1 r1.2.2 right_begins_from mid_key
          new_page_id new_child_key new_child_pid with
      | none => none
      | some r => if r.rc.is_error then some r else some (done r)

/-- What the opportunistic adopt hands back: the return code, the flag
`pushedup`, the services afterwards and the two handles. -/
structure adopt_result where
  rc : w_rc_t
  pushedup : Bool
  world : sm_world
  parent : btree_page_h
  child : btree_page_h

/-- The function `btree_impl::_ux_opportunistic_adopt_foster_core`.  The sweep over
the children of the parent, `_ux_adopt_foster_sweep_approximate`, walks pages of
the buffer pool, which is outside the sources at hand; it is the parameter
`sweep` (services and parent handle in, return code, services and parent handle
out).  It does not get hold of `pushedup`. -/
def btree_impl._ux_opportunistic_adopt_foster_core
    (sweep : sm_world → btree_page_h → Nat → w_rc_t × sm_world × btree_page_h)
    (w : sm_world) (parent child : btree_page_h) (_pushedup : Bool) : adopt_result :=
  let surely_need_child_pid := child._pp.pid.page
  let child1 := child.unfix
  -- this assures the caller will immediatelly restart any access from root
  let pushedup := true
  let r := sweep w parent surely_need_child_pid
  if r.1.is_error then ⟨r.1, pushedup, r.2.1, r.2.2, child1⟩
  else ⟨w_rc_t.RCOK, pushedup, r.2.1, r.2.2, child1⟩

/-- The function `btree_impl::_sx_opportunistic_adopt_foster`. -/
def btree_impl._sx_opportunistic_adopt_foster (env : sm_env)
    (sweep : sm_world → btree_page_h → Nat → w_rc_t × sm_world × btree_page_h)
    (w : sm_world) (parent child : btree_page_h) : adopt_result :=
  let pushedup := false
  -- let's try upgrading parent to EX latch.
  let up := parent.upgrade_latch_conditional env w
  if !up.1 then
    -- give a hint to subsequent accesses
    ⟨w_rc_t.RCOK, pushedup, increase_ex_need w up.2._pp.pid.page, up.2, child⟩
  else
    let sxs := sys_xct_section_t.check_error_on_start env w
    if sxs.1.is_error then ⟨sxs.1, pushedup, sxs.2, up.2, child⟩
    else
      let ret := btree_impl._ux_opportunistic_adopt_foster_core sweep sxs.2 up.2 child pushedup
      let rc1 := env.sys_xct_end ret.world ret.rc
      if rc1.is_error then { ret with rc := rc1 } else ret

/-! ## LogArchiver: selection -/

/-- The loop of `LogArchiver::selection`.  Every pass that does not leave the loop
pops one heap entry, so `fuel` passes are enough as soon as `fuel` exceeds the
size of the heap; `none` without fuel, when a record cannot be read, or when
`add` or `pop` fail. -/
def LogArchiver.selectionLoop {W : Type} (mm : mem_mgmt_t W) (sizeof_baseLogHeader : Nat)
    (run : Int) : Nat → ArchiverHeap W → BlockAssembly →
    Option (ArchiverHeap W × BlockAssembly)
  | 0, _, _ => none
  | fuel + 1, heap, blkAssemb =>
    if heap.size = 0 ∨ heap.topRun ≠ some run then
      some (heap, blkAssemb)
    else
      match heap.top with
      | none => none
      | some lr =>
        match BlockAssembly.add sizeof_baseLogHeader blkAssemb lr with
        | none => none
        | some (true, b1) =>
          match heap.pop mm with
          | none => none
          | some heap1 =>
            LogArchiver.selectionLoop mm sizeof_baseLogHeader run fuel heap1 b1
        | some (false, b1) => some (heap, b1)

/-- The method `LogArchiver::selection`, on the two members it works on, the heap
and the block assembly.  The result is the returned flag and the two members
afterwards. -/
def LogArchiver.selection {W : Type} (mm : mem_mgmt_t W) (sizeof_baseLogHeader : Nat)
    (heap : ArchiverHeap W) (blkAssemb : BlockAssembly) :
    Option (Bool × ArchiverHeap W × BlockAssembly) :=
  if heap.size = 0 then
    -- if there are no elements in the heap, we have nothing to write
    some (false, heap, blkAssemb)
  else
    match heap.topRun with
    | none => none
    | some run =>
      match blkAssemb.start run with
      | none => none
      | some (false, b1) => some (false, heap, b1)
      | some (true, b1) =>
        match LogArchiver.selectionLoop mm sizeof_baseLogHeader run (heap.size + 1) heap b1 with
        | none => none
        | some (heap1, b2) =>
          match b2.finish with
          | none => none
          | some b3 => some (true, heap1, b3)
/-! ## ArchiveIndex: lookup -/

/-- The first loop of `ArchiveIndex::findRun`, on the runs of the level:
`while (result > 0 && runs[level][result].firstLSN > lsn) result--`; `none` when
the index is out of bounds. -/
def ArchiveIndex.findRun_back (rs : List RunInfo) (lsn : lsn_t) : Nat → Option Nat
  | 0 => some 0
  | result + 1 =>
    match rs[result + 1]? with
    | none => none
    | some r =>
      if r.firstLSN > lsn then ArchiveIndex.findRun_back rs lsn result
      else some (result + 1)

/-- The second loop of `ArchiveIndex::findRun` ("skip empty runs"):
`while (runs[level][result].entries.size() == 0 && result <= lf) result++`.  The
run is read before `result` is compared with `lf`; `none` when that read is out
of bounds, and without fuel (`lf + 2` passes are enough). -/
def ArchiveIndex.findRun_skip (rs : List RunInfo) (lf : Nat) : Nat → Nat → Option Nat
  | 0, _ => none
  | fuel + 1, result =>
    match rs[result]? with
    | none => none
    | some r =>
      if r.entries.length = 0 ∧ result ≤ lf then
        ArchiveIndex.findRun_skip rs lf fuel (result + 1)
      else some result

/-- The method `ArchiveIndex::findRun`; `none` when `lastFinished[level]` or
`runs[level]` or a run is read out of bounds (a negative `lastFinished[level]`
included). -/
def ArchiveIndex.findRun (ix : ArchiveIndex) (lsn : lsn_t) (level : Nat) : Option Nat :=
  if lsn = lsn_t.null then
    -- full log replay (backup-less)
    some 0
  else
    match ix.lastFinished[level]?, ix.runs[level]? with
    | some lf, some rs =>
      if lf < 0 then none
      else
        match rs[lf.toNat]? with
        | none => none
        | some last =>
          if lsn ≥ last.lastLSN then some (lf.toNat + 1)
          else
            match ArchiveIndex.findRun_back rs lsn lf.toNat with
            | none => none
            | some result =>
              -- skip empty runs; caller must check if returned index is valid
              ArchiveIndex.findRun_skip rs lf.toNat (lf.toNat + 2) result
    | _, _ => none

/-- The loop `while (i > 0 && run->entries[i].pid == pid) i--` of
`ArchiveIndex::findEntry`. -/
def ArchiveIndex.findEntry_back (entries : List BlockEntry) (pid : Nat) : Nat → Option Nat
  | 0 => some 0
  | i + 1 =>
    match entries[i + 1]? with
    | none => none
    | some e =>
      if e.pid = pid then ArchiveIndex.findEntry_back entries pid i else some (i + 1)

/-- The method `ArchiveIndex::findEntry(run, pid, from, to)`; the first call has
`from = to = -1`.  Every nested call works on a shorter range, so one unit of
fuel per entry and one more are enough.  `none` for `W_FATAL`, a failed
`w_assert0` and without fuel.  Integer division truncates. -/
def ArchiveIndex.findEntry (run : RunInfo) (pid : Nat) : Nat → Int → Int → Option Nat
  | 0, _, _ => none
  | fuel + 1, from0, to0 =>
    if from0 > to0 then
      if from0 = 0 then
        -- Queried pid lower than first in run
        some 0
      else
        -- Queried pid is greater than last in run: W_FATAL_MSG
        none
    else
      -- negative value indicates first invocation
      let to1 : Int := if to0 < 0 then (run.entries.length : Int) - 1 else to0
      let from1 : Int := if from0 < 0 then 0 else from0
      -- binary search for page ID within run
      let i : Int := if from1 = to1 then from1 else from1.tdiv 2 + to1.tdiv 2
      -- w_assert0(i < run->entries.size()), where i is a size_t
      if i < 0 then none
      else
        match run.entries[i.toNat]? with
        | none => none
        | some e =>
          -- i == run->entries.size() - 1 || run->entries[i+1].pid >= pid
          let lastOrNext : Bool :=
            match run.entries[i.toNat + 1]? with
            | none => true
            | some e1 => decide (pid ≤ e1.pid)
          if decide (e.pid ≤ pid) && lastOrNext then
            -- found it! must first check if previous does not contain same pid
            ArchiveIndex.findEntry_back run.entries pid i.toNat
          else if e.pid > pid then
            -- not found: recurse down
            ArchiveIndex.findEntry run pid fuel from1 (i - 1)
          else
            ArchiveIndex.findEntry run pid fuel (i + 1) to1

/-- One probe of the binary search in `ArchiveIndex::findEntry`: the bounds `from`
and `to` of the call after the defaults were applied, and the index `i` that the
call computed. -/
structure FindEntryProbe where
  from1 : Int
  to1 : Int
  i : Int
deriving DecidableEq, Repr

/-- The method `ArchiveIndex::findEntry(run, pid, from, to)` as in
`ArchiveIndex.findEntry`, returning with the result the probes of the nested
calls, outermost first. -/
def ArchiveIndex.findEntry_traced (run : RunInfo) (pid : Nat) :
    Nat → Int → Int → Option (Nat × List FindEntryProbe)
  | 0, _, _ => none
  | fuel + 1, from0, to0 =>
    if from0 > to0 then
      if from0 = 0 then
        -- Queried pid lower than first in run
        some (0, [])
      else
        -- Queried pid is greater than last in run: W_FATAL_MSG
        none
    else
      -- negative value indicates first invocation
      let to1 : Int := if to0 < 0 then (run.entries.length : Int) - 1 else to0
      let from1 : Int := if from0 < 0 then 0 else from0
      -- binary search for page ID within run
      let i : Int := if from1 = to1 then from1 else from1.tdiv 2 + to1.tdiv 2
      -- w_assert0(i < run->entries.size()), where i is a size_t
      if i < 0 then none
      else
        match run.entries[i.toNat]? with
        | none => none
        | some e =>
          -- i == run->entries.size() - 1 || run->entries[i+1].pid >= pid
          let lastOrNext : Bool :=
            match run.entries[i.toNat + 1]? with
            | none => true
            | some e1 => decide (pid ≤ e1.pid)
          if decide (e.pid ≤ pid) && lastOrNext then
            -- found it! must first check if previous does not contain same pid
            (ArchiveIndex.findEntry_back run.entries pid i.toNat).map
              (fun r => (r, [⟨from1, to1, i⟩]))
          else if e.pid > pid then
            -- not found: recurse down
            (ArchiveIndex.findEntry_traced run pid fuel from1 (i - 1)).map
              (fun r => (r.1, ⟨from1, to1, i⟩ :: r.2))
          else
            (ArchiveIndex.findEntry_traced run pid fuel (i + 1) to1).map
              (fun r => (r.1, ⟨from1, to1, i⟩ :: r.2))

/-! ## ArchiveIndex: probing -/

/-- The struct `ArchiveIndex::ProbeResult`. -/
structure ProbeResult where
  pidBegin : Nat
  pidEnd : Nat
  runBegin : lsn_t
  runEnd : lsn_t
  level : Nat
  offset : Nat
  runIndex : Nat
deriving DecidableEq, Repr

/-- The method `ArchiveIndex::probeInRun`; `none` when the run or an entry is read
out of bounds or `findEntry` does not return.  `findEntry` gets one unit of fuel
per entry and one more. -/
def ArchiveIndex.probeInRun (ix : ArchiveIndex) (res : ProbeResult) : Option ProbeResult :=
  -- Assumptions: run index and pid are set in given result
  let index := res.runIndex
  let level := res.level
  match (ix.runs[level]?).bind (fun rs => rs[index]?) with
  | none => none
  | some run =>
    let res1 := { res with runBegin := run.firstLSN, runEnd := run.lastLSN }
    if res1.pidBegin = 0 then
      some { res1 with offset := 0 }
    else
      match ArchiveIndex.findEntry run res1.pidBegin (run.entries.length + 1) (-1) (-1) with
      | none => none
      | some entryBegin =>
        match run.entries[0]?, run.entries[entryBegin]? with
        | some e0, some e =>
          -- decide if we mean offset zero or entry zero
          if entryBegin = 0 ∧ e0.pid ≥ res1.pidBegin then
            some { res1 with offset := 0 }
          else
            some { res1 with offset := e.offset }
        | _, _ => none

/-- The inner loop of `ArchiveIndex::probe` on one level:
`while ((int) index <= lastFinished[level])`.  The state is the local `res` and
the vector `probes`; `none` on a read out of bounds and without fuel. -/
def ArchiveIndex.probe_runs (ix : ArchiveIndex) (level startPID endPID : Nat) :
    Nat → Nat → ProbeResult → List ProbeResult → Option (ProbeResult × List ProbeResult)
  | 0, _, _, _ => none
  | fuel + 1, index, res, probes =>
    match ix.lastFinished[level]? with
    | none => none
    | some lf =>
      if (index : Int) ≤ lf then
        match (ix.runs[level]?).bind (fun rs => rs[index]?) with
        | none => none
        | some run =>
          if run.entries.length > 0 then
            match ix.probeInRun
                { res with pidBegin := startPID, pidEnd := endPID, runIndex := index } with
            | none => none
            | some res1 =>
              ArchiveIndex.probe_runs ix level startPID endPID fuel (index + 1) res1
                (probes ++ [res1])
          else
            ArchiveIndex.probe_runs ix level startPID endPID fuel (index + 1) res probes
      else
        some (res, probes)

/-- The outer loop of `ArchiveIndex::probe`: `while (level > 0) ... level--`.
`fresh` is the local `ProbeResult res;` as it is declared at the start of every
pass, before any member is assigned.  The inner loop gets one unit of fuel per
run up to `lastFinished[level]` and two more. -/
def ArchiveIndex.probe_levels (ix : ArchiveIndex) (fresh : ProbeResult)
    (startPID endPID : Nat) : Nat → lsn_t → List ProbeResult → Option (List ProbeResult)
  | 0, _, probes => some probes
  | level + 1, startLSN, probes =>
    match ix.findRun startLSN (level + 1) with
    | none => none
    | some index =>
      let res := { fresh with level := level + 1 }
      match ArchiveIndex.probe_runs ix (level + 1) startPID endPID
          (((ix.lastFinished[level + 1]?).getD 0).toNat + 2) index res probes with
      | none => none
      | some r =>
        -- Now go to the next level, starting on the last LSN covered
        -- by the current level
        ArchiveIndex.probe_levels ix fresh startPID endPID level r.1.runEnd r.2

/-- The method `ArchiveIndex::probe`: the vector `probes` after the call. -/
def ArchiveIndex.probe (ix : ArchiveIndex) (fresh : ProbeResult)
    (startPID endPID : Nat) (startLSN : lsn_t) : Option (List ProbeResult) :=
  -- probes.clear(); level = maxLevel
  ArchiveIndex.probe_levels ix fresh startPID endPID ix.maxLevel startLSN []

/-! ## ArchiveDirectory: names of run files

File names are lists of character codes (ASCII). -/

/-- The character class `[0-9]`. -/
def isDigit09 (c : Nat) : Bool := decide (48 ≤ c) && decide (c ≤ 57)

/-- The value of a string of decimal digits. -/
def decimalValue (s : List Nat) : Nat := s.foldl (fun a c => 10 * a + (c - 48)) 0

/-- Modelled from the spec: the extraction `is >> lsn` reads what `lsn_t::str`
prints, `<partition>.<offset>`. -/
def lsn_t.read (s : List Nat) : lsn_t :=
  let a := s.span isDigit09
  ⟨decimalValue a.1, decimalValue ((a.2.drop 1).span isDigit09).1⟩

/-- An index block as it lies in the write buffer and in the file: the header
`ArchiveIndex::BlockHeader` and the array of `BlockEntry` slots behind it.  Slots
at and beyond `entries` hold what the buffer held before. -/
structure IndexBlock where
  entries : Nat
  blockNumber : Nat
  slots : Nat → BlockEntry

/-- A run file as far as its index is concerned: the size in bytes and, for an
offset, the index block that the last `pwrite` of a whole block at that offset
put there.  Data blocks are not interpreted. -/
structure RunFile where
  size : Nat
  block : Nat → Option IndexBlock

/-- The call `pwrite(fd, writeBuffer, blockSize, offset)`. -/
def RunFile.pwrite (f : RunFile) (buf : IndexBlock) (blockSize offset : Nat) : RunFile :=
  { size := max f.size (offset + blockSize),
    block := fun o => if o = offset then some buf else f.block o }

/-- The call `pread(fd, buffer, count, offset)` of the start of a block, viewed
as an index block; `none` when fewer than `count` bytes are there (`stSHORTIO`)
or when no index block was written at that offset. -/
def RunFile.pread (f : RunFile) (count offset : Nat) : Option IndexBlock :=
  if offset + count ≤ f.size then f.block offset else none

/-- Conversion of a value to `int` (32 bits, two's complement). -/
def to_int (x : Int) : Int := (x + 2147483648) % 4294967296 - 2147483648

/-- The local `entriesPerBlock` of `serializeRunInfo`:
`(blockSize - sizeof(BlockHeader) - sizeof(PageID)) / sizeof(BlockEntry)`,
computed in `size_t` and stored in an `int`.  The sizes of the three types are
parameters. -/
def ArchiveIndex.entriesPerBlock (blockSize sizeof_BlockHeader sizeof_PageID
    sizeof_BlockEntry : Nat) : Int :=
  to_int ((((blockSize : Int) - sizeof_BlockHeader - sizeof_PageID) % 18446744073709551616)
    / sizeof_BlockEntry)

/-- The inner loop of `serializeRunInfo`:
`while (j < entriesPerBlock && remaining > 0)`.  The state is `remaining`, `j`,
`currEntry` and the slots of the write buffer; `none` when `run.entries` is read
out of bounds. -/
def ArchiveIndex.serializeRunInfo_fill (entries : List BlockEntry) (entriesPerBlock : Int) :
    Nat → Nat → Nat → (Nat → BlockEntry) → Option (Nat × Nat × Nat × (Nat → BlockEntry))
  | 0, j, currEntry, slots => some (0, j, currEntry, slots)
  | remaining + 1, j, currEntry, slots =>
    if (j : Int) < entriesPerBlock then
      match entries[currEntry]? with
      | none => none
      | some e =>
        ArchiveIndex.serializeRunInfo_fill entries entriesPerBlock remaining (j + 1)
          (currEntry + 1) (fun t => if t = j then e else slots t)
    else
      some (remaining + 1, j, currEntry, slots)

/-- The outer loop of `serializeRunInfo`: `while (remaining > 0)`.  The state is
`remaining`, `i`, `currEntry`, the write buffer, the file and `offset`; `none`
without fuel. -/
def ArchiveIndex.serializeRunInfo_blocks (entries : List BlockEntry) (entriesPerBlock : Int)
    (blockSize : Nat) :
    Nat → Nat → Nat → Nat → IndexBlock → RunFile → Nat → Option RunFile
  | 0, _, _, _, _, _, _ => none
  | fuel + 1, remaining, i, currEntry, writeBuffer, f, offset =>
    if remaining > 0 then
      match ArchiveIndex.serializeRunInfo_fill entries entriesPerBlock remaining 0 currEntry
          writeBuffer.slots with
      | none => none
      | some (remaining1, j, currEntry1, slots1) =>
        -- h->entries = j; h->blockNumber = i
        let writeBuffer1 : IndexBlock := ⟨j, i, slots1⟩
        ArchiveIndex.serializeRunInfo_blocks entries entriesPerBlock blockSize fuel
          remaining1 (i + 1) currEntry1 writeBuffer1
          (f.pwrite writeBuffer1 blockSize offset) (offset + blockSize)
    else
      some f

/-- The method `ArchiveIndex::serializeRunInfo`: the file after the call.
`writeBuffer` is the buffer as `new char[blockSize]` hands it out; `remaining`
is the number of entries converted to `int`. -/
def ArchiveIndex.serializeRunInfo (blockSize sizeof_BlockHeader sizeof_PageID
    sizeof_BlockEntry : Nat) (writeBuffer : IndexBlock) (run : RunInfo) (f : RunFile)
    (offset : Nat) (fuel : Nat) : Option RunFile :=
  let entriesPerBlock :=
    ArchiveIndex.entriesPerBlock blockSize sizeof_BlockHeader sizeof_PageID sizeof_BlockEntry
  let remaining := to_int (run.entries.length : Int)
  ArchiveIndex.serializeRunInfo_blocks run.entries entriesPerBlock blockSize fuel
    remaining.toNat 0 0 writeBuffer f offset

/-- The constant `IO_ALIGN`. -/
def IO_ALIGN : Nat := 512

/-- The method `ArchiveIndex::getBlockCounts`: `(indexBlocks, dataBlocks)`; `none`
for `stSHORTIO`, a block that is no index block, and a block size of zero.  The
subtractions are those of `size_t`. -/
def ArchiveIndex.getBlockCounts (blockSize : Nat) (f : RunFile) : Option (Nat × Nat) :=
  let fsize := f.size
  -- skip empty runs
  if fsize = 0 then some (0, 0)
  else if blockSize = 0 then none
  else
    -- read header of last block in file -- its number is the block count
    match f.pread IO_ALIGN ((((fsize : Int) - blockSize) % 18446744073709551616).toNat) with
    | none => none
    | some header =>
      some (header.blockNumber + 1,
        ((((fsize / blockSize : Nat) : Int) - (header.blockNumber + 1))
          % 18446744073709551616).toNat)

/-- The entries that `loadRunInfo` takes from one block:
`while (j < h->entries) run.entries.push_back(*e)`. -/
def IndexBlock.read (h : IndexBlock) : List BlockEntry :=
  (List.range h.entries).map h.slots

/-- The loop `while (indexBlockCount > 0)` of `loadRunInfo`: the entries read,
behind those read before; `none` for `stSHORTIO`. -/
def ArchiveIndex.loadRunInfo_blocks (blockSize : Nat) (f : RunFile) :
    Nat → Nat → List BlockEntry → Option (List BlockEntry)
  | 0, _, entries => some entries
  | indexBlockCount + 1, offset, entries =>
    match f.pread blockSize offset with
    | none => none
    | some h =>
      ArchiveIndex.loadRunInfo_blocks blockSize f indexBlockCount (offset + blockSize)
        (entries ++ h.read)

/-- The method `ArchiveIndex::loadRunInfo`: the index after the call; `none` for
an error code and a vector read out of bounds.  `lastPID` is the value of the
member of the local `RunInfo run` that is never assigned.  `resize` fills
`lastFinished` with zeros. -/
def ArchiveIndex.loadRunInfo (ix : ArchiveIndex) (f : RunFile) (fstats : RunFileStats)
    (lastPID : Nat) : Option ArchiveIndex :=
  match ArchiveIndex.getBlockCounts ix.blockSize f with
  | none => none
  | some (indexBlockCount, dataBlockCount) =>
    let offset := dataBlockCount * ix.blockSize
    match ArchiveIndex.loadRunInfo_blocks ix.blockSize f indexBlockCount offset [] with
    | none => none
    | some entries =>
      let run : RunInfo := ⟨fstats.beginLSN, fstats.endLSN, lastPID, entries⟩
      let ix1 :=
        if fstats.level > ix.maxLevel then
          -- level 0 reserved, so add 1
          { ix with maxLevel := fstats.level,
                    runs := vector_resize ix.runs (fstats.level + 1) [],
                    lastFinished := vector_resize ix.lastFinished (fstats.level + 1) 0 }
        else ix
      match ix1.runs[fstats.level]? with
      | none => none
      | some rs =>
        if fstats.level < ix1.lastFinished.length then
          some { ix1 with runs := ix1.runs.set fstats.level (rs ++ [run]),
                          lastFinished :=
                            ix1.lastFinished.set fstats.level ((rs.length : Int) + 1 - 1) }
        else none

/-! ## WriterThread and MergerDaemon -/

/-- The members of `WriterThread`. -/
structure WriterThread where
  maxLSNInRun : lsn_t
  currentRun : Int
  level : Nat
deriving DecidableEq, Repr

/-- The constructor `WriterThread::WriterThread`. -/
def WriterThread.init (level : Nat) : WriterThread :=
  { maxLSNInRun := lsn_t.null, currentRun := 0, level := level }

/-- The method `WriterThread::resetCurrentRun`. -/
def WriterThread.resetCurrentRun (w : WriterThread) : WriterThread :=
  { w with currentRun := w.currentRun + 1, maxLSNInRun := lsn_t.null }

/-- One pass of the loop of `WriterThread::run` for a block that
`consumerRequest` handed out; `none` when the directory is accessed out of
bounds and when `append` writes to a descriptor that is not open.
`actualBlockSize` is computed in `size_t`. -/
def WriterThread.write (sizeof_baseLogHeader : Nat) (w : WriterThread)
    (d : ArchiveDirectory) (src : Block) : Option (WriterThread × ArchiveDirectory) :=
  let run := src.header.run
  let next : WriterThread → ArchiveDirectory → Option (WriterThread × ArchiveDirectory) :=
    fun w1 d1 =>
      let blockLSN := src.header.lsn
      let w2 := if blockLSN > w1.maxLSNInRun then { w1 with maxLSNInRun := blockLSN } else w1
      let blockEnd := src.header.blockEnd
      let actualBlockSize := (blockEnd + 2 ^ 64 - sizeof_BlockHeader) % 2 ^ 64
      match d1.append actualBlockSize w2.level with
      | none => none
      | some d2 => some (w2, d2)
  if w.currentRun ≠ run then
    match d.closeCurrentRun sizeof_baseLogHeader w.maxLSNInRun w.level with
    | none => none
    | some d1 => next { w with currentRun := run, maxLSNInRun := lsn_t.null } d1
  else
    next w d

/-- The passes of the loop of `WriterThread::run` for the blocks of the ring
buffer, oldest first. -/
def WriterThread.writeAll (sizeof_baseLogHeader : Nat) :
    WriterThread → ArchiveDirectory → List Block → Option (WriterThread × ArchiveDirectory)
  | w, d, [] => some (w, d)
  | w, d, src :: rest =>
    match WriterThread.write sizeof_baseLogHeader w d src with
    | none => none
    | some r => WriterThread.writeAll sizeof_baseLogHeader r.1 r.2 rest

/-- The method `WriterThread::run` on a ring buffer that is marked finished after
the blocks given: every block is written, then `consumerRequest` returns null
and the current run is closed. -/
def WriterThread.run (sizeof_baseLogHeader : Nat) (w : WriterThread) (d : ArchiveDirectory)
    (blocks : List Block) : Option (WriterThread × ArchiveDirectory) :=
  match WriterThread.writeAll sizeof_baseLogHeader w d blocks with
  | none => none
  | some r =>
    match r.2.closeCurrentRun sizeof_baseLogHeader r.1.maxLSNInRun r.1.level with
    | none => none
    | some d1 => some (r.1, d1)

/-- The comparison `runComp`. -/
def runComp (a b : RunFileStats) : Bool := decide (a.beginLSN < b.beginLSN)

/-- The loop `while (begin->endLSN <= nextLSN) begin++` of `runSync`; `none` when
the iterator runs off the list. -/
def MergerDaemon.skipMerged (nextLSN : lsn_t) : List RunFileStats → Option (List RunFileStats)
  | [] => none
  | s :: rest =>
    if s.endLSN ≤ nextLSN then MergerDaemon.skipMerged nextLSN rest else some (s :: rest)

/-- The loop `while (merger.next(lr))` of `runSync`; `none` without fuel and when
a call on the block assembly fails. -/
def MergerDaemon.mergeLoop (sizeof_baseLogHeader : Nat) (runNumber : Int) :
    Nat → RunMerger → BlockAssembly → Option BlockAssembly
  | 0, _, _ => none
  | fuel + 1, merger, blkAssemb =>
    match merger.next with
    | (none, _) => some blkAssemb
    | (some lr, merger1) =>
      match BlockAssembly.add sizeof_baseLogHeader blkAssemb lr with
      | none => none
      | some (true, b1) =>
        MergerDaemon.mergeLoop sizeof_baseLogHeader runNumber fuel merger1 b1
      | some (false, b1) =>
        match b1.finish with
        | none => none
        | some b2 =>
          match b2.start runNumber with
          | none => none
          | some r3 =>
            match BlockAssembly.add sizeof_baseLogHeader r3.2 lr with
            | none => none
            | some r4 =>
              MergerDaemon.mergeLoop sizeof_baseLogHeader runNumber fuel merger1 r4.2

/-- The method `MergerDaemon::runSync(level, fanin)`: the output directory after
the call; `none` when the call does not come back with a result.
`listFileStats` is what `indir->listFileStats` finds for a level and `records`
what the run scanner of a run file yields.  The block assembly and the directory
share the index.  The writer thread of the block assembly takes the blocks in
the order in which they are released; `pos0`, `fpos0` and `firstPID0` are the
members that the constructor of `BlockAssembly` leaves unset.  The merge loop has
one unit of fuel per record and one more. -/
def MergerDaemon.runSync (sizeof_baseLogHeader : Nat)
    (listFileStats : Nat → List RunFileStats) (records : RunFileStats → List logrec_t)
    (outdir : ArchiveDirectory) (pos0 fpos0 firstPID0 : Nat) (level fanin : Nat) :
    Option ArchiveDirectory :=
  -- sort list by LSN, since only contiguous runs are merged
  let stats := (listFileStats level).insertionSort (fun a b => runComp b a = false)
  let statsNext := (listFileStats (level + 1)).insertionSort (fun a b => runComp b a = false)
  match stats.head? with
  | none => none
  | some front =>
    -- grab first LSN which is missing from next level
    let nextLSN := match statsNext.getLast? with
      | some back => back.endLSN
      | none => front.beginLSN
    -- collect 'fanin' runs in the current level starting from nextLSN
    match MergerDaemon.skipMerged nextLSN stats with
    | none => none
    | some rest =>
      let inputs := rest.take fanin
      if inputs.length < 2 then
        -- Not enough runs to merge
        some outdir
      else
        let blkAssemb := BlockAssembly.init outdir.archIndex outdir.blockSize (level + 1)
          pos0 fpos0 firstPID0
        let writer := WriterThread.init (level + 1)
        match RunMerger.addInputs RunMerger.init
            (inputs.map (fun s => (⟨0, 0, records s⟩ : RunScanner))) with
        | none => none
        | some merger =>
          let runNumber : Int := 0
          let produced : Option BlockAssembly :=
            if merger.heap.NumElements > 0 then
              match blkAssemb.start runNumber with
              | none => none
              | some r =>
                match MergerDaemon.mergeLoop sizeof_baseLogHeader runNumber
                    ((inputs.map (fun s => (records s).length)).sum + 1) merger r.2 with
                | none => none
                | some b => b.finish
            else some blkAssemb
          match produced with
          | none => none
          | some b =>
            -- blkAssemb.shutdown()
            if b.dest.isSome then none
            else
              (WriterThread.run sizeof_baseLogHeader writer
                { outdir with archIndex := b.archIndex } b.writebuf.released).map
                (fun r => r.2)

/-! ## LogArchiver: flush requests -/

/-- The members of `LogArchiver` that `processFlushRequest` works on.
`nextConsumedLSN` is the value of `getNextConsumedLSN()`, the next LSN of the log
consumer; `writer` is the writer thread of the block assembly. -/
structure LogArchiverState (W : Type) where
  archiver : LogArchiver
  heap : ArchiverHeap W
  blkAssemb : BlockAssembly
  writer : WriterThread
  nextConsumedLSN : lsn_t

/-- The loop `while (selection()) {}`; `none` without fuel and when `selection`
has no result. -/
def LogArchiver.selectAll {W : Type} (mm : mem_mgmt_t W) (sizeof_baseLogHeader : Nat) :
    Nat → ArchiverHeap W → BlockAssembly → Option (ArchiverHeap W × BlockAssembly)
  | 0, _, _ => none
  | fuel + 1, heap, blkAssemb =>
    match LogArchiver.selection mm sizeof_baseLogHeader heap blkAssemb with
    | none => none
    | some (true, heap1, b1) => LogArchiver.selectAll mm sizeof_baseLogHeader fuel heap1 b1
    | some (false, heap1, b1) => some (heap1, b1)

/-- The method `LogArchiver::processFlushRequest`: the returned flag and the
members afterwards; `none` when the call does not come back (a loop that does
not end, a failed `w_assert0`, `W_COERCE` or `CHECK_ERRNO`, an access out of
bounds).  The block assembly and the directory share the index.  The loop that waits until
`hasPendingBlocks()` is false ends when the writer thread has taken the blocks of
the ring buffer, which it does in the order in which they were released.  The
loop over `selection` has one unit of fuel per heap entry and one more. -/
def LogArchiver.processFlushRequest {W : Type} (mm : mem_mgmt_t W)
    (sizeof_baseLogHeader : Nat) (s : LogArchiverState W) :
    Option (Bool × LogArchiverState W) :=
  let a := s.archiver
  if a.flushReqLSN ≠ lsn_t.null then
    if s.nextConsumedLSN < a.flushReqLSN then
      -- if logrec hasn't been read into heap yet, then selection will never
      -- reach it. Do another round until heap has consumed it.
      let control1 :=
        if a.control.endLSN < a.flushReqLSN then { a.control with endLSN := a.flushReqLSN }
        else a.control
      some (false, { s with archiver := { a with control := control1 } })
    else
      -- consume whole heap
      match LogArchiver.selectAll mm sizeof_baseLogHeader (s.heap.size + 1) s.heap
          s.blkAssemb with
      | none => none
      | some (heap1, b1) =>
        -- Heap empty: Wait for all blocks to be consumed and writen out
        if heap1.size ≠ 0 then none
        else
          match WriterThread.writeAll sizeof_baseLogHeader s.writer
              { a.directory with archIndex := b1.archIndex } b1.writebuf.released with
          | none => none
          | some (w1, d1) =>
            -- Forcibly close current run to guarantee that LSN is persisted
            match d1.closeCurrentRun sizeof_baseLogHeader a.flushReqLSN 1 with
            | none => none
            | some d2 =>
              some (true,
                { archiver := { a with directory := d2, flushReqLSN := lsn_t.null },
                  heap := heap1,
                  blkAssemb := { b1 with archIndex := d2.archIndex,
                                         writebuf := { b1.writebuf with released := [] } },
                  writer := w1.resetCurrentRun,
                  nextConsumedLSN := s.nextConsumedLSN })
  else
    some (false, s)

/-! ## Predicates used in the statements and proofs -/

/-- The order under which the heap list is kept. -/
abbrev heapLe (a b : HeapEntry) : Prop := ArchiverHeap.Cmp.gt b a = false

/-- Every entry of the heap carries a run number that is at most the run
counter. -/
def ArchiverHeap.runsBounded {W : Type} (h : ArchiverHeap W) : Prop :=
  ∀ e ∈ h.w_heap.elems, e.run ≤ h.currentRun

/-- The header LSN of a block is the LSN of a record of greatest LSN in the
block, advanced by the length of that record. -/
def Block.headerFollows (blk : Block) : Prop :=
  ∃ r ∈ blk.records, (∀ q ∈ blk.records, q.lsn ≤ r.lsn) ∧
    blk.header.lsn = r.lsn.advance r.length

/-- While a block is filled: `maxLSNInBlock` bounds the LSNs of the records
copied so far and, once it is not null, it is the LSN of one of them, whose
length is `maxLSNLength`. -/
def BlockAssembly.maxTracked (b : BlockAssembly) : Prop :=
  ∃ recs, b.dest = some recs ∧ (∀ r ∈ recs, r.lsn ≤ b.maxLSNInBlock) ∧
    (lsn_t.null < b.maxLSNInBlock →
      ∃ r ∈ recs, r.lsn = b.maxLSNInBlock ∧ r.length = b.maxLSNLength)

/-- Between two blocks: `maxLSNInBlock` is null and every block released that
holds a record with a non-null LSN has a header LSN that follows its records. -/
def BlockAssembly.blocksWellFormed (b : BlockAssembly) : Prop :=
  b.maxLSNInBlock = lsn_t.null ∧
  ∀ blk ∈ b.writebuf.released, (∃ r ∈ blk.records, lsn_t.null < r.lsn) → blk.headerFollows

/-- Byte offset at which the record of index `i` starts in a run whose records
are `R`, headers excluded. -/
def startOffset (R : List logrec_t) (i : Nat) : Nat :=
  ((R.take i).map (fun r => r.length)).sum

/-- What holds of an index entry `e = (pid, offset)` of a run with records `R`
and bucket size `bs`: the page id is a multiple of the bucket size, the record
that starts at the offset has a page id of at least `pid`, and every record that
starts at a smaller offset has a page id below `pid`. -/
def entryOK (bs : Nat) (R : List logrec_t) (e : Nat × Nat) : Prop :=
  e.1 % bs = 0 ∧
  ∃ i r, R[i]? = some r ∧ startOffset R i = e.2 ∧ e.1 ≤ r.pid ∧
    ∀ j q, R[j]? = some q → startOffset R j < e.2 → q.pid < e.1

/-- The state of a run while it is generated: `R` are the records added so far,
`E` the index entries emitted so far. -/
def runInv (bs nextBucket fpos : Nat) (R : List logrec_t) (E : List (Nat × Nat)) : Prop :=
  fpos = (R.map (fun r => r.length)).sum ∧
  (∀ r ∈ R, r.pid / bs < nextBucket) ∧
  (∀ e ∈ E, e.1 / bs < nextBucket ∧ entryOK bs R e) ∧
  E.Pairwise (fun a c => a.1 < c.1) ∧
  ((∀ r ∈ R, 0 < r.length) → (∀ e ∈ E, e.2 < fpos) ∧ E.Pairwise (fun a c => a.2 < c.2))

/-- The entries of the last run of a level, `runs[level].back().entries`. -/
def ArchiveIndex.lastEntries (ix : ArchiveIndex) (level : Nat) : Option (List BlockEntry) :=
  (ix.runs[level]?.bind List.getLast?).map (fun r => r.entries)

/-- An index entry as the pair (first page id, offset) that `add` emits. -/
def BlockEntry.toBucket (e : BlockEntry) : Nat × Nat := (e.pid, e.offset)

/-- The records of the blocks released after the first `n0` blocks. -/
def BlockAssembly.runRecords (b : BlockAssembly) (n0 : Nat) : List logrec_t :=
  (b.writebuf.released.drop n0).flatMap (fun blk => blk.records)

/-- While a block of the run is filled (the run started after `n0` blocks). -/
def BlockAssembly.runOpen (b : BlockAssembly) (n0 : Nat) : Prop :=
  ∃ recs es, b.dest = some recs ∧ b.archIndex.lastEntries b.level = some es ∧
    n0 ≤ b.writebuf.released.length ∧
    runInv b.bucketSize b.nextBucket b.fpos (b.runRecords n0 ++ recs)
      (es.map BlockEntry.toBucket ++ b.buckets)

/-- Between two blocks of the run `run` (the run started after `n0` blocks). -/
def BlockAssembly.runIdle (b : BlockAssembly) (n0 : Nat) (run : Int) : Prop :=
  ∃ es, b.archIndex.lastEntries b.level = some es ∧
    n0 ≤ b.writebuf.released.length ∧ b.lastRun = run ∧ b.writebuf.finished = false ∧
    runInv b.bucketSize b.nextBucket b.fpos (b.runRecords n0) (es.map BlockEntry.toBucket)

/-- The order under which the merge heap is kept. -/
abbrev mergeLe (a b : MergeHeapEntry) : Prop := MergeHeapCmp.gt b a = false

/-- The records an entry of the merge heap still stands for: the record it
points to and those its scanner has yet to yield. -/
def MergeHeapEntry.all (e : MergeHeapEntry) : List logrec_t :=
  if e.active then e.lr.toList ++ e.runScan.pending else []

/-- Consistency of an entry of the merge heap: the cached key of an active entry
is the key of its record, which is at most the records to come; the scanner of
an inactive entry is exhausted. -/
def MergeHeapEntry.WF (e : MergeHeapEntry) : Prop :=
  (e.active = true → ∃ r, e.lr = some r ∧ e.pid = r.pid ∧ e.lsn = r.lsn ∧
    (r :: e.runScan.pending).Sorted keyLe) ∧
  (e.active = false → e.runScan.pending = [])

/-- The records still to be returned by a merger that was started: the record
of the top entry was returned by the call before. -/
def remStarted : List MergeHeapEntry → List logrec_t
  | [] => []
  | e :: rest =>
    (if e.active then e.runScan.pending else []) ++ rest.flatMap MergeHeapEntry.all

/-- The invariant of a merger that was started. -/
def RunMerger.startedInv (m : RunMerger) : Prop :=
  m.started = true ∧ m.heap.elems.Sorted mergeLe ∧ ∀ e ∈ m.heap.elems, e.WF

/-- The records a merger has yet to return. -/
def RunMerger.remaining (m : RunMerger) : List logrec_t :=
  if m.started then remStarted m.heap.elems else m.heap.elems.flatMap MergeHeapEntry.all

/-- The invariant of a merger: the entries are consistent and, once the merger
was started, the heap is in order. -/
def RunMerger.inv (m : RunMerger) : Prop :=
  (∀ e ∈ m.heap.elems, e.WF) ∧ (m.started = true → m.heap.elems.Sorted mergeLe)

/-- The chain high fence key a split gives the left page: the old chain high
fence key, or the old high fence key when the page had none. -/
def split_chain_high (page : btree_page_h) : w_keystr_t :=
  if page.get_chain_fence_high_length == 0 then page.copy_fence_high_key
  else page.copy_chain_fence_high_key

/-- The chain high fence key a split gives the new page: the old chain high fence
key, or the empty key when the page had none. -/
def split_new_chain_high (page : btree_page_h) : w_keystr_t :=
  if page.get_chain_fence_high_length == 0 then ⟨[]⟩
  else page.copy_chain_fence_high_key

/-- The new page of a record split, as `_ux_split_foster_apply` leaves it before
a combined adopt. -/
def split_right (env : sm_env) (w : sm_world) (page : btree_page_h) (s : Nat)
    (mid_key : w_keystr_t) (new_pid : lpid_t) (new_pid0 : Nat) : btree_page_h :=
  ⟨{ btree_page.formatted new_pid page._pp.btree_root page.level new_pid0 page.get_foster
        mid_key page.copy_fence_high_key (split_new_chain_high page)
        (steal_records (some page) (if page.is_node then s + 1 else s) page.nrecs)
      with lsn := (env.log_rc w log_kind.btree_noop new_pid).2 },
    latch_mode_t.LATCH_EX, true, true⟩

/-- The left page of a record split, as `_ux_split_foster_apply` leaves it before
a combined adopt. -/
def split_left (page : btree_page_h) (s : Nat) (mid_key : w_keystr_t) (new_pid : lpid_t) :
    btree_page_h :=
  ⟨{ btree_page.formatted page._pp.pid page._pp.btree_root page.level page._pp.btree_pid0
        new_pid.page page.copy_fence_low_key mid_key (split_chain_high page)
        (page._pp.recs.take s)
      with lsn := page._pp.lsn },
    page.latch, true, page.fixed⟩

/-- The services after a record split: one `btree_noop` record for the new page
and one call of `register_write_order_dependency`, left page first. -/
def split_world (w : sm_world) (page : btree_page_h) (new_pid : lpid_t) : sm_world :=
  { w with log := w.log ++ [(log_kind.btree_noop, new_pid)],
           wod := w.wod ++ [(page._pp.pid, new_pid)] }
/-- Services for the examples: the log, the buffer manager and the page layout
never refuse, except as the arguments say: `answer` is what
`register_write_order_dependency` returns, `sug` what the split policy
suggests, `upgrade` whether a latch upgrade succeeds, `sys_ok` whether a system
transaction can be opened. -/
def sm_env.sample (answer : Bool) (sug : w_keystr_t × Nat) (upgrade sys_ok : Bool) : sm_env :=
  { log_rc := fun w _ _ => (w_rc_t.RCOK, ⟨1, w.log.length + 1⟩),
    fix_rc := fun _ _ => w_rc_t.RCOK,
    bf_register := fun _ _ _ => answer,
    suggest_fence_for_split := fun _ _ => sug,
    check_space_for_insert_node := fun _ _ => true,
    upgrade_ok := fun _ _ => upgrade,
    sys_xct_start := fun _ => if sys_ok then w_rc_t.RCOK else w_rc_t.RC (err_num_t.other 1),
    sys_xct_end := fun _ rc => rc }

/-- Services on which nothing has happened yet. -/
def sm_world.start : sm_world := ⟨[], [], fun _ => 0, fun _ => 0, 0⟩

/-- A leaf page for the examples: page 5, right-most of its chain (no chain high
fence), fences `[10]` and `[90]`, records with keys `[20]` and `[30]`. -/
def sampleLeaf : btree_page_h :=
  ⟨btree_page.formatted ⟨1, 1, 5⟩ 3 1 0 0 ⟨[10]⟩ ⟨[90]⟩ ⟨[]⟩
      [⟨false, 0, ⟨[20]⟩, ⟨[1]⟩⟩, ⟨false, 0, ⟨[30]⟩, ⟨[2]⟩⟩],
    latch_mode_t.LATCH_EX, false, true⟩

/-- An interior page for the examples: page 2 at level 2, with children 5 (as
`pid0`) and 7, holding a shared latch. -/
def sampleNode : btree_page_h :=
  ⟨btree_page.formatted ⟨1, 1, 2⟩ 2 2 5 0 ⟨[0]⟩ ⟨[255]⟩ ⟨[]⟩
      [⟨false, 7, ⟨[90]⟩, ⟨[]⟩⟩],
    latch_mode_t.LATCH_SH, false, true⟩

/-- What `selection` needs to run through: the record of every heap entry is in
the workspace, the bucket size is not zero, `runs[level]` of the index exists or
is about to be created, and a run that is continued has been entered in the
index. -/
def LogArchiver.selectionReady {W : Type} (heap : ArchiverHeap W) (b : BlockAssembly) :
    Prop :=
  (∀ e ∈ heap.w_heap.elems, (heap.load e.slot.address).isSome = true) ∧
  b.bucketSize ≠ 0 ∧
  (b.archIndex.maxLevel < b.level ∨ (b.archIndex.runs[b.level]?).isSome = true) ∧
  (heap.topRun = some b.lastRun → (b.archIndex.lastEntries b.level).isSome = true)
/-- The page id of entry `j` of a run (`0` past the end). -/
def RunInfo.pidAt (run : RunInfo) (j : Nat) : Nat :=
  match run.entries[j]? with
  | some e => e.pid
  | none => 0
/-- A run for the examples, with index entries for the page ids 10, 20 and 30. -/
def sampleRun : RunInfo :=
  ⟨⟨1, 0⟩, ⟨1, 100⟩, 0, [⟨0, 10⟩, ⟨40, 20⟩, ⟨80, 30⟩]⟩

/-- Two finished runs for the examples, `1.0 - 1.100` and `1.100 - 1.200`. -/
def sampleRuns : List RunInfo :=
  [sampleRun, ⟨⟨1, 100⟩, ⟨1, 200⟩, 0, [⟨0, 10⟩]⟩]

/-- An index for the examples: level 1 holds the two finished runs. -/
def sampleIndex : ArchiveIndex :=
  { blockSize := 512, bucketSize := 4, maxLevel := 1,
    runs := [[], sampleRuns], lastFinished := [-1, 1] }

/-- The state in which the nested call of `push(lr, true)` starts: the slot of the
original is allocated and holds a copy of the record. -/
def ArchiverHeap.afterCopy {W : Type} (mm : mem_mgmt_t W) (h : ArchiverHeap W)
    (lr : logrec_t) : ArchiverHeap W :=
  { h with workspace := (mm.allocate h.workspace lr.length).2,
           memory := ((mm.allocate h.workspace lr.length).1.address, lr) :: h.memory }

/-- The record `*lr` as the nested call of `push(lr, true)` sees it. -/
def logrec_t.secondPage (lr : logrec_t) : logrec_t :=
  (lr.set_pid lr.pid2).set_page_prev_lsn (lr.set_pid lr.pid2).page2_prev_lsn

/-- A local `ProbeResult` as declared: the LSN members are default-constructed to
the null LSN, `0` stands for the members of built-in type, which `probe` and
`probeInRun` assign before they are read. -/
def ProbeResult.fresh : ProbeResult := ⟨0, 0, lsn_t.null, lsn_t.null, 0, 0, 0⟩

/-- An index for the examples with two levels: level 2 holds the run `1.0 - 1.100`,
level 1 the runs `1.0 - 1.100` and `1.100 - 1.200`. -/
def sampleIndex2 : ArchiveIndex :=
  { blockSize := 512, bucketSize := 4, maxLevel := 2,
    runs := [[], sampleRuns, [sampleRun]], lastFinished := [-1, 1, 0] }

/-- A run for the examples with 70 index entries, for the page ids 0, 10, 20, ... -/
def sampleLongRun : RunInfo :=
  ⟨⟨1, 0⟩, ⟨1, 100⟩, 0, (List.range 70).map (fun i => ⟨40 * i, 10 * i⟩)⟩

/-- Two run files of level 1 for the examples, `1.0 - 1.40` and `1.40 - 1.80`. -/
def sampleMergeStats : Nat → List RunFileStats := fun l =>
  if l = 1 then [⟨⟨1, 0⟩, ⟨1, 40⟩, 1⟩, ⟨⟨1, 40⟩, ⟨1, 80⟩, 1⟩] else []

/-- The records of the two run files: one record of 40 bytes each, for the pages
10 and 5. -/
def sampleMergeRecords : RunFileStats → List logrec_t := fun s =>
  if s.beginLSN = ⟨1, 0⟩ then [⟨40, 1, 10, 0, ⟨1, 0⟩, lsn_t.null, lsn_t.null⟩]
  else [⟨40, 1, 5, 0, ⟨1, 40⟩, lsn_t.null, lsn_t.null⟩]

/-- A directory as the constructor leaves it after loading the two runs:
`current_run` is open for level 1 and for no other level. -/
def sampleMergeDir : ArchiveDirectory :=
  { ArchiveDirectory.init 512 4 3 with
    archIndex :=
      { blockSize := 512, bucketSize := 4, maxLevel := 1,
        runs := [[], [⟨⟨1, 0⟩, ⟨1, 40⟩, 0, [⟨0, 8⟩]⟩, ⟨⟨1, 40⟩, ⟨1, 80⟩, 0, [⟨0, 4⟩]⟩]],
        lastFinished := [-1, 1] } }

/-- Two run files of level 1 that do not start at `1.0` and whose names end
behind their last record. -/
def sampleLateStats : Nat → List RunFileStats := fun l =>
  if l = 1 then [⟨⟨3, 0⟩, ⟨3, 100⟩, 1⟩, ⟨⟨3, 100⟩, ⟨3, 200⟩, 1⟩] else []

/-- The records of these two run files. -/
def sampleLateRecords : RunFileStats → List logrec_t := fun s =>
  if s.beginLSN = ⟨3, 0⟩ then [⟨40, 1, 10, 0, ⟨3, 0⟩, lsn_t.null, lsn_t.null⟩]
  else [⟨40, 1, 5, 0, ⟨3, 100⟩, lsn_t.null, lsn_t.null⟩]

/-- The room for records in a block that was just started: the block size less
the block header and the skip record. -/
def BlockAssembly.roomInEmptyBlock (hdr : Nat) (b : BlockAssembly) : Nat :=
  (b.blockSize + 2 ^ 64 - (sizeof_BlockHeader + hdr)) % 2 ^ 64

/-- Every record of the heap fits in an empty block. -/
def LogArchiver.heapFits {W : Type} (hdr : Nat) (heap : ArchiverHeap W) (b : BlockAssembly) :
    Prop :=
  ∀ e ∈ heap.w_heap.elems,
    ((heap.load e.slot.address).map (fun lr => lr.length)).getD 0 ≤ b.roomInEmptyBlock hdr

/-- A state for the examples: one record of 40 bytes at the LSN `1.100` in the
heap, an empty archive, and a flush request for the LSN `1.140` that the
consumer has reached. -/
def sampleFlushState : LogArchiverState Arena :=
  { archiver :=
      { directory := ArchiveDirectory.init 512 4 3, control := ArchiverControl.init,
        eager := false, readWholeBlocks := false, nextActLSN := ⟨1, 0⟩,
        flushReqLSN := ⟨1, 140⟩ },
    heap := (ArchiverHeap.push Arena.mem_mgmt (ArchiverHeap.init (Arena.empty 1000))
      ⟨40, 1, 7, 0, ⟨1, 100⟩, lsn_t.null, lsn_t.null⟩ false).2.1,
    blkAssemb := BlockAssembly.init (ArchiveIndex.init 512 4) 512 1 0 0 0,
    writer := WriterThread.init 1,
    nextConsumedLSN := ⟨1, 140⟩ }

/-- A state for the examples: the archiver as its constructors leave it, with an
empty heap and an empty archive, and a flush request for the LSN `1.100` that the
consumer has reached. -/
def sampleIdleFlushState : LogArchiverState Arena :=
  { archiver :=
      { directory := ArchiveDirectory.init 512 4 3, control := ArchiverControl.init,
        eager := false, readWholeBlocks := false, nextActLSN := ⟨1, 0⟩,
        flushReqLSN := ⟨1, 100⟩ },
    heap := ArchiverHeap.init (Arena.empty 1000),
    blkAssemb := BlockAssembly.init (ArchiveIndex.init 512 4) 512 1 0 0 0,
    writer := WriterThread.init 1,
    nextConsumedLSN := ⟨1, 100⟩ }

/-- The state `s` after the consumer has delivered one record of 40 bytes at the
LSN `1.100`, which `replacement` pushes into the heap, and a flush request for
the LSN `1.140` has been made, which the consumer has reached. -/
def sampleNextFlush (s : LogArchiverState Arena) : LogArchiverState Arena :=
  { s with
    archiver := { s.archiver with flushReqLSN := ⟨1, 140⟩ },
    heap := (ArchiverHeap.push Arena.mem_mgmt s.heap
      ⟨40, 1, 7, 0, ⟨1, 100⟩, lsn_t.null, lsn_t.null⟩ false).2.1,
    nextConsumedLSN := ⟨1, 140⟩ }

/-! ## Theorems -/

theorem lsn_t.lt_def (a b : lsn_t) :
    a < b ↔ a.hi < b.hi ∨ (a.hi = b.hi ∧ a.lo < b.lo) := Iff.rfl

theorem lsn_t.le_def (a b : lsn_t) :
    a ≤ b ↔ a.hi < b.hi ∨ (a.hi = b.hi ∧ a.lo ≤ b.lo) := Iff.rfl

theorem lsn_t.ext_iff2 (a b : lsn_t) : a = b ↔ a.hi = b.hi ∧ a.lo = b.lo := by
  cases a; cases b; simp

/-- A fact together with a consequence of it. -/
theorem and_of_imp {A B : Prop} (a : A) (f : A → B) : A ∧ B := ⟨a, f a⟩

/-- The comparator as a proposition: strict lexicographic order on the triple
(run, pid, lsn). -/
theorem ArchiverHeap.Cmp.gt_iff (a b : HeapEntry) :
    ArchiverHeap.Cmp.gt a b = true ↔
      (a.run < b.run ∨ (a.run = b.run ∧
        (a.pid < b.pid ∨ (a.pid = b.pid ∧ a.lsn < b.lsn)))) := by
  unfold ArchiverHeap.Cmp.gt
  by_cases h1 : a.run = b.run
  · by_cases h2 : a.pid = b.pid
    · simp [h1, h2]
    · simp [h1, h2]
  · simp [h1]

/-- C1: `ArchiverHeap::Cmp::gt(a, b)` holds exactly when (a.run, a.pid, a.lsn) is
strictly below (b.run, b.pid, b.lsn) in lexicographic order; it is irreflexive,
asymmetric and transitive, and for two entries with different triples exactly
one of gt(a,b), gt(b,a) holds. -/
theorem C1_gt_strict_lexicographic (a b c : HeapEntry) :
    (ArchiverHeap.Cmp.gt a b = true ↔
      (a.run < b.run ∨ (a.run = b.run ∧
        (a.pid < b.pid ∨ (a.pid = b.pid ∧ a.lsn < b.lsn)))))
    ∧ ArchiverHeap.Cmp.gt a a = false
    ∧ (ArchiverHeap.Cmp.gt a b = true → ArchiverHeap.Cmp.gt b a = false)
    ∧ (ArchiverHeap.Cmp.gt a b = true → ArchiverHeap.Cmp.gt b c = true →
        ArchiverHeap.Cmp.gt a c = true)
    ∧ ((a.run, a.pid, a.lsn) ≠ (b.run, b.pid, b.lsn) →
        (ArchiverHeap.Cmp.gt a b = true ∧ ArchiverHeap.Cmp.gt b a = false) ∨
        (ArchiverHeap.Cmp.gt a b = false ∧ ArchiverHeap.Cmp.gt b a = true)) := by
  refine ⟨ArchiverHeap.Cmp.gt_iff a b, ?_, ?_, ?_, ?_⟩
  · rw [← Bool.not_eq_true, ArchiverHeap.Cmp.gt_iff, lsn_t.lt_def]
    omega
  · rw [← Bool.not_eq_true, ArchiverHeap.Cmp.gt_iff, ArchiverHeap.Cmp.gt_iff,
      lsn_t.lt_def, lsn_t.lt_def]
    omega
  · rw [ArchiverHeap.Cmp.gt_iff, ArchiverHeap.Cmp.gt_iff, ArchiverHeap.Cmp.gt_iff,
      lsn_t.lt_def, lsn_t.lt_def, lsn_t.lt_def]
    omega
  · intro hne
    have hne' : ¬ (a.run = b.run ∧ a.pid = b.pid ∧ a.lsn.hi = b.lsn.hi ∧
        a.lsn.lo = b.lsn.lo) := by
      rintro ⟨h1, h2, h3, h4⟩
      exact hne (by rw [h1, h2, (lsn_t.ext_iff2 _ _).2 ⟨h3, h4⟩])
    rw [← Bool.not_eq_true, ← Bool.not_eq_true, ArchiverHeap.Cmp.gt_iff,
      ArchiverHeap.Cmp.gt_iff, lsn_t.lt_def, lsn_t.lt_def]
    omega

/-- C1 at concrete entries: equal runs and page ids, ordered by LSN. -/
theorem C1_gt_strict_lexicographic_witness :
    ArchiverHeap.Cmp.gt ⟨⟨1, 8⟩, ⟨1, 10⟩, 2, 7⟩ ⟨⟨9, 8⟩, ⟨1, 20⟩, 2, 7⟩ = true ∧
    ArchiverHeap.Cmp.gt ⟨⟨9, 8⟩, ⟨1, 20⟩, 2, 7⟩ ⟨⟨1, 8⟩, ⟨1, 10⟩, 2, 7⟩ = false :=
  ((C1_gt_strict_lexicographic ⟨⟨1, 8⟩, ⟨1, 10⟩, 2, 7⟩ ⟨⟨9, 8⟩, ⟨1, 20⟩, 2, 7⟩
      ⟨⟨1, 8⟩, ⟨1, 10⟩, 2, 7⟩).2.2.2.2 (by decide)).elim
    (fun h => h) (fun h => absurd h.1 (by decide))

/-! ### ArchiverHeap: effect of one call -/

theorem ArchiverHeap.allocate_w_heap {W : Type} (mm : mem_mgmt_t W) (h : ArchiverHeap W)
    (n : Nat) : (ArchiverHeap.allocate mm h n).2.w_heap = h.w_heap := by
  unfold ArchiverHeap.allocate
  simp only
  split_ifs <;> rfl

theorem ArchiverHeap.allocate_currentRun {W : Type} (mm : mem_mgmt_t W)
    (h : ArchiverHeap W) (n : Nat) :
    h.currentRun ≤ (ArchiverHeap.allocate mm h n).2.currentRun ∧
    (ArchiverHeap.allocate mm h n).2.currentRun ≤ h.currentRun + 1 := by
  unfold ArchiverHeap.allocate
  simp only
  split_ifs <;> simp

/-- A call without duplication: the run counter does not decrease; on failure the
heap is untouched; on success exactly the entry (currentRun, lr.pid, lr.lsn) is
inserted and the record of the caller is unchanged. -/
theorem ArchiverHeap.pushBody_false {W : Type} (mm : mem_mgmt_t W)
    (self : ArchiverHeap W → logrec_t → Bool × ArchiverHeap W × logrec_t)
    (h : ArchiverHeap W) (lr : logrec_t) :
    h.currentRun ≤ (ArchiverHeap.pushBody mm self h lr false).2.1.currentRun ∧
    ((ArchiverHeap.pushBody mm self h lr false).1 = false →
      (ArchiverHeap.pushBody mm self h lr false).2.1.w_heap = h.w_heap) ∧
    ((ArchiverHeap.pushBody mm self h lr false).1 = true →
      ∃ s : slot_t, (ArchiverHeap.pushBody mm self h lr false).2.1.w_heap.elems =
        h.w_heap.elems.orderedInsert heapLe
          ⟨s, lr.lsn, (ArchiverHeap.pushBody mm self h lr false).2.1.currentRun, lr.pid⟩) ∧
    (ArchiverHeap.pushBody mm self h lr false).2.2 = lr := by
  have ha := ArchiverHeap.allocate_currentRun mm h lr.length
  have hw := ArchiverHeap.allocate_w_heap mm h lr.length
  unfold ArchiverHeap.pushBody
  simp only [Bool.false_eq_true, if_false]
  split_ifs with h0 h1
  · exact ⟨ha.1, fun _ => hw, fun hc => by simp at hc, rfl⟩
  · refine ⟨?_, fun hc => by simp at hc,
      fun _ => ⟨(ArchiverHeap.allocate mm h lr.length).1, ?_⟩, rfl⟩
    · simp only; omega
    · simp only [Heap.AddElement, hw]
  · refine ⟨ha.1, fun hc => by simp at hc,
      fun _ => ⟨(ArchiverHeap.allocate mm h lr.length).1, ?_⟩, rfl⟩
    simp only [Heap.AddElement, hw]

/-- A duplicating call, given what the nested call does: the run counter does
not decrease; on failure the heap is untouched; on success the entry for
`lr.pid2` and the entry for `lr.pid` are inserted, in this order, with the LSN of
the record and the value of the run counter after the call. -/
theorem ArchiverHeap.pushBody_true {W : Type} (mm : mem_mgmt_t W)
    (self : ArchiverHeap W → logrec_t → Bool × ArchiverHeap W × logrec_t)
    (h : ArchiverHeap W) (lr : logrec_t)
    (hself : ∀ (h1 : ArchiverHeap W) (lr1 : logrec_t),
      h1.currentRun ≤ (self h1 lr1).2.1.currentRun ∧
      ((self h1 lr1).1 = false → (self h1 lr1).2.1.w_heap = h1.w_heap) ∧
      ((self h1 lr1).1 = true →
        ∃ s : slot_t, (self h1 lr1).2.1.w_heap.elems =
          h1.w_heap.elems.orderedInsert heapLe
            ⟨s, lr1.lsn, (self h1 lr1).2.1.currentRun, lr1.pid⟩)) :
    h.currentRun ≤ (ArchiverHeap.pushBody mm self h lr true).2.1.currentRun ∧
    ((ArchiverHeap.pushBody mm self h lr true).1 = false →
      (ArchiverHeap.pushBody mm self h lr true).2.1.w_heap = h.w_heap) ∧
    ((ArchiverHeap.pushBody mm self h lr true).1 = true →
      ∃ s s2 : slot_t, (ArchiverHeap.pushBody mm self h lr true).2.1.w_heap.elems =
        (h.w_heap.elems.orderedInsert heapLe
          ⟨s2, lr.lsn, (ArchiverHeap.pushBody mm self h lr true).2.1.currentRun,
            lr.pid2⟩).orderedInsert heapLe
          ⟨s, lr.lsn, (ArchiverHeap.pushBody mm self h lr true).2.1.currentRun, lr.pid⟩) := by
  have ha := ArchiverHeap.allocate_currentRun mm h lr.length
  have hw := ArchiverHeap.allocate_w_heap mm h lr.length
  have hs := hself
    { (ArchiverHeap.allocate mm h lr.length).2 with
      memory := ((ArchiverHeap.allocate mm h lr.length).1.address, lr) ::
        (ArchiverHeap.allocate mm h lr.length).2.memory }
    ((lr.set_pid lr.pid2).set_page_prev_lsn (lr.set_pid lr.pid2).page2_prev_lsn)
  unfold ArchiverHeap.pushBody
  simp only [if_true]
  split_ifs with h0 h1
  · exact ⟨ha.1, fun _ => hw, fun hc => by simp at hc⟩
  · have h1f : (self
        { (ArchiverHeap.allocate mm h lr.length).2 with
          memory := ((ArchiverHeap.allocate mm h lr.length).1.address, lr) ::
            (ArchiverHeap.allocate mm h lr.length).2.memory }
        ((lr.set_pid lr.pid2).set_page_prev_lsn (lr.set_pid lr.pid2).page2_prev_lsn)).1
        = false := by simpa using h1
    refine ⟨?_, fun _ => ?_, fun hc => by simp at hc⟩
    · exact le_trans ha.1 hs.1
    · simp only
      rw [hs.2.1 h1f]
      exact hw
  · have h1t : (self
        { (ArchiverHeap.allocate mm h lr.length).2 with
          memory := ((ArchiverHeap.allocate mm h lr.length).1.address, lr) ::
            (ArchiverHeap.allocate mm h lr.length).2.memory }
        ((lr.set_pid lr.pid2).set_page_prev_lsn (lr.set_pid lr.pid2).page2_prev_lsn)).1
        = true := by simpa using h1
    obtain ⟨s2, hs2⟩ := hs.2.2 h1t
    refine ⟨?_, fun hc => by simp at hc,
      fun _ => ⟨(ArchiverHeap.allocate mm h lr.length).1, s2, ?_⟩⟩
    · exact le_trans ha.1 hs.1
    · simp only [Heap.AddElement]
      rw [hs2]
      simp only [hw, logrec_t.set_pid, logrec_t.set_page_prev_lsn]

/-- The nested call of `push` is `push(lr, false)`. -/
theorem ArchiverHeap.push_false_eq {W : Type} (mm : mem_mgmt_t W)
    (self : ArchiverHeap W → logrec_t → Bool × ArchiverHeap W × logrec_t)
    (h : ArchiverHeap W) (lr : logrec_t) :
    ArchiverHeap.pushBody mm self h lr false = ArchiverHeap.push mm h lr false := by
  unfold ArchiverHeap.push ArchiverHeap.pushBody
  simp only [Bool.false_eq_true, if_false]

/-- Effect of `push(lr, false)`. -/
theorem ArchiverHeap.push_false_spec {W : Type} (mm : mem_mgmt_t W)
    (h : ArchiverHeap W) (lr : logrec_t) :
    h.currentRun ≤ (ArchiverHeap.push mm h lr false).2.1.currentRun ∧
    ((ArchiverHeap.push mm h lr false).1 = false →
      (ArchiverHeap.push mm h lr false).2.1.w_heap = h.w_heap) ∧
    ((ArchiverHeap.push mm h lr false).1 = true →
      ∃ s : slot_t, (ArchiverHeap.push mm h lr false).2.1.w_heap.elems =
        h.w_heap.elems.orderedInsert heapLe
          ⟨s, lr.lsn, (ArchiverHeap.push mm h lr false).2.1.currentRun, lr.pid⟩) := by
  have h1 := ArchiverHeap.pushBody_false mm
    (fun h2 lr2 => ((false, h2, lr2) : Bool × ArchiverHeap W × logrec_t)) h lr
  exact ⟨h1.1, h1.2.1, h1.2.2.1⟩

/-- Effect of `push(lr, true)`. -/
theorem ArchiverHeap.push_true_spec {W : Type} (mm : mem_mgmt_t W)
    (h : ArchiverHeap W) (lr : logrec_t) :
    h.currentRun ≤ (ArchiverHeap.push mm h lr true).2.1.currentRun ∧
    ((ArchiverHeap.push mm h lr true).1 = false →
      (ArchiverHeap.push mm h lr true).2.1.w_heap = h.w_heap) ∧
    ((ArchiverHeap.push mm h lr true).1 = true →
      ∃ s s2 : slot_t, (ArchiverHeap.push mm h lr true).2.1.w_heap.elems =
        (h.w_heap.elems.orderedInsert heapLe
          ⟨s2, lr.lsn, (ArchiverHeap.push mm h lr true).2.1.currentRun,
            lr.pid2⟩).orderedInsert heapLe
          ⟨s, lr.lsn, (ArchiverHeap.push mm h lr true).2.1.currentRun, lr.pid⟩) :=
  ArchiverHeap.pushBody_true mm _ h lr (fun h1 lr1 =>
    let h2 := ArchiverHeap.pushBody_false mm
      (fun h2 lr2 => ((false, h2, lr2) : Bool × ArchiverHeap W × logrec_t)) h1 lr1
    ⟨h2.1, h2.2.1, h2.2.2.1⟩)

/-- C3: a successful `push(lr, true)` adds exactly two heap entries, one with page
id `lr.pid` and one with page id `lr.pid2`, both with the LSN of the record and
both with the same run number; a successful `push(lr, false)` adds exactly one
entry, with `(lr.pid, lr.lsn)`. -/
theorem C3_push_adds_entries {W : Type} (mm : mem_mgmt_t W) (h : ArchiverHeap W)
    (lr : logrec_t) :
    ((ArchiverHeap.push mm h lr true).1 = true →
      ∃ (s s2 : slot_t) (run : Int),
        List.Perm (ArchiverHeap.push mm h lr true).2.1.w_heap.elems
          (⟨s, lr.lsn, run, lr.pid⟩ :: ⟨s2, lr.lsn, run, lr.pid2⟩ :: h.w_heap.elems) ∧
        (ArchiverHeap.push mm h lr true).2.1.size = h.size + 2) ∧
    ((ArchiverHeap.push mm h lr false).1 = true →
      ∃ (s : slot_t) (run : Int),
        List.Perm (ArchiverHeap.push mm h lr false).2.1.w_heap.elems
          (⟨s, lr.lsn, run, lr.pid⟩ :: h.w_heap.elems) ∧
        (ArchiverHeap.push mm h lr false).2.1.size = h.size + 1) := by
  constructor
  · intro hok
    obtain ⟨s, s2, hs⟩ := (ArchiverHeap.push_true_spec mm h lr).2.2 hok
    refine ⟨s, s2, (ArchiverHeap.push mm h lr true).2.1.currentRun, ?_, ?_⟩
    · rw [hs]
      exact (List.perm_orderedInsert _ _ _).trans
        (List.Perm.cons _ (List.perm_orderedInsert _ _ _))
    · simp only [ArchiverHeap.size, Heap.NumElements, hs, List.orderedInsert_length]
  · intro hok
    obtain ⟨s, hs⟩ := (ArchiverHeap.push_false_spec mm h lr).2.2 hok
    refine ⟨s, (ArchiverHeap.push mm h lr false).2.1.currentRun, ?_, ?_⟩
    · rw [hs]
      exact List.perm_orderedInsert _ _ _
    · simp only [ArchiverHeap.size, Heap.NumElements, hs, List.orderedInsert_length]

/-- C3 on a multi-page record with page ids 100 and 200 pushed into an empty heap
over a workspace of 100 bytes. -/
theorem C3_push_adds_entries_witness :
    ∃ (s s2 : slot_t) (run : Int),
      List.Perm
        (ArchiverHeap.push Arena.mem_mgmt (ArchiverHeap.init (Arena.empty 100))
          ⟨40, 1, 100, 200, ⟨1, 0⟩, ⟨0, 0⟩, ⟨0, 0⟩⟩ true).2.1.w_heap.elems
        (⟨s, ⟨1, 0⟩, run, 100⟩ :: ⟨s2, ⟨1, 0⟩, run, 200⟩ :: []) ∧
      (ArchiverHeap.push Arena.mem_mgmt (ArchiverHeap.init (Arena.empty 100))
        ⟨40, 1, 100, 200, ⟨1, 0⟩, ⟨0, 0⟩, ⟨0, 0⟩⟩ true).2.1.size = 0 + 2 :=
  (C3_push_adds_entries Arena.mem_mgmt (ArchiverHeap.init (Arena.empty 100))
    ⟨40, 1, 100, 200, ⟨1, 0⟩, ⟨0, 0⟩, ⟨0, 0⟩⟩).1 (by decide)

/-! ### ArchiverHeap: run numbers over a sequence of calls -/

/-- What is in `l2` beyond `l1`, when `l2` is `l1` with the elements `new` added. -/
theorem diff_perm_of_perm_append (l1 l2 new : List HeapEntry)
    (hp : List.Perm l2 (new ++ l1)) : List.Perm (l2.diff l1) new := by
  have h1 : (↑(l2.diff l1) : Multiset HeapEntry) = ↑new := by
    rw [← Multiset.coe_sub, Multiset.coe_eq_coe.2 hp, ← Multiset.coe_add,
      add_tsub_cancel_right]
  exact Multiset.coe_eq_coe.1 h1

/-- Effect of any `push` on the run numbers: the counter does not decrease, the
bound on the heap entries is kept, and on success every entry that is new in the
heap carries the value of the counter after the call. -/
theorem ArchiverHeap.push_runs {W : Type} (mm : mem_mgmt_t W) (h : ArchiverHeap W)
    (lr : logrec_t) (duplicate : Bool) (hb : h.runsBounded) :
    h.currentRun ≤ (ArchiverHeap.push mm h lr duplicate).2.1.currentRun ∧
    (ArchiverHeap.push mm h lr duplicate).2.1.runsBounded ∧
    ((ArchiverHeap.push mm h lr duplicate).1 = true →
      ∀ e ∈ (ArchiverHeap.push mm h lr duplicate).2.1.w_heap.elems.diff h.w_heap.elems,
        e.run = (ArchiverHeap.push mm h lr duplicate).2.1.currentRun) := by
  cases duplicate with
  | false =>
    obtain ⟨hle, hf, ht⟩ := ArchiverHeap.push_false_spec mm h lr
    refine ⟨hle, ?_, ?_⟩
    · intro e he
      cases hok : (ArchiverHeap.push mm h lr false).1 with
      | false =>
        rw [hf hok] at he
        exact le_trans (hb e he) hle
      | true =>
        obtain ⟨s, hs⟩ := ht hok
        rw [hs, List.mem_orderedInsert] at he
        rcases he with he | he
        · rw [he]
        · exact le_trans (hb e he) hle
    · intro hok e he
      obtain ⟨s, hs⟩ := ht hok
      have hp := diff_perm_of_perm_append h.w_heap.elems
        (ArchiverHeap.push mm h lr false).2.1.w_heap.elems
        [⟨s, lr.lsn, (ArchiverHeap.push mm h lr false).2.1.currentRun, lr.pid⟩]
        (by rw [hs]; exact List.perm_orderedInsert _ _ _)
      have he2 := hp.subset he
      simp only [List.mem_singleton] at he2
      rw [he2]
  | true =>
    obtain ⟨hle, hf, ht⟩ := ArchiverHeap.push_true_spec mm h lr
    refine ⟨hle, ?_, ?_⟩
    · intro e he
      cases hok : (ArchiverHeap.push mm h lr true).1 with
      | false =>
        rw [hf hok] at he
        exact le_trans (hb e he) hle
      | true =>
        obtain ⟨s, s2, hs⟩ := ht hok
        rw [hs, List.mem_orderedInsert, List.mem_orderedInsert] at he
        rcases he with he | he | he
        · rw [he]
        · rw [he]
        · exact le_trans (hb e he) hle
    · intro hok e he
      obtain ⟨s, s2, hs⟩ := ht hok
      have hp := diff_perm_of_perm_append h.w_heap.elems
        (ArchiverHeap.push mm h lr true).2.1.w_heap.elems
        [⟨s, lr.lsn, (ArchiverHeap.push mm h lr true).2.1.currentRun, lr.pid⟩,
          ⟨s2, lr.lsn, (ArchiverHeap.push mm h lr true).2.1.currentRun, lr.pid2⟩]
        (by
          rw [hs]
          exact (List.perm_orderedInsert _ _ _).trans
            (List.Perm.cons _ (List.perm_orderedInsert _ _ _)))
      have he2 := hp.subset he
      simp only [List.mem_cons, List.mem_singleton, List.not_mem_nil, or_false] at he2
      rcases he2 with he2 | he2 <;> rw [he2]

/-- Effect of `pop` on the run numbers. -/
theorem ArchiverHeap.pop_runs {W : Type} (mm : mem_mgmt_t W) (h h1 : ArchiverHeap W)
    (hb : h.runsBounded) (hp : ArchiverHeap.pop mm h = some h1) :
    h.currentRun ≤ h1.currentRun ∧ h1.runsBounded := by
  unfold ArchiverHeap.pop at hp
  cases hf : h.w_heap.First with
  | none => rw [hf] at hp; simp at hp
  | some e =>
    rw [hf] at hp
    simp only at hp
    have htail : ∀ x ∈ h.w_heap.elems.tail, x.run ≤ h.currentRun :=
      fun x hx => hb x (List.mem_of_mem_tail hx)
    split_ifs at hp with hz
    · cases hp
      refine ⟨by simp, ?_⟩
      intro x hx
      have := htail x hx
      simp only at this ⊢
      omega
    · cases hp
      exact ⟨le_refl _, htail⟩

/-- Run numbers along an execution that starts in a heap whose entries respect
the run counter. -/
theorem ArchiverHeap.exec_runs {W : Type} (mm : mem_mgmt_t W) (calls : List HeapCall) :
    ∀ (h hf : ArchiverHeap W) (evs : List PushEvent), h.runsBounded →
      ArchiverHeap.exec mm h calls = some (hf, evs) →
      h.currentRun ≤ hf.currentRun ∧
      (∀ e ∈ pushedEntries evs, h.currentRun ≤ e.run) ∧
      ((pushedEntries evs).map (fun e => e.run)).Pairwise (fun a b => a ≤ b) ∧
      (∀ ev ∈ evs, ∀ e ∈ ev.added, ∀ t, ev.topRunBefore = some t → t ≤ e.run) := by
  induction calls with
  | nil =>
    intro h hf evs _ hex
    simp only [ArchiverHeap.exec, Option.some.injEq, Prod.mk.injEq] at hex
    obtain ⟨h1, h2⟩ := hex
    subst h1; subst h2
    simp [pushedEntries]
  | cons c rest ih =>
    intro h hf evs hb hex
    cases c with
    | pop =>
      simp only [ArchiverHeap.exec] at hex
      cases hp : ArchiverHeap.pop mm h with
      | none => rw [hp] at hex; simp at hex
      | some h1 =>
        rw [hp] at hex
        simp only at hex
        obtain ⟨hle, hb1⟩ := ArchiverHeap.pop_runs mm h h1 hb hp
        obtain ⟨i1, i2, i3, i4⟩ := ih h1 hf evs hb1 hex
        exact ⟨le_trans hle i1, fun e he => le_trans hle (i2 e he), i3, i4⟩
    | push lr duplicate =>
      simp only [ArchiverHeap.exec] at hex
      obtain ⟨hle, hb1, hnew⟩ := ArchiverHeap.push_runs mm h lr duplicate hb
      cases hrest : ArchiverHeap.exec mm (ArchiverHeap.push mm h lr duplicate).2.1 rest with
      | none => rw [hrest] at hex; simp at hex
      | some p =>
        obtain ⟨hf1, evs1⟩ := p
        rw [hrest] at hex
        simp only at hex
        obtain ⟨i1, i2, i3, i4⟩ := ih _ hf1 evs1 hb1 hrest
        cases hok : (ArchiverHeap.push mm h lr duplicate).1 with
        | false =>
          rw [hok] at hex
          simp only [Bool.false_eq_true, if_false, Option.some.injEq, Prod.mk.injEq] at hex
          obtain ⟨e1, e2⟩ := hex
          subst e1; subst e2
          exact ⟨le_trans hle i1, fun e he => le_trans hle (i2 e he), i3, i4⟩
        | true =>
          rw [hok] at hex
          simp only [if_true, Option.some.injEq, Prod.mk.injEq] at hex
          obtain ⟨e1, e2⟩ := hex
          subst e1; subst e2
          have hadd := hnew hok
          refine ⟨le_trans hle i1, ?_, ?_, ?_⟩
          · intro e he
            simp only [pushedEntries, List.flatMap_cons, List.mem_append] at he
            rcases he with he | he
            · rw [hadd e he]; exact hle
            · exact le_trans hle (i2 e he)
          · simp only [pushedEntries, List.flatMap_cons, List.map_append]
            rw [List.pairwise_append]
            refine ⟨?_, i3, ?_⟩
            · apply List.pairwise_of_forall_mem_list
              intro a ha b hb2
              simp only [List.mem_map] at ha hb2
              obtain ⟨x, hx, rfl⟩ := ha
              obtain ⟨y, hy, rfl⟩ := hb2
              rw [hadd x hx, hadd y hy]
            · intro a ha b hb2
              simp only [List.mem_map] at ha hb2
              obtain ⟨x, hx, rfl⟩ := ha
              obtain ⟨y, hy, rfl⟩ := hb2
              rw [hadd x hx]
              exact i2 y hy
          · intro ev hev e he t ht
            simp only [List.mem_cons] at hev
            rcases hev with hev | hev
            · subst hev
              simp only at he ht
              rw [hadd e he]
              simp only [ArchiverHeap.topRun, Heap.First, Option.map_eq_some'] at ht
              obtain ⟨x, hx, rfl⟩ := ht
              exact le_trans (hb x (List.mem_of_mem_head? hx)) hle
            · exact i4 ev hev e he t ht

/-- In a non-decreasing list, equal values enclose only equal values. -/
theorem contiguous_of_pairwise_le (l : List Int) (hl : l.Pairwise (fun a b => a ≤ b))
    (i j k : Nat) (hij : i < j) (hjk : j < k) (a b c : Int)
    (ha : l[i]? = some a) (hb : l[j]? = some b) (hc : l[k]? = some c) (hac : a = c) :
    b = a := by
  rw [List.pairwise_iff_getElem] at hl
  obtain ⟨hi, rfl⟩ := List.getElem?_eq_some_iff.1 ha
  obtain ⟨hj, rfl⟩ := List.getElem?_eq_some_iff.1 hb
  obtain ⟨hk, rfl⟩ := List.getElem?_eq_some_iff.1 hc
  have h1 := hl i j hi hj hij
  have h2 := hl j k hj hk hjk
  omega

/-- C2: over every sequence of `push` and `pop` calls on a freshly constructed
heap, the run counter never decreases, the run numbers of the entries pushed are
non-decreasing in push order, no entry is pushed with a run number below the run
of the heap top at the time of the call, and therefore the entries of one run
are a contiguous segment of the push order. -/
theorem C2_run_numbers_monotone {W : Type} (mm : mem_mgmt_t W) (w : W)
    (calls : List HeapCall) (hf : ArchiverHeap W) (evs : List PushEvent)
    (hex : ArchiverHeap.exec mm (ArchiverHeap.init w) calls = some (hf, evs)) :
    (∀ (h : ArchiverHeap W) (lr : logrec_t) (d : Bool),
      h.currentRun ≤ (ArchiverHeap.push mm h lr d).2.1.currentRun) ∧
    (∀ h h1 : ArchiverHeap W, ArchiverHeap.pop mm h = some h1 →
      h.currentRun ≤ h1.currentRun) ∧
    ((pushedEntries evs).map (fun e => e.run)).Pairwise (fun a b => a ≤ b) ∧
    (∀ ev ∈ evs, ∀ e ∈ ev.added, ∀ t, ev.topRunBefore = some t → t ≤ e.run) ∧
    (∀ (i j k : Nat), i < j → j < k → ∀ (a b c : HeapEntry),
      (pushedEntries evs)[i]? = some a → (pushedEntries evs)[j]? = some b →
      (pushedEntries evs)[k]? = some c → a.run = c.run → b.run = a.run) := by
  have hinit : (ArchiverHeap.init w).runsBounded := by
    intro e he
    simp [ArchiverHeap.init] at he
  obtain ⟨_, _, h3, h4⟩ := ArchiverHeap.exec_runs mm calls _ hf evs hinit hex
  refine ⟨?_, ?_, h3, h4, ?_⟩
  · intro h lr d
    cases d with
    | false => exact (ArchiverHeap.push_false_spec mm h lr).1
    | true => exact (ArchiverHeap.push_true_spec mm h lr).1
  · intro h h1 hp
    unfold ArchiverHeap.pop at hp
    cases hfst : h.w_heap.First with
    | none => rw [hfst] at hp; simp at hp
    | some e =>
      rw [hfst] at hp
      simp only at hp
      split_ifs at hp with hz
      · cases hp; simp
      · cases hp; exact le_refl _
  · intro i j k hij hjk a b c ha hb hc hac
    apply contiguous_of_pairwise_le _ h3 i j k hij hjk a.run b.run c.run _ _ _ hac
    · simp [List.getElem?_map, ha]
    · simp [List.getElem?_map, hb]
    · simp [List.getElem?_map, hc]

/-- C2 on a workspace of 100 bytes: a multi-page record of 40 bytes is pushed
(two entries of run 0), a second record does not fit (the first run is closed),
one entry is popped and the second record is pushed again and lands in run 1. -/
theorem C2_run_numbers_monotone_witness :
    ArchiverHeap.exec Arena.mem_mgmt (ArchiverHeap.init (Arena.empty 100))
      [HeapCall.push ⟨40, 1, 100, 200, ⟨1, 0⟩, ⟨0, 0⟩, ⟨0, 0⟩⟩ true,
       HeapCall.push ⟨40, 1, 50, 0, ⟨1, 40⟩, ⟨0, 0⟩, ⟨0, 0⟩⟩ false,
       HeapCall.pop,
       HeapCall.push ⟨40, 1, 50, 0, ⟨1, 40⟩, ⟨0, 0⟩, ⟨0, 0⟩⟩ false]
      = some (
        { currentRun := 1, filledFirst := true,
          workspace := ⟨100, 121, [⟨81, 40⟩, ⟨41, 40⟩]⟩,
          memory := [(81, ⟨40, 1, 50, 0, ⟨1, 40⟩, ⟨0, 0⟩, ⟨0, 0⟩⟩),
                     (41, ⟨40, 1, 200, 200, ⟨1, 0⟩, ⟨0, 0⟩, ⟨0, 0⟩⟩),
                     (1, ⟨40, 1, 100, 200, ⟨1, 0⟩, ⟨0, 0⟩, ⟨0, 0⟩⟩)],
          w_heap := ⟨[⟨⟨41, 40⟩, ⟨1, 0⟩, 0, 200⟩, ⟨⟨81, 40⟩, ⟨1, 40⟩, 1, 50⟩]⟩ },
        [⟨none, [⟨⟨1, 40⟩, ⟨1, 0⟩, 0, 100⟩, ⟨⟨41, 40⟩, ⟨1, 0⟩, 0, 200⟩]⟩,
         ⟨some 0, [⟨⟨81, 40⟩, ⟨1, 40⟩, 1, 50⟩]⟩]) ∧
    ((pushedEntries
        [⟨none, [⟨⟨1, 40⟩, ⟨1, 0⟩, 0, 100⟩, ⟨⟨41, 40⟩, ⟨1, 0⟩, 0, 200⟩]⟩,
         ⟨some 0, [⟨⟨81, 40⟩, ⟨1, 40⟩, 1, 50⟩]⟩]).map
      (fun e => e.run)).Pairwise (fun a b => a ≤ b) :=
  and_of_imp rfl
    (fun hex => (C2_run_numbers_monotone Arena.mem_mgmt (Arena.empty 100) _ _ _ hex).2.2.1)

/-! ### Order of LSNs -/

theorem lsn_t.le_refl (a : lsn_t) : a ≤ a := by
  rw [lsn_t.le_def]; omega

theorem lsn_t.le_of_not_lt {a b : lsn_t} (h : ¬ a < b) : b ≤ a := by
  rw [lsn_t.lt_def] at h; rw [lsn_t.le_def]; omega

theorem lsn_t.le_of_lt {a b : lsn_t} (h : a < b) : a ≤ b := by
  rw [lsn_t.lt_def] at h; rw [lsn_t.le_def]; omega

theorem lsn_t.le_trans {a b c : lsn_t} (h1 : a ≤ b) (h2 : b ≤ c) : a ≤ c := by
  rw [lsn_t.le_def] at h1 h2 ⊢; omega

theorem lsn_t.lt_of_lt_of_le {a b c : lsn_t} (h1 : a < b) (h2 : b ≤ c) : a < c := by
  rw [lsn_t.lt_def] at h1 ⊢; rw [lsn_t.le_def] at h2; omega

theorem lsn_t.lt_of_le_of_lt {a b c : lsn_t} (h1 : a ≤ b) (h2 : b < c) : a < c := by
  rw [lsn_t.lt_def] at h2 ⊢; rw [lsn_t.le_def] at h1; omega

theorem lsn_t.not_lt_of_le {a b : lsn_t} (h : a ≤ b) : ¬ b < a := by
  rw [lsn_t.lt_def]; rw [lsn_t.le_def] at h; omega

theorem lsn_t.lt_irrefl (a : lsn_t) : ¬ a < a := by
  rw [lsn_t.lt_def]; omega

theorem lsn_t.lt_advance (a : lsn_t) (n : Nat) (hn : 0 < n) : a < a.advance n := by
  show a.hi < a.hi ∨ (a.hi = a.hi ∧ a.lo < a.lo + n)
  omega

theorem lsn_t.null_le (a : lsn_t) : lsn_t.null ≤ a := by
  rw [lsn_t.le_def]; simp only [lsn_t.null]; omega

/-! ### BlockAssembly: effect of one call -/

/-- Effect of `add`: either the record does not fit and nothing changes, or the
record is appended and maximum LSN, bucket list, next bucket and file position
are updated. -/
theorem BlockAssembly.add_spec (hdr : Nat) (b : BlockAssembly) (lr : logrec_t)
    (r : Bool × BlockAssembly) (h : BlockAssembly.add hdr b lr = some r) :
    (r.1 = false ∧ r.2 = b) ∨
    (r.1 = true ∧ b.bucketSize ≠ 0 ∧
      (∃ recs, b.dest = some recs ∧ r.2.dest = some (recs ++ [lr])) ∧
      r.2.maxLSNInBlock = (if b.maxLSNInBlock < lr.lsn then lr.lsn else b.maxLSNInBlock) ∧
      r.2.maxLSNLength = (if b.maxLSNInBlock < lr.lsn then lr.length else b.maxLSNLength) ∧
      r.2.buckets = (if lr.pid / b.bucketSize ≥ b.nextBucket then
          b.buckets ++ [((lr.pid / b.bucketSize) * b.bucketSize, b.fpos)]
        else b.buckets) ∧
      r.2.nextBucket = (if lr.pid / b.bucketSize ≥ b.nextBucket then
          (lr.pid / b.bucketSize) * b.bucketSize / b.bucketSize + 1
        else b.nextBucket) ∧
      r.2.fpos = b.fpos + lr.length ∧
      r.2.bucketSize = b.bucketSize ∧ r.2.writebuf = b.writebuf ∧
      r.2.archIndex = b.archIndex ∧ r.2.level = b.level ∧ r.2.lastRun = b.lastRun) := by
  unfold BlockAssembly.add at h
  cases hd : b.dest with
  | none => rw [hd] at h; simp at h
  | some recs =>
    rw [hd] at h
    simp only at h
    split_ifs at h with h1 h2 h3 h4 h5 h6 h7 h8 h10 h11 <;>
      first
      | (simp only [Option.some.injEq] at h; subst h; left; exact ⟨rfl, rfl⟩)
      | (exfalso; simp at h; done)
      | (simp only [Option.some.injEq] at h; subst h; right
         simp_all
         try (rw [if_neg (Nat.not_le.2 ‹lr.pid / b.bucketSize < b.nextBucket›),
           if_neg (Nat.not_le.2 ‹lr.pid / b.bucketSize < b.nextBucket›)]
              exact ⟨rfl, rfl⟩))

/-- Effect of `start`. -/
theorem BlockAssembly.start_spec (b : BlockAssembly) (run : Int) (r : Bool × BlockAssembly)
    (h : b.start run = some r) :
    r.2.writebuf = b.writebuf ∧ r.2.maxLSNInBlock = b.maxLSNInBlock ∧
    r.2.maxLSNLength = b.maxLSNLength ∧ r.2.bucketSize = b.bucketSize ∧
    r.2.level = b.level ∧
    (r.1 = true → r.2.dest = some [] ∧ r.2.buckets = [] ∧ r.2.lastRun = run ∧
      (run ≠ b.lastRun → r.2.fpos = 0 ∧ r.2.nextBucket = 0 ∧
        b.archIndex.appendNewEntry b.level = some r.2.archIndex) ∧
      (run = b.lastRun → r.2.fpos = b.fpos ∧ r.2.nextBucket = b.nextBucket ∧
        r.2.archIndex = b.archIndex)) := by
  unfold BlockAssembly.start at h
  by_cases h1 : b.writebuf.finished = true
  · rw [if_pos h1] at h
    simp only [Option.some.injEq] at h; subst h; simp
  · rw [if_neg h1] at h
    simp only at h
    by_cases h2 : run = b.lastRun
    · rw [if_neg (by simpa using h2)] at h
      simp only [Option.some.injEq] at h; subst h
      simp [h2]
    · rw [if_pos h2] at h
      cases ha : b.archIndex.appendNewEntry b.level with
      | none => rw [ha] at h; simp at h
      | some ix =>
        rw [ha] at h
        simp only [Option.some.injEq] at h; subst h
        simp [h2]

/-- Effect of `finish`. -/
theorem BlockAssembly.finish_spec (b b1 : BlockAssembly) (h : b.finish = some b1) :
    ∃ recs ix, b.dest = some recs ∧ b.archIndex.newBlock b.buckets b.level = some ix ∧
      b1.archIndex = ix ∧ b1.maxLSNInBlock = lsn_t.null ∧ b1.dest = none ∧
      b1.writebuf.released = b.writebuf.released ++
        [⟨⟨b.maxLSNInBlock.advance b.maxLSNLength, b.pos, b.lastRun⟩, recs⟩] ∧
      b1.fpos = b.fpos ∧ b1.nextBucket = b.nextBucket ∧ b1.lastRun = b.lastRun ∧
      b1.bucketSize = b.bucketSize ∧ b1.level = b.level := by
  unfold BlockAssembly.finish at h
  cases hd : b.dest with
  | none => rw [hd] at h; simp at h
  | some recs =>
    rw [hd] at h
    simp only at h
    cases hn : b.archIndex.newBlock b.buckets b.level with
    | none => rw [hn] at h; simp at h
    | some ix =>
      rw [hn] at h
      simp only [Option.some.injEq] at h; subst h
      exact ⟨recs, ix, rfl, rfl, rfl, rfl, rfl, rfl, rfl, rfl, rfl, rfl, rfl⟩

/-! ### BlockAssembly: the header LSN of a block -/

theorem BlockAssembly.add_maxTracked (hdr : Nat) (b : BlockAssembly) (lr : logrec_t)
    (r : Bool × BlockAssembly) (h : BlockAssembly.add hdr b lr = some r)
    (hb : b.maxTracked) : r.2.maxTracked ∧ r.2.writebuf = b.writebuf := by
  rcases BlockAssembly.add_spec hdr b lr r h with ⟨_, h2⟩ | ⟨_, _, ⟨recs, hd, hd2⟩, hm, hl, _, _, _, _, hw, _⟩
  · rw [h2]; exact ⟨hb, rfl⟩
  · refine ⟨⟨recs ++ [lr], hd2, ?_, ?_⟩, hw⟩
    · obtain ⟨recs0, hd0, hle, _⟩ := hb
      rw [hd] at hd0
      cases hd0
      intro q hq
      rw [hm]
      simp only [List.mem_append, List.mem_singleton] at hq
      split_ifs with hlt
      · rcases hq with hq | hq
        · exact lsn_t.le_of_lt (lsn_t.lt_of_le_of_lt (hle q hq) hlt)
        · rw [hq]; exact lsn_t.le_refl _
      · rcases hq with hq | hq
        · exact hle q hq
        · rw [hq]; exact lsn_t.le_of_not_lt hlt
    · obtain ⟨recs0, hd0, _, hex⟩ := hb
      rw [hd] at hd0
      cases hd0
      rw [hm, hl]
      split_ifs with hlt
      · intro _
        exact ⟨lr, by simp, rfl, rfl⟩
      · intro hnn
        obtain ⟨q, hq, hq1, hq2⟩ := hex hnn
        exact ⟨q, by simp [hq], hq1, hq2⟩

theorem BlockAssembly.addAll_maxTracked (hdr : Nat) (recs : List logrec_t) :
    ∀ (b b1 : BlockAssembly), BlockAssembly.addAll hdr b recs = some b1 → b.maxTracked →
      b1.maxTracked ∧ b1.writebuf = b.writebuf := by
  induction recs with
  | nil =>
    intro b b1 h hb
    simp only [BlockAssembly.addAll, Option.some.injEq] at h
    subst h
    exact ⟨hb, rfl⟩
  | cons lr rest ih =>
    intro b b1 h hb
    simp only [BlockAssembly.addAll] at h
    cases ha : BlockAssembly.add hdr b lr with
    | none => rw [ha] at h; simp at h
    | some r =>
      rw [ha] at h
      simp only at h
      obtain ⟨h1, h2⟩ := BlockAssembly.add_maxTracked hdr b lr r ha hb
      obtain ⟨h3, h4⟩ := ih r.2 b1 h h1
      exact ⟨h3, h4.trans h2⟩

theorem BlockAssembly.produce_wellFormed (hdr : Nat) (b b1 : BlockAssembly) (run : Int)
    (recs : List logrec_t) (h : BlockAssembly.produce hdr b run recs = some b1)
    (hb : b.blocksWellFormed) : b1.blocksWellFormed := by
  unfold BlockAssembly.produce at h
  cases hs : b.start run with
  | none => rw [hs] at h; simp at h
  | some r =>
    obtain ⟨ok, b2⟩ := r
    rw [hs] at h
    obtain ⟨hw, hm, _, _, _, hok⟩ := BlockAssembly.start_spec b run (ok, b2) hs
    cases ok with
    | false =>
      simp only [Option.some.injEq] at h
      subst h
      exact ⟨hm.trans hb.1, by rw [hw]; exact hb.2⟩
    | true =>
      simp only at h
      cases ha : BlockAssembly.addAll hdr b2 recs with
      | none => rw [ha] at h; simp at h
      | some b3 =>
        rw [ha] at h
        simp only at h
        have ht2 : b2.maxTracked := by
          refine ⟨[], (hok rfl).1, by simp, ?_⟩
          intro hlt
          simp only at hm
          rw [hm, hb.1] at hlt
          exact absurd hlt (lsn_t.lt_irrefl _)
        obtain ⟨ht3, hw3⟩ := BlockAssembly.addAll_maxTracked hdr recs b2 b3 ha ht2
        obtain ⟨recs3, ix, hd3, _, _, hnull, _, hrel, _⟩ := BlockAssembly.finish_spec b3 b1 h
        refine ⟨hnull, ?_⟩
        intro blk hblk hex
        rw [hrel, hw3] at hblk
        simp only at hw
        rw [hw] at hblk
        simp only [List.mem_append, List.mem_singleton] at hblk
        rcases hblk with hblk | hblk
        · exact hb.2 blk hblk hex
        · subst hblk
          obtain ⟨recs4, hd4, hle, hmax⟩ := ht3
          rw [hd3] at hd4
          cases hd4
          obtain ⟨q, hq, hqn⟩ := hex
          simp only at hq
          have hpos : lsn_t.null < b3.maxLSNInBlock := lsn_t.lt_of_lt_of_le hqn (hle q hq)
          obtain ⟨m, hm1, hm2, hm3⟩ := hmax hpos
          refine ⟨m, hm1, ?_, ?_⟩
          · intro q2 hq2
            rw [hm2]
            exact hle q2 hq2
          · simp only
            rw [hm2, hm3]

theorem BlockAssembly.produceAll_wellFormed (hdr : Nat) (cs : List (Int × List logrec_t)) :
    ∀ (b b1 : BlockAssembly), BlockAssembly.produceAll hdr b cs = some b1 →
      b.blocksWellFormed → b1.blocksWellFormed := by
  induction cs with
  | nil =>
    intro b b1 h hb
    simp only [BlockAssembly.produceAll, Option.some.injEq] at h
    subst h
    exact hb
  | cons c rest ih =>
    intro b b1 h hb
    simp only [BlockAssembly.produceAll] at h
    cases hp : BlockAssembly.produce hdr b c.1 c.2 with
    | none => rw [hp] at h; simp at h
    | some b2 =>
      rw [hp] at h
      simp only at h
      exact ih b2 b1 h (BlockAssembly.produce_wellFormed hdr b b2 c.1 c.2 hp hb)

/-- C4: in every block produced by start / add* / finish with at least one added
record, the records being log records (each of positive length, one of them at
least with an LSN above `lsn_t::null`, the value that stands for no LSN), the
header LSN written by `finish` is strictly greater than the LSN of every record
of the block and equals the LSN of a record of greatest LSN in the block
advanced by the length of that record. -/
theorem C4_header_lsn_follows_records (sizeof_baseLogHeader : Nat) (ix : ArchiveIndex)
    (blockSize level pos0 fpos0 firstPID0 : Nat) (cs : List (Int × List logrec_t))
    (b : BlockAssembly)
    (hrun : BlockAssembly.produceAll sizeof_baseLogHeader
      (BlockAssembly.init ix blockSize level pos0 fpos0 firstPID0) cs = some b)
    (blk : Block) (hblk : blk ∈ b.writebuf.released)
    (hlen : ∀ r ∈ blk.records, 0 < r.length)
    (hlsn : ∃ r ∈ blk.records, lsn_t.null < r.lsn) :
    (∀ r ∈ blk.records, r.lsn < blk.header.lsn) ∧
    (∃ r ∈ blk.records, (∀ q ∈ blk.records, q.lsn ≤ r.lsn) ∧
      blk.header.lsn = r.lsn.advance r.length) := by
  have hinit : (BlockAssembly.init ix blockSize level pos0 fpos0 firstPID0).blocksWellFormed := by
    refine ⟨rfl, ?_⟩
    intro blk1 h1
    simp [BlockAssembly.init] at h1
  have hwf := BlockAssembly.produceAll_wellFormed sizeof_baseLogHeader cs _ b hrun hinit
  obtain ⟨m, hm, hmax, hhdr⟩ := hwf.2 blk hblk hlsn
  refine ⟨?_, m, hm, hmax, hhdr⟩
  intro r hr
  rw [hhdr]
  exact lsn_t.lt_of_le_of_lt (hmax r hr) (lsn_t.lt_advance _ _ (hlen m hm))

/-- C4 on a block of two records with LSNs 1.0 and 1.40, each 40 bytes long: the
header LSN is 1.80. -/
theorem C4_header_lsn_follows_records_witness :
    (∀ r ∈ [(⟨40, 1, 100, 200, ⟨1, 0⟩, ⟨0, 0⟩, ⟨0, 0⟩⟩ : logrec_t),
        ⟨40, 1, 150, 0, ⟨1, 40⟩, ⟨0, 0⟩, ⟨0, 0⟩⟩], r.lsn < (⟨1, 80⟩ : lsn_t)) ∧
    (∃ r ∈ [(⟨40, 1, 100, 200, ⟨1, 0⟩, ⟨0, 0⟩, ⟨0, 0⟩⟩ : logrec_t),
        ⟨40, 1, 150, 0, ⟨1, 40⟩, ⟨0, 0⟩, ⟨0, 0⟩⟩],
      (∀ q ∈ [(⟨40, 1, 100, 200, ⟨1, 0⟩, ⟨0, 0⟩, ⟨0, 0⟩⟩ : logrec_t),
        ⟨40, 1, 150, 0, ⟨1, 40⟩, ⟨0, 0⟩, ⟨0, 0⟩⟩], q.lsn ≤ r.lsn) ∧
      (⟨1, 80⟩ : lsn_t) = r.lsn.advance r.length) :=
  C4_header_lsn_follows_records 16 (ArchiveIndex.init 200 128) 200 1 0 0 0
    [(0, [⟨40, 1, 100, 200, ⟨1, 0⟩, ⟨0, 0⟩, ⟨0, 0⟩⟩,
          ⟨40, 1, 150, 0, ⟨1, 40⟩, ⟨0, 0⟩, ⟨0, 0⟩⟩])]
    { dest := none,
      writebuf := ⟨false, [⟨⟨⟨1, 80⟩, 96, 0⟩,
        [⟨40, 1, 100, 200, ⟨1, 0⟩, ⟨0, 0⟩, ⟨0, 0⟩⟩,
         ⟨40, 1, 150, 0, ⟨1, 40⟩, ⟨0, 0⟩, ⟨0, 0⟩⟩]⟩]⟩,
      archIndex := ⟨200, 128, 1, [[], [⟨⟨0, 0⟩, ⟨0, 0⟩, 0, [⟨0, 0⟩, ⟨40, 128⟩]⟩]], [-1, -1]⟩,
      blockSize := 200, pos := 96, fpos := 80, firstPID := 0,
      maxLSNInBlock := ⟨0, 0⟩, maxLSNLength := 40, lastRun := 0, bucketSize := 128,
      buckets := [(0, 0), (128, 40)], nextBucket := 2, level := 1 }
    rfl
    ⟨⟨⟨1, 80⟩, 96, 0⟩,
      [⟨40, 1, 100, 200, ⟨1, 0⟩, ⟨0, 0⟩, ⟨0, 0⟩⟩, ⟨40, 1, 150, 0, ⟨1, 40⟩, ⟨0, 0⟩, ⟨0, 0⟩⟩]⟩
    (by simp) (by decide) (by decide)

/-! ### BlockAssembly: the index entries of a run -/

theorem startOffset_le (R : List logrec_t) (i : Nat) :
    startOffset R i ≤ (R.map (fun r => r.length)).sum := by
  unfold startOffset
  have h := List.take_append_drop i R
  conv_rhs => rw [← h]
  rw [List.map_append, List.sum_append]
  omega

theorem startOffset_append (R : List logrec_t) (x : logrec_t) (i : Nat)
    (hi : i ≤ R.length) : startOffset (R ++ [x]) i = startOffset R i := by
  unfold startOffset
  rw [List.take_append_of_le_length hi]

theorem startOffset_length (R : List logrec_t) :
    startOffset R R.length = (R.map (fun r => r.length)).sum := by
  unfold startOffset
  rw [List.take_length]

theorem entryOK_append (bs : Nat) (R : List logrec_t) (x : logrec_t) (e : Nat × Nat)
    (hfp : e.2 ≤ (R.map (fun r => r.length)).sum) (h : entryOK bs R e) :
    entryOK bs (R ++ [x]) e := by
  obtain ⟨hm, i, r, hi, ho, hp, hj⟩ := h
  have hil : i < R.length := (List.getElem?_eq_some_iff.1 hi).1
  refine ⟨hm, i, r, ?_, ?_, hp, ?_⟩
  · rw [List.getElem?_append_left hil]; exact hi
  · rw [startOffset_append R x i (le_of_lt hil)]; exact ho
  · intro j q hq hlt
    by_cases hjl : j < R.length
    · rw [List.getElem?_append_left hjl] at hq
      rw [startOffset_append R x j (le_of_lt hjl)] at hlt
      exact hj j q hq hlt
    · have hjl2 : j ≤ R.length := by
        have := (List.getElem?_eq_some_iff.1 hq).1
        simp only [List.length_append, List.length_singleton] at this
        omega
      have hje : j = R.length := by omega
      rw [hje, startOffset_append R x R.length (le_refl _), startOffset_length] at hlt
      omega

/-- One successful `add` keeps the state of the run. -/
theorem runInv_add (bs nb fpos : Nat) (R : List logrec_t) (E : List (Nat × Nat))
    (lr : logrec_t) (hbs : bs ≠ 0) (h : runInv bs nb fpos R E) :
    runInv bs
      (if lr.pid / bs ≥ nb then (lr.pid / bs) * bs / bs + 1 else nb)
      (fpos + lr.length) (R ++ [lr])
      (if lr.pid / bs ≥ nb then E ++ [((lr.pid / bs) * bs, fpos)] else E) := by
  obtain ⟨hf, hR, hE, hP, hL⟩ := h
  have hbs0 : 0 < bs := Nat.pos_of_ne_zero hbs
  have hk : (lr.pid / bs) * bs / bs = lr.pid / bs := Nat.mul_div_cancel _ hbs0
  have hEok : ∀ e ∈ E, e.2 ≤ (R.map (fun r => r.length)).sum := by
    intro e he
    obtain ⟨_, _, i, r, _, ho, _⟩ := hE e he
    rw [← ho]
    exact startOffset_le R i
  by_cases hc : lr.pid / bs ≥ nb
  · rw [if_pos hc, if_pos hc, hk]
    refine ⟨?_, ?_, ?_, ?_, ?_⟩
    · rw [List.map_append, List.sum_append, hf]; simp
    · intro r hr
      simp only [List.mem_append, List.mem_singleton] at hr
      rcases hr with hr | hr
      · have := hR r hr; omega
      · rw [hr]; omega
    · intro e he
      simp only [List.mem_append, List.mem_singleton] at he
      rcases he with he | he
      · exact ⟨by have := (hE e he).1; omega, entryOK_append bs R lr e (hEok e he) (hE e he).2⟩
      · subst he
        refine ⟨by simp only; rw [hk]; omega, ?_, R.length, lr, ?_, ?_, ?_, ?_⟩
        · exact Nat.mul_mod_left _ _
        · exact List.getElem?_concat_length R lr
        · rw [startOffset_append R lr R.length (le_refl _), startOffset_length, hf]
        · exact Nat.div_mul_le_self _ _
        · intro j q hq hlt
          by_cases hjl : j < R.length
          · rw [List.getElem?_append_left hjl] at hq
            have h1 := hR q (List.getElem?_mem hq)
            have h2 : q.pid / bs < lr.pid / bs := by omega
            exact (Nat.div_lt_iff_lt_mul hbs0).1 h2
          · have hjl2 := (List.getElem?_eq_some_iff.1 hq).1
            simp only [List.length_append, List.length_singleton] at hjl2
            have hje : j = R.length := by omega
            simp only at hlt
            rw [hje, startOffset_append R lr R.length (le_refl _), startOffset_length,
              ← hf] at hlt
            omega
    · rw [List.pairwise_append]
      refine ⟨hP, List.pairwise_singleton _ _, ?_⟩
      intro a ha c hc2
      simp only [List.mem_singleton] at hc2
      subst hc2
      have h1 := (hE a ha).1
      have h2 : a.1 / bs < lr.pid / bs := by omega
      exact (Nat.div_lt_iff_lt_mul hbs0).1 h2
    · intro hpos
      have hposR : ∀ r ∈ R, 0 < r.length := fun r hr => hpos r (by simp [hr])
      have hlr : 0 < lr.length := hpos lr (by simp)
      obtain ⟨h1, h2⟩ := hL hposR
      refine ⟨?_, ?_⟩
      · intro e he
        simp only [List.mem_append, List.mem_singleton] at he
        rcases he with he | he
        · have := h1 e he; omega
        · subst he; simp only; omega
      · rw [List.pairwise_append]
        refine ⟨h2, List.pairwise_singleton _ _, ?_⟩
        intro a ha c hc2
        simp only [List.mem_singleton] at hc2
        subst hc2
        exact h1 a ha
  · rw [if_neg hc, if_neg hc]
    refine ⟨?_, ?_, ?_, hP, ?_⟩
    · rw [List.map_append, List.sum_append, hf]; simp
    · intro r hr
      simp only [List.mem_append, List.mem_singleton] at hr
      rcases hr with hr | hr
      · exact hR r hr
      · rw [hr]; omega
    · intro e he
      exact ⟨(hE e he).1, entryOK_append bs R lr e (hEok e he) (hE e he).2⟩
    · intro hpos
      have hposR : ∀ r ∈ R, 0 < r.length := fun r hr => hpos r (by simp [hr])
      obtain ⟨h1, h2⟩ := hL hposR
      exact ⟨fun e he => by have := h1 e he; omega, h2⟩

theorem ArchiveIndex.appendNewEntry_lastEntries (ix ix1 : ArchiveIndex) (level : Nat)
    (h : ix.appendNewEntry level = some ix1) : ix1.lastEntries level = some [] := by
  unfold ArchiveIndex.appendNewEntry at h
  simp only at h
  split at h
  · simp at h
  · rename_i rs hrs
    simp only [Option.some.injEq] at h
    subst h
    have hlt := (List.getElem?_eq_some_iff.1 hrs).1
    simp only [ArchiveIndex.lastEntries]
    rw [List.getElem?_set_self hlt]
    simp

theorem ArchiveIndex.pushEntry_lastEntries (ix ix1 : ArchiveIndex) (level : Nat)
    (e : BlockEntry) (h : ix.pushEntry level e = some ix1) :
    ∃ es, ix.lastEntries level = some es ∧ ix1.lastEntries level = some (es ++ [e]) := by
  unfold ArchiveIndex.pushEntry at h
  cases hrs : ix.runs[level]? with
  | none => rw [hrs] at h; simp at h
  | some rs =>
    rw [hrs] at h
    simp only at h
    cases hl : rs.getLast? with
    | none => rw [hl] at h; simp at h
    | some r =>
      rw [hl] at h
      simp only [Option.some.injEq] at h
      subst h
      have hlt := (List.getElem?_eq_some_iff.1 hrs).1
      refine ⟨r.entries, ?_, ?_⟩
      · simp [ArchiveIndex.lastEntries, hrs, hl]
      · simp only [ArchiveIndex.lastEntries]
        rw [List.getElem?_set_self hlt]
        simp

theorem ArchiveIndex.newBlock_lastEntries (buckets : List (Nat × Nat)) (level : Nat) :
    ∀ (ix ix1 : ArchiveIndex) (es : List BlockEntry), ix.newBlock buckets level = some ix1 →
      ix.lastEntries level = some es →
      ix1.lastEntries level = some (es ++ buckets.map (fun b => ⟨b.2, b.1⟩)) := by
  induction buckets with
  | nil =>
    intro ix ix1 es h hes
    simp only [ArchiveIndex.newBlock, Option.some.injEq] at h
    subst h
    simpa using hes
  | cons b rest ih =>
    intro ix ix1 es h hes
    simp only [ArchiveIndex.newBlock] at h
    cases hp : ix.pushEntry level ⟨b.2, b.1⟩ with
    | none => rw [hp] at h; simp at h
    | some ix2 =>
      rw [hp] at h
      simp only at h
      obtain ⟨es0, h0, h1⟩ := ArchiveIndex.pushEntry_lastEntries ix ix2 level _ hp
      rw [hes] at h0
      cases h0
      have := ih ix2 ix1 _ h h1
      rw [this]
      simp

theorem BlockAssembly.start_ok (b : BlockAssembly) (run : Int) (r : Bool × BlockAssembly)
    (h : b.start run = some r) (hf : b.writebuf.finished = false) : r.1 = true := by
  unfold BlockAssembly.start at h
  rw [if_neg (by simp [hf])] at h
  simp only at h
  split_ifs at h with h2
  · cases ha : b.archIndex.appendNewEntry b.level with
    | none => rw [ha] at h; simp at h
    | some ix =>
      rw [ha] at h
      simp only [Option.some.injEq] at h; subst h; rfl
  · simp only [Option.some.injEq] at h; subst h; rfl

theorem BlockAssembly.finish_finished (b b1 : BlockAssembly) (h : b.finish = some b1) :
    b1.writebuf.finished = b.writebuf.finished := by
  unfold BlockAssembly.finish at h
  cases hd : b.dest with
  | none => rw [hd] at h; simp at h
  | some recs =>
    rw [hd] at h
    simp only at h
    cases hn : b.archIndex.newBlock b.buckets b.level with
    | none => rw [hn] at h; simp at h
    | some ix =>
      rw [hn] at h
      simp only [Option.some.injEq] at h; subst h
      rfl

theorem BlockAssembly.add_runOpen (hdr : Nat) (b : BlockAssembly) (lr : logrec_t)
    (r : Bool × BlockAssembly) (n0 : Nat) (h : BlockAssembly.add hdr b lr = some r)
    (hb : b.runOpen n0) :
    r.2.runOpen n0 ∧ r.2.lastRun = b.lastRun ∧ r.2.writebuf = b.writebuf := by
  rcases BlockAssembly.add_spec hdr b lr r h with
    ⟨_, h2⟩ | ⟨_, hbs, ⟨recs, hd, hd2⟩, _, _, hbk, hnb, hfp, hbsz, hw, hix, hlv, hlr⟩
  · rw [h2]; exact ⟨hb, rfl, rfl⟩
  · obtain ⟨recs0, es, hd0, hes, hn0, hinv⟩ := hb
    rw [hd] at hd0
    cases hd0
    refine ⟨⟨recs ++ [lr], es, hd2, by rw [hix, hlv]; exact hes, by rw [hw]; exact hn0, ?_⟩,
      hlr, hw⟩
    have hstep := runInv_add b.bucketSize b.nextBucket b.fpos _ _ lr hbs hinv
    have hrr : r.2.runRecords n0 = b.runRecords n0 := by
      simp only [BlockAssembly.runRecords, hw]
    rw [hbsz, hnb, hfp, hbk, hrr, ← List.append_assoc]
    by_cases hc : lr.pid / b.bucketSize ≥ b.nextBucket
    · rw [if_pos hc] at hstep ⊢
      rw [if_pos hc] at hstep
      rw [if_pos hc, ← List.append_assoc]
      exact hstep
    · rw [if_neg hc] at hstep ⊢
      rw [if_neg hc] at hstep
      rw [if_neg hc]
      exact hstep

theorem BlockAssembly.addAll_runOpen (hdr : Nat) (recs : List logrec_t) (n0 : Nat) :
    ∀ (b b1 : BlockAssembly), BlockAssembly.addAll hdr b recs = some b1 → b.runOpen n0 →
      b1.runOpen n0 ∧ b1.lastRun = b.lastRun ∧ b1.writebuf = b.writebuf := by
  induction recs with
  | nil =>
    intro b b1 h hb
    simp only [BlockAssembly.addAll, Option.some.injEq] at h
    subst h
    exact ⟨hb, rfl, rfl⟩
  | cons lr rest ih =>
    intro b b1 h hb
    simp only [BlockAssembly.addAll] at h
    cases ha : BlockAssembly.add hdr b lr with
    | none => rw [ha] at h; simp at h
    | some r =>
      rw [ha] at h
      simp only at h
      obtain ⟨h1, h2, h3⟩ := BlockAssembly.add_runOpen hdr b lr r n0 ha hb
      obtain ⟨h4, h5, h6⟩ := ih r.2 b1 h h1
      exact ⟨h4, h5.trans h2, h6.trans h3⟩

theorem BlockAssembly.finish_runIdle (b b1 : BlockAssembly) (n0 : Nat) (run : Int)
    (h : b.finish = some b1) (hb : b.runOpen n0) (hr : b.lastRun = run)
    (hf : b.writebuf.finished = false) : b1.runIdle n0 run := by
  obtain ⟨recs, es, hd, hes, hn0, hinv⟩ := hb
  obtain ⟨recs1, ix, hd1, hnb, hix, _, _, hrel, hfp, hnx, hlr, hbs, hlv⟩ :=
    BlockAssembly.finish_spec b b1 h
  rw [hd] at hd1
  cases hd1
  have hes1 := ArchiveIndex.newBlock_lastEntries b.buckets b.level b.archIndex ix es hnb hes
  refine ⟨_, by rw [hix, hlv]; exact hes1, by rw [hrel]; simp; omega, hlr.trans hr,
    (BlockAssembly.finish_finished b b1 h).trans hf, ?_⟩
  have hrr : b1.runRecords n0 = b.runRecords n0 ++ recs := by
    simp only [BlockAssembly.runRecords, hrel]
    rw [List.drop_append_of_le_length hn0, List.flatMap_append]
    simp
  have hee : (es ++ b.buckets.map (fun q => (⟨q.2, q.1⟩ : BlockEntry))).map
      BlockEntry.toBucket = es.map BlockEntry.toBucket ++ b.buckets := by
    rw [List.map_append, List.map_map]
    congr 1
    conv_rhs => rw [← List.map_id b.buckets]
    apply List.map_congr_left
    intro q _
    rfl
  rw [hbs, hnx, hfp, hrr, hee]
  exact hinv

theorem BlockAssembly.start_runIdle (b : BlockAssembly) (n0 : Nat) (run : Int)
    (r : Bool × BlockAssembly) (h : b.start run = some r) (hb : b.runIdle n0 run) :
    r.1 = true ∧ r.2.runOpen n0 ∧ r.2.lastRun = run ∧ r.2.writebuf.finished = false := by
  obtain ⟨es, hes, hn0, hlr, hf, hinv⟩ := hb
  have hok := BlockAssembly.start_ok b run r h hf
  obtain ⟨hw, _, _, hbs, hlv, hrest⟩ := BlockAssembly.start_spec b run r h
  obtain ⟨hd, hbk, hlr2, _, hsame⟩ := hrest hok
  obtain ⟨hfp, hnx, hix⟩ := hsame hlr.symm
  refine ⟨hok, ⟨[], es, hd, by rw [hix, hlv]; exact hes, by rw [hw]; exact hn0, ?_⟩, hlr2,
    by rw [hw]; exact hf⟩
  have hrr : r.2.runRecords n0 = b.runRecords n0 := by
    simp only [BlockAssembly.runRecords, hw]
  rw [hbs, hnx, hfp, hbk, hrr, List.append_nil, List.append_nil]
  exact hinv

theorem BlockAssembly.start_newRun (b : BlockAssembly) (run : Int)
    (r : Bool × BlockAssembly) (h : b.start run = some r) (hnew : run ≠ b.lastRun)
    (hf : b.writebuf.finished = false) :
    r.1 = true ∧ r.2.runOpen b.writebuf.released.length ∧ r.2.lastRun = run ∧
    r.2.writebuf.finished = false := by
  have hok := BlockAssembly.start_ok b run r h hf
  obtain ⟨hw, _, _, hbs, hlv, hrest⟩ := BlockAssembly.start_spec b run r h
  obtain ⟨hd, hbk, hlr2, hdiff, _⟩ := hrest hok
  obtain ⟨hfp, hnx, hix⟩ := hdiff hnew
  have hes := ArchiveIndex.appendNewEntry_lastEntries _ _ _ hix
  refine ⟨hok, ⟨[], [], hd, by rw [hlv]; exact hes, by rw [hw], ?_⟩, hlr2,
    by rw [hw]; exact hf⟩
  have hrr : r.2.runRecords b.writebuf.released.length = [] := by
    simp only [BlockAssembly.runRecords, hw, List.drop_length, List.flatMap_nil]
  rw [hnx, hfp, hbk, hrr]
  refine ⟨by simp, by simp, by simp, by simp, by simp⟩

theorem BlockAssembly.produce_runIdle (hdr : Nat) (b b1 : BlockAssembly) (n0 : Nat)
    (run : Int) (recs : List logrec_t)
    (h : BlockAssembly.produce hdr b run recs = some b1) (hb : b.runIdle n0 run) :
    b1.runIdle n0 run := by
  unfold BlockAssembly.produce at h
  cases hs : b.start run with
  | none => rw [hs] at h; simp at h
  | some r =>
    obtain ⟨ok, b2⟩ := r
    rw [hs] at h
    obtain ⟨hok, hopen, hlr, hfin⟩ := BlockAssembly.start_runIdle b n0 run (ok, b2) hs hb
    simp only at hok
    subst hok
    simp only at h
    cases ha : BlockAssembly.addAll hdr b2 recs with
    | none => rw [ha] at h; simp at h
    | some b3 =>
      rw [ha] at h
      simp only at h
      obtain ⟨h1, h2, h3⟩ := BlockAssembly.addAll_runOpen hdr recs n0 b2 b3 ha hopen
      exact BlockAssembly.finish_runIdle b3 b1 n0 run h h1 (h2.trans hlr)
        (by rw [h3]; exact hfin)

theorem BlockAssembly.produceAll_runIdle (hdr : Nat) (n0 : Nat) (run : Int)
    (more : List (List logrec_t)) :
    ∀ (b b1 : BlockAssembly),
      BlockAssembly.produceAll hdr b (more.map (fun recs => (run, recs))) = some b1 →
      b.runIdle n0 run → b1.runIdle n0 run := by
  induction more with
  | nil =>
    intro b b1 h hb
    simp only [List.map_nil, BlockAssembly.produceAll, Option.some.injEq] at h
    subst h
    exact hb
  | cons c rest ih =>
    intro b b1 h hb
    simp only [List.map_cons, BlockAssembly.produceAll] at h
    cases hp : BlockAssembly.produce hdr b run c with
    | none => rw [hp] at h; simp at h
    | some b2 =>
      rw [hp] at h
      simp only at h
      exact ih b2 b1 h (BlockAssembly.produce_runIdle hdr b b2 n0 run c hp hb)

/-- C5: for a run generated by BlockAssembly (a first block started with a new
run number, then further blocks of the same run) whose records are added in
non-decreasing page-id order, every index entry (pid, offset) of the run
satisfies: pid is a multiple of the bucket size, the record that starts at byte
offset `offset` of the run has a page id of at least pid, and no record at a
smaller offset has a page id of at least pid; the entries have strictly
increasing pids and, the records being log records, each of positive length
(a record covers its header), strictly increasing offsets. -/
theorem C5_index_entries_of_run (sizeof_baseLogHeader : Nat) (b0 b1 : BlockAssembly)
    (run : Int) (first : List logrec_t) (more : List (List logrec_t))
    (hfin : b0.writebuf.finished = false) (hnew : run ≠ b0.lastRun)
    (hrun : BlockAssembly.produceAll sizeof_baseLogHeader b0
      ((run, first) :: more.map (fun recs => (run, recs))) = some b1)
    (_hsorted : (b1.runRecords b0.writebuf.released.length).Pairwise
      (fun a c => a.pid ≤ c.pid)) :
    ∃ es, b1.archIndex.lastEntries b1.level = some es ∧
      (∀ e ∈ es, b1.bucketSize ∣ e.pid ∧
        ∃ i r, (b1.runRecords b0.writebuf.released.length)[i]? = some r ∧
          startOffset (b1.runRecords b0.writebuf.released.length) i = e.offset ∧
          e.pid ≤ r.pid ∧
          ∀ j q, (b1.runRecords b0.writebuf.released.length)[j]? = some q →
            startOffset (b1.runRecords b0.writebuf.released.length) j < e.offset →
            q.pid < e.pid) ∧
      es.Pairwise (fun a c => a.pid < c.pid) ∧
      ((∀ r ∈ b1.runRecords b0.writebuf.released.length, 0 < r.length) →
        es.Pairwise (fun a c => a.offset < c.offset)) := by
  simp only [BlockAssembly.produceAll] at hrun
  cases hp : BlockAssembly.produce sizeof_baseLogHeader b0 run first with
  | none => rw [hp] at hrun; simp at hrun
  | some b2 =>
    rw [hp] at hrun
    simp only at hrun
    have hidle2 : b2.runIdle b0.writebuf.released.length run := by
      unfold BlockAssembly.produce at hp
      cases hs : b0.start run with
      | none => rw [hs] at hp; simp at hp
      | some r =>
        obtain ⟨ok, b3⟩ := r
        rw [hs] at hp
        obtain ⟨hok, hopen, hlr, hf3⟩ := BlockAssembly.start_newRun b0 run (ok, b3) hs hnew hfin
        simp only at hok
        subst hok
        simp only at hp
        cases ha : BlockAssembly.addAll sizeof_baseLogHeader b3 first with
        | none => rw [ha] at hp; simp at hp
        | some b4 =>
          rw [ha] at hp
          simp only at hp
          obtain ⟨h1, h2, h3⟩ := BlockAssembly.addAll_runOpen sizeof_baseLogHeader first _ b3 b4
            ha hopen
          exact BlockAssembly.finish_runIdle b4 b2 _ run hp h1 (h2.trans hlr)
            (by rw [h3]; exact hf3)
    obtain ⟨es, hes, _, _, _, hf, hR, hE, hP, hL⟩ :=
      BlockAssembly.produceAll_runIdle sizeof_baseLogHeader _ run more b2 b1 hrun hidle2
    refine ⟨es, hes, ?_, ?_, ?_⟩
    · intro e he
      obtain ⟨_, hm, hex⟩ := hE e.toBucket (List.mem_map_of_mem _ he)
      exact ⟨Nat.dvd_of_mod_eq_zero hm, hex⟩
    · rw [List.pairwise_map] at hP
      exact hP
    · intro hpos
      have h2 := (hL hpos).2
      rw [List.pairwise_map] at h2
      exact h2

/-- C5 on a run of two blocks with records of 40 bytes for the pages 100, 150
and 300 (bucket size 128): the index entries are (0, 0), (128, 40), (256, 80). -/
theorem C5_index_entries_of_run_witness :
    ∃ es, ArchiveIndex.lastEntries
        ⟨200, 128, 1, [[], [⟨⟨0, 0⟩, ⟨0, 0⟩, 0, [⟨0, 0⟩, ⟨40, 128⟩, ⟨80, 256⟩]⟩]], [-1, -1]⟩ 1
        = some es ∧
      es.Pairwise (fun a c => a.pid < c.pid) ∧
      es.Pairwise (fun a c => a.offset < c.offset) :=
  (C5_index_entries_of_run 16
    (BlockAssembly.init (ArchiveIndex.init 200 128) 200 1 0 0 0)
    { dest := none,
      writebuf := ⟨false, [
        ⟨⟨⟨1, 80⟩, 96, 0⟩, [⟨40, 1, 100, 200, ⟨1, 0⟩, ⟨0, 0⟩, ⟨0, 0⟩⟩,
                            ⟨40, 1, 150, 0, ⟨1, 40⟩, ⟨0, 0⟩, ⟨0, 0⟩⟩]⟩,
        ⟨⟨⟨1, 120⟩, 56, 0⟩, [⟨40, 1, 300, 0, ⟨1, 80⟩, ⟨0, 0⟩, ⟨0, 0⟩⟩]⟩]⟩,
      archIndex := ⟨200, 128, 1,
        [[], [⟨⟨0, 0⟩, ⟨0, 0⟩, 0, [⟨0, 0⟩, ⟨40, 128⟩, ⟨80, 256⟩]⟩]], [-1, -1]⟩,
      blockSize := 200, pos := 56, fpos := 120, firstPID := 0,
      maxLSNInBlock := ⟨0, 0⟩, maxLSNLength := 40, lastRun := 0, bucketSize := 128,
      buckets := [(256, 80)], nextBucket := 3, level := 1 }
    0
    [⟨40, 1, 100, 200, ⟨1, 0⟩, ⟨0, 0⟩, ⟨0, 0⟩⟩, ⟨40, 1, 150, 0, ⟨1, 40⟩, ⟨0, 0⟩, ⟨0, 0⟩⟩]
    [[⟨40, 1, 300, 0, ⟨1, 80⟩, ⟨0, 0⟩, ⟨0, 0⟩⟩]]
    rfl (by decide) rfl (by decide)).imp
    (fun _ h => ⟨h.1, h.2.2.1, h.2.2.2 (by decide)⟩)

/-! ### RunMerger -/

theorem keyLe_refl (a : logrec_t) : keyLe a a := by
  unfold keyLe; rw [lsn_t.le_def]; omega

theorem keyLe_trans {a b c : logrec_t} (h1 : keyLe a b) (h2 : keyLe b c) : keyLe a c := by
  unfold keyLe at *
  rw [lsn_t.le_def] at *
  omega

theorem MergeHeapCmp.merge_gt_iff (a b : MergeHeapEntry) :
    MergeHeapCmp.gt a b = true ↔
      a.active = true ∧ (b.active = false ∨
        (a.pid < b.pid ∨ (a.pid = b.pid ∧ a.lsn < b.lsn))) := by
  unfold MergeHeapCmp.gt
  cases ha : a.active <;> cases hb : b.active <;> simp
  by_cases h : a.pid = b.pid
  · simp [h]
  · simp [h]

theorem mergeLe_iff (a b : MergeHeapEntry) :
    mergeLe a b ↔ (b.active = true → a.active = true ∧
      (a.pid < b.pid ∨ (a.pid = b.pid ∧ a.lsn ≤ b.lsn))) := by
  unfold mergeLe
  rw [← Bool.not_eq_true, MergeHeapCmp.merge_gt_iff, lsn_t.lt_def, lsn_t.le_def]
  cases ha : a.active <;> cases hb : b.active <;> simp
  omega

theorem mergeLe_total (a b : MergeHeapEntry) : mergeLe a b ∨ mergeLe b a := by
  rw [mergeLe_iff, mergeLe_iff, lsn_t.le_def, lsn_t.le_def]
  cases ha : a.active <;> cases hb : b.active <;> simp <;> omega

theorem mergeLe_trans (a b c : MergeHeapEntry) (h1 : mergeLe a b) (h2 : mergeLe b c) :
    mergeLe a c := by
  rw [mergeLe_iff] at *
  rw [lsn_t.le_def] at *
  cases ha : a.active <;> cases hb : b.active <;> cases hc : c.active <;> simp_all <;> omega

theorem sorted_mergeLe_orderedInsert (a : MergeHeapEntry) (l : List MergeHeapEntry)
    (h : l.Sorted mergeLe) : (l.orderedInsert mergeLe a).Sorted mergeLe :=
  @List.Sorted.orderedInsert _ mergeLe _ ⟨mergeLe_total⟩ ⟨mergeLe_trans⟩ a l h

theorem sorted_mergeLe_insertionSort (l : List MergeHeapEntry) :
    (l.insertionSort mergeLe).Sorted mergeLe :=
  @List.sorted_insertionSort _ mergeLe _ ⟨mergeLe_total⟩ ⟨mergeLe_trans⟩ l

/-- The loop of the constructor skips the records with a page id below
`startPID`. -/
theorem MergeHeapEntry.advance_spec (startPID : Nat) (pending : List logrec_t) :
    ∀ (lr : logrec_t) (r : RunScanner),
      ((MergeHeapEntry.advance startPID lr pending r).1 = true →
        (MergeHeapEntry.advance startPID lr pending r).2.1 ::
          (MergeHeapEntry.advance startPID lr pending r).2.2.pending =
          (lr :: pending).dropWhile (fun x => decide (x.pid < startPID))) ∧
      ((MergeHeapEntry.advance startPID lr pending r).1 = false →
        (MergeHeapEntry.advance startPID lr pending r).2.2.pending = [] ∧
        (lr :: pending).dropWhile (fun x => decide (x.pid < startPID)) = []) := by
  induction pending with
  | nil =>
    intro lr r
    unfold MergeHeapEntry.advance
    by_cases h : lr.pid < startPID
    · simp [h, List.dropWhile]
    · simp [h, List.dropWhile]
  | cons x rest ih =>
    intro lr r
    unfold MergeHeapEntry.advance
    by_cases h : lr.pid < startPID
    · rw [if_pos h]
      have := ih x r
      rw [List.dropWhile_cons, if_pos (by simpa using h)]
      exact this
    · rw [if_neg h]
      simp [List.dropWhile_cons, h]

theorem sorted_dropWhile (p : logrec_t → Bool) (l : List logrec_t) (h : l.Sorted keyLe) :
    (l.dropWhile p).Sorted keyLe :=
  List.Pairwise.sublist (List.dropWhile_sublist p) h

/-- The constructor of a heap entry: the entry is consistent and stands for the
records the scanner yields from `firstPID` on. -/
theorem MergeHeapEntry.mk1_spec (r : RunScanner) (hs : r.pending.Sorted keyLe) :
    (MergeHeapEntry.mk1 r).WF ∧ (MergeHeapEntry.mk1 r).all = r.yield := by
  unfold MergeHeapEntry.mk1 RunScanner.next RunScanner.yield
  cases hp : r.pending with
  | nil =>
    simp [MergeHeapEntry.WF, MergeHeapEntry.all, hp]
  | cons x rest =>
    simp only
    have hsd := sorted_dropWhile (fun y => decide (y.pid < r.firstPID)) (x :: rest)
      (by rw [← hp]; exact hs)
    by_cases hx : x.pid < r.firstPID
    · rw [if_pos hx]
      obtain ⟨h1, h2⟩ := MergeHeapEntry.advance_spec r.firstPID rest x
        { r with pending := rest }
      cases ha : (MergeHeapEntry.advance r.firstPID x rest { r with pending := rest }).1 with
      | true =>
        rw [if_pos rfl]
        have h3 := h1 ha
        refine ⟨⟨fun _ => ⟨_, rfl, rfl, rfl, ?_⟩, fun hc => by simp at hc⟩, ?_⟩
        · simp only
          rw [h3]
          exact hsd
        · simp only [MergeHeapEntry.all, if_true, Option.toList, List.singleton_append]
          rw [h3]
      | false =>
        rw [if_neg (by simp)]
        obtain ⟨h3, h4⟩ := h2 ha
        refine ⟨⟨fun hc => by simp at hc, fun _ => h3⟩, ?_⟩
        simp only [MergeHeapEntry.all, Bool.false_eq_true, if_false]
        rw [h4]
    · rw [if_neg hx]
      refine ⟨⟨fun _ => ⟨x, rfl, rfl, rfl, ?_⟩, fun hc => by simp at hc⟩, ?_⟩
      · simp only
        rw [← hp]; exact hs
      · simp only [MergeHeapEntry.all, if_true, Option.toList, List.singleton_append]
        rw [List.dropWhile_cons, if_neg (by simpa using hx)]

/-- The top of an ordered heap of consistent entries: when it is inactive no
record is left; otherwise its record is a least one among those left. -/
theorem top_spec (f : MergeHeapEntry) (tail : List MergeHeapEntry)
    (hs : (f :: tail).Sorted mergeLe) (hwf : ∀ e ∈ f :: tail, e.WF) :
    (f.active = false → (f :: tail).flatMap MergeHeapEntry.all = []) ∧
    (f.active = true → ∃ r, f.lr = some r ∧
      (f :: tail).flatMap MergeHeapEntry.all = r :: remStarted (f :: tail) ∧
      ∀ x ∈ remStarted (f :: tail), keyLe r x) := by
  have hle : ∀ g ∈ tail, mergeLe f g := List.rel_of_sorted_cons hs
  constructor
  · intro hf
    have hall : ∀ e ∈ f :: tail, e.all = [] := by
      intro e he
      simp only [List.mem_cons] at he
      rcases he with he | he
      · subst he
        simp [MergeHeapEntry.all, hf]
      · have h1 := (mergeLe_iff f e).1 (hle e he)
        have h2 : e.active = false := by
          cases hea : e.active with
          | false => rfl
          | true => have := (h1 hea).1; rw [hf] at this; cases this
        simp [MergeHeapEntry.all, h2]
    generalize f :: tail = L at hall
    induction L with
    | nil => rfl
    | cons a l ih =>
      rw [List.flatMap_cons, hall a (by simp), ih (fun e he => hall e (by simp [he]))]
      rfl
  · intro hf
    obtain ⟨r, hr, hpid, hlsn, hsorted⟩ := (hwf f (by simp)).1 hf
    refine ⟨r, hr, ?_, ?_⟩
    · simp [remStarted, MergeHeapEntry.all, hf, hr]
    · intro x hx
      simp only [remStarted, hf, if_true, List.mem_append, List.mem_flatMap] at hx
      rcases hx with hx | ⟨g, hg, hxg⟩
      · exact List.rel_of_sorted_cons hsorted x hx
      · have h1 := (mergeLe_iff f g).1 (hle g hg)
        cases hga : g.active with
        | false => simp [MergeHeapEntry.all, hga] at hxg
        | true =>
          obtain ⟨rg, hrg, hgpid, hglsn, hgsorted⟩ := (hwf g (by simp [hg])).1 hga
          have hkey : keyLe r rg := by
            have := (h1 hga).2
            unfold keyLe
            rw [← hpid, ← hlsn, ← hgpid, ← hglsn]
            exact this
          simp only [MergeHeapEntry.all, hga, if_true, hrg, Option.toList,
            List.singleton_append, List.mem_cons] at hxg
          rcases hxg with hxg | hxg
          · rw [hxg]; exact hkey
          · exact keyLe_trans hkey (List.rel_of_sorted_cons hgsorted x hxg)

/-- Advancing a consistent entry: it stays consistent and stands for the records
its scanner had yet to yield. -/
theorem MergeHeapEntry.moveToNext_spec (e : MergeHeapEntry) (h : e.WF) :
    e.moveToNext.WF ∧
    e.moveToNext.all = (if e.active then e.runScan.pending else []) := by
  unfold MergeHeapEntry.moveToNext RunScanner.next
  cases hp : e.runScan.pending with
  | nil =>
    simp [MergeHeapEntry.WF, MergeHeapEntry.all, hp]
  | cons x rest =>
    simp only
    cases ha : e.active with
    | false =>
      have := h.2 ha
      rw [hp] at this
      cases this
    | true =>
      obtain ⟨r, _, _, _, hsorted⟩ := h.1 ha
      rw [hp] at hsorted
      refine ⟨⟨fun _ => ⟨x, rfl, rfl, rfl, hsorted.of_cons⟩, fun hc => ?_⟩, ?_⟩
      · cases hc
      · simp [MergeHeapEntry.all, ha]

/-- What `next` does once the heap list `L` is in order, for a non-empty heap:
it looks at the top and either closes the scan or returns the record of the
top. -/
theorem RunMerger.next_eq (m : RunMerger) (e : MergeHeapEntry) (rest : List MergeHeapEntry)
    (hel : m.heap.elems = e :: rest) :
    m.next =
      (match (if m.started then rest.orderedInsert mergeLe e.moveToNext
              else (e :: rest).insertionSort mergeLe) with
       | [] => (none, { m with started := true, heap := ⟨[]⟩ })
       | f :: tail =>
         if f.active then
           (f.lr, { m with started := true, heap := ⟨f :: tail⟩ })
         else
           (none, { m with started := true, heap := ⟨[]⟩ })) := by
  unfold RunMerger.next
  have hne : ¬ (m.heap.NumElements = 0) := by simp [Heap.NumElements, hel]
  rw [if_neg hne]
  cases hst : m.started with
  | false =>
    simp only [Bool.not_false, if_true, Bool.false_eq_true, if_false, Heap.Heapify,
      Heap.First, hel]
    cases hL : (e :: rest).insertionSort (fun a b => MergeHeapCmp.gt b a = false) with
    | nil =>
      have := List.length_insertionSort (fun a b => MergeHeapCmp.gt b a = false) (e :: rest)
      rw [hL] at this
      simp at this
    | cons f tail =>
      simp only [List.head?_cons]
      cases hf : f.active <;> simp [RunMerger.close]
  | true =>
    simp only [Bool.not_true, Bool.false_eq_true, if_false, if_true, hel,
      Heap.ReplacedFirst, Heap.First]
    cases hL : rest.orderedInsert (fun a b => MergeHeapCmp.gt b a = false) e.moveToNext with
    | nil =>
      have := List.orderedInsert_length (fun a b => MergeHeapCmp.gt b a = false) rest
        e.moveToNext
      rw [hL] at this
      simp at this
    | cons f tail =>
      simp only [List.head?_cons]
      cases hf : f.active <;> simp [RunMerger.close, hst]

theorem RunMerger.next_result (m : RunMerger) (L : List MergeHeapEntry)
    (res : Option logrec_t × RunMerger)
    (hres : res = (match L with
       | [] => (none, { m with started := true, heap := ⟨[]⟩ })
       | f :: tail =>
         if f.active then
           (f.lr, { m with started := true, heap := ⟨f :: tail⟩ })
         else
           (none, { m with started := true, heap := ⟨[]⟩ })))
    (hs : L.Sorted mergeLe) (hwf : ∀ e ∈ L, e.WF) :
    (res.1 = none → L.flatMap MergeHeapEntry.all = []) ∧
    (∀ r, res.1 = some r → res.2.inv ∧ res.2.started = true ∧
      L.flatMap MergeHeapEntry.all = r :: res.2.remaining ∧
      ∀ x ∈ res.2.remaining, keyLe r x) := by
  cases L with
  | nil =>
    simp only at hres
    subst hres
    simp
  | cons f tail =>
    simp only at hres
    obtain ⟨h1, h2⟩ := top_spec f tail hs hwf
    cases hf : f.active with
    | false =>
      rw [hf] at hres
      simp only [Bool.false_eq_true, if_false] at hres
      subst hres
      exact ⟨fun _ => h1 hf, fun r hr => by simp at hr⟩
    | true =>
      rw [hf] at hres
      simp only [if_true] at hres
      subst hres
      obtain ⟨r, hr, hall, hmin⟩ := h2 hf
      constructor
      · intro hc
        simp only at hc
        rw [hr] at hc
        cases hc
      · intro r2 hr2
        simp only at hr2
        rw [hr] at hr2
        cases hr2
        refine ⟨⟨hwf, fun _ => hs⟩, rfl, ?_, ?_⟩
        · simp only [RunMerger.remaining, if_true]
          exact hall
        · simp only [RunMerger.remaining, if_true]
          exact hmin

/-- One call of `next`: when it returns false no record is left; when it returns
a record, this record is a least one among the records that were left, and the
others are left afterwards. -/
theorem RunMerger.next_spec (m : RunMerger) (h : m.inv) :
    (m.next.1 = none → m.remaining = []) ∧
    (∀ r, m.next.1 = some r → m.next.2.inv ∧
      List.Perm m.remaining (r :: m.next.2.remaining) ∧
      ∀ x ∈ m.next.2.remaining, keyLe r x) := by
  obtain ⟨hwf, hsorted⟩ := h
  cases hel : m.heap.elems with
  | nil =>
    have hn : m.next = (none, m) := by
      unfold RunMerger.next
      simp [Heap.NumElements, hel]
    rw [hn]
    refine ⟨fun _ => ?_, fun r hr => by simp at hr⟩
    unfold RunMerger.remaining
    rw [hel]
    simp [remStarted]
  | cons e rest =>
    have hn := RunMerger.next_eq m e rest hel
    cases hst : m.started with
    | false =>
      rw [hst] at hn
      simp only [Bool.false_eq_true, if_false] at hn
      have hperm : List.Perm ((e :: rest).insertionSort mergeLe) (e :: rest) :=
        List.perm_insertionSort _ _
      have hwfL : ∀ x ∈ (e :: rest).insertionSort mergeLe, x.WF := by
        intro x hx
        exact hwf x (by rw [hel]; exact hperm.subset hx)
      obtain ⟨r1, r2⟩ := RunMerger.next_result m _ m.next hn
        (sorted_mergeLe_insertionSort _) hwfL
      have hrem : m.remaining = (e :: rest).flatMap MergeHeapEntry.all := by
        simp [RunMerger.remaining, hst, hel]
      rw [hrem]
      constructor
      · intro hc
        have hp2 := (List.Perm.flatMap_right MergeHeapEntry.all hperm).symm
        rw [r1 hc] at hp2
        exact hp2.eq_nil
      · intro r hr
        obtain ⟨q1, _, q3, q4⟩ := r2 r hr
        refine ⟨q1, ?_, q4⟩
        rw [← q3]
        exact (List.Perm.flatMap_right _ hperm).symm
    | true =>
      rw [hst] at hn
      simp only [if_true] at hn
      have hperm : List.Perm (rest.orderedInsert mergeLe e.moveToNext)
          (e.moveToNext :: rest) := List.perm_orderedInsert _ _ _
      have hwe : e.WF := hwf e (by simp [hel])
      obtain ⟨hmw, hma⟩ := MergeHeapEntry.moveToNext_spec e hwe
      have hwfL : ∀ x ∈ rest.orderedInsert mergeLe e.moveToNext, x.WF := by
        intro x hx
        have := hperm.subset hx
        simp only [List.mem_cons] at this
        rcases this with hx2 | hx2
        · rw [hx2]; exact hmw
        · exact hwf x (by simp [hel, hx2])
      have hsr : rest.Sorted mergeLe := by
        have := hsorted hst
        rw [hel] at this
        exact this.of_cons
      obtain ⟨r1, r2⟩ := RunMerger.next_result m _ m.next hn
        (sorted_mergeLe_orderedInsert _ _ hsr) hwfL
      have hrem : m.remaining = (e.moveToNext :: rest).flatMap MergeHeapEntry.all := by
        simp only [RunMerger.remaining, hst, if_true, hel, remStarted, List.flatMap_cons]
        rw [hma]
      rw [hrem]
      constructor
      · intro hc
        have hp2 := (List.Perm.flatMap_right MergeHeapEntry.all hperm).symm
        rw [r1 hc] at hp2
        exact hp2.eq_nil
      · intro r hr
        obtain ⟨q1, _, q3, q4⟩ := r2 r hr
        refine ⟨q1, ?_, q4⟩
        rw [← q3]
        exact (List.Perm.flatMap_right _ hperm).symm

/-- The records returned by successive calls of `next`: with enough calls, a
sorted permutation of the records the merger had yet to return. -/
theorem RunMerger.scan_spec (n : Nat) :
    ∀ (m : RunMerger), m.inv → m.remaining.length < n →
      List.Perm (RunMerger.scan n m) m.remaining ∧ (RunMerger.scan n m).Sorted keyLe := by
  induction n with
  | zero => intro m _ hn; omega
  | succ n ih =>
    intro m hinv hn
    obtain ⟨h1, h2⟩ := RunMerger.next_spec m hinv
    unfold RunMerger.scan
    cases hnx : m.next with
    | mk o m1 =>
      cases o with
      | none =>
        simp only
        rw [h1 (by rw [hnx])]
        exact ⟨List.Perm.refl _, List.sorted_nil⟩
      | some r =>
        simp only
        obtain ⟨q1, q2, q3⟩ := h2 r (by rw [hnx])
        rw [hnx] at q1 q2 q3
        simp only at q1 q2 q3
        have hlen : m1.remaining.length < n := by
          have := q2.length_eq
          simp only [List.length_cons] at this
          omega
        obtain ⟨p1, p2⟩ := ih m1 q1 hlen
        refine ⟨(List.Perm.cons r p1).trans q2.symm, ?_⟩
        rw [List.sorted_cons]
        exact ⟨fun x hx => q3 x (p1.subset hx), p2⟩

theorem RunMerger.addInputs_spec (rs : List RunScanner) :
    ∀ (m : RunMerger), m.started = false →
      ∃ m1, RunMerger.addInputs m rs = some m1 ∧ m1.started = false ∧
        m1.heap.elems = m.heap.elems ++ rs.map MergeHeapEntry.mk1 := by
  induction rs with
  | nil =>
    intro m hm
    exact ⟨m, rfl, hm, by simp⟩
  | cons r rest ih =>
    intro m hm
    simp only [RunMerger.addInputs, RunMerger.addInput]
    rw [if_neg (by simp [hm])]
    split_ifs with h0
    · obtain ⟨m1, h1, h2, h3⟩ := ih
        { m with heap := m.heap.AddElementDontHeapify (MergeHeapEntry.mk1 r),
                 endPID := r.lastPID } hm
      refine ⟨m1, h1, h2, ?_⟩
      rw [h3]
      simp [Heap.AddElementDontHeapify]
    · obtain ⟨m1, h1, h2, h3⟩ := ih
        { m with heap := m.heap.AddElementDontHeapify (MergeHeapEntry.mk1 r) } hm
      refine ⟨m1, h1, h2, ?_⟩
      rw [h3]
      simp [Heap.AddElementDontHeapify]

/-- C6: for input run scanners that each yield their records in non-decreasing
(page id, LSN) order, the merger can be built, and the records returned by
successive calls of `RunMerger::next` (up to the first call that returns false,
which comes after as many calls as there are records) are in non-decreasing
(page id, LSN) order and are a permutation of the records the scanners yield
from their first record with a page id of at least `firstPID` on. -/
theorem C6_merge_sorted_permutation (rs : List RunScanner)
    (hs : ∀ r ∈ rs, r.pending.Sorted keyLe) :
    ∃ m, RunMerger.addInputs RunMerger.init rs = some m ∧
      ∀ n, (rs.flatMap RunScanner.yield).length < n →
        (RunMerger.scan n m).Sorted keyLe ∧
        List.Perm (RunMerger.scan n m) (rs.flatMap RunScanner.yield) := by
  obtain ⟨m, h1, h2, h3⟩ := RunMerger.addInputs_spec rs RunMerger.init rfl
  refine ⟨m, h1, ?_⟩
  have hel : m.heap.elems = rs.map MergeHeapEntry.mk1 := by
    rw [h3]; simp [RunMerger.init]
  have hinv : m.inv := by
    refine ⟨?_, fun hc => by rw [h2] at hc; cases hc⟩
    intro e he
    rw [hel, List.mem_map] at he
    obtain ⟨r, hr, rfl⟩ := he
    exact (MergeHeapEntry.mk1_spec r (hs r hr)).1
  have hrem : m.remaining = rs.flatMap RunScanner.yield := by
    simp only [RunMerger.remaining, h2, Bool.false_eq_true, if_false, hel]
    clear h1 h3 hel hinv
    induction rs with
    | nil => rfl
    | cons r rest ih =>
      rw [List.map_cons, List.flatMap_cons, List.flatMap_cons,
        (MergeHeapEntry.mk1_spec r (hs r (by simp))).2,
        ih (fun x hx => hs x (by simp [hx]))]
  intro n hn
  rw [← hrem] at hn ⊢
  obtain ⟨p1, p2⟩ := RunMerger.scan_spec n m hinv hn
  exact ⟨p2, p1⟩

/-- C6 on three scanners started at page 5: the merge of the records
(5, 1.10), (7, 1.20) and (5, 1.5), (6, 1.7); the record (1, 1.0) is skipped. -/
theorem C6_merge_sorted_permutation_witness :
    ∃ m, RunMerger.addInputs RunMerger.init
        [⟨5, 0, [⟨40, 1, 1, 0, ⟨1, 0⟩, ⟨0, 0⟩, ⟨0, 0⟩⟩, ⟨40, 1, 5, 0, ⟨1, 10⟩, ⟨0, 0⟩, ⟨0, 0⟩⟩,
                 ⟨40, 1, 7, 0, ⟨1, 20⟩, ⟨0, 0⟩, ⟨0, 0⟩⟩]⟩,
         ⟨5, 0, [⟨40, 1, 5, 0, ⟨1, 5⟩, ⟨0, 0⟩, ⟨0, 0⟩⟩, ⟨40, 1, 6, 0, ⟨1, 7⟩, ⟨0, 0⟩, ⟨0, 0⟩⟩]⟩,
         ⟨5, 0, []⟩] = some m ∧
      (RunMerger.scan 5 m).Sorted keyLe :=
  (C6_merge_sorted_permutation
    [⟨5, 0, [⟨40, 1, 1, 0, ⟨1, 0⟩, ⟨0, 0⟩, ⟨0, 0⟩⟩, ⟨40, 1, 5, 0, ⟨1, 10⟩, ⟨0, 0⟩, ⟨0, 0⟩⟩,
             ⟨40, 1, 7, 0, ⟨1, 20⟩, ⟨0, 0⟩, ⟨0, 0⟩⟩]⟩,
     ⟨5, 0, [⟨40, 1, 5, 0, ⟨1, 5⟩, ⟨0, 0⟩, ⟨0, 0⟩⟩, ⟨40, 1, 6, 0, ⟨1, 7⟩, ⟨0, 0⟩, ⟨0, 0⟩⟩]⟩,
     ⟨5, 0, []⟩]
    (by decide)).imp (fun _ h => ⟨h.1, (h.2 5 (by decide)).1⟩)

/-! ### ArchiveDirectory: names of the run files -/

/-- C7, the code at the failing input: on an empty archive, a run of 100 bytes
is closed at LSN 1.100, then `closeCurrentRun(1.200)` is called while nothing
was appended, then a run of 50 bytes is closed at LSN 1.300.  The files are
named 1.0-1.100, 1.100-1.200 and 1.100-1.300: the second ends at 1.200 but the
third begins at 1.100. -/
theorem C7_closeCurrentRun_empty_run_breaks_contiguity :
    (ArchiveDirectory.exec 16 1 (ArchiveDirectory.init 1000 128 3)
      [DirCall.appendNewEntry, DirCall.append 100, DirCall.closeCurrentRun ⟨1, 100⟩,
       DirCall.closeCurrentRun ⟨1, 200⟩,
       DirCall.appendNewEntry, DirCall.append 50, DirCall.closeCurrentRun ⟨1, 300⟩]).map
      (fun d => d.renamed)
      = some [⟨⟨1, 0⟩, ⟨1, 100⟩, 1⟩, ⟨⟨1, 100⟩, ⟨1, 200⟩, 1⟩, ⟨⟨1, 100⟩, ⟨1, 300⟩, 1⟩] ∧
    ¬ runsContiguous
      [⟨⟨1, 0⟩, ⟨1, 100⟩, 1⟩, ⟨⟨1, 100⟩, ⟨1, 200⟩, 1⟩, ⟨⟨1, 100⟩, ⟨1, 300⟩, 1⟩] := by
  refine ⟨rfl, ?_⟩
  simp [runsContiguous]

/-! ### ArchiverControl -/

/-- C8, the code at the failing input: with `endLSN` = 1.500, the call
`activate(true)` with the default LSN `lsn_t::null` fails the assertion
`w_assert0(lsn >= endLSN)` instead of returning true with `endLSN` unchanged;
so does a call with the smaller LSN 1.300. -/
theorem C8_activate_smaller_lsn_aborts :
    ArchiverControl.activate ⟨⟨1, 500⟩, false, false⟩ true lsn_t.null true = none ∧
    ArchiverControl.activate ⟨⟨1, 500⟩, false, false⟩ true ⟨1, 300⟩ true = none := by
  constructor <;> rfl

/-! ### LogArchiver::shouldActivate -/

/-- C9: `shouldActivate` returns true only if `control.endLSN` after the call is
strictly greater than `nextActLSN`; when `control.endLSN = nextActLSN` on entry
it never returns true, and it returns false (the block size of the directory,
which the constructor sets to `DFT_BLOCK_SIZE`, being positive, so that the
rounding to a block boundary is defined). -/
theorem C9_shouldActivate_needs_progress (a : LogArchiver) (logTooSlow : Bool)
    (durable_lsn : lsn_t) :
    (∀ a1, a.shouldActivate logTooSlow durable_lsn = some (true, a1) →
      a1.nextActLSN = a.nextActLSN ∧ a1.control.endLSN > a1.nextActLSN) ∧
    (a.control.endLSN = a.nextActLSN →
      ∀ a1, a.shouldActivate logTooSlow durable_lsn ≠ some (true, a1)) ∧
    (a.control.endLSN = a.nextActLSN → 0 < a.directory.blockSize →
      ∃ a1, a.shouldActivate logTooSlow durable_lsn = some (false, a1)) := by
  refine ⟨?_, ?_, ?_⟩
  · intro a1 h
    unfold LogArchiver.shouldActivate at h
    simp only at h
    split_ifs at h with h1 h2 h3 h4 h5 h6 h7 h8 <;>
      simp only [Option.some.injEq, Prod.mk.injEq, decide_eq_true_eq, Bool.false_eq_true,
        false_and, reduceCtorEq] at h
    · obtain ⟨h5, rfl⟩ := h; exact ⟨rfl, h5⟩
    · obtain ⟨h5, rfl⟩ := h; exact ⟨rfl, h5⟩
    · obtain ⟨_, rfl⟩ := h
      refine ⟨rfl, ?_⟩
      rw [not_or] at h7
      show a.nextActLSN < _
      by_contra hc
      exact h7.2 (lsn_t.le_of_not_lt hc)
    · obtain ⟨_, rfl⟩ := h
      refine ⟨rfl, ?_⟩
      rw [not_or] at h8
      show a.nextActLSN < _
      by_contra hc
      exact h8.2 (lsn_t.le_of_not_lt hc)
  · intro heq a1 h
    unfold LogArchiver.shouldActivate at h
    simp only at h
    have hirr : ¬ (a.control.endLSN > a.nextActLSN) := by
      rw [heq]; exact lsn_t.lt_irrefl _
    have hle : a.control.endLSN ≤ a.nextActLSN := by rw [heq]; exact lsn_t.le_refl _
    split_ifs at h with h1 h2 h3 h4 h5 h6 h7 h8 <;>
      simp only [Option.some.injEq, Prod.mk.injEq, decide_eq_true_eq, Bool.false_eq_true,
        false_and, reduceCtorEq] at h
    · exact hirr h.1
    · exact hirr h.1
    · apply h5
      have hdiv := Nat.mul_div_le a.control.endLSN.lo a.directory.blockSize
      rw [lsn_t.le_def] at hle ⊢
      simp only
      omega
    · exact h8 (Or.inr hle)
  · intro heq hbs
    unfold LogArchiver.shouldActivate
    simp only
    have hirr : ¬ (a.control.endLSN > a.nextActLSN) := by
      rw [heq]; exact lsn_t.lt_irrefl _
    have hle : a.control.endLSN ≤ a.nextActLSN := by rw [heq]; exact lsn_t.le_refl _
    split_ifs with h1 h2 h3 h4 h5 h6 h7 h8
    · exact ⟨a, by simp [hirr]⟩
    · exact ⟨a, by simp [hirr]⟩
    · omega
    · exact ⟨_, rfl⟩
    · exact ⟨_, rfl⟩
    · exact ⟨_, rfl⟩
    · exfalso
      apply h5
      have hdiv := Nat.mul_div_le a.control.endLSN.lo a.directory.blockSize
      rw [lsn_t.le_def] at hle ⊢
      simp only
      omega
    · exact ⟨_, rfl⟩
    · exfalso
      exact h8 (Or.inr hle)

/-- C9 on an archiver whose `control.endLSN` equals `nextActLSN`. -/
theorem C9_shouldActivate_needs_progress_witness :
    ∃ a1, LogArchiver.shouldActivate
        { directory := ArchiveDirectory.init DFT_BLOCK_SIZE 128 3,
          control := ⟨⟨1, 2097152⟩, true, false⟩, eager := true, readWholeBlocks := true,
          nextActLSN := ⟨1, 2097152⟩, flushReqLSN := ⟨0, 0⟩ }
        false ⟨1, 2097200⟩ = some (false, a1) :=
  (C9_shouldActivate_needs_progress
    { directory := ArchiveDirectory.init DFT_BLOCK_SIZE 128 3,
      control := ⟨⟨1, 2097152⟩, true, false⟩, eager := true, readWholeBlocks := true,
      nextActLSN := ⟨1, 2097152⟩, flushReqLSN := ⟨0, 0⟩ }
    false ⟨1, 2097200⟩).2.2 rfl (by decide)

/-! ### LogScanner::nextLogrec -/

set_option maxRecDepth 100000 in
/-- C10, the code at the failing input (r = 1): blocks of 512 bytes, a record of
L = 272 bytes (length bytes 16 and 1) whose first byte is the last byte of the
first block, and a zero byte in memory behind the first block.  The first call
returns false with `pos` = 512 but computes the length from the byte behind the
block and remembers 15 missing bytes instead of 271; the second call returns
true with `pos` = 15 instead of 271, on a record of which only 16 bytes were
assembled. -/
theorem C10_one_byte_remaining_misreads_length :
    LogScanner.nextLogrec ⟨32, 1024, fun _ => true⟩ 1
        (LogScanner.init 512 (List.replicate 512 0) [])
        (List.replicate 511 9 ++ [16] ++ [0]) 511 none none none
      = some ⟨false, 512, some (LrPtr.inBlock 511), none, some (-1),
          { truncCopied := 1, truncMissing := 15, toSkip := 0, blockSize := 512,
            truncBuf := [16] ++ List.replicate 511 0, ignore := [] }⟩ ∧
    (LogScanner.nextLogrec ⟨32, 1024, fun _ => true⟩ 1
        { truncCopied := 1, truncMissing := 15, toSkip := 0, blockSize := 512,
          truncBuf := [16] ++ List.replicate 511 0, ignore := [] }
        ([1, 7] ++ List.replicate 510 3) 0 none none none).map
      (fun res => (res.ok, res.pos, res.scanner.truncCopied))
      = some (true, 15, 16) ∧
    (15 : Nat) ≠ 272 - 1 := by
  refine ⟨by rfl, by rfl, by decide⟩

theorem logrec_length_eq (mem : List Nat) (off L : Nat)
    (h : logrec_length mem off = some L) :
    ∃ b0 b1, mem[off]? = some b0 ∧ mem[off + 1]? = some b1 ∧ L = b0 + 256 * b1 := by
  unfold logrec_length at h
  cases h0 : mem[off]? with
  | none => rw [h0] at h; simp at h
  | some b0 =>
    cases h1 : mem[off + 1]? with
    | none => rw [h0, h1] at h; simp at h
    | some b1 =>
      rw [h0, h1] at h
      simp only [Option.some.injEq] at h
      exact ⟨b0, b1, rfl, rfl, h.symm⟩

/-- The length field of a record read where the record starts in a block, when
at least two bytes of the record lie in the memory known. -/
theorem logrec_length_in_block (pre rec rest : List Nat) (r L : Nat) (hr : 2 ≤ r)
    (hrl : r ≤ rec.length) (h : logrec_length rec 0 = some L) :
    logrec_length (pre ++ rec.take r ++ rest) pre.length = some L := by
  obtain ⟨b0, b1, h0, h1, hL⟩ := logrec_length_eq rec 0 L h
  have e0 : (pre ++ rec.take r ++ rest)[pre.length]? = some b0 := by
    rw [List.append_assoc, List.getElem?_append_right (le_refl _), Nat.sub_self,
      List.getElem?_append_left (by simp; omega), List.getElem?_take_of_lt (by omega)]
    exact h0
  have e1 : (pre ++ rec.take r ++ rest)[pre.length + 1]? = some b1 := by
    rw [List.append_assoc, List.getElem?_append_right (by omega),
      Nat.add_sub_cancel_left,
      List.getElem?_append_left (by simp; omega), List.getElem?_take_of_lt (by omega)]
    exact h1
  unfold logrec_length
  rw [e0, e1, hL]

/-- First call on a record of which only `r` bytes (at least two, fewer than its
length) are left in the block: the call returns false at the end of the block
and remembers the `r` bytes and the number of bytes missing. -/
theorem LogScanner.nextLogrec_truncated (fmt : LogrecFormat) (fuel : Nat) (sc : LogScanner)
    (pre rec rest : List Nat) (r L : Nat) (nextLSN stopLSN : Option lsn_t)
    (lrLength0 : Option Int)
    (hbs : sc.blockSize < 2 ^ 64) (hL64 : L < 2 ^ 64)
    (hmiss : sc.truncMissing = 0)
    (hlen : rec.length = L) (hdecl : logrec_length rec 0 = some L)
    (hr2 : 2 ≤ r) (hrL : r < L) (hpre : pre.length + r = sc.blockSize)
    (hbuf : L ≤ sc.truncBuf.length)
    (hvalid : r < fmt.sizeof_baseLogHeader ∨ fmt.valid_header (rec.take r ++ rest) = true)
    (hmax : r ≤ fmt.sizeof_logrec_t)
    (hstop : ¬ (nextLSN.isSome ∧ stopLSN.isSome ∧ stopLSN = nextLSN)) :
    LogScanner.nextLogrec fmt (fuel + 1) sc (pre ++ rec.take r ++ rest) pre.length
        nextLSN stopLSN lrLength0
      = some ⟨false, sc.blockSize, some (LrPtr.inBlock pre.length), nextLSN, some (L : Int),
          { sc with truncBuf := rec.take r ++ sc.truncBuf.drop r, truncCopied := r,
                    truncMissing := L - r }⟩ := by
  have hrem : (sc.blockSize + 2 ^ 64 - pre.length) % 2 ^ 64 = r := by omega
  have hl := logrec_length_in_block pre rec rest r L hr2 (by omega) hdecl
  have hdrop : (pre ++ rec.take r ++ rest).drop pre.length = rec.take r ++ rest := by
    rw [List.append_assoc, List.drop_left]
  have hcpy : memcpy sc.truncBuf 0 (pre ++ rec.take r ++ rest) pre.length r
      = some (rec.take r ++ sc.truncBuf.drop r) := by
    unfold memcpy
    rw [if_pos (by simp; omega), hdrop]
    have : (rec.take r ++ rest).take r = rec.take r := by
      rw [List.take_append_of_le_length (by simp; omega), List.take_take]
      simp
    rw [this]
    simp
  have hmissv : (L + 2 ^ 64 - r) % 2 ^ 64 = L - r := by omega
  rw [LogScanner.nextLogrec]
  rw [if_neg hstop]
  simp only [hrem]
  rw [if_neg (by omega), if_neg (by omega), if_neg (by omega)]
  simp only [hl, Option.map_some']
  have hgt : decide (L > r) = true := by simpa using hrL
  rw [hgt]
  simp only [hdrop]
  rw [if_neg (fun hc => hc hvalid), if_neg (fun hc => hc hmax)]
  simp only [hcpy, hmissv]
  rw [if_pos (by omega)]
  simp [hpre]

/-- Second call, on the block that starts with the missing bytes: the record is
completed in the truncation buffer and returned, and `pos` is the number of
bytes that were missing. -/
theorem LogScanner.nextLogrec_completed (fmt : LogrecFormat) (fuel : Nat) (sc : LogScanner)
    (rec post tail : List Nat) (r L t pos : Nat) (nextLSN stopLSN : Option lsn_t)
    (lrLength0 : Option Int) (hpos : pos = 0)
    (hbs : sc.blockSize < 2 ^ 64) (hbs0 : 0 < sc.blockSize)
    (hmiss : sc.truncMissing = L - r) (hcop : sc.truncCopied = r) (hskip : sc.toSkip = 0)
    (hbuf : sc.truncBuf = rec.take r ++ tail) (htail : L ≤ r + tail.length)
    (hlen : rec.length = L) (hdecl : logrec_length rec 0 = some L)
    (hrL : r < L) (htype : rec[2]? = some t) (hign : t ∉ sc.ignore)
    (hstop : ¬ (nextLSN.isSome ∧ stopLSN.isSome ∧ stopLSN = nextLSN)) :
    LogScanner.nextLogrec fmt (fuel + 1) sc (rec.drop r ++ post) pos nextLSN stopLSN
        lrLength0
      = some ⟨true, L - r, some LrPtr.truncBuf, nextLSN.map (fun l => l.advance L),
          some (L : Int),
          { sc with truncBuf := rec ++ tail.drop (L - r), truncCopied := r + (L - r),
                    truncMissing := 0 }⟩ := by
  have hrem : (sc.blockSize + 2 ^ 64 - pos) % 2 ^ 64 = sc.blockSize := by omega
  have hcpy : memcpy sc.truncBuf sc.truncCopied (rec.drop r ++ post) pos sc.truncMissing
      = some (rec ++ tail.drop (L - r)) := by
    unfold memcpy
    rw [hmiss, hcop, hbuf]
    rw [if_pos (by simp; omega)]
    have h1 : (rec.take r ++ tail).take r = rec.take r := by
      rw [List.take_append_of_le_length (by simp; omega), List.take_take]
      simp
    have h2 : ((rec.drop r ++ post).drop pos).take (L - r) = rec.drop r := by
      rw [hpos, List.drop_zero, List.take_append_of_le_length (by simp; omega)]
      exact List.take_of_length_le (by simp; omega)
    have h3 : (rec.take r ++ tail).drop (r + (L - r)) = tail.drop (L - r) := by
      rw [List.drop_append_eq_append_drop]
      have : (rec.take r).length = r := by simp; omega
      rw [this, List.drop_of_length_le (by simp)]
      simp
    rw [h1, h2, h3, List.take_append_drop]
  obtain ⟨b0, b1, e0, e1, hLb⟩ := logrec_length_eq rec 0 L hdecl
  have h3L : 2 < rec.length := (List.getElem?_eq_some_iff.1 htype).1
  have hl : logrec_length (rec ++ tail.drop (L - r)) 0 = some L := by
    unfold logrec_length
    rw [List.getElem?_append_left (by omega), List.getElem?_append_left (by omega), e0, e1,
      hLb]
  have ht : logrec_type (rec ++ tail.drop (L - r)) 0 = some t := by
    unfold logrec_type
    rw [List.getElem?_append_left (by omega)]
    exact htype
  rw [LogScanner.nextLogrec]
  rw [if_neg hstop]
  simp only [hrem]
  rw [if_neg (by omega), if_pos (by omega)]
  simp only [hcpy, hl, ht]
  rw [if_neg (fun hc => hign hc.1)]
  rw [if_neg hign]
  simp only [hskip]
  rw [if_neg (by omega)]
  simp [hmiss, hcop, hpos]

/-- A log record of length L that starts with `r` bytes left in a block, for
2 ≤ r < L: the first call returns false with `pos` at the end of the block, and
the call on the following block at `pos` 0 returns true with the L bytes of the
record and `pos` = L - r. -/
theorem LogScanner.nextLogrec_straddle (fmt : LogrecFormat) (sc : LogScanner)
    (pre rec rest post : List Nat) (r L t : Nat) (nextLSN stopLSN : Option lsn_t)
    (lrLength0 : Option Int)
    (hbs : sc.blockSize < 2 ^ 64) (hL64 : L < 2 ^ 64)
    (hmiss : sc.truncMissing = 0) (hskip : sc.toSkip = 0)
    (hlen : rec.length = L) (hdecl : logrec_length rec 0 = some L)
    (hr2 : 2 ≤ r) (hrL : r < L) (hpre : pre.length + r = sc.blockSize)
    (hbuf : L ≤ sc.truncBuf.length)
    (hvalid : r < fmt.sizeof_baseLogHeader ∨ fmt.valid_header (rec.take r ++ rest) = true)
    (hmax : r ≤ fmt.sizeof_logrec_t)
    (htype : rec[2]? = some t) (hign : t ∉ sc.ignore)
    (hstop : ¬ (nextLSN.isSome ∧ stopLSN.isSome ∧ stopLSN = nextLSN)) :
    ∃ res1 res2,
      LogScanner.nextLogrec fmt 1 sc (pre ++ rec.take r ++ rest) pre.length
        nextLSN stopLSN lrLength0 = some res1 ∧
      res1.ok = false ∧ res1.pos = sc.blockSize ∧
      LogScanner.nextLogrec fmt 1 res1.scanner (rec.drop r ++ post) 0
        res1.nextLSN stopLSN res1.lrLength = some res2 ∧
      res2.ok = true ∧ res2.pos = L - r ∧ res2.record (rec.drop r ++ post) = some rec := by
  have h1 := LogScanner.nextLogrec_truncated fmt 0 sc pre rec rest r L nextLSN stopLSN
    lrLength0 hbs hL64 hmiss hlen hdecl hr2 hrL hpre hbuf hvalid hmax hstop
  have h2 := LogScanner.nextLogrec_completed fmt 0
    { sc with truncBuf := rec.take r ++ sc.truncBuf.drop r, truncCopied := r,
              truncMissing := L - r }
    rec post (sc.truncBuf.drop r) r L t 0 nextLSN stopLSN (some (L : Int)) rfl
    hbs (by show 0 < sc.blockSize; omega) rfl rfl hskip rfl (by simp; omega) hlen hdecl hrL
    htype hign hstop
  refine ⟨_, _, h1, rfl, rfl, h2, rfl, rfl, ?_⟩
  obtain ⟨b0, b1, e0, e1, hLb⟩ := logrec_length_eq rec 0 L hdecl
  have hl : logrec_length (rec ++ (sc.truncBuf.drop r).drop (L - r)) 0 = some L := by
    unfold logrec_length
    rw [List.getElem?_append_left (by omega), List.getElem?_append_left (by omega), e0, e1,
      hLb]
  simp only [ScanResult.record, hl, Option.map_some', Option.some.injEq]
  rw [List.take_append_of_le_length (by omega)]
  exact List.take_of_length_le (by omega)

/-- The straddling record on blocks of 8 bytes: a record of 6 bytes of which 2
are left in the first block. -/
theorem LogScanner.nextLogrec_straddle_example :
    ∃ res1 res2,
      LogScanner.nextLogrec ⟨4, 64, fun _ => true⟩ 1
        (LogScanner.init 8 (List.replicate 16 0) [5])
        ([9, 9, 9, 9, 9, 9] ++ [6, 0, 7, 1, 2, 3].take 2 ++ []) 6 none none none = some res1 ∧
      res1.ok = false ∧ res1.pos = 8 ∧
      LogScanner.nextLogrec ⟨4, 64, fun _ => true⟩ 1 res1.scanner
        ([6, 0, 7, 1, 2, 3].drop 2 ++ [8, 8, 8, 8]) 0
        res1.nextLSN none res1.lrLength = some res2 ∧
      res2.ok = true ∧ res2.pos = 6 - 2 ∧
      res2.record ([6, 0, 7, 1, 2, 3].drop 2 ++ [8, 8, 8, 8]) = some [6, 0, 7, 1, 2, 3] :=
  LogScanner.nextLogrec_straddle ⟨4, 64, fun _ => true⟩
    (LogScanner.init 8 (List.replicate 16 0) [5])
    [9, 9, 9, 9, 9, 9] [6, 0, 7, 1, 2, 3] [] [8, 8, 8, 8] 2 6 7 none none none
    (by decide) (by decide) rfl rfl rfl rfl (by decide) (by decide) rfl (by decide)
    (Or.inl (by decide)) (by decide) rfl (by decide) (by decide)

theorem W_DO_RCOK_eq {σ : Type} (r : w_rc_t × σ) : W_DO_RCOK r = r := by
  obtain ⟨rc, s⟩ := r
  cases rc <;> rfl

theorem btree_m.insert_eq {σ : Type} (impl : btree_impl_ops σ) (max_entry_size : Nat) (s : σ)
    (root : lpid_t) (key : w_keystr_t) (el : cvec_t) :
    btree_m.insert impl max_entry_size s root key el =
      if (key.get_length_as_keystr + el.size) % 2 ^ 64 > max_entry_size then
        (w_rc_t.RC err_num_t.eRECWONTFIT, s)
      else impl._ux_insert s root key el := by
  unfold btree_m.insert
  rw [W_DO_RCOK_eq]

theorem btree_m.update_eq {σ : Type} (impl : btree_impl_ops σ) (max_entry_size : Nat) (s : σ)
    (root : lpid_t) (key : w_keystr_t) (el : cvec_t) :
    btree_m.update impl max_entry_size s root key el =
      if (key.get_length_as_keystr + el.size) % 2 ^ 64 > max_entry_size then
        (w_rc_t.RC err_num_t.eRECWONTFIT, s)
      else impl._ux_update s root key el := by
  unfold btree_m.update
  rw [W_DO_RCOK_eq]

/-- C11: for key and value whose lengths add up to a `size_t`, `btree_m::insert`
and `btree_m::update` return `eRECWONTFIT` whatever the underlying operation is
and with the state untouched (the underlying operation is not invoked) exactly
when `key.get_length_as_keystr() + el.size() > max_entry_size`; when the sum is at
most `max_entry_size` the result is the result of `_ux_insert` / `_ux_update`. -/
theorem C11_insert_update_size_gate (max_entry_size : Nat) (root : lpid_t)
    (key : w_keystr_t) (el : cvec_t)
    (hsz : key.get_length_as_keystr + el.size < 2 ^ 64) :
    ((∀ (σ : Type) (impl : btree_impl_ops σ) (s : σ),
        btree_m.insert impl max_entry_size s root key el
          = (w_rc_t.RC err_num_t.eRECWONTFIT, s)) ↔
      key.get_length_as_keystr + el.size > max_entry_size) ∧
    ((∀ (σ : Type) (impl : btree_impl_ops σ) (s : σ),
        btree_m.update impl max_entry_size s root key el
          = (w_rc_t.RC err_num_t.eRECWONTFIT, s)) ↔
      key.get_length_as_keystr + el.size > max_entry_size) ∧
    (key.get_length_as_keystr + el.size ≤ max_entry_size →
      ∀ (σ : Type) (impl : btree_impl_ops σ) (s : σ),
        btree_m.insert impl max_entry_size s root key el = impl._ux_insert s root key el ∧
        btree_m.update impl max_entry_size s root key el = impl._ux_update s root key el) := by
  have hmod : (key.get_length_as_keystr + el.size) % 2 ^ 64
      = key.get_length_as_keystr + el.size := Nat.mod_eq_of_lt hsz
  refine ⟨⟨?_, ?_⟩, ⟨?_, ?_⟩, ?_⟩
  · intro h
    by_contra hle
    have h1 := h Unit ⟨fun s _ _ _ => (w_rc_t.RCOK, s), fun s _ _ _ => (w_rc_t.RCOK, s)⟩ ()
    rw [btree_m.insert_eq, hmod, if_neg hle] at h1
    cases h1
  · intro hgt σ impl s
    rw [btree_m.insert_eq, hmod, if_pos hgt]
  · intro h
    by_contra hle
    have h1 := h Unit ⟨fun s _ _ _ => (w_rc_t.RCOK, s), fun s _ _ _ => (w_rc_t.RCOK, s)⟩ ()
    rw [btree_m.update_eq, hmod, if_neg hle] at h1
    cases h1
  · intro hgt σ impl s
    rw [btree_m.update_eq, hmod, if_pos hgt]
  · intro hle σ impl s
    rw [btree_m.insert_eq, btree_m.update_eq, hmod, if_neg (Nat.not_lt.2 hle),
      if_neg (Nat.not_lt.2 hle)]
    exact ⟨rfl, rfl⟩

theorem C11_insert_update_size_gate_witness :
    btree_m.insert
        (⟨fun s _ _ _ => (w_rc_t.RCOK, s + 1),
          fun s _ _ _ => (w_rc_t.RC (err_num_t.other 5), s)⟩ : btree_impl_ops Nat)
        8 0 ⟨1, 1, 3⟩ ⟨[1, 2, 3]⟩ ⟨[7, 7]⟩ = (w_rc_t.RCOK, 1) ∧
    btree_m.update
        (⟨fun s _ _ _ => (w_rc_t.RCOK, s + 1),
          fun s _ _ _ => (w_rc_t.RC (err_num_t.other 5), s)⟩ : btree_impl_ops Nat)
        8 0 ⟨1, 1, 3⟩ ⟨[1, 2, 3]⟩ ⟨[7, 7]⟩ = (w_rc_t.RC (err_num_t.other 5), 0) :=
  (C11_insert_update_size_gate 8 ⟨1, 1, 3⟩ ⟨[1, 2, 3]⟩ ⟨[7, 7]⟩ (by decide)).2.2 (by decide) Nat
    ⟨fun s _ _ _ => (w_rc_t.RCOK, s + 1), fun s _ _ _ => (w_rc_t.RC (err_num_t.other 5), s)⟩ 0

theorem common_leading_bytes_le_left (a b : List Nat) :
    common_leading_bytes a b ≤ a.length := by
  induction a generalizing b with
  | nil => simp [common_leading_bytes]
  | cons x xs ih =>
    cases b with
    | nil => simp [common_leading_bytes]
    | cons y ys =>
      simp only [common_leading_bytes]
      split_ifs
      · have := ih ys
        simp only [List.length_cons]
        omega
      · omega

theorem common_leading_bytes_le_right (a b : List Nat) :
    common_leading_bytes a b ≤ b.length := by
  induction a generalizing b with
  | nil => simp [common_leading_bytes]
  | cons x xs ih =>
    cases b with
    | nil => simp [common_leading_bytes]
    | cons y ys =>
      simp only [common_leading_bytes]
      split_ifs
      · have := ih ys
        simp only [List.length_cons]
        omega
      · omega

theorem take_common_leading_bytes (a b : List Nat) :
    a.take (common_leading_bytes a b) = b.take (common_leading_bytes a b) := by
  induction a generalizing b with
  | nil => simp [common_leading_bytes]
  | cons x xs ih =>
    cases b with
    | nil => simp [common_leading_bytes]
    | cons y ys =>
      simp only [common_leading_bytes]
      split_ifs with h
      · subst h
        simp only [List.take_succ_cons]
        rw [ih ys]
      · simp

/-- Reading the fence keys back from a freshly formatted page gives the keys it
was formatted with. -/
theorem btree_page.formatted_fences (pid : lpid_t) (root : Nat) (l : Int) (pid0 foster : Nat)
    (low high chain : w_keystr_t) (recs : List btree_rec)
    (latch : latch_mode_t) (dirty fixed : Bool) (lsn : lsn_t) :
    let h : btree_page_h :=
      ⟨{ btree_page.formatted pid root l pid0 foster low high chain recs with lsn := lsn },
        latch, dirty, fixed⟩
    h.copy_fence_low_key = low ∧ h.copy_fence_high_key = high ∧
      h.copy_chain_fence_high_key = chain := by
  obtain ⟨low⟩ := low
  obtain ⟨high⟩ := high
  obtain ⟨chain⟩ := chain
  have h1 := common_leading_bytes_le_left low high
  have h2 := common_leading_bytes_le_right low high
  have h3 := take_common_leading_bytes low high
  refine ⟨?_, ?_, ?_⟩
  · simp [btree_page_h.copy_fence_low_key, btree_page.formatted, List.take_append_eq_append_take]
  · simp only [btree_page_h.copy_fence_high_key, btree_page.formatted, w_keystr_t.mk.injEq]
    have e : (List.drop (common_leading_bytes low high) high).take
        (high.length - common_leading_bytes low high)
          = List.drop (common_leading_bytes low high) high :=
      List.take_of_length_le (by simp)
    rw [List.append_assoc, List.take_append_of_le_length h1, List.drop_left, h3,
      List.take_append_of_le_length (by simp), e, List.take_append_drop]
  · simp only [btree_page_h.copy_chain_fence_high_key, btree_page.formatted, w_keystr_t.mk.injEq]
    have : low.length + (high.length - common_leading_bytes low high)
        = (low ++ List.drop (common_leading_bytes low high) high).length := by simp
    rw [this, List.drop_left, List.take_length]
theorem btree_page_h.init_fix_steal_nolog (env : sm_env) (w : sm_world)
    (pid : lpid_t) (root : Nat) (l : Int) (pid0 foster : Nat)
    (low high chain : w_keystr_t) (src : Option btree_page_h) (a b : Nat)
    (hfix : (env.fix_rc w pid).is_error = false) :
    btree_page_h.init_fix_steal env w pid root l pid0 foster low high chain src a b false
      = (w_rc_t.RCOK, w,
          some ⟨btree_page.formatted pid root l pid0 foster low high chain
            (steal_records src a b), latch_mode_t.LATCH_EX, false, true⟩) := by
  simp [btree_page_h.init_fix_steal, btree_page_h.format_steal, hfix]

/-- The result of `_ux_split_foster_apply` once the new page is fixed and its
`btree_noop` record is written. -/
theorem btree_impl.split_apply_spec (env : sm_env) (w : sm_world) (page : btree_page_h)
    (s : Nat) (mid_key : w_keystr_t) (new_pid : lpid_t)
    (new_child_key : Option w_keystr_t) (new_child_pid new_pid0 : Nat)
    (hpid0 : (if page.is_node then page.child s else some 0) = some new_pid0)
    (hfix : (env.fix_rc w new_pid).is_error = false)
    (hlog : (env.log_rc w log_kind.btree_noop new_pid).1.is_error = false) :
    btree_impl._ux_split_foster_apply env w page s mid_key new_pid new_child_key new_child_pid
      = if page.is_node then
          match new_child_key with
          | none => none
          | some k =>
            if (split_left page s mid_key new_pid).fence_contains k then
              some ⟨(btree_impl._ux_adopt_foster_apply_parent env
                      (split_left page s mid_key new_pid) new_child_pid k).1,
                    split_world w page new_pid,
                    (btree_impl._ux_adopt_foster_apply_parent env
                      (split_left page s mid_key new_pid) new_child_pid k).2,
                    some (split_right env w page s mid_key new_pid new_pid0)⟩
            else
              some ⟨(btree_impl._ux_adopt_foster_apply_parent env
                      (split_right env w page s mid_key new_pid new_pid0) new_child_pid k).1,
                    split_world w page new_pid,
                    split_left page s mid_key new_pid,
                    some (btree_impl._ux_adopt_foster_apply_parent env
                      (split_right env w page s mid_key new_pid new_pid0) new_child_pid k).2⟩
        else
          some ⟨w_rc_t.RCOK, split_world w page new_pid, split_left page s mid_key new_pid,
            some (split_right env w page s mid_key new_pid new_pid0)⟩ := by
  have hlog2 : env.log w log_kind.btree_noop
      ⟨btree_page.formatted new_pid page._pp.btree_root page.level new_pid0 page.get_foster
        mid_key page.copy_fence_high_key (split_new_chain_high page)
        (steal_records (some page) (if page.is_node then s + 1 else s) page.nrecs),
        latch_mode_t.LATCH_EX, false, true⟩
      = (w_rc_t.RCOK, { w with log := w.log ++ [(log_kind.btree_noop, new_pid)] },
          btree_page_h.set_lsns
            ⟨btree_page.formatted new_pid page._pp.btree_root page.level new_pid0
              page.get_foster mid_key page.copy_fence_high_key (split_new_chain_high page)
              (steal_records (some page) (if page.is_node then s + 1 else s) page.nrecs),
              latch_mode_t.LATCH_EX, false, true⟩
            (env.log_rc w log_kind.btree_noop new_pid).2) := by
    unfold sm_env.log
    have : (btree_page.formatted new_pid page._pp.btree_root page.level new_pid0
        page.get_foster mid_key page.copy_fence_high_key (split_new_chain_high page)
        (steal_records (some page) (if page.is_node then s + 1 else s) page.nrecs)).pid
          = new_pid := rfl
    simp only [this, hlog, Bool.false_eq_true, if_false]
  have hch : (if (page.get_chain_fence_high_length == 0) = true then (⟨[]⟩ : w_keystr_t)
      else if (page.get_chain_fence_high_length == 0) = true then page.copy_fence_high_key
        else page.copy_chain_fence_high_key) = split_new_chain_high page := by
    unfold split_new_chain_high
    split_ifs <;> rfl
  unfold btree_impl._ux_split_foster_apply
  simp only [hpid0]
  rw [btree_page_h.init_fix_steal_nolog _ _ _ _ _ _ _ _ _ _ _ _ _ hfix]
  simp only [hch, hlog2]
  simp only [w_rc_t.is_error, Bool.false_eq_true, if_false, btree_page_h.format_steal,
    sm_env.register_write_order_dependency]
  rfl
theorem steal_records_leaf (page : btree_page_h) (s : Nat) :
    steal_records (some page) s page.nrecs = page._pp.recs.drop s := by
  unfold steal_records btree_page_h.nrecs
  exact List.take_of_length_le (by simp)

/-- C12: a record split of a leaf page with `s < nrecs`, once the new page is fixed
and its log record written, ends with success; the left page holds the records
`[0, s)` in order, keeps its low fence, has the middle key as high fence and the
new page as foster; the new page holds the records `[s, nrecs)` in order, with
the middle key as low fence, the old high fence as high fence and the old foster
as foster; its chain high fence is the old chain high fence of the page, or the
empty key when the page had none; the two record lists together are the old
record list. -/
theorem C12_split_apply_leaf (env : sm_env) (w : sm_world) (page : btree_page_h)
    (s : Nat) (mid_key : w_keystr_t) (new_pid : lpid_t)
    (new_child_key : Option w_keystr_t) (new_child_pid : Nat)
    (hleaf : page.is_leaf = true) (_hs : s < page.nrecs)
    (hfix : (env.fix_rc w new_pid).is_error = false)
    (hlog : (env.log_rc w log_kind.btree_noop new_pid).1.is_error = false) :
    ∃ res R,
      btree_impl._ux_split_foster_apply env w page s mid_key new_pid new_child_key
        new_child_pid = some res ∧
      res.rc = w_rc_t.RCOK ∧ res.new_page = some R ∧ R._pp.pid = new_pid ∧
      res.page._pp.recs = page._pp.recs.take s ∧
      res.page.copy_fence_low_key = page.copy_fence_low_key ∧
      res.page.copy_fence_high_key = mid_key ∧
      res.page.get_foster = R._pp.pid.page ∧
      R._pp.recs = page._pp.recs.drop s ∧
      R.copy_fence_low_key = mid_key ∧
      R.copy_fence_high_key = page.copy_fence_high_key ∧
      R.get_foster = page.get_foster ∧
      R.copy_chain_fence_high_key =
        (if page.get_chain_fence_high_length = 0 then ⟨[]⟩
         else page.copy_chain_fence_high_key) ∧
      res.page._pp.recs ++ R._pp.recs = page._pp.recs := by
  have hnode : page.is_node = false := by simp [btree_page_h.is_node, hleaf]
  have hspec := btree_impl.split_apply_spec env w page s mid_key new_pid new_child_key
    new_child_pid 0 (by simp [hnode]) hfix hlog
  simp only [hnode, Bool.false_eq_true, if_false] at hspec
  have hL := btree_page.formatted_fences page._pp.pid page._pp.btree_root page.level
    page._pp.btree_pid0 new_pid.page page.copy_fence_low_key mid_key (split_chain_high page)
    (page._pp.recs.take s) page.latch true page.fixed page._pp.lsn
  have hR := btree_page.formatted_fences new_pid page._pp.btree_root page.level 0
    page.get_foster mid_key page.copy_fence_high_key (split_new_chain_high page)
    (steal_records (some page) (if page.is_node then s + 1 else s) page.nrecs)
    latch_mode_t.LATCH_EX true true (env.log_rc w log_kind.btree_noop new_pid).2
  have hrecs : (split_right env w page s mid_key new_pid 0)._pp.recs = page._pp.recs.drop s := by
    show steal_records (some page) (if page.is_node then s + 1 else s) page.nrecs = _
    rw [hnode]
    exact steal_records_leaf page s
  refine ⟨_, split_right env w page s mid_key new_pid 0, hspec, rfl, rfl, rfl, rfl, hL.1,
    hL.2.1, rfl, hrecs, hR.1, hR.2.1, rfl, ?_, ?_⟩
  · rw [show (split_right env w page s mid_key new_pid 0).copy_chain_fence_high_key
        = split_new_chain_high page from hR.2.2]
    unfold split_new_chain_high
    by_cases h0 : page.get_chain_fence_high_length = 0 <;> simp [h0]
  · show (split_left page s mid_key new_pid)._pp.recs ++ _ = _
    rw [hrecs]
    exact List.take_append_drop s page._pp.recs
theorem sm_env.log_cases (env : sm_env) (w : sm_world) (k : log_kind) (p : btree_page_h) :
    (env.log w k p).2.1.wod = w.wod ∧
    (env.log w k p).2.1.sys_xct = w.sys_xct ∧
    ∃ lsn, (env.log w k p).2.2 = p.set_lsns lsn := by
  unfold sm_env.log
  by_cases h : (env.log_rc w k p._pp.pid).1.is_error = true
  · simp only [h, if_true]
    exact ⟨trivial, trivial, p._pp.lsn, rfl⟩
  · simp only [h, Bool.false_eq_true, if_false]
    exact ⟨trivial, trivial, _, rfl⟩

theorem sm_env.log_ok (env : sm_env) (w : sm_world) (k : log_kind) (p : btree_page_h)
    (h : (env.log_rc w k p._pp.pid).1.is_error = false) :
    env.log w k p = (w_rc_t.RCOK, { w with log := w.log ++ [(k, p._pp.pid)] },
      p.set_lsns (env.log_rc w k p._pp.pid).2) := by
  unfold sm_env.log
  simp only [h, Bool.false_eq_true, if_false]

theorem btree_page_h.init_fix_steal_cases (env : sm_env) (w : sm_world)
    (pid : lpid_t) (root : Nat) (l : Int) (pid0 foster : Nat)
    (low high chain : w_keystr_t) (src : Option btree_page_h) (a b : Nat) (log_it : Bool) :
    (btree_page_h.init_fix_steal env w pid root l pid0 foster low high chain src a b
        log_it).2.1.wod = w.wod ∧
    (∀ R, (btree_page_h.init_fix_steal env w pid root l pid0 foster low high chain src a b
        log_it).2.2 = some R →
      ∃ lsn, R = ⟨{ btree_page.formatted pid root l pid0 foster low high chain
                      (steal_records src a b) with lsn := lsn },
                  latch_mode_t.LATCH_EX, false, true⟩) ∧
    ((env.fix_rc w pid).is_error = false →
      ∃ R, (btree_page_h.init_fix_steal env w pid root l pid0 foster low high chain src a b
        log_it).2.2 = some R) ∧
    ((env.fix_rc w pid).is_error = false →
      (env.log_rc w log_kind.page_img_format pid).1.is_error = false →
      (btree_page_h.init_fix_steal env w pid root l pid0 foster low high chain src a b
        log_it).1 = w_rc_t.RCOK) ∧
    ((btree_page_h.init_fix_steal env w pid root l pid0 foster low high chain src a b
        log_it).2.2 = none →
      (btree_page_h.init_fix_steal env w pid root l pid0 foster low high chain src a b
        log_it).1.is_error = true) := by
  unfold btree_page_h.init_fix_steal
  by_cases hf : (env.fix_rc w pid).is_error = true
  · simp [hf]
  · simp only [hf, Bool.false_eq_true, if_false, btree_page_h.format_steal]
    cases log_it
    · simp only [Bool.false_eq_true, if_false]
      exact ⟨trivial, fun R hR => ⟨lsn_t.null, (Option.some.inj hR).symm⟩, fun _ => ⟨_, rfl⟩,
        fun _ _ => trivial, fun hc => by cases hc⟩
    · simp only [if_true]
      obtain ⟨h1, _, lsn, h3⟩ := sm_env.log_cases env w log_kind.page_img_format
        ⟨btree_page.formatted pid root l pid0 foster low high chain (steal_records src a b),
          latch_mode_t.LATCH_EX, false, true⟩
      refine ⟨h1, fun R hR => ⟨lsn, ?_⟩, fun _ => ⟨_, rfl⟩, fun _ hl => ?_, fun hc => by cases hc⟩
      · rw [← Option.some.inj hR, h3]
        rfl
      · rw [sm_env.log_ok env w _ _ hl]
theorem btree_page_h.norecord_split_cases (env : sm_env) (w : sm_world) (p : btree_page_h)
    (foster : Nat) (high chain : w_keystr_t) :
    (p.norecord_split env w foster high chain).2.1.wod = w.wod ∧
    (p.norecord_split env w foster high chain).2.2._pp.recs = p._pp.recs ∧
    (p.norecord_split env w foster high chain).2.2._pp.btree_level = p._pp.btree_level ∧
    (p.norecord_split env w foster high chain).2.2._pp.pid = p._pp.pid ∧
    ((env.log_rc w log_kind.btree_foster_norecord_split p._pp.pid).1.is_error = false →
      (p.norecord_split env w foster high chain).1 = w_rc_t.RCOK ∧
      (p.norecord_split env w foster high chain).2.2.get_foster = foster ∧
      (p.norecord_split env w foster high chain).2.2.copy_fence_low_key
        = p.copy_fence_low_key ∧
      (p.norecord_split env w foster high chain).2.2.copy_fence_high_key = high ∧
      (p.norecord_split env w foster high chain).2.2.copy_chain_fence_high_key = chain) ∧
    ((p.norecord_split env w foster high chain).1.is_error = false →
      (env.log_rc w log_kind.btree_foster_norecord_split p._pp.pid).1.is_error = false) := by
  unfold btree_page_h.norecord_split
  by_cases h : (env.log_rc w log_kind.btree_foster_norecord_split p._pp.pid).1.is_error = true
  · have e : env.log w log_kind.btree_foster_norecord_split p
        = ((env.log_rc w log_kind.btree_foster_norecord_split p._pp.pid).1, w, p) := by
      unfold sm_env.log
      simp only [h, if_true]
    simp only [e, h, if_true]
    exact ⟨trivial, trivial, trivial, trivial, fun hc => Bool.noConfusion hc, fun hc => hc⟩
  · have h0 : (env.log_rc w log_kind.btree_foster_norecord_split p._pp.pid).1.is_error = false := by
      simpa using h
    rw [sm_env.log_ok env w _ p h0]
    simp only [w_rc_t.is_error, Bool.false_eq_true, if_false]
    refine ⟨trivial, rfl, rfl, rfl, fun _ => ?_, fun _ => ?_⟩
    have hf := btree_page.formatted_fences p._pp.pid p._pp.btree_root p._pp.btree_level
      p._pp.btree_pid0 foster p.copy_fence_low_key high chain p._pp.recs p.latch p.dirty
      p.fixed (env.log_rc w log_kind.btree_foster_norecord_split p._pp.pid).2
    · exact ⟨trivial, rfl, hf.1, hf.2.1, hf.2.2⟩
    · exact h0

/-- C13: when `suggest_fence_for_split` returns `right_begins_from == nrecs`,
`_ux_split_foster_core` returns with the list of calls of
`register_write_order_dependency` as it was and the records of the page as they
were; a new sibling it fixed has no records, the middle key as low fence, the old
high fence of the page as high fence and the old foster of the page as foster;
it does fix one whenever the buffer manager can, and with a log that can be
written it ends with success. -/
theorem C13_norecord_split_moves_nothing (env : sm_env) (w : sm_world) (page : btree_page_h)
    (new_page_id : lpid_t) (triggering_key : w_keystr_t)
    (new_child_key : Option w_keystr_t) (new_child_pid : Nat)
    (hsug : (env.suggest_fence_for_split page._pp triggering_key).2 = page.nrecs) :
    ∃ res,
      btree_impl._ux_split_foster_core env w page new_page_id triggering_key new_child_key
        new_child_pid = some res ∧
      res.world.wod = w.wod ∧
      res.page._pp.recs = page._pp.recs ∧
      (∀ R, res.new_page = some R →
        R._pp.recs = [] ∧
        R.copy_fence_low_key = (env.suggest_fence_for_split page._pp triggering_key).1 ∧
        R.copy_fence_high_key = page.copy_fence_high_key ∧
        R.get_foster = page.get_foster) ∧
      ((env.fix_rc w new_page_id).is_error = false → ∃ R, res.new_page = some R) ∧
      ((env.fix_rc w new_page_id).is_error = false →
        (∀ w1 k p, (env.log_rc w1 k p).1.is_error = false) → res.rc = w_rc_t.RCOK) := by
  unfold btree_impl._ux_split_foster_core
  simp only [hsug, if_true]
  obtain ⟨c1, c2, c3, c4, _⟩ := btree_page_h.init_fix_steal_cases env w new_page_id
    page._pp.btree_root page.level new_child_pid page.get_foster
    (env.suggest_fence_for_split page._pp triggering_key).1 page.copy_fence_high_key
    (if page.get_chain_fence_high_length = 0 then (⟨[]⟩ : w_keystr_t)
      else page.copy_chain_fence_high_key) none 0 0 true
  generalize btree_page_h.init_fix_steal env w new_page_id
    page._pp.btree_root page.level new_child_pid page.get_foster
    (env.suggest_fence_for_split page._pp triggering_key).1 page.copy_fence_high_key
    (if page.get_chain_fence_high_length = 0 then (⟨[]⟩ : w_keystr_t)
      else page.copy_chain_fence_high_key) none 0 0 true = r at c1 c2 c3 c4
  obtain ⟨rc, w1, np⟩ := r
  simp only at c1 c2 c3 c4
  cases np with
  | none =>
    refine ⟨_, rfl, c1, rfl, fun R hR => ?_, fun hf => ?_, fun hf => ?_⟩
    · have h2 : (none : Option btree_page_h) = some R := hR
      cases h2
    · obtain ⟨R, hR⟩ := c3 hf
      cases hR
    · obtain ⟨R, hR⟩ := c3 hf
      cases hR
  | some np =>
    obtain ⟨lsn, hnp⟩ := c2 np rfl
    have hF := btree_page.formatted_fences new_page_id page._pp.btree_root page.level
      new_child_pid page.get_foster (env.suggest_fence_for_split page._pp triggering_key).1
      page.copy_fence_high_key
      (if page.get_chain_fence_high_length = 0 then (⟨[]⟩ : w_keystr_t)
        else page.copy_chain_fence_high_key) (steal_records none 0 0)
      latch_mode_t.LATCH_EX false true lsn
    have hprops : ∀ R, some np = some R →
        R._pp.recs = [] ∧
        R.copy_fence_low_key = (env.suggest_fence_for_split page._pp triggering_key).1 ∧
        R.copy_fence_high_key = page.copy_fence_high_key ∧
        R.get_foster = page.get_foster := by
      intro R hR
      rw [← Option.some.inj hR, hnp]
      exact ⟨rfl, hF.1, hF.2.1, rfl⟩
    by_cases hrc : rc.is_error = true
    · simp only [hrc, if_true]
      refine ⟨_, rfl, c1, rfl, hprops, fun _ => ⟨np, rfl⟩, fun hf hl => ?_⟩
      rw [c4 hf (hl _ _ _)] at hrc
      cases hrc
    · simp only [hrc, Bool.false_eq_true, if_false]
      obtain ⟨n1, n2, _, _, n5, _⟩ := btree_page_h.norecord_split_cases env w1 page
        new_page_id.page (env.suggest_fence_for_split page._pp triggering_key).1
        (if page.get_chain_fence_high_length = 0 then page.copy_fence_high_key
          else page.copy_chain_fence_high_key)
      by_cases hrc2 : (page.norecord_split env w1 new_page_id.page
          (env.suggest_fence_for_split page._pp triggering_key).1
          (if page.get_chain_fence_high_length = 0 then page.copy_fence_high_key
            else page.copy_chain_fence_high_key)).1.is_error = true
      · simp only [hrc2, if_true]
        refine ⟨_, rfl, n1.trans c1, n2, hprops, fun _ => ⟨np, rfl⟩, fun hf hl => ?_⟩
        have := (n5 (hl _ _ _)).1
        rw [this] at hrc2
        cases hrc2
      · simp only [hrc2, Bool.false_eq_true, if_false]
        exact ⟨_, rfl, n1.trans c1, n2, hprops, fun _ => ⟨np, rfl⟩, fun _ _ => rfl⟩
theorem w_rc_t.is_error_RCOK : w_rc_t.RCOK.is_error = false := rfl

/-- A combined adopt touches nothing but the records of the page it inserts into. -/
theorem btree_impl.adopt_apply_parent_frame (env : sm_env) (p : btree_page_h)
    (pid : Nat) (k : w_keystr_t) :
    ∃ recs, (btree_impl._ux_adopt_foster_apply_parent env p pid k).2
      = ⟨{ p._pp with recs := recs }, p.latch, p.dirty, p.fixed⟩ := by
  unfold btree_impl._ux_adopt_foster_apply_parent btree_page_h.insert_node
  by_cases h : env.check_space_for_insert_node p._pp k = true
  · simp only [h, Bool.not_true, Bool.false_eq_true, if_false, w_rc_t.is_error]
    exact ⟨_, rfl⟩
  · simp only [h, Bool.not_false, if_true, w_rc_t.is_error]
    exact ⟨p._pp.recs, rfl⟩

theorem btree_impl.adopt_apply_parent_ok (env : sm_env) (p : btree_page_h)
    (pid : Nat) (k : w_keystr_t) (h : env.check_space_for_insert_node p._pp k = true) :
    (btree_impl._ux_adopt_foster_apply_parent env p pid k).1 = w_rc_t.RCOK := by
  unfold btree_impl._ux_adopt_foster_apply_parent btree_page_h.insert_node
  simp only [h, Bool.not_true, Bool.false_eq_true, if_false, w_rc_t.is_error]

/-- Whenever `_ux_split_foster_apply` comes back without an error, the new page
was fixed and logged, and the two pages are the split halves up to the records a
combined adopt put in. -/
theorem btree_impl.split_apply_ok_inv (env : sm_env) (w : sm_world) (page : btree_page_h)
    (s : Nat) (mid_key : w_keystr_t) (new_pid : lpid_t)
    (new_child_key : Option w_keystr_t) (new_child_pid : Nat) (r : split_result)
    (hr : btree_impl._ux_split_foster_apply env w page s mid_key new_pid new_child_key
      new_child_pid = some r)
    (hok : r.rc.is_error = false) :
    ∃ new_pid0 recsL recsF F,
      r.page = ⟨{ (split_left page s mid_key new_pid)._pp with recs := recsL },
                page.latch, true, page.fixed⟩ ∧
      r.new_page = some F ∧
      F = ⟨{ (split_right env w page s mid_key new_pid new_pid0)._pp with
              recs := recsF }, latch_mode_t.LATCH_EX, true, true⟩ ∧
      r.world = split_world w page new_pid := by
  cases hp : (if page.is_node then page.child s else some 0) with
  | none =>
    unfold btree_impl._ux_split_foster_apply at hr
    simp only [hp] at hr
    cases hr
  | some new_pid0 =>
    by_cases hfix : (env.fix_rc w new_pid).is_error = true
    · unfold btree_impl._ux_split_foster_apply at hr
      simp only [hp, btree_page_h.init_fix_steal, hfix, if_true] at hr
      rw [← Option.some.inj hr] at hok
      rw [hfix] at hok
      cases hok
    · have hfix0 : (env.fix_rc w new_pid).is_error = false := by simpa using hfix
      by_cases hlog : (env.log_rc w log_kind.btree_noop new_pid).1.is_error = true
      · unfold btree_impl._ux_split_foster_apply at hr
        simp only [hp] at hr
        rw [btree_page_h.init_fix_steal_nolog _ _ _ _ _ _ _ _ _ _ _ _ _ hfix0] at hr
        have hpid : (btree_page.formatted new_pid page._pp.btree_root page.level new_pid0
            page.get_foster mid_key page.copy_fence_high_key
            (if (page.get_chain_fence_high_length == 0) = true then (⟨[]⟩ : w_keystr_t)
              else if (page.get_chain_fence_high_length == 0) = true
                then page.copy_fence_high_key else page.copy_chain_fence_high_key)
            (steal_records (some page) (if page.is_node = true then s + 1 else s)
              page.nrecs)).pid = new_pid := rfl
        simp only [w_rc_t.is_error_RCOK, Bool.false_eq_true, if_false, sm_env.log, hpid, hlog,
          if_true] at hr
        rw [← Option.some.inj hr] at hok
        rw [hlog] at hok
        cases hok
      · have hlog0 : (env.log_rc w log_kind.btree_noop new_pid).1.is_error = false := by
          simpa using hlog
        rw [btree_impl.split_apply_spec env w page s mid_key new_pid new_child_key
          new_child_pid new_pid0 hp hfix0 hlog0] at hr
        by_cases hn : page.is_node = true
        · simp only [hn, if_true] at hr
          cases new_child_key with
          | none => cases hr
          | some k =>
            simp only at hr
            by_cases hc : (split_left page s mid_key new_pid).fence_contains k = true
            · simp only [hc, if_true] at hr
              obtain ⟨recs, hrecs⟩ := btree_impl.adopt_apply_parent_frame env
                (split_left page s mid_key new_pid) new_child_pid k
              refine ⟨new_pid0, recs,
                (split_right env w page s mid_key new_pid new_pid0)._pp.recs, _, ?_, ?_, rfl, ?_⟩
              · rw [← Option.some.inj hr]
                exact hrecs
              · rw [← Option.some.inj hr]
                rfl
              · rw [← Option.some.inj hr]
            · simp only [hc, Bool.false_eq_true, if_false] at hr
              obtain ⟨recs, hrecs⟩ := btree_impl.adopt_apply_parent_frame env
                (split_right env w page s mid_key new_pid new_pid0) new_child_pid k
              refine ⟨new_pid0, (split_left page s mid_key new_pid)._pp.recs, recs, _, ?_, ?_, rfl, ?_⟩
              · rw [← Option.some.inj hr]
                rfl
              · rw [← Option.some.inj hr]
                exact congrArg some hrecs
              · rw [← Option.some.inj hr]
        · simp only [hn, Bool.false_eq_true, if_false] at hr
          refine ⟨new_pid0, (split_left page s mid_key new_pid)._pp.recs,
            (split_right env w page s mid_key new_pid new_pid0)._pp.recs, _, ?_, ?_, rfl, ?_⟩
          · rw [← Option.some.inj hr]
            rfl
          · rw [← Option.some.inj hr]
            rfl
          · rw [← Option.some.inj hr]
theorem w_rc_t.is_error_eq_false {rc : w_rc_t} (h : rc = w_rc_t.RCOK) :
    rc.is_error = false := by
  rw [h]
  rfl

/-- C14 (as the code has it): after a foster split by `_ux_split_foster_core` that
ends with success, the foster child `F` of the page `P` has the level of `P` and
the high fence of `P` as low fence.  When `P` had a chain high fence before the
split, `F` has the chain high fence of `P`.  When `P` had none, `F` has none
either, and the chain high fence `P` now carries is the high fence of `F`. -/
theorem C14_foster_child_fences (env : sm_env) (w : sm_world) (page : btree_page_h)
    (new_page_id : lpid_t) (triggering_key : w_keystr_t)
    (new_child_key : Option w_keystr_t) (new_child_pid : Nat) (res : split_result)
    (hres : btree_impl._ux_split_foster_core env w page new_page_id triggering_key
      new_child_key new_child_pid = some res)
    (hok : res.rc = w_rc_t.RCOK) :
    ∃ F, res.new_page = some F ∧
      F.level = res.page.level ∧
      F.copy_fence_low_key = res.page.copy_fence_high_key ∧
      (page.get_chain_fence_high_length ≠ 0 →
        F.copy_chain_fence_high_key = res.page.copy_chain_fence_high_key) ∧
      (page.get_chain_fence_high_length = 0 →
        F.copy_chain_fence_high_key = ⟨[]⟩ ∧
        res.page.copy_chain_fence_high_key = F.copy_fence_high_key) := by
  have hok1 := w_rc_t.is_error_eq_false hok
  unfold btree_impl._ux_split_foster_core at hres
  by_cases hsug : (env.suggest_fence_for_split page._pp triggering_key).2 = page.nrecs
  · simp only [hsug, if_true] at hres
    obtain ⟨_, c2, _, _, c5⟩ := btree_page_h.init_fix_steal_cases env w new_page_id
      page._pp.btree_root page.level new_child_pid page.get_foster
      (env.suggest_fence_for_split page._pp triggering_key).1 page.copy_fence_high_key
      (if page.get_chain_fence_high_length = 0 then (⟨[]⟩ : w_keystr_t)
        else page.copy_chain_fence_high_key) none 0 0 true
    generalize btree_page_h.init_fix_steal env w new_page_id
      page._pp.btree_root page.level new_child_pid page.get_foster
      (env.suggest_fence_for_split page._pp triggering_key).1 page.copy_fence_high_key
      (if page.get_chain_fence_high_length = 0 then (⟨[]⟩ : w_keystr_t)
        else page.copy_chain_fence_high_key) none 0 0 true = r at c2 c5 hres
    obtain ⟨rc, w1, np⟩ := r
    simp only at c2 c5 hres
    cases np with
    | none =>
      simp only at hres
      rw [← Option.some.inj hres] at hok1
      rw [c5 rfl] at hok1
      cases hok1
    | some np =>
      simp only at hres
      obtain ⟨lsn, hnp⟩ := c2 np rfl
      by_cases hrc : rc.is_error = true
      · simp only [hrc, if_true] at hres
        rw [← Option.some.inj hres] at hok1
        rw [hrc] at hok1
        cases hok1
      · simp only [hrc, Bool.false_eq_true, if_false] at hres
        obtain ⟨_, _, n3, _, n5, n6⟩ := btree_page_h.norecord_split_cases env w1 page
          new_page_id.page (env.suggest_fence_for_split page._pp triggering_key).1
          (if page.get_chain_fence_high_length = 0 then page.copy_fence_high_key
            else page.copy_chain_fence_high_key)
        by_cases hrc2 : (page.norecord_split env w1 new_page_id.page
            (env.suggest_fence_for_split page._pp triggering_key).1
            (if page.get_chain_fence_high_length = 0 then page.copy_fence_high_key
              else page.copy_chain_fence_high_key)).1.is_error = true
        · simp only [hrc2, if_true] at hres
          rw [← Option.some.inj hres] at hok1
          rw [hrc2] at hok1
          cases hok1
        · simp only [hrc2, Bool.false_eq_true, if_false] at hres
          have hrc3 : (page.norecord_split env w1 new_page_id.page
            (env.suggest_fence_for_split page._pp triggering_key).1
            (if page.get_chain_fence_high_length = 0 then page.copy_fence_high_key
              else page.copy_chain_fence_high_key)).1.is_error = false := by simpa using hrc2
          obtain ⟨_, _, _, m4, m5⟩ := n5 (n6 hrc3)
          have hF := btree_page.formatted_fences new_page_id page._pp.btree_root page.level
            new_child_pid page.get_foster (env.suggest_fence_for_split page._pp triggering_key).1
            page.copy_fence_high_key
            (if page.get_chain_fence_high_length = 0 then (⟨[]⟩ : w_keystr_t)
              else page.copy_chain_fence_high_key) (steal_records none 0 0)
            latch_mode_t.LATCH_EX false true lsn
          rw [← hnp] at hF
          refine ⟨np, ?_, ?_, ?_, ?_, ?_⟩
          · rw [← Option.some.inj hres]
          · rw [← Option.some.inj hres]
            show np._pp.btree_level = _
            rw [hnp]
            exact n3.symm
          · rw [← Option.some.inj hres]
            exact hF.1.trans m4.symm
          · intro h0
            rw [← Option.some.inj hres]
            show _ = btree_page_h.copy_chain_fence_high_key _
            rw [hF.2.2, m5, if_neg h0, if_neg h0]
          · intro h0
            rw [← Option.some.inj hres]
            refine ⟨?_, ?_⟩
            · rw [hF.2.2, if_pos h0]
            · show btree_page_h.copy_chain_fence_high_key _ = _
              rw [m5, hF.2.1, if_pos h0]
  · simp only [hsug, if_false] at hres
    by_cases hl : (env.log_rc w log_kind.btree_foster_split page._pp.pid).1.is_error = true
    · have e : env.log w log_kind.btree_foster_split page
          = ((env.log_rc w log_kind.btree_foster_split page._pp.pid).1, w, page) := by
        unfold sm_env.log
        simp only [hl, if_true]
      simp only [e, hl, if_true] at hres
      rw [← Option.some.inj hres] at hok1
      rw [hl] at hok1
      cases hok1
    · have hl0 : (env.log_rc w log_kind.btree_foster_split page._pp.pid).1.is_error = false := by
        simpa using hl
      rw [sm_env.log_ok env w _ page hl0] at hres
      simp only [w_rc_t.is_error_RCOK, Bool.false_eq_true, if_false] at hres
      cases happ : btree_impl._ux_split_foster_apply env
          { w with log := w.log ++ [(log_kind.btree_foster_split, page._pp.pid)] }
          (page.set_lsns (env.log_rc w log_kind.btree_foster_split page._pp.pid).2)
          (env.suggest_fence_for_split page._pp triggering_key).2
          (env.suggest_fence_for_split page._pp triggering_key).1 new_page_id new_child_key
          new_child_pid with
      | none =>
        rw [happ] at hres
        cases hres
      | some r =>
        rw [happ] at hres
        simp only at hres
        by_cases hre : r.rc.is_error = true
        · simp only [hre, if_true] at hres
          rw [← Option.some.inj hres] at hok1
          rw [hre] at hok1
          cases hok1
        · simp only [hre, Bool.false_eq_true, if_false] at hres
          obtain ⟨new_pid0, recsL, recsF, F, hL, hR, hF, _⟩ :=
            btree_impl.split_apply_ok_inv env _ _ _ _ _ _ _ r happ (by simpa using hre)
          have fL := btree_page.formatted_fences page._pp.pid page._pp.btree_root page.level
            page._pp.btree_pid0 new_page_id.page page.copy_fence_low_key
            (env.suggest_fence_for_split page._pp triggering_key).1 (split_chain_high page)
            recsL page.latch true page.fixed
            (env.log_rc w log_kind.btree_foster_split page._pp.pid).2
          have fR := btree_page.formatted_fences new_page_id page._pp.btree_root page.level
            new_pid0 page.get_foster (env.suggest_fence_for_split page._pp triggering_key).1
            page.copy_fence_high_key (split_new_chain_high page) recsF
            latch_mode_t.LATCH_EX true true
            (env.log_rc { w with log := w.log ++ [(log_kind.btree_foster_split, page._pp.pid)] }
              log_kind.btree_noop new_page_id).2
          refine ⟨F, ?_, ?_, ?_, ?_, ?_⟩
          · rw [← Option.some.inj hres]
            exact hR
          · rw [← Option.some.inj hres]
            show _ = r.page.level
            rw [hL, hF]
            rfl
          · rw [← Option.some.inj hres]
            show _ = r.page.copy_fence_high_key
            rw [hL, hF]
            exact fR.1.trans fL.2.1.symm
          · intro h0
            rw [← Option.some.inj hres]
            show _ = r.page.copy_chain_fence_high_key
            rw [hL, hF]
            refine fR.2.2.trans (Eq.trans ?_ fL.2.2.symm)
            unfold split_new_chain_high split_chain_high
            simp [h0]
          · intro h0
            rw [← Option.some.inj hres]
            refine ⟨?_, ?_⟩
            · rw [hF]
              refine fR.2.2.trans ?_
              unfold split_new_chain_high
              simp [h0]
            · show r.page.copy_chain_fence_high_key = _
              rw [hL, hF]
              refine fL.2.2.trans (Eq.trans ?_ fR.2.1.symm)
              unfold split_chain_high
              simp [h0]
/-- C14 fails as stated on a page that was right-most: splitting the leaf with
fences `[10]`, `[90]` and no chain high fence at its second record gives the left
page the chain high fence `[90]` and the foster child none. -/
theorem C14_counterexample_right_most :
    ∃ res F,
      btree_impl._ux_split_foster_core (sm_env.sample true (⟨[30]⟩, 1) true true)
        sm_world.start sampleLeaf ⟨1, 1, 6⟩ ⟨[25]⟩ none 0 = some res ∧
      res.rc = w_rc_t.RCOK ∧ res.new_page = some F ∧
      res.page.copy_chain_fence_high_key = ⟨[90]⟩ ∧
      F.copy_chain_fence_high_key = ⟨[]⟩ ∧
      F.copy_chain_fence_high_key ≠ res.page.copy_chain_fence_high_key :=
  ⟨_, _, rfl, rfl, rfl, by decide, by decide, by decide⟩

theorem C14_foster_child_fences_witness :
    ∃ res F,
      btree_impl._ux_split_foster_core (sm_env.sample true (⟨[30]⟩, 1) true true)
        sm_world.start sampleLeaf ⟨1, 1, 6⟩ ⟨[25]⟩ none 0 = some res ∧
      res.new_page = some F ∧
      F.level = res.page.level ∧
      F.copy_fence_low_key = res.page.copy_fence_high_key ∧
      F.copy_chain_fence_high_key = ⟨[]⟩ ∧
      res.page.copy_chain_fence_high_key = F.copy_fence_high_key := by
  obtain ⟨F, h1, h2, h3, _, h5⟩ := C14_foster_child_fences
    (sm_env.sample true (⟨[30]⟩, 1) true true) sm_world.start sampleLeaf ⟨1, 1, 6⟩ ⟨[25]⟩ none 0
    _ rfl rfl
  exact ⟨_, F, rfl, h1, h2, h3, (h5 rfl).1, (h5 rfl).2⟩
theorem C12_split_apply_leaf_witness :
    ∃ res R,
      btree_impl._ux_split_foster_apply (sm_env.sample true (⟨[30]⟩, 1) true true)
        sm_world.start sampleLeaf 1 ⟨[30]⟩ ⟨1, 1, 6⟩ none 0 = some res ∧
      res.rc = w_rc_t.RCOK ∧ res.new_page = some R ∧
      res.page._pp.recs = [⟨false, 0, ⟨[20]⟩, ⟨[1]⟩⟩] ∧
      R._pp.recs = [⟨false, 0, ⟨[30]⟩, ⟨[2]⟩⟩] ∧
      res.page.copy_fence_high_key = ⟨[30]⟩ ∧
      R.copy_fence_low_key = ⟨[30]⟩ ∧
      R.copy_fence_high_key = ⟨[90]⟩ := by
  obtain ⟨res, R, h1, h2, h3, _, h5, _, h7, _, h9, h10, h11, _⟩ :=
    C12_split_apply_leaf (sm_env.sample true (⟨[30]⟩, 1) true true) sm_world.start sampleLeaf 1
      ⟨[30]⟩ ⟨1, 1, 6⟩ none 0 (by decide) (by decide) rfl rfl
  exact ⟨res, R, h1, h2, h3, h5, h9, h7, h10, h11⟩

theorem C13_norecord_split_moves_nothing_witness :
    ∃ res R,
      btree_impl._ux_split_foster_core (sm_env.sample true (⟨[95]⟩, 2) true true)
        sm_world.start sampleLeaf ⟨1, 1, 6⟩ ⟨[95]⟩ none 0 = some res ∧
      res.world.wod = [] ∧
      res.page._pp.recs = sampleLeaf._pp.recs ∧
      res.new_page = some R ∧ R._pp.recs = [] ∧ R.copy_fence_low_key = ⟨[95]⟩ := by
  obtain ⟨res, h1, h2, h3, h4, h5, _⟩ :=
    C13_norecord_split_moves_nothing (sm_env.sample true (⟨[95]⟩, 2) true true)
      sm_world.start sampleLeaf ⟨1, 1, 6⟩ ⟨[95]⟩ none 0 rfl
  obtain ⟨R, hR⟩ := h5 rfl
  exact ⟨res, R, h1, h2, h3, hR, (h4 R hR).1, (h4 R hR).2.1⟩

theorem btree_page_h.child_of_lt (page : btree_page_h) (s : Nat) (hs : s < page.nrecs) :
    ∃ c, page.child s = some c := by
  unfold btree_page_h.child
  unfold btree_page_h.nrecs at hs
  rw [List.getElem?_eq_getElem hs]
  exact ⟨_, rfl⟩

/-- C15: a record split (`right_begins_from < nrecs`) whose new page can be fixed
and logged, and whose combined adopt has room, ends with success; both pages are
marked dirty; the calls of `register_write_order_dependency` grow by exactly one,
with the left page first and the new page second; and the result is the same
whatever the buffer manager answers to that call, a refusal included. -/
theorem C15_record_split_registers_dependency (env : sm_env) (w : sm_world)
    (page : btree_page_h) (s : Nat) (mid_key : w_keystr_t) (new_pid : lpid_t)
    (new_child_key : Option w_keystr_t) (new_child_pid : Nat)
    (hs : s < page.nrecs)
    (hkey : page.is_node = true → ∃ k, new_child_key = some k)
    (hfix : (env.fix_rc w new_pid).is_error = false)
    (hlog : (env.log_rc w log_kind.btree_noop new_pid).1.is_error = false)
    (hspace : ∀ p k, env.check_space_for_insert_node p k = true) :
    ∃ res F,
      btree_impl._ux_split_foster_apply env w page s mid_key new_pid new_child_key
        new_child_pid = some res ∧
      res.rc = w_rc_t.RCOK ∧ res.new_page = some F ∧
      res.page._pp.pid = page._pp.pid ∧ F._pp.pid = new_pid ∧
      res.page.dirty = true ∧ F.dirty = true ∧
      res.world.wod = w.wod ++ [(page._pp.pid, new_pid)] ∧
      ∀ answer : sm_world → lpid_t → lpid_t → Bool,
        btree_impl._ux_split_foster_apply { env with bf_register := answer } w page s mid_key
          new_pid new_child_key new_child_pid = some res := by
  obtain ⟨new_pid0, hp⟩ : ∃ c, (if page.is_node then page.child s else some 0) = some c := by
    by_cases hn : page.is_node = true
    · simp only [hn, if_true]
      exact btree_page_h.child_of_lt page s hs
    · simp only [hn, Bool.false_eq_true, if_false]
      exact ⟨0, rfl⟩
  have hspec := btree_impl.split_apply_spec env w page s mid_key new_pid new_child_key
    new_child_pid new_pid0 hp hfix hlog
  have hind : ∀ answer : sm_world → lpid_t → lpid_t → Bool,
      btree_impl._ux_split_foster_apply { env with bf_register := answer } w page s mid_key
          new_pid new_child_key new_child_pid
        = btree_impl._ux_split_foster_apply env w page s mid_key new_pid new_child_key
          new_child_pid := by
    intro answer
    rw [hspec, btree_impl.split_apply_spec { env with bf_register := answer } w page s mid_key
      new_pid new_child_key new_child_pid new_pid0 hp hfix hlog]
    rfl
  have hex : ∃ res, btree_impl._ux_split_foster_apply env w page s mid_key new_pid
      new_child_key new_child_pid = some res ∧ res.rc = w_rc_t.RCOK := by
    rw [hspec]
    by_cases hn : page.is_node = true
    · obtain ⟨k, hk⟩ := hkey hn
      subst hk
      simp only [hn, if_true]
      by_cases hc : (split_left page s mid_key new_pid).fence_contains k = true
      · simp only [hc, if_true]
        exact ⟨_, rfl, btree_impl.adopt_apply_parent_ok env _ _ _ (hspace _ _)⟩
      · simp only [hc, Bool.false_eq_true, if_false]
        exact ⟨_, rfl, btree_impl.adopt_apply_parent_ok env _ _ _ (hspace _ _)⟩
    · simp only [hn, Bool.false_eq_true, if_false]
      exact ⟨_, rfl, rfl⟩
  obtain ⟨res, hres, hrc⟩ := hex
  obtain ⟨_, recsL, recsF, F, hL, hR, hF, hW⟩ := btree_impl.split_apply_ok_inv env w page s
    mid_key new_pid new_child_key new_child_pid res hres (w_rc_t.is_error_eq_false hrc)
  refine ⟨res, F, hres, hrc, hR, ?_, ?_, ?_, ?_, ?_, ?_⟩
  · rw [hL]
    rfl
  · rw [hF]
    rfl
  · rw [hL]
  · rw [hF]
  · rw [hW]
    rfl
  · intro answer
    rw [hind answer, hres]

theorem C15_record_split_registers_dependency_witness :
    ∃ res F,
      btree_impl._ux_split_foster_apply (sm_env.sample false (⟨[30]⟩, 1) true true)
        sm_world.start sampleLeaf 1 ⟨[30]⟩ ⟨1, 1, 6⟩ none 0 = some res ∧
      res.rc = w_rc_t.RCOK ∧ res.new_page = some F ∧
      res.page.dirty = true ∧ F.dirty = true ∧
      res.world.wod = [(⟨1, 1, 5⟩, ⟨1, 1, 6⟩)] := by
  obtain ⟨res, F, h1, h2, h3, _, _, h6, h7, h8, _⟩ :=
    C15_record_split_registers_dependency (sm_env.sample false (⟨[30]⟩, 1) true true)
      sm_world.start sampleLeaf 1 ⟨[30]⟩ ⟨1, 1, 6⟩ none 0 (by decide)
      (fun h => absurd h (by decide)) rfl rfl (fun _ _ => rfl)
  exact ⟨res, F, h1, h2, h3, h6, h7, h8⟩
/-- C16: `_ux_adopt_foster_apply_child` sets the foster pointer of the child to 0
and the length of its chain high fence to 0; the page is otherwise as it was:
root, `pid0`, level, the lengths of the low and high fence, the prefix length,
the skew counter, the bytes of item 0, the records, and the handle's latch and
marks; so the low and high fence keys read back as before. -/
theorem C16_adopt_apply_child_frame (w : sm_world) (child : btree_page_h) :
    (btree_impl._ux_adopt_foster_apply_child w child).2
      = ⟨{ child._pp with btree_foster := 0, btree_chain_fence_high_length := 0 },
          child.latch, child.dirty, child.fixed⟩ ∧
    (btree_impl._ux_adopt_foster_apply_child w child).2.get_foster = 0 ∧
    (btree_impl._ux_adopt_foster_apply_child w child).2.get_chain_fence_high_length = 0 ∧
    (btree_impl._ux_adopt_foster_apply_child w child).2._pp.btree_root
      = child._pp.btree_root ∧
    (btree_impl._ux_adopt_foster_apply_child w child).2._pp.btree_pid0
      = child._pp.btree_pid0 ∧
    (btree_impl._ux_adopt_foster_apply_child w child).2._pp.btree_level
      = child._pp.btree_level ∧
    (btree_impl._ux_adopt_foster_apply_child w child).2._pp.btree_fence_low_length
      = child._pp.btree_fence_low_length ∧
    (btree_impl._ux_adopt_foster_apply_child w child).2._pp.btree_fence_high_length
      = child._pp.btree_fence_high_length ∧
    (btree_impl._ux_adopt_foster_apply_child w child).2._pp.btree_prefix_length
      = child._pp.btree_prefix_length ∧
    (btree_impl._ux_adopt_foster_apply_child w child).2._pp.recs = child._pp.recs ∧
    (btree_impl._ux_adopt_foster_apply_child w child).2._pp.fence = child._pp.fence ∧
    (btree_impl._ux_adopt_foster_apply_child w child).2.copy_fence_low_key
      = child.copy_fence_low_key ∧
    (btree_impl._ux_adopt_foster_apply_child w child).2.copy_fence_high_key
      = child.copy_fence_high_key :=
  ⟨rfl, rfl, rfl, rfl, rfl, rfl, rfl, rfl, rfl, rfl, rfl, rfl, rfl⟩

theorem btree_impl.opportunistic_core_pushedup
    (sweep : sm_world → btree_page_h → Nat → w_rc_t × sm_world × btree_page_h)
    (w : sm_world) (parent child : btree_page_h) (b : Bool) :
    (btree_impl._ux_opportunistic_adopt_foster_core sweep w parent child b).pushedup = true := by
  unfold btree_impl._ux_opportunistic_adopt_foster_core
  simp only
  split_ifs <;> rfl

/-- C17 fails as stated when the latch upgrade succeeds but the system
transaction cannot be opened: the function returns that error with `pushedup`
still false. -/
theorem C17_counterexample_sys_xct_start_fails :
    (sampleNode.upgrade_latch_conditional (sm_env.sample true (⟨[30]⟩, 1) true false)
        sm_world.start).1 = true ∧
    (btree_impl._sx_opportunistic_adopt_foster (sm_env.sample true (⟨[30]⟩, 1) true false)
        (fun w p _ => (w_rc_t.RCOK, w, p.unfix)) sm_world.start sampleNode sampleLeaf).pushedup
      = false ∧
    (btree_impl._sx_opportunistic_adopt_foster (sm_env.sample true (⟨[30]⟩, 1) true false)
        (fun w p _ => (w_rc_t.RCOK, w, p.unfix)) sm_world.start sampleNode sampleLeaf).rc
      = w_rc_t.RC (err_num_t.other 1) := by
  decide

/-- C17 (as the code has it): when the conditional upgrade of the parent latch
fails, `_sx_opportunistic_adopt_foster` returns success with `pushedup` false,
has raised the exclusive-latch-need hint of the parent page by one and no other
hint, has opened no system transaction, written no log record and registered no
dependency, and hands back both pages as they were.  When the upgrade succeeds
and the system transaction can be opened, it returns with `pushedup` true. -/
theorem C17_opportunistic_adopt_upgrade (env : sm_env)
    (sweep : sm_world → btree_page_h → Nat → w_rc_t × sm_world × btree_page_h)
    (w : sm_world) (parent child : btree_page_h) :
    ((parent.upgrade_latch_conditional env w).1 = false →
      (btree_impl._sx_opportunistic_adopt_foster env sweep w parent child).rc = w_rc_t.RCOK ∧
      (btree_impl._sx_opportunistic_adopt_foster env sweep w parent child).pushedup = false ∧
      (btree_impl._sx_opportunistic_adopt_foster env sweep w parent child).world.ex_need
          parent._pp.pid.page = w.ex_need parent._pp.pid.page + 1 ∧
      (∀ q, q ≠ parent._pp.pid.page →
        (btree_impl._sx_opportunistic_adopt_foster env sweep w parent child).world.ex_need q
          = w.ex_need q) ∧
      (btree_impl._sx_opportunistic_adopt_foster env sweep w parent child).world.sys_xct
        = w.sys_xct ∧
      (btree_impl._sx_opportunistic_adopt_foster env sweep w parent child).world.log = w.log ∧
      (btree_impl._sx_opportunistic_adopt_foster env sweep w parent child).world.wod = w.wod ∧
      (btree_impl._sx_opportunistic_adopt_foster env sweep w parent child).world.foster_children
        = w.foster_children ∧
      (btree_impl._sx_opportunistic_adopt_foster env sweep w parent child).parent = parent ∧
      (btree_impl._sx_opportunistic_adopt_foster env sweep w parent child).child = child) ∧
    ((parent.upgrade_latch_conditional env w).1 = true →
      (env.sys_xct_start w).is_error = false →
      (btree_impl._sx_opportunistic_adopt_foster env sweep w parent child).pushedup = true) := by
  have hup : (parent.upgrade_latch_conditional env w).1 = false →
      (parent.upgrade_latch_conditional env w).2 = parent := by
    unfold btree_page_h.upgrade_latch_conditional
    split_ifs <;> simp
  refine ⟨fun h => ?_, fun h hs => ?_⟩
  · have h2 := hup h
    unfold btree_impl._sx_opportunistic_adopt_foster
    simp only [h, h2, Bool.not_false, if_true]
    refine ⟨trivial, trivial, ?_, fun q hq => ?_, rfl, rfl, rfl, rfl, trivial, trivial⟩
    · simp [increase_ex_need]
    · simp [increase_ex_need, Function.update, hq]
  · unfold btree_impl._sx_opportunistic_adopt_foster
    simp only [h, Bool.not_true, Bool.false_eq_true, if_false]
    have hs2 : (sys_xct_section_t.check_error_on_start env w).1.is_error = false := by
      unfold sys_xct_section_t.check_error_on_start
      simp only [hs, Bool.false_eq_true, if_false]
      rfl
    simp only [hs2, Bool.false_eq_true, if_false]
    split_ifs
    · exact btree_impl.opportunistic_core_pushedup _ _ _ _ _
    · exact btree_impl.opportunistic_core_pushedup _ _ _ _ _

theorem C17_opportunistic_adopt_upgrade_witness :
    (btree_impl._sx_opportunistic_adopt_foster (sm_env.sample true (⟨[30]⟩, 1) false true)
        (fun w p _ => (w_rc_t.RCOK, w, p.unfix)) sm_world.start sampleNode sampleLeaf).pushedup
      = false ∧
    (btree_impl._sx_opportunistic_adopt_foster (sm_env.sample true (⟨[30]⟩, 1) false true)
        (fun w p _ => (w_rc_t.RCOK, w, p.unfix)) sm_world.start sampleNode sampleLeaf).world.ex_need
        2 = 1 ∧
    (btree_impl._sx_opportunistic_adopt_foster (sm_env.sample true (⟨[30]⟩, 1) true true)
        (fun w p _ => (w_rc_t.RCOK, w, p.unfix)) sm_world.start sampleNode sampleLeaf).pushedup
      = true :=
  ⟨((C17_opportunistic_adopt_upgrade (sm_env.sample true (⟨[30]⟩, 1) false true)
      (fun w p _ => (w_rc_t.RCOK, w, p.unfix)) sm_world.start sampleNode sampleLeaf).1 rfl).2.1,
   ((C17_opportunistic_adopt_upgrade (sm_env.sample true (⟨[30]⟩, 1) false true)
      (fun w p _ => (w_rc_t.RCOK, w, p.unfix)) sm_world.start sampleNode sampleLeaf).1 rfl).2.2.1,
   (C17_opportunistic_adopt_upgrade (sm_env.sample true (⟨[30]⟩, 1) true true)
      (fun w p _ => (w_rc_t.RCOK, w, p.unfix)) sm_world.start sampleNode sampleLeaf).2 rfl rfl⟩

theorem BlockAssembly.add_isSome (hdr : Nat) (b : BlockAssembly) (lr : logrec_t)
    (recs : List logrec_t) (hd : b.dest = some recs) (hb : b.bucketSize ≠ 0) :
    ∃ r, BlockAssembly.add hdr b lr = some r := by
  unfold BlockAssembly.add
  simp only [hd]
  split_ifs <;> exact ⟨_, rfl⟩

theorem ArchiverHeap.pop_nonempty {W : Type} (mm : mem_mgmt_t W) (h : ArchiverHeap W)
    (e : HeapEntry) (rest : List HeapEntry) (he : h.w_heap.elems = e :: rest) :
    ∃ h1, h.pop mm = some h1 ∧ h1.w_heap.elems = rest ∧ h1.memory = h.memory := by
  unfold ArchiverHeap.pop Heap.First
  simp only [he, List.head?_cons]
  split_ifs <;> exact ⟨_, rfl, by simp [Heap.RemoveFirst, he], rfl⟩

/-- The loop of `selection` runs through when it has fuel beyond the size of the
heap; it pops a prefix of the heap, all of the run `run`. -/
theorem LogArchiver.selectionLoop_spec {W : Type} (mm : mem_mgmt_t W) (hdr : Nat) (run : Int) :
    ∀ (fuel : Nat) (heap : ArchiverHeap W) (b : BlockAssembly) (recs : List logrec_t),
      heap.size < fuel →
      (∀ e ∈ heap.w_heap.elems, ∃ lr, heap.load e.slot.address = some lr) →
      b.dest = some recs → b.bucketSize ≠ 0 →
      ∃ heap1 b1 recs1 popped,
        LogArchiver.selectionLoop mm hdr run fuel heap b = some (heap1, b1) ∧
        heap.w_heap.elems = popped ++ heap1.w_heap.elems ∧
        (∀ e ∈ popped, e.run = run) ∧
        b1.dest = some recs1 ∧ b1.archIndex = b.archIndex ∧ b1.level = b.level ∧
        (heap1.size = 0 ∨ heap1.topRun ≠ some run ∨
          ∃ lr, heap1.top = some lr ∧ BlockAssembly.add hdr b1 lr = some (false, b1)) := by
  intro fuel
  induction fuel with
  | zero => intro heap b recs hf; omega
  | succ n ih =>
    intro heap b recs hf hload hd hb
    unfold LogArchiver.selectionLoop
    by_cases hstop : heap.size = 0 ∨ heap.topRun ≠ some run
    · rw [if_pos hstop]
      refine ⟨heap, b, recs, [], rfl, rfl, fun _ he => absurd he (List.not_mem_nil _), hd, rfl,
        rfl, ?_⟩
      rcases hstop with h | h
      · exact Or.inl h
      · exact Or.inr (Or.inl h)
    · rw [if_neg hstop]
      have hne : heap.size ≠ 0 := fun h => hstop (Or.inl h)
      have hrun : heap.topRun = some run := by
        by_contra h
        exact hstop (Or.inr h)
      cases hel : heap.w_heap.elems with
      | nil =>
        exfalso
        apply hne
        simp [ArchiverHeap.size, Heap.NumElements, hel]
      | cons e rest =>
        have herun : e.run = run := by
          simpa [ArchiverHeap.topRun, Heap.First, hel] using hrun
        obtain ⟨lr, hlr⟩ := hload e (by rw [hel]; exact List.mem_cons_self _ _)
        have htop : heap.top = some lr := by
          simp [ArchiverHeap.top, Heap.First, hel, hlr]
        rw [htop]
        simp only
        obtain ⟨r, hr⟩ := BlockAssembly.add_isSome hdr b lr recs hd hb
        rw [hr]
        obtain ⟨flag, b1⟩ := r
        cases flag with
        | false =>
          simp only
          rcases BlockAssembly.add_spec hdr b lr _ hr with ⟨_, h2⟩ | ⟨h1, _⟩
          · simp only at h2
            subst h2
            exact ⟨heap, b1, recs, [], rfl, by simp [hel],
              fun _ he => absurd he (List.not_mem_nil _), hd, rfl, rfl,
              Or.inr (Or.inr ⟨lr, htop, hr⟩)⟩
          · cases h1
        | true =>
          simp only
          rcases BlockAssembly.add_spec hdr b lr _ hr with ⟨h1, _⟩ | ⟨_, _, hdest, _, _, _, _, _,
            hbs, _, hai, hlv, _⟩
          · cases h1
          · obtain ⟨recs0, _, hd1⟩ := hdest
            obtain ⟨heap1, hpop, hel1, hmem1⟩ := ArchiverHeap.pop_nonempty mm heap e rest hel
            rw [hpop]
            simp only
            have hsz : heap1.size < n := by
              have : heap.size = rest.length + 1 := by
                simp [ArchiverHeap.size, Heap.NumElements, hel]
              simp only [ArchiverHeap.size, Heap.NumElements, hel1]
              omega
            have hload1 : ∀ e1 ∈ heap1.w_heap.elems,
                ∃ lr1, heap1.load e1.slot.address = some lr1 := by
              intro e1 he1
              rw [hel1] at he1
              obtain ⟨lr1, h1⟩ := hload e1 (by rw [hel]; exact List.mem_cons_of_mem _ he1)
              exact ⟨lr1, by simpa [ArchiverHeap.load, hmem1] using h1⟩
            obtain ⟨heap2, b2, recs2, popped, hloop, hpre, hall, hd2, hai2, hlv2, hwhy⟩ :=
              ih heap1 b1 _ hsz hload1 hd1
                (by rw [show b1.bucketSize = b.bucketSize from hbs]; exact hb)
            refine ⟨heap2, b2, recs2, e :: popped, hloop, ?_, ?_, hd2, ?_, ?_, hwhy⟩
            · rw [← hel1, hpre]
              rfl
            · intro e1 he1
              rcases List.mem_cons.1 he1 with h | h
              · rw [h]; exact herun
              · exact hall e1 h
            · simpa using hai2.trans hai
            · simpa using hlv2.trans hlv
theorem ArchiveIndex.appendNewEntry_isSome (ix : ArchiveIndex) (level : Nat)
    (h : ix.maxLevel < level ∨ ∃ rs, ix.runs[level]? = some rs) :
    ∃ ix1, ix.appendNewEntry level = some ix1 := by
  unfold ArchiveIndex.appendNewEntry
  simp only
  by_cases hl : level > ix.maxLevel
  · simp only [hl, if_true]
    have hlen : level < (vector_resize ix.runs (level + 1) []).length := by
      simp [vector_resize]
      omega
    rw [List.getElem?_eq_getElem hlen]
    exact ⟨_, rfl⟩
  · simp only [hl, if_false]
    rcases h with h | ⟨rs, hrs⟩
    · exact absurd h hl
    · rw [hrs]
      exact ⟨_, rfl⟩

theorem ArchiveIndex.pushEntry_isSome (ix : ArchiveIndex) (level : Nat) (e : BlockEntry)
    (es : List BlockEntry) (h : ix.lastEntries level = some es) :
    ∃ ix1, ix.pushEntry level e = some ix1 := by
  unfold ArchiveIndex.lastEntries at h
  unfold ArchiveIndex.pushEntry
  cases hrs : ix.runs[level]? with
  | none => rw [hrs] at h; simp at h
  | some rs =>
    rw [hrs] at h
    simp only [Option.some_bind] at h
    cases hl : rs.getLast? with
    | none => rw [hl] at h; simp at h
    | some r =>
      simp only [hl]
      exact ⟨_, rfl⟩

theorem ArchiveIndex.newBlock_isSome (buckets : List (Nat × Nat)) (level : Nat) :
    ∀ (ix : ArchiveIndex) (es : List BlockEntry), ix.lastEntries level = some es →
      ∃ ix1, ix.newBlock buckets level = some ix1 := by
  induction buckets with
  | nil => intro ix es _; exact ⟨ix, rfl⟩
  | cons b rest ih =>
    intro ix es hes
    obtain ⟨ix1, h1⟩ := ArchiveIndex.pushEntry_isSome ix level ⟨b.2, b.1⟩ es hes
    obtain ⟨_, _, h2⟩ := ArchiveIndex.pushEntry_lastEntries ix ix1 level _ h1
    obtain ⟨ix2, h3⟩ := ih ix1 _ h2
    refine ⟨ix2, ?_⟩
    simp only [ArchiveIndex.newBlock, h1]
    exact h3

theorem BlockAssembly.start_isSome (b : BlockAssembly) (run : Int)
    (h : b.archIndex.maxLevel < b.level ∨ ∃ rs, b.archIndex.runs[b.level]? = some rs) :
    ∃ r, b.start run = some r := by
  unfold BlockAssembly.start
  by_cases h1 : b.writebuf.finished = true
  · rw [if_pos h1]
    exact ⟨_, rfl⟩
  · rw [if_neg h1]
    simp only
    by_cases h2 : run ≠ b.lastRun
    · rw [if_pos h2]
      obtain ⟨ix, hix⟩ := ArchiveIndex.appendNewEntry_isSome b.archIndex b.level h
      rw [hix]
      exact ⟨_, rfl⟩
    · rw [if_neg h2]
      exact ⟨_, rfl⟩

theorem BlockAssembly.start_finished (b : BlockAssembly) (run : Int) (r : Bool × BlockAssembly)
    (h : b.start run = some r) (hf : b.writebuf.finished = true) : r.1 = false := by
  unfold BlockAssembly.start at h
  rw [if_pos hf] at h
  simp only [Option.some.injEq] at h
  subst h
  rfl

theorem BlockAssembly.finish_isSome (b : BlockAssembly) (recs : List logrec_t)
    (es : List BlockEntry) (hd : b.dest = some recs)
    (hes : b.archIndex.lastEntries b.level = some es) :
    ∃ b1, b.finish = some b1 := by
  unfold BlockAssembly.finish
  obtain ⟨ix, hix⟩ := ArchiveIndex.newBlock_isSome b.buckets b.level b.archIndex es hes
  simp only [hd, hix]
  exact ⟨_, rfl⟩

/-- C18 fails as stated when the heap runs empty during the call: with one record
in the heap and room in the block, `selection` pops the record, leaves the heap
empty and returns true. -/
theorem C18_counterexample_heap_runs_empty :
    ((LogArchiver.selection Arena.mem_mgmt 8
        (ArchiverHeap.push Arena.mem_mgmt (ArchiverHeap.init (Arena.empty 1000))
          ⟨40, 1, 7, 0, ⟨1, 100⟩, lsn_t.null, lsn_t.null⟩ false).2.1
        (BlockAssembly.init (ArchiveIndex.init 512 4) 512 1 0 0 0)).map
      (fun r => (r.1, r.2.1.size))) = some (true, 0) ∧
    (ArchiverHeap.push Arena.mem_mgmt (ArchiverHeap.init (Arena.empty 1000))
          ⟨40, 1, 7, 0, ⟨1, 100⟩, lsn_t.null, lsn_t.null⟩ false).2.1.size = 1 := by
  decide
/-- C18 (as the code has it): with a heap whose records are in the workspace and a
block assembly that can take a block, `selection` returns; what it popped is a
prefix of the heap, all of the run that was at the heap top on entry; it returns
false exactly when the heap is empty on entry or the block cannot be started
(the write buffer is finished), and then pops nothing; in every other case it
returns true, and it stopped because the heap ran empty, because the top run
changed, or because the top record did not fit in the block. -/
theorem C18_selection_pops_top_run {W : Type} (mm : mem_mgmt_t W) (hdr : Nat)
    (heap : ArchiverHeap W) (blk : BlockAssembly)
    (hready : LogArchiver.selectionReady heap blk) :
    ∃ ret heap1 blk1 popped,
      LogArchiver.selection mm hdr heap blk = some (ret, heap1, blk1) ∧
      heap.w_heap.elems = popped ++ heap1.w_heap.elems ∧
      (∀ e ∈ popped, heap.topRun = some e.run) ∧
      (ret = false ↔ heap.size = 0 ∨ blk.writebuf.finished = true) ∧
      (ret = false → popped = []) ∧
      (ret = true →
        heap1.size = 0 ∨ heap1.topRun ≠ heap.topRun ∨
        ∃ lr b2, heap1.top = some lr ∧ b2.finish = some blk1 ∧
          BlockAssembly.add hdr b2 lr = some (false, b2)) := by
  obtain ⟨hload0, hbs, hidx0, hcont0⟩ := hready
  have hload : ∀ e ∈ heap.w_heap.elems, ∃ lr, heap.load e.slot.address = some lr :=
    fun e he => Option.isSome_iff_exists.1 (hload0 e he)
  have hidx : blk.archIndex.maxLevel < blk.level ∨
      ∃ rs, blk.archIndex.runs[blk.level]? = some rs := by
    rcases hidx0 with h | h
    · exact Or.inl h
    · exact Or.inr (Option.isSome_iff_exists.1 h)
  have hcont : heap.topRun = some blk.lastRun →
      ∃ es, blk.archIndex.lastEntries blk.level = some es :=
    fun h => Option.isSome_iff_exists.1 (hcont0 h)
  unfold LogArchiver.selection
  by_cases h0 : heap.size = 0
  · rw [if_pos h0]
    exact ⟨false, heap, blk, [], rfl, rfl, fun _ he => absurd he (List.not_mem_nil _),
      ⟨fun _ => Or.inl h0, fun _ => rfl⟩, fun _ => rfl, fun h => (by cases h)⟩
  · rw [if_neg h0]
    cases hel : heap.w_heap.elems with
    | nil =>
      exfalso
      apply h0
      simp [ArchiverHeap.size, Heap.NumElements, hel]
    | cons e rest =>
      have hrun : heap.topRun = some e.run := by
        simp [ArchiverHeap.topRun, Heap.First, hel]
      rw [hrun]
      simp only
      obtain ⟨r, hr⟩ := BlockAssembly.start_isSome blk e.run hidx
      obtain ⟨hs1, _, _, hs4, hs5, hs6⟩ := BlockAssembly.start_spec blk e.run r hr
      rw [hr]
      obtain ⟨flag, b1⟩ := r
      cases flag with
      | false =>
        simp only
        have hfin : blk.writebuf.finished = true := by
          by_contra hf
          have := BlockAssembly.start_ok blk e.run _ hr (by simpa using hf)
          cases this
        exact ⟨false, heap, b1, [], rfl, by simp [hel],
          fun _ he => absurd he (List.not_mem_nil _),
          ⟨fun _ => Or.inr hfin, fun _ => rfl⟩, fun _ => rfl, fun h => (by cases h)⟩
      | true =>
        simp only
        have hfin : ¬ blk.writebuf.finished = true := by
          intro hf
          have := BlockAssembly.start_finished blk e.run _ hr hf
          cases this
        obtain ⟨hd1, _, hlr, hnew, hsame⟩ := hs6 rfl
        simp only at hd1 hlr hnew hsame hs4 hs5
        have hes : ∃ es, b1.archIndex.lastEntries b1.level = some es := by
          by_cases hq : e.run = blk.lastRun
          · obtain ⟨_, _, hai⟩ := hsame hq
            rw [hai, hs5]
            exact hcont (by rw [hrun, hq])
          · obtain ⟨_, _, hai⟩ := hnew hq
            rw [hs5]
            exact ⟨[], ArchiveIndex.appendNewEntry_lastEntries _ _ _ hai⟩
        obtain ⟨es, hes⟩ := hes
        obtain ⟨heap1, b2, recs2, popped, hloop, hpre, hall, hd2, hai2, hlv2, hwhy⟩ :=
          LogArchiver.selectionLoop_spec mm hdr e.run (heap.size + 1) heap b1 [] (by omega)
            hload hd1 (by rw [hs4]; exact hbs)
        rw [hloop]
        simp only
        obtain ⟨b3, hb3⟩ := BlockAssembly.finish_isSome b2 recs2 es hd2 (by rw [hai2, hlv2]; exact hes)
        rw [hb3]
        refine ⟨true, heap1, b3, popped, rfl, by rw [← hel]; exact hpre,
          fun e1 he1 => (by rw [hall e1 he1]), ⟨fun h => (by cases h), fun h => ?_⟩,
          fun h => (by cases h), fun _ => ?_⟩
        · rcases h with h | h
          · exact absurd h h0
          · exact absurd h hfin
        · rcases hwhy with h | h | ⟨lr, h1, h2⟩
          · exact Or.inl h
          · exact Or.inr (Or.inl h)
          · exact Or.inr (Or.inr ⟨lr, b2, h1, hb3, h2⟩)

theorem C18_selection_pops_top_run_witness :
    ∃ ret heap1 blk1,
      LogArchiver.selection Arena.mem_mgmt 8
        (ArchiverHeap.push Arena.mem_mgmt (ArchiverHeap.init (Arena.empty 1000))
          ⟨40, 1, 7, 0, ⟨1, 100⟩, lsn_t.null, lsn_t.null⟩ false).2.1
        (BlockAssembly.init (ArchiveIndex.init 512 4) 512 1 0 0 0) = some (ret, heap1, blk1) ∧
      (ret = false ↔
        (ArchiverHeap.push Arena.mem_mgmt (ArchiverHeap.init (Arena.empty 1000))
          ⟨40, 1, 7, 0, ⟨1, 100⟩, lsn_t.null, lsn_t.null⟩ false).2.1.size = 0 ∨
        (BlockAssembly.init (ArchiveIndex.init 512 4) 512 1 0 0 0).writebuf.finished = true) := by
  obtain ⟨ret, heap1, blk1, _, h1, _, _, h4, _⟩ :=
    C18_selection_pops_top_run Arena.mem_mgmt 8
      (ArchiverHeap.push Arena.mem_mgmt (ArchiverHeap.init (Arena.empty 1000))
        ⟨40, 1, 7, 0, ⟨1, 100⟩, lsn_t.null, lsn_t.null⟩ false).2.1
      (BlockAssembly.init (ArchiveIndex.init 512 4) 512 1 0 0 0)
      ⟨by decide, by decide, Or.inl (by decide), fun h => absurd h (by decide)⟩
  exact ⟨ret, heap1, blk1, h1, h4⟩
theorem RunInfo.pidAt_of_get (run : RunInfo) (j : Nat) (e : BlockEntry)
    (h : run.entries[j]? = some e) : run.pidAt j = e.pid := by
  unfold RunInfo.pidAt
  rw [h]

theorem RunInfo.get_of_lt (run : RunInfo) (j : Nat) (h : j < run.entries.length) :
    ∃ e, run.entries[j]? = some e ∧ e.pid = run.pidAt j := by
  refine ⟨run.entries[j], List.getElem?_eq_getElem h, ?_⟩
  rw [RunInfo.pidAt_of_get run j _ (List.getElem?_eq_getElem h)]

theorem ArchiveIndex.findEntry_back_spec (run : RunInfo) (pid : Nat) :
    ∀ i, i < run.entries.length →
      ∃ r, ArchiveIndex.findEntry_back run.entries pid i = some r ∧ r ≤ i ∧
        (r = i ∨ run.pidAt (r + 1) = pid) := by
  intro i
  induction i with
  | zero => intro _; exact ⟨0, rfl, Nat.le_refl _, Or.inl rfl⟩
  | succ m ih =>
    intro hm
    obtain ⟨e, he, hpe⟩ := RunInfo.get_of_lt run (m + 1) hm
    unfold ArchiveIndex.findEntry_back
    rw [he]
    simp only
    by_cases heq : e.pid = pid
    · rw [if_pos heq]
      obtain ⟨r, h1, h2, h3⟩ := ih (by omega)
      refine ⟨r, h1, by omega, ?_⟩
      rcases h3 with h | h
      · right
        rw [h, ← hpe]
        exact heq
      · exact Or.inr h
    · rw [if_neg heq]
      exact ⟨m + 1, rfl, Nat.le_refl _, Or.inl rfl⟩

/-- The index `findEntry` probes in the range `[f, tn)`. -/
theorem ArchiveIndex.findEntry_mid (f tn : Nat) (h : f < tn) :
    ∃ m : Nat, f ≤ m ∧ m < tn ∧
      (if (f : Int) = (tn : Int) - 1 then (f : Int)
        else (f : Int).tdiv 2 + ((tn : Int) - 1).tdiv 2) = (m : Int) := by
  by_cases h1 : f + 1 = tn
  · refine ⟨f, Nat.le_refl _, h, ?_⟩
    rw [if_pos (by omega)]
  · refine ⟨f / 2 + (tn - 1) / 2, by omega, by omega, ?_⟩
    rw [if_neg (by omega), Int.tdiv_eq_ediv (by omega) (by decide),
      Int.tdiv_eq_ediv (by omega) (by decide)]
    omega
/-- One step of `findEntry` on a non-empty range `[f, tn)` given by natural
numbers: the probe `m`, then the three branches. -/
theorem ArchiveIndex.findEntry_step (run : RunInfo) (pid fuel f tn : Nat) (h : f < tn)
    (htn : tn ≤ run.entries.length) :
    ∃ m : Nat, f ≤ m ∧ m < tn ∧
      ArchiveIndex.findEntry run pid (fuel + 1) (f : Int) ((tn : Int) - 1) =
        if run.pidAt m ≤ pid ∧ (m + 1 = run.entries.length ∨ pid ≤ run.pidAt (m + 1)) then
          ArchiveIndex.findEntry_back run.entries pid m
        else if run.pidAt m > pid then
          ArchiveIndex.findEntry run pid fuel (f : Int) ((m : Int) - 1)
        else
          ArchiveIndex.findEntry run pid fuel ((m + 1 : Nat) : Int) ((tn : Int) - 1) := by
  obtain ⟨m, hm1, hm2, hm3⟩ := ArchiveIndex.findEntry_mid f tn h
  refine ⟨m, hm1, hm2, ?_⟩
  obtain ⟨e, he, hpe⟩ := RunInfo.get_of_lt run m (by omega)
  have hto : (if (tn : Int) - 1 < 0 then (run.entries.length : Int) - 1 else (tn : Int) - 1)
      = (tn : Int) - 1 := if_neg (by omega)
  have hfrom : (if (f : Int) < 0 then (0 : Int) else (f : Int)) = (f : Int) :=
    if_neg (by omega)
  rw [ArchiveIndex.findEntry, if_neg (show ¬ ((f : Int) > (tn : Int) - 1) by omega)]
  simp only [hto, hfrom, hm3, Int.toNat_ofNat]
  rw [if_neg (show ¬ ((m : Int) < 0) by omega), he]
  simp only
  have hnext : (match run.entries[m + 1]? with
      | none => true
      | some e1 => decide (pid ≤ e1.pid))
        = decide (m + 1 = run.entries.length ∨ pid ≤ run.pidAt (m + 1)) := by
    by_cases hlast : m + 1 < run.entries.length
    · obtain ⟨e1, he1, hpe1⟩ := RunInfo.get_of_lt run (m + 1) hlast
      rw [he1]
      simp only [hpe1]
      have : ¬ m + 1 = run.entries.length := by omega
      simp [this]
    · have hlen : m + 1 = run.entries.length := by omega
      rw [List.getElem?_eq_none (by omega)]
      simp [hlen]
  rw [hnext, hpe]
  by_cases hc : run.pidAt m ≤ pid ∧ (m + 1 = run.entries.length ∨ pid ≤ run.pidAt (m + 1))
  · rw [if_pos hc, if_pos (by simpa using hc)]
  · rw [if_neg hc, if_neg (by simpa using hc)]
    push_cast
    rfl

/-- The result of `findEntry` on the range `[f, tn)` when the bucket of `pid` lies
in it. -/
theorem ArchiveIndex.findEntry_range (run : RunInfo) (pid : Nat)
    (hs : ∀ a b, a < b → b < run.entries.length → run.pidAt a < run.pidAt b)
    (h0 : run.pidAt 0 ≤ pid) (hn : 0 < run.entries.length) :
    ∀ (fuel f tn : Nat), f ≤ tn → tn ≤ run.entries.length → tn - f < fuel →
      (f = 0 ∨ (f < run.entries.length ∧ run.pidAt f < pid)) →
      (tn = run.entries.length ∨ pid < run.pidAt tn) →
      ∃ i, ArchiveIndex.findEntry run pid fuel (f : Int) ((tn : Int) - 1) = some i ∧
        i < run.entries.length ∧ run.pidAt i ≤ pid ∧
        (i + 1 = run.entries.length ∨ pid ≤ run.pidAt (i + 1)) := by
  intro fuel
  induction fuel with
  | zero => intro f tn _ _ hf; omega
  | succ k ih =>
    intro f tn hft htn hfuel hA hB
    by_cases hlt : f < tn
    · obtain ⟨m, hm1, hm2, hstep⟩ := ArchiveIndex.findEntry_step run pid k f tn hlt htn
      rw [hstep]
      by_cases hc : run.pidAt m ≤ pid ∧
          (m + 1 = run.entries.length ∨ pid ≤ run.pidAt (m + 1))
      · rw [if_pos hc]
        obtain ⟨r, h1, h2, h3⟩ := ArchiveIndex.findEntry_back_spec run pid m (by omega)
        refine ⟨r, h1, by omega, ?_, ?_⟩
        · rcases h3 with h | h
          · rw [h]; exact hc.1
          · rcases Nat.lt_or_ge r m with h4 | h4
            · have := hs r (r + 1) (by omega) (by omega)
              omega
            · have hrm : r = m := by omega
              rw [hrm]
              exact hc.1
        · rcases h3 with h | h
          · rw [h]; exact hc.2
          · right; omega
      · rw [if_neg hc]
        by_cases hgt : run.pidAt m > pid
        · rw [if_pos hgt]
          exact ih f m hm1 (by omega) (by omega) hA (Or.inr hgt)
        · rw [if_neg hgt]
          have hle : run.pidAt m ≤ pid := by omega
          have hnot : ¬ (m + 1 = run.entries.length ∨ pid ≤ run.pidAt (m + 1)) :=
            fun h => hc ⟨hle, h⟩
          have h1 : m + 1 < run.entries.length := by
            by_contra h2
            exact hnot (Or.inl (by omega))
          have h2 : run.pidAt (m + 1) < pid := by
            by_contra h3
            exact hnot (Or.inr (by omega))
          exact ih (m + 1) tn (by omega) htn (by omega) (Or.inr ⟨h1, h2⟩) hB
    · exfalso
      have hft2 : f = tn := by omega
      subst hft2
      rcases hA with h | ⟨h1, h2⟩
      · subst h
        rcases hB with h | h
        · omega
        · omega
      · rcases hB with h | h
        · omega
        · omega

theorem ArchiveIndex.findEntry_first (run : RunInfo) (pid fuel : Nat)
    (hn : 0 < run.entries.length) :
    ArchiveIndex.findEntry run pid (fuel + 1) (-1) (-1)
      = ArchiveIndex.findEntry run pid (fuel + 1) ((0 : Nat) : Int)
          ((run.entries.length : Int) - 1) := by
  rw [ArchiveIndex.findEntry, ArchiveIndex.findEntry]
  have e1 : ¬ ((-1 : Int) > -1) := by omega
  have e2 : ¬ (((0 : Nat) : Int) > (run.entries.length : Int) - 1) := by omega
  have e3 : ((-1 : Int) < 0) := by omega
  have e4 : ¬ ((run.entries.length : Int) - 1 < 0) := by omega
  have e5 : ¬ (((0 : Nat) : Int) < 0) := by omega
  rw [if_neg e1, if_neg e2]
  simp only [e3, e4, e5, if_true, if_false]
  rfl

theorem ArchiveIndex.findEntry_below (run : RunInfo) (pid : Nat)
    (hall : ∀ j, j < run.entries.length → pid < run.pidAt j) :
    ∀ (fuel tn : Nat), tn ≤ run.entries.length → tn < fuel →
      ArchiveIndex.findEntry run pid fuel ((0 : Nat) : Int) ((tn : Int) - 1) = some 0 := by
  intro fuel
  induction fuel with
  | zero => intro tn _ h; omega
  | succ k ih =>
    intro tn htn hfuel
    by_cases hlt : 0 < tn
    · obtain ⟨m, _, hm2, hstep⟩ := ArchiveIndex.findEntry_step run pid k 0 tn hlt htn
      rw [hstep]
      have hm := hall m (by omega)
      rw [if_neg (fun h => by omega), if_pos hm]
      exact ih m (by omega) (by omega)
    · have : tn = 0 := by omega
      subst this
      rw [ArchiveIndex.findEntry]
      simp
/-- C19: for a run with a non-empty entry list whose page ids increase strictly,
and enough fuel for the nested calls, `findEntry(run, pid)` returns, for a `pid`
at or above the first entry, an index `i` whose entry starts at or below `pid`
and that is the last entry or is followed by an entry starting at or above
`pid`, so that every entry after `i + 1` starts above `pid`; for a `pid` below the
first entry it returns 0. -/
theorem C19_findEntry_bucket (run : RunInfo) (pid fuel : Nat)
    (hne : run.entries ≠ [])
    (hsorted : run.entries.Pairwise (fun a b => a.pid < b.pid))
    (hfuel : run.entries.length + 1 ≤ fuel) :
    (run.pidAt 0 ≤ pid →
      ∃ i, ArchiveIndex.findEntry run pid fuel (-1) (-1) = some i ∧
        i < run.entries.length ∧ run.pidAt i ≤ pid ∧
        (i + 1 = run.entries.length ∨ pid ≤ run.pidAt (i + 1)) ∧
        ∀ j, i + 1 < j → j < run.entries.length → pid < run.pidAt j) ∧
    (pid < run.pidAt 0 → ArchiveIndex.findEntry run pid fuel (-1) (-1) = some 0) := by
  have hn : 0 < run.entries.length := List.length_pos.2 hne
  have hs : ∀ a b, a < b → b < run.entries.length → run.pidAt a < run.pidAt b := by
    intro a b hab hb
    have h1 := (List.pairwise_iff_getElem.1 hsorted) a b (by omega) hb hab
    rw [RunInfo.pidAt_of_get run a _ (List.getElem?_eq_getElem (by omega)),
      RunInfo.pidAt_of_get run b _ (List.getElem?_eq_getElem hb)]
    exact h1
  obtain ⟨k, hk⟩ : ∃ k, fuel = k + 1 := ⟨fuel - 1, by omega⟩
  subst hk
  rw [ArchiveIndex.findEntry_first run pid k hn]
  refine ⟨fun h0 => ?_, fun hlow => ?_⟩
  · obtain ⟨i, h1, h2, h3, h4⟩ := ArchiveIndex.findEntry_range run pid hs h0 hn (k + 1) 0
      run.entries.length (Nat.zero_le _) (Nat.le_refl _) (by omega) (Or.inl rfl) (Or.inl rfl)
    refine ⟨i, ?_, h2, h3, h4, fun j hj1 hj2 => ?_⟩
    · rw [← h1]
    · rcases h4 with h | h
      · omega
      · have := hs (i + 1) j hj1 hj2
        omega
  · have := ArchiveIndex.findEntry_below run pid (fun j hj => by
      rcases Nat.eq_zero_or_pos j with h | h
      · rw [h]; exact hlow
      · have := hs 0 j h hj
        omega) (k + 1) run.entries.length (Nat.le_refl _) (by omega)
    rw [← this]

theorem C19_findEntry_bucket_witness :
    ∃ i, ArchiveIndex.findEntry sampleRun 25 4 (-1) (-1) = some i ∧
      i < sampleRun.entries.length ∧ sampleRun.pidAt i ≤ 25 ∧
      (i + 1 = sampleRun.entries.length ∨ 25 ≤ sampleRun.pidAt (i + 1)) ∧
      ∀ j, i + 1 < j → j < sampleRun.entries.length → 25 < sampleRun.pidAt j :=
  (C19_findEntry_bucket sampleRun 25 4 (by decide) (by decide) (by decide)).1 (by decide)

theorem lsn_t.lt_of_not_le {a b : lsn_t} (h : ¬ a ≤ b) : b < a := by
  rw [lsn_t.le_def] at h; rw [lsn_t.lt_def]; omega

theorem ArchiveIndex.findRun_back_spec (rs : List RunInfo) (lsn : lsn_t) :
    ∀ (n : Nat), n < rs.length →
      ∃ r, ArchiveIndex.findRun_back rs lsn n = some r ∧ r ≤ n ∧
        (r = 0 ∨ ∃ x, rs[r]? = some x ∧ ¬ x.firstLSN > lsn) ∧
        (∀ k x, r < k → k ≤ n → rs[k]? = some x → x.firstLSN > lsn) := by
  intro n
  induction n with
  | zero =>
    intro _
    exact ⟨0, rfl, Nat.le_refl _, Or.inl rfl, fun k x h1 h2 _ => by omega⟩
  | succ m ih =>
    intro hn
    unfold ArchiveIndex.findRun_back
    rw [List.getElem?_eq_getElem hn]
    simp only
    by_cases hgt : rs[m + 1].firstLSN > lsn
    · rw [if_pos hgt]
      obtain ⟨r, h1, h2, h3, h4⟩ := ih (by omega)
      refine ⟨r, h1, by omega, h3, fun k x hk1 hk2 hx => ?_⟩
      by_cases hk : k = m + 1
      · subst hk
        rw [List.getElem?_eq_getElem hn] at hx
        rw [← Option.some.inj hx]
        exact hgt
      · exact h4 k x hk1 (by omega) hx
    · rw [if_neg hgt]
      exact ⟨m + 1, rfl, Nat.le_refl _,
        Or.inr ⟨rs[m + 1], List.getElem?_eq_getElem hn, hgt⟩,
        fun k x h1 h2 _ => by omega⟩

theorem ArchiveIndex.findRun_skip_nonempty (rs : List RunInfo) (lf fuel r : Nat) (x : RunInfo)
    (hx : rs[r]? = some x) (hne : x.entries.length ≠ 0) :
    ArchiveIndex.findRun_skip rs lf (fuel + 1) r = some r := by
  unfold ArchiveIndex.findRun_skip
  rw [hx]
  simp only
  rw [if_neg (fun h => hne h.1)]

/-- C20: for a level whose finished runs `0..lf` are sorted by `firstLSN`,
contiguous (`lastLSN` of a run is `firstLSN` of the next), hold entries and end
no earlier than they begin, and for a non-null `lsn`, `findRun` returns the
smallest index `r` whose run has `lastLSN > lsn`, or `lf + 1` when no finished run
has `lastLSN > lsn`; for the null LSN it returns 0. -/
theorem C20_findRun_smallest (ix : ArchiveIndex) (level lf : Nat) (rs : List RunInfo)
    (lsn : lsn_t)
    (hlf : ix.lastFinished[level]? = some (lf : Int)) (hrs : ix.runs[level]? = some rs)
    (hlen : lf < rs.length)
    (hsorted : ∀ i j x y, i ≤ j → j ≤ lf → rs[i]? = some x → rs[j]? = some y →
      x.firstLSN ≤ y.firstLSN)
    (hcontig : ∀ k x y, k < lf → rs[k]? = some x → rs[k + 1]? = some y →
      x.lastLSN = y.firstLSN)
    (hentries : ∀ k x, k ≤ lf → rs[k]? = some x → x.entries ≠ [])
    (hlast : ∀ x, rs[lf]? = some x → x.firstLSN ≤ x.lastLSN)
    (hnull : lsn ≠ lsn_t.null) :
    ix.findRun lsn_t.null level = some 0 ∧
    ∃ r, ix.findRun lsn level = some r ∧
      ((r ≤ lf ∧ (∃ x, rs[r]? = some x ∧ x.lastLSN > lsn) ∧
          ∀ k x, k < r → rs[k]? = some x → ¬ x.lastLSN > lsn) ∨
       (r = lf + 1 ∧ ∀ k x, k ≤ lf → rs[k]? = some x → ¬ x.lastLSN > lsn)) := by
  refine ⟨by simp [ArchiveIndex.findRun], ?_⟩
  have hget : ∀ k, k ≤ lf → ∃ x, rs[k]? = some x := fun k hk =>
    ⟨_, List.getElem?_eq_getElem (Nat.lt_of_le_of_lt hk hlen)⟩
  obtain ⟨last, hlastx⟩ := hget lf (Nat.le_refl _)
  unfold ArchiveIndex.findRun
  rw [if_neg hnull, hlf, hrs]
  simp only
  rw [if_neg (by omega)]
  simp only [Int.toNat_ofNat]
  rw [hlastx]
  simp only
  -- every run before `r` ends at or before the begin of run `r`
  have hbefore : ∀ k r x y, k < r → r ≤ lf → rs[k]? = some x → rs[r]? = some y →
      x.lastLSN ≤ y.firstLSN := by
    intro k r x y hkr hr hx hy
    obtain ⟨z, hz⟩ := hget (k + 1) (by omega)
    rw [hcontig k x z (by omega) hx hz]
    exact hsorted (k + 1) r z y (by omega) hr hz hy
  by_cases hge : lsn ≥ last.lastLSN
  · rw [if_pos hge]
    refine ⟨lf + 1, rfl, Or.inr ⟨rfl, fun k x hk hx => ?_⟩⟩
    apply lsn_t.not_lt_of_le
    by_cases hkl : k = lf
    · subst hkl
      rw [hlastx] at hx
      rw [← Option.some.inj hx]
      exact hge
    · have h1 := hbefore k lf x last (by omega) (Nat.le_refl _) hx hlastx
      exact lsn_t.le_trans (lsn_t.le_trans h1 (hlast _ hlastx)) hge
  · rw [if_neg hge]
    have hlt : lsn < last.lastLSN := lsn_t.lt_of_not_le hge
    obtain ⟨r, h1, h2, h3, h4⟩ := ArchiveIndex.findRun_back_spec rs lsn lf hlen
    obtain ⟨xr, hxr⟩ := hget r h2
    rw [h1]
    simp only
    rw [ArchiveIndex.findRun_skip_nonempty rs lf (lf + 1) r xr hxr
      (fun h0 => hentries r xr h2 hxr (List.length_eq_zero.1 h0))]
    refine ⟨r, rfl, Or.inl ⟨h2, ⟨xr, hxr, ?_⟩, fun k x hk hx => ?_⟩⟩
    · by_cases hrl : r = lf
      · subst hrl
        rw [hlastx] at hxr
        rw [← Option.some.inj hxr]
        exact hlt
      · obtain ⟨z, hz⟩ := hget (r + 1) (by omega)
        rw [hcontig r xr z (by omega) hxr hz]
        exact h4 (r + 1) z (by omega) (by omega) hz
    · apply lsn_t.not_lt_of_le
      rcases h3 with h0 | ⟨y, hy, hny⟩
      · omega
      · exact lsn_t.le_trans (hbefore k r x y hk h2 hx hy) (lsn_t.le_of_not_lt hny)
theorem C20_findRun_smallest_witness :
    sampleIndex.findRun lsn_t.null 1 = some 0 ∧
    ∃ r, sampleIndex.findRun ⟨1, 150⟩ 1 = some r ∧
      ((r ≤ 1 ∧ (∃ x, sampleRuns[r]? = some x ∧ x.lastLSN > ⟨1, 150⟩) ∧
          ∀ k x, k < r → sampleRuns[k]? = some x → ¬ x.lastLSN > ⟨1, 150⟩) ∨
       (r = 1 + 1 ∧ ∀ k x, k ≤ 1 → sampleRuns[k]? = some x →
          ¬ x.lastLSN > ⟨1, 150⟩)) := by
  have hidx : ∀ k x, k ≤ 1 → sampleRuns[k]? = some x →
      (k = 0 ∧ x = sampleRun) ∨ (k = 1 ∧ x = ⟨⟨1, 100⟩, ⟨1, 200⟩, 0, [⟨0, 10⟩]⟩) := by
    intro k x hk hx
    rcases Nat.eq_zero_or_pos k with h | h
    · subst h
      exact Or.inl ⟨rfl, (Option.some.inj hx).symm⟩
    · have h1 : k = 1 := by omega
      subst h1
      exact Or.inr ⟨rfl, (Option.some.inj hx).symm⟩
  exact C20_findRun_smallest sampleIndex 1 1 sampleRuns ⟨1, 150⟩ rfl rfl (by decide)
    (fun i j x y hij hj hx hy => by
      rcases hidx i x (by omega) hx with ⟨h1, h2⟩ | ⟨h1, h2⟩ <;>
        rcases hidx j y hj hy with ⟨h3, h4⟩ | ⟨h3, h4⟩ <;>
        subst h2 h4 <;> first | decide | omega)
    (fun k x y hk hx hy => by
      rcases hidx k x (by omega) hx with ⟨h1, h2⟩ | ⟨h1, h2⟩ <;>
        rcases hidx (k + 1) y (by omega) hy with ⟨h3, h4⟩ | ⟨h3, h4⟩ <;>
        subst h2 h4 <;> first | decide | omega)
    (fun k x hk hx => by
      rcases hidx k x hk hx with ⟨_, h2⟩ | ⟨_, h2⟩ <;> subst h2 <;> decide)
    (fun x hx => by
      rcases hidx 1 x (Nat.le_refl _) hx with ⟨h1, _⟩ | ⟨_, h2⟩
      · omega
      · subst h2; decide)
    (by decide)

/-- A successful call of `ArchiverHeap::allocate` changes only the workspace. -/
theorem ArchiverHeap.allocate_ok {W : Type} (mm : mem_mgmt_t W) (h : ArchiverHeap W)
    (n : Nat) (hd : (mm.allocate h.workspace n).1.address ≠ 0) :
    ArchiverHeap.allocate mm h n =
      ((mm.allocate h.workspace n).1, { h with workspace := (mm.allocate h.workspace n).2 }) := by
  unfold ArchiverHeap.allocate
  simp only [if_neg hd]

/-- The slot and the workspace that `ArchiverHeap::allocate` returns are those of
the allocator; the stored records are untouched. -/
theorem ArchiverHeap.allocate_slot {W : Type} (mm : mem_mgmt_t W) (h : ArchiverHeap W)
    (n : Nat) :
    (ArchiverHeap.allocate mm h n).1 = (mm.allocate h.workspace n).1 ∧
    (ArchiverHeap.allocate mm h n).2.workspace = (mm.allocate h.workspace n).2 ∧
    (ArchiverHeap.allocate mm h n).2.memory = h.memory := by
  unfold ArchiverHeap.allocate
  simp only
  split_ifs <;> exact ⟨rfl, rfl, rfl⟩

/-- The first allocation fails: `push` returns false at once. -/
theorem ArchiverHeap.pushBody_full {W : Type} (mm : mem_mgmt_t W)
    (self : ArchiverHeap W → logrec_t → Bool × ArchiverHeap W × logrec_t)
    (h : ArchiverHeap W) (lr : logrec_t) (duplicate : Bool)
    (hd : (mm.allocate h.workspace lr.length).1.address = 0) :
    ArchiverHeap.pushBody mm self h lr duplicate =
      (false, (ArchiverHeap.allocate mm h lr.length).2, lr) := by
  have hd1 : (ArchiverHeap.allocate mm h lr.length).1.address = 0 := by
    rw [(ArchiverHeap.allocate_slot mm h lr.length).1]; exact hd
  unfold ArchiverHeap.pushBody
  simp only [if_pos hd1]

/-- The first allocation succeeds and the nested call fails. -/
theorem ArchiverHeap.pushBody_dup_fail {W : Type} (mm : mem_mgmt_t W)
    (self : ArchiverHeap W → logrec_t → Bool × ArchiverHeap W × logrec_t)
    (h : ArchiverHeap W) (lr : logrec_t)
    (hd : (mm.allocate h.workspace lr.length).1.address ≠ 0)
    (hs : (self (ArchiverHeap.afterCopy mm h lr) lr.secondPage).1 = false) :
    ArchiverHeap.pushBody mm self h lr true =
      (false,
        { (self (ArchiverHeap.afterCopy mm h lr) lr.secondPage).2.1 with
          workspace := mm.free
            (self (ArchiverHeap.afterCopy mm h lr) lr.secondPage).2.1.workspace
            (mm.allocate h.workspace lr.length).1 },
        (((self (ArchiverHeap.afterCopy mm h lr) lr.secondPage).2.1.load
          (mm.allocate h.workspace lr.length).1.address).getD
            (self (ArchiverHeap.afterCopy mm h lr) lr.secondPage).2.2)) := by
  unfold ArchiverHeap.pushBody
  rw [ArchiverHeap.allocate_ok mm h lr.length hd]
  simp only [if_neg hd, if_true]
  unfold ArchiverHeap.afterCopy logrec_t.secondPage at hs
  simp only [hs, Bool.not_false, if_true]
  rfl

/-- The first allocation succeeds and the nested call succeeds. -/
theorem ArchiverHeap.pushBody_dup_ok {W : Type} (mm : mem_mgmt_t W)
    (self : ArchiverHeap W → logrec_t → Bool × ArchiverHeap W × logrec_t)
    (h : ArchiverHeap W) (lr : logrec_t)
    (hd : (mm.allocate h.workspace lr.length).1.address ≠ 0)
    (hs : (self (ArchiverHeap.afterCopy mm h lr) lr.secondPage).1 = true) :
    (ArchiverHeap.pushBody mm self h lr true).1 = true ∧
    (ArchiverHeap.pushBody mm self h lr true).2.1.currentRun =
      (self (ArchiverHeap.afterCopy mm h lr) lr.secondPage).2.1.currentRun := by
  unfold ArchiverHeap.pushBody
  rw [ArchiverHeap.allocate_ok mm h lr.length hd]
  simp only [if_neg hd, if_true]
  unfold ArchiverHeap.afterCopy logrec_t.secondPage at hs
  simp only [hs, Bool.not_true, Bool.false_eq_true, if_false]
  exact ⟨trivial, rfl⟩

/-- A call without duplication whose allocation succeeds returns true and raises
the run counter by at most one. -/
theorem ArchiverHeap.pushBody_single_ok {W : Type} (mm : mem_mgmt_t W)
    (self : ArchiverHeap W → logrec_t → Bool × ArchiverHeap W × logrec_t)
    (h : ArchiverHeap W) (lr : logrec_t)
    (hd : (mm.allocate h.workspace lr.length).1.address ≠ 0) :
    (ArchiverHeap.pushBody mm self h lr false).1 = true ∧
    (ArchiverHeap.pushBody mm self h lr false).2.1.currentRun ≤ h.currentRun + 1 := by
  unfold ArchiverHeap.pushBody
  rw [ArchiverHeap.allocate_ok mm h lr.length hd]
  simp only [if_neg hd, Bool.false_eq_true, if_false]
  refine ⟨trivial, ?_⟩
  split_ifs <;> simp


/-- C27: when `push(lr, true)` returns false, the heap entries are those from before
the call, the record `*lr` has the contents it had before the call, and every slot
the call obtained from the workspace was given back: either the first allocation
failed, or it succeeded, the allocation of the nested call failed, and the first
slot was freed. -/
theorem C27_push_duplicate_failure_restores {W : Type} (mm : mem_mgmt_t W)
    (h : ArchiverHeap W) (lr : logrec_t)
    (hf : (ArchiverHeap.push mm h lr true).1 = false) :
    (ArchiverHeap.push mm h lr true).2.1.w_heap = h.w_heap ∧
    (ArchiverHeap.push mm h lr true).2.2 = lr ∧
    (((mm.allocate h.workspace lr.length).1.address = 0 ∧
        (ArchiverHeap.push mm h lr true).2.1.workspace =
          (mm.allocate h.workspace lr.length).2) ∨
     ((mm.allocate h.workspace lr.length).1.address ≠ 0 ∧
        (mm.allocate (mm.allocate h.workspace lr.length).2 lr.length).1.address = 0 ∧
        (ArchiverHeap.push mm h lr true).2.1.workspace =
          mm.free (mm.allocate (mm.allocate h.workspace lr.length).2 lr.length).2
            (mm.allocate h.workspace lr.length).1)) := by
  by_cases hd : (mm.allocate h.workspace lr.length).1.address = 0
  · have e := ArchiverHeap.pushBody_full mm
      (fun h1 lr1 => ArchiverHeap.pushBody mm (fun h2 lr2 => (false, h2, lr2)) h1 lr1 false)
      h lr true hd
    unfold ArchiverHeap.push
    rw [e]
    exact ⟨ArchiverHeap.allocate_w_heap mm h lr.length, rfl,
      Or.inl ⟨hd, (ArchiverHeap.allocate_slot mm h lr.length).2.1⟩⟩
  · by_cases hd2 :
      (mm.allocate (mm.allocate h.workspace lr.length).2 lr.length).1.address = 0
    · have hin := ArchiverHeap.pushBody_full mm (fun h2 lr2 => (false, h2, lr2))
        (ArchiverHeap.afterCopy mm h lr) lr.secondPage false hd2
      have e := ArchiverHeap.pushBody_dup_fail mm
        (fun h1 lr1 => ArchiverHeap.pushBody mm (fun h2 lr2 => (false, h2, lr2)) h1 lr1 false)
        h lr hd (by simp only [hin])
      simp only [hin] at e
      have hs := ArchiverHeap.allocate_slot mm (ArchiverHeap.afterCopy mm h lr)
        lr.secondPage.length
      unfold ArchiverHeap.push
      rw [e]
      refine ⟨ArchiverHeap.allocate_w_heap mm (ArchiverHeap.afterCopy mm h lr) _, ?_,
        Or.inr ⟨hd, hd2, ?_⟩⟩
      · simp only [ArchiverHeap.load]
        rw [hs.2.2]
        simp [ArchiverHeap.afterCopy]
      · simp only
        rw [hs.2.1]
        rfl
    · exfalso
      have hin := ArchiverHeap.pushBody_single_ok mm (fun h2 lr2 => (false, h2, lr2))
        (ArchiverHeap.afterCopy mm h lr) lr.secondPage hd2
      have e := ArchiverHeap.pushBody_dup_ok mm
        (fun h1 lr1 => ArchiverHeap.pushBody mm (fun h2 lr2 => (false, h2, lr2)) h1 lr1 false)
        h lr hd hin.1
      unfold ArchiverHeap.push at hf
      rw [e.1] at hf
      exact Bool.noConfusion hf

/-- C27 on a multi-page record of 40 bytes and a workspace of 60 bytes: the slot
of the original fits, the slot of the copy does not. -/
theorem C27_push_duplicate_failure_restores_witness :
    (ArchiverHeap.push Arena.mem_mgmt (ArchiverHeap.init (Arena.empty 60))
      ⟨40, 1, 100, 200, ⟨1, 0⟩, ⟨0, 0⟩, ⟨0, 0⟩⟩ true).2.1.w_heap =
        (ArchiverHeap.init (Arena.empty 60)).w_heap ∧
    (ArchiverHeap.push Arena.mem_mgmt (ArchiverHeap.init (Arena.empty 60))
      ⟨40, 1, 100, 200, ⟨1, 0⟩, ⟨0, 0⟩, ⟨0, 0⟩⟩ true).2.2 =
        ⟨40, 1, 100, 200, ⟨1, 0⟩, ⟨0, 0⟩, ⟨0, 0⟩⟩ ∧
    (ArchiverHeap.push Arena.mem_mgmt (ArchiverHeap.init (Arena.empty 60))
      ⟨40, 1, 100, 200, ⟨1, 0⟩, ⟨0, 0⟩, ⟨0, 0⟩⟩ true).2.1.workspace.live = [] :=
  ⟨(C27_push_duplicate_failure_restores Arena.mem_mgmt (ArchiverHeap.init (Arena.empty 60))
      ⟨40, 1, 100, 200, ⟨1, 0⟩, ⟨0, 0⟩, ⟨0, 0⟩⟩ (by decide)).1,
   (C27_push_duplicate_failure_restores Arena.mem_mgmt (ArchiverHeap.init (Arena.empty 60))
      ⟨40, 1, 100, 200, ⟨1, 0⟩, ⟨0, 0⟩, ⟨0, 0⟩⟩ (by decide)).2.1, by decide⟩

/-- C28: one successful call of `push` raises `currentRun` by at most one, with
and without duplication, whatever the heap holds (empty heap and a heap whose top
is of the current run included); the counter never goes down. -/
theorem C28_push_currentRun_at_most_one {W : Type} (mm : mem_mgmt_t W)
    (h : ArchiverHeap W) (lr : logrec_t) (duplicate : Bool)
    (hok : (ArchiverHeap.push mm h lr duplicate).1 = true) :
    h.currentRun ≤ (ArchiverHeap.push mm h lr duplicate).2.1.currentRun ∧
    (ArchiverHeap.push mm h lr duplicate).2.1.currentRun ≤ h.currentRun + 1 := by
  have hd : (mm.allocate h.workspace lr.length).1.address ≠ 0 := by
    intro hd
    have e := ArchiverHeap.pushBody_full mm
      (fun h1 lr1 => ArchiverHeap.pushBody mm (fun h2 lr2 => (false, h2, lr2)) h1 lr1 false)
      h lr duplicate hd
    unfold ArchiverHeap.push at hok
    rw [e] at hok
    exact Bool.noConfusion hok
  cases duplicate with
  | false =>
    refine ⟨(ArchiverHeap.push_false_spec mm h lr).1, ?_⟩
    unfold ArchiverHeap.push
    exact (ArchiverHeap.pushBody_single_ok mm _ h lr hd).2
  | true =>
    refine ⟨(ArchiverHeap.push_true_spec mm h lr).1, ?_⟩
    by_cases hd2 :
      (mm.allocate (mm.allocate h.workspace lr.length).2 lr.length).1.address = 0
    · exfalso
      have hin := ArchiverHeap.pushBody_full mm (fun h2 lr2 => (false, h2, lr2))
        (ArchiverHeap.afterCopy mm h lr) lr.secondPage false hd2
      have e := ArchiverHeap.pushBody_dup_fail mm
        (fun h1 lr1 => ArchiverHeap.pushBody mm (fun h2 lr2 => (false, h2, lr2)) h1 lr1 false)
        h lr hd (by simp only [hin])
      unfold ArchiverHeap.push at hok
      rw [e] at hok
      exact Bool.noConfusion hok
    · have hin := ArchiverHeap.pushBody_single_ok mm (fun h2 lr2 => (false, h2, lr2))
        (ArchiverHeap.afterCopy mm h lr) lr.secondPage hd2
      have e := ArchiverHeap.pushBody_dup_ok mm
        (fun h1 lr1 => ArchiverHeap.pushBody mm (fun h2 lr2 => (false, h2, lr2)) h1 lr1 false)
        h lr hd hin.1
      unfold ArchiverHeap.push
      rw [e.2]
      exact hin.2

/-- C28 on a multi-page record pushed into a heap that was filled once and whose
top is of the current run: two entries are added, the counter goes from 1 to 2. -/
theorem C28_push_currentRun_at_most_one_witness :
    (1 : Int) ≤ (ArchiverHeap.push Arena.mem_mgmt
        ⟨1, true, Arena.empty 100, [], ⟨[⟨⟨900, 8⟩, ⟨1, 0⟩, 1, 5⟩]⟩⟩
        ⟨40, 1, 100, 200, ⟨1, 8⟩, ⟨0, 0⟩, ⟨0, 0⟩⟩ true).2.1.currentRun ∧
    (ArchiverHeap.push Arena.mem_mgmt
        ⟨1, true, Arena.empty 100, [], ⟨[⟨⟨900, 8⟩, ⟨1, 0⟩, 1, 5⟩]⟩⟩
        ⟨40, 1, 100, 200, ⟨1, 8⟩, ⟨0, 0⟩, ⟨0, 0⟩⟩ true).2.1.currentRun ≤ 1 + 1 :=
  C28_push_currentRun_at_most_one Arena.mem_mgmt
    ⟨1, true, Arena.empty 100, [], ⟨[⟨⟨900, 8⟩, ⟨1, 0⟩, 1, 5⟩]⟩⟩
    ⟨40, 1, 100, 200, ⟨1, 8⟩, ⟨0, 0⟩, ⟨0, 0⟩⟩ true (by decide)

/-- C26: `closeCurrentRun(lsn_t::null, level)` on an open run to which nothing was
appended returns success through the early return "nothing was appended -- just
close file and return": the descriptor of the level is set to `-1` and no new
`current_run` is opened. -/
theorem C26_closeCurrentRun_empty_run_leaves_no_current_run (sizeof_baseLogHeader : Nat)
    (d : ArchiveDirectory) (level : Nat) (fd : Int)
    (hfd : d.appendFd[level]? = some fd) (hge : fd ≥ 0)
    (hpos : d.appendPos[level]? = some 0) :
    ∃ d1, ArchiveDirectory.closeCurrentRun sizeof_baseLogHeader d lsn_t.null level = some d1 ∧
      d1.appendFd[level]? = some (-1) ∧ d1.nextFd = d.nextFd := by
  refine ⟨{ d with appendFd := d.appendFd.set level (-1) }, ?_, ?_, rfl⟩
  · unfold ArchiveDirectory.closeCurrentRun
    rw [hfd, hpos]
    simp only [if_pos hge, true_and, if_true]
  · have hl : level < d.appendFd.length := by
      rcases Nat.lt_or_ge level d.appendFd.length with h | h
      · exact h
      · rw [List.getElem?_eq_none h] at hfd
        cases hfd
    simp only [List.getElem?_set_self hl]

/-- C26 on the directory as the constructor leaves it (level 1, descriptor 3). -/
theorem C26_closeCurrentRun_empty_run_leaves_no_current_run_witness :
    ∃ d1, ArchiveDirectory.closeCurrentRun 8 (ArchiveDirectory.init 1024 16 3) lsn_t.null 1 =
        some d1 ∧ d1.appendFd[1]? = some (-1) ∧
      d1.nextFd = (ArchiveDirectory.init 1024 16 3).nextFd :=
  C26_closeCurrentRun_empty_run_leaves_no_current_run 8 (ArchiveDirectory.init 1024 16 3) 1 3
    (by decide) (by decide) (by decide)

/-- The traced search returns what `findEntry` returns. -/
theorem ArchiveIndex.findEntry_traced_fst (run : RunInfo) (pid : Nat) :
    ∀ (fuel : Nat) (from0 to0 : Int),
      (ArchiveIndex.findEntry_traced run pid fuel from0 to0).map (fun r => r.1) =
        ArchiveIndex.findEntry run pid fuel from0 to0 := by
  intro fuel
  induction fuel with
  | zero => intro from0 to0; rfl
  | succ k ih =>
    intro from0 to0
    rw [ArchiveIndex.findEntry_traced, ArchiveIndex.findEntry]
    by_cases h1 : from0 > to0
    · rw [if_pos h1, if_pos h1]
      by_cases h2 : from0 = 0
      · rw [if_pos h2, if_pos h2]; rfl
      · rw [if_neg h2, if_neg h2]; rfl
    · rw [if_neg h1, if_neg h1]
      simp only
      generalize (if to0 < 0 then (run.entries.length : Int) - 1 else to0) = to1
      generalize (if from0 < 0 then (0 : Int) else from0) = from1
      generalize (if from1 = to1 then from1 else from1.tdiv 2 + to1.tdiv 2) = i
      by_cases h3 : i < 0
      · rw [if_pos h3, if_pos h3]; rfl
      · rw [if_neg h3, if_neg h3]
        cases run.entries[i.toNat]? with
        | none => rfl
        | some e =>
          have key : ∀ c : Bool,
              Option.map (fun r => r.1)
                (if c = true then
                  (ArchiveIndex.findEntry_back run.entries pid i.toNat).map
                    (fun r => (r, [(⟨from1, to1, i⟩ : FindEntryProbe)]))
                else if e.pid > pid then
                  (ArchiveIndex.findEntry_traced run pid k from1 (i - 1)).map
                    (fun r => (r.1, (⟨from1, to1, i⟩ : FindEntryProbe) :: r.2))
                else
                  (ArchiveIndex.findEntry_traced run pid k (i + 1) to1).map
                    (fun r => (r.1, (⟨from1, to1, i⟩ : FindEntryProbe) :: r.2))) =
              (if c = true then ArchiveIndex.findEntry_back run.entries pid i.toNat
                else if e.pid > pid then ArchiveIndex.findEntry run pid k from1 (i - 1)
                else ArchiveIndex.findEntry run pid k (i + 1) to1) := by
            intro c
            cases c with
            | true =>
              simp only [if_true, Option.map_map]
              cases ArchiveIndex.findEntry_back run.entries pid i.toNat <;> rfl
            | false =>
              simp only [Bool.false_eq_true, if_false]
              by_cases h4 : e.pid > pid
              · rw [if_pos h4, if_pos h4, ← ih, Option.map_map]
                rfl
              · rw [if_neg h4, if_neg h4, ← ih, Option.map_map]
                rfl
          cases run.entries[i.toNat + 1]? with
          | none => exact key _
          | some e1 => exact key _

/-- One step of the traced search on a non-empty range `[f, tn)`: the probe `m`
lies in the range, then the three branches. -/
theorem ArchiveIndex.findEntry_traced_step (run : RunInfo) (pid fuel f tn : Nat)
    (h : f < tn) (htn : tn ≤ run.entries.length) :
    ∃ m : Nat, f ≤ m ∧ m < tn ∧
      ArchiveIndex.findEntry_traced run pid (fuel + 1) (f : Int) ((tn : Int) - 1) =
        if run.pidAt m ≤ pid ∧ (m + 1 = run.entries.length ∨ pid ≤ run.pidAt (m + 1)) then
          (ArchiveIndex.findEntry_back run.entries pid m).map
            (fun r => (r, [(⟨(f : Int), (tn : Int) - 1, (m : Int)⟩ : FindEntryProbe)]))
        else if run.pidAt m > pid then
          (ArchiveIndex.findEntry_traced run pid fuel (f : Int) ((m : Int) - 1)).map
            (fun r => (r.1, (⟨(f : Int), (tn : Int) - 1, (m : Int)⟩ : FindEntryProbe) :: r.2))
        else
          (ArchiveIndex.findEntry_traced run pid fuel ((m + 1 : Nat) : Int)
              ((tn : Int) - 1)).map
            (fun r => (r.1, (⟨(f : Int), (tn : Int) - 1, (m : Int)⟩ : FindEntryProbe) :: r.2)) := by
  obtain ⟨m, hm1, hm2, hm3⟩ := ArchiveIndex.findEntry_mid f tn h
  refine ⟨m, hm1, hm2, ?_⟩
  obtain ⟨e, he, hpe⟩ := RunInfo.get_of_lt run m (by omega)
  have hto : (if (tn : Int) - 1 < 0 then (run.entries.length : Int) - 1 else (tn : Int) - 1)
      = (tn : Int) - 1 := if_neg (by omega)
  have hfrom : (if (f : Int) < 0 then (0 : Int) else (f : Int)) = (f : Int) :=
    if_neg (by omega)
  rw [ArchiveIndex.findEntry_traced, if_neg (show ¬ ((f : Int) > (tn : Int) - 1) by omega)]
  simp only [hto, hfrom, hm3, Int.toNat_ofNat]
  rw [if_neg (show ¬ ((m : Int) < 0) by omega), he]
  simp only
  have hnext : (match run.entries[m + 1]? with
      | none => true
      | some e1 => decide (pid ≤ e1.pid))
        = decide (m + 1 = run.entries.length ∨ pid ≤ run.pidAt (m + 1)) := by
    by_cases hlast : m + 1 < run.entries.length
    · obtain ⟨e1, he1, hpe1⟩ := RunInfo.get_of_lt run (m + 1) hlast
      rw [he1]
      simp only [hpe1]
      have : ¬ m + 1 = run.entries.length := by omega
      simp [this]
    · have hlen : m + 1 = run.entries.length := by omega
      rw [List.getElem?_eq_none (by omega)]
      simp [hlen]
  rw [hnext, hpe]
  by_cases hc : run.pidAt m ≤ pid ∧ (m + 1 = run.entries.length ∨ pid ≤ run.pidAt (m + 1))
  · rw [if_pos hc, if_pos (by simpa using hc)]
  · rw [if_neg hc, if_neg (by simpa using hc)]
    push_cast
    rfl

/-- The traced search on the range `[f, tn)`: when the entry at `f` (for `f > 0`)
starts below `pid` and the entry at `tn` (when there is one) starts above `pid`,
the search returns, and every probe lies within the bounds of its call, which lie
within `[f, tn)`. -/
theorem ArchiveIndex.findEntry_traced_range (run : RunInfo) (pid : Nat) :
    ∀ (fuel f tn : Nat), f ≤ tn → tn ≤ run.entries.length → tn - f < fuel →
      (f = 0 ∨ (f < run.entries.length ∧ run.pidAt f < pid)) →
      (tn = run.entries.length ∨ pid < run.pidAt tn) →
      ∃ r, ArchiveIndex.findEntry_traced run pid fuel (f : Int) ((tn : Int) - 1) = some r ∧
        ∀ p ∈ r.2, (f : Int) ≤ p.from1 ∧ p.from1 ≤ p.i ∧ p.i ≤ p.to1 ∧
          p.to1 < (tn : Int) := by
  intro fuel
  induction fuel with
  | zero => intro f tn _ _ hf; omega
  | succ k ih =>
    intro f tn hft htn hfuel hA hB
    by_cases hlt : f < tn
    · obtain ⟨m, hm1, hm2, hstep⟩ :=
        ArchiveIndex.findEntry_traced_step run pid k f tn hlt htn
      rw [hstep]
      have hp0 : (f : Int) ≤ (f : Int) ∧ (f : Int) ≤ (m : Int) ∧
          (m : Int) ≤ (tn : Int) - 1 ∧ (tn : Int) - 1 < (tn : Int) :=
        ⟨le_refl _, by omega, by omega, by omega⟩
      by_cases hc : run.pidAt m ≤ pid ∧
          (m + 1 = run.entries.length ∨ pid ≤ run.pidAt (m + 1))
      · rw [if_pos hc]
        obtain ⟨r, h1, _, _⟩ := ArchiveIndex.findEntry_back_spec run pid m (by omega)
        rw [h1]
        refine ⟨_, rfl, ?_⟩
        intro p hp
        simp only [List.mem_singleton] at hp
        subst hp
        exact hp0
      · rw [if_neg hc]
        by_cases hgt : run.pidAt m > pid
        · rw [if_pos hgt]
          have hm' : ((m : Int) - 1) = ((m : Nat) : Int) - 1 := rfl
          obtain ⟨r, h1, h2⟩ := ih f m hm1 (by omega) (by omega) hA (Or.inr hgt)
          rw [h1]
          refine ⟨_, rfl, ?_⟩
          intro p hp
          simp only [Option.map_some', List.mem_cons] at hp
          rcases hp with hp | hp
          · subst hp
            exact hp0
          · obtain ⟨a, b, c, d⟩ := h2 p hp
            exact ⟨a, b, c, by omega⟩
        · rw [if_neg hgt]
          have hne : ¬ (m + 1 = run.entries.length) := fun hl => hc ⟨by omega, Or.inl hl⟩
          have hlt2 : run.pidAt (m + 1) < pid := by
            by_contra hcon
            exact hc ⟨by omega, Or.inr (by omega)⟩
          obtain ⟨r, h1, h2⟩ := ih (m + 1) tn (by omega) htn (by omega)
            (Or.inr ⟨by omega, hlt2⟩) hB
          rw [h1]
          refine ⟨_, rfl, ?_⟩
          intro p hp
          simp only [Option.map_some', List.mem_cons] at hp
          rcases hp with hp | hp
          · subst hp
            exact hp0
          · obtain ⟨a, b, c, d⟩ := h2 p hp
            exact ⟨by push_cast at a; omega, b, c, d⟩
    · have hft2 : tn = f := by omega
      subst hft2
      have hf0 : tn = 0 := by
        rcases hA with h | ⟨h1, h2⟩
        · exact h
        · rcases hB with h | h
          · omega
          · omega
      subst hf0
      refine ⟨(0, []), ?_, ?_⟩
      · rw [ArchiveIndex.findEntry_traced]
        simp
      · intro p hp
        cases hp

/-- C30: for a run with a non-empty entry list and every `pid`, the search
`findEntry(run, pid)` started with the default bounds returns (one unit of fuel
per entry and one more are enough, so neither the fatal branch nor the assertion
on the probed index is reached), and every probe `i` of the recursion satisfies
`0 <= from <= i <= to < entries.size()`.  The order of the page ids is not
needed. -/
theorem C30_findEntry_probes_within_bounds (run : RunInfo) (pid : Nat)
    (hn : 0 < run.entries.length) :
    ∃ (i : Nat) (probes : List FindEntryProbe),
      ArchiveIndex.findEntry_traced run pid (run.entries.length + 1) (-1) (-1) =
        some (i, probes) ∧
      ArchiveIndex.findEntry run pid (run.entries.length + 1) (-1) (-1) = some i ∧
      ∀ p ∈ probes, 0 ≤ p.from1 ∧ p.from1 ≤ p.i ∧ p.i ≤ p.to1 ∧
        p.to1 < (run.entries.length : Int) := by
  obtain ⟨r, h1, h2⟩ := ArchiveIndex.findEntry_traced_range run pid
    (run.entries.length + 1) 0 run.entries.length (Nat.zero_le _) (le_refl _) (by omega)
    (Or.inl rfl) (Or.inl rfl)
  have hfirst : ArchiveIndex.findEntry_traced run pid (run.entries.length + 1) (-1) (-1)
      = ArchiveIndex.findEntry_traced run pid (run.entries.length + 1) ((0 : Nat) : Int)
          ((run.entries.length : Int) - 1) := by
    rw [ArchiveIndex.findEntry_traced, ArchiveIndex.findEntry_traced]
    have e1 : ¬ ((-1 : Int) > -1) := by omega
    have e2 : ¬ (((0 : Nat) : Int) > (run.entries.length : Int) - 1) := by omega
    have e3 : ((-1 : Int) < 0) := by omega
    have e4 : ¬ ((run.entries.length : Int) - 1 < 0) := by omega
    have e5 : ¬ (((0 : Nat) : Int) < 0) := by omega
    rw [if_neg e1, if_neg e2]
    simp only [e3, e4, e5, if_true, if_false]
    rfl
  refine ⟨r.1, r.2, ?_, ?_, ?_⟩
  · rw [hfirst, h1]
  · rw [← ArchiveIndex.findEntry_traced_fst, hfirst, h1]
    rfl
  · intro p hp
    obtain ⟨a, b, c, d⟩ := h2 p hp
    exact ⟨by simpa using a, b, c, d⟩

/-- C30 on a run with entries for the page ids 10, 20 and 30 and the page id 25. -/
theorem C30_findEntry_probes_within_bounds_witness :
    ∃ (i : Nat) (probes : List FindEntryProbe),
      ArchiveIndex.findEntry_traced sampleRun 25 (sampleRun.entries.length + 1) (-1) (-1) =
        some (i, probes) ∧
      ArchiveIndex.findEntry sampleRun 25 (sampleRun.entries.length + 1) (-1) (-1) = some i ∧
      ∀ p ∈ probes, 0 ≤ p.from1 ∧ p.from1 ≤ p.i ∧ p.i ≤ p.to1 ∧
        p.to1 < (sampleRun.entries.length : Int) :=
  C30_findEntry_probes_within_bounds sampleRun 25 (by decide)

/-- With room on the page, `_ux_adopt_foster_apply_parent` succeeds and the page
holds the separator afterwards. -/
theorem btree_impl.adopt_apply_parent_mem (env : sm_env) (p : btree_page_h)
    (pid : Nat) (k : w_keystr_t) (h : env.check_space_for_insert_node p._pp k = true) :
    (⟨false, pid, k, ⟨[]⟩⟩ : btree_rec) ∈
      (btree_impl._ux_adopt_foster_apply_parent env p pid k).2._pp.recs := by
  unfold btree_impl._ux_adopt_foster_apply_parent btree_page_h.insert_node
  simp only [h, Bool.not_true, Bool.false_eq_true, if_false, w_rc_t.is_error]
  simp

/-- The fences of the two halves of a record split. -/
theorem split_halves_fences (env : sm_env) (w : sm_world) (page : btree_page_h) (s : Nat)
    (mid_key : w_keystr_t) (new_pid : lpid_t) (new_pid0 : Nat) :
    (split_left page s mid_key new_pid).copy_fence_low_key = page.copy_fence_low_key ∧
    (split_left page s mid_key new_pid).copy_fence_high_key = mid_key ∧
    (split_right env w page s mid_key new_pid new_pid0).copy_fence_low_key = mid_key ∧
    (split_right env w page s mid_key new_pid new_pid0).copy_fence_high_key =
      page.copy_fence_high_key := by
  have hL := btree_page.formatted_fences page._pp.pid page._pp.btree_root page.level
    page._pp.btree_pid0 new_pid.page page.copy_fence_low_key mid_key (split_chain_high page)
    (page._pp.recs.take s) page.latch true page.fixed page._pp.lsn
  have hR := btree_page.formatted_fences new_pid page._pp.btree_root page.level new_pid0
    page.get_foster mid_key page.copy_fence_high_key (split_new_chain_high page)
    (steal_records (some page) (if page.is_node then s + 1 else s) page.nrecs)
    latch_mode_t.LATCH_EX true true (env.log_rc w log_kind.btree_noop new_pid).2
  exact ⟨hL.1, hL.2.1, hR.1, hR.2.1⟩

/-- C25: a record split of an interior page, with the new page fixed and logged,
and a new child key `k` within the old fences of the page.  The left page has the
fences `[low, mid)`, the new page `[mid, high)`, and exactly one of them
fence-contains `k`: whenever the left page does not, the new page does, so the
assertion of the else-branch holds.  The combined adopt is applied to that page,
the other page is the plain split half, and with room on the chosen page the call
succeeds and the separator `(k, new_child_pid)` is among its records. -/
theorem C25_combined_adopt_goes_to_one_page (env : sm_env) (w : sm_world)
    (page : btree_page_h) (s : Nat) (mid_key : w_keystr_t) (new_pid : lpid_t)
    (k : w_keystr_t) (new_child_pid new_pid0 : Nat)
    (hnode : page.is_node = true) (hchild : page.child s = some new_pid0)
    (hfix : (env.fix_rc w new_pid).is_error = false)
    (hlog : (env.log_rc w log_kind.btree_noop new_pid).1.is_error = false)
    (hk : page.fence_contains k = true) :
    ((split_left page s mid_key new_pid).fence_contains k =
      !(split_right env w page s mid_key new_pid new_pid0).fence_contains k) ∧
    ∃ res F,
      btree_impl._ux_split_foster_apply env w page s mid_key new_pid (some k) new_child_pid
        = some res ∧ res.new_page = some F ∧
      (((split_left page s mid_key new_pid).fence_contains k = true ∧
          res.page = (btree_impl._ux_adopt_foster_apply_parent env
            (split_left page s mid_key new_pid) new_child_pid k).2 ∧
          res.rc = (btree_impl._ux_adopt_foster_apply_parent env
            (split_left page s mid_key new_pid) new_child_pid k).1 ∧
          F = split_right env w page s mid_key new_pid new_pid0 ∧
          (env.check_space_for_insert_node (split_left page s mid_key new_pid)._pp k = true →
            res.rc = w_rc_t.RCOK ∧
            (⟨false, new_child_pid, k, ⟨[]⟩⟩ : btree_rec) ∈ res.page._pp.recs)) ∨
       ((split_left page s mid_key new_pid).fence_contains k = false ∧
          (split_right env w page s mid_key new_pid new_pid0).fence_contains k = true ∧
          res.page = split_left page s mid_key new_pid ∧
          F = (btree_impl._ux_adopt_foster_apply_parent env
            (split_right env w page s mid_key new_pid new_pid0) new_child_pid k).2 ∧
          res.rc = (btree_impl._ux_adopt_foster_apply_parent env
            (split_right env w page s mid_key new_pid new_pid0) new_child_pid k).1 ∧
          (env.check_space_for_insert_node
              (split_right env w page s mid_key new_pid new_pid0)._pp k = true →
            res.rc = w_rc_t.RCOK ∧
            (⟨false, new_child_pid, k, ⟨[]⟩⟩ : btree_rec) ∈ F._pp.recs))) := by
  obtain ⟨f1, f2, f3, f4⟩ := split_halves_fences env w page s mid_key new_pid new_pid0
  have hspec := btree_impl.split_apply_spec env w page s mid_key new_pid (some k)
    new_child_pid new_pid0 (by rw [if_pos hnode]; exact hchild) hfix hlog
  rw [if_pos hnode] at hspec
  simp only at hspec
  have hkk : keystr_lt k.keystr page.copy_fence_low_key.keystr = false ∧
      keystr_lt k.keystr page.copy_fence_high_key.keystr = true := by
    unfold btree_page_h.fence_contains at hk
    simpa using hk
  have hLc : (split_left page s mid_key new_pid).fence_contains k =
      keystr_lt k.keystr mid_key.keystr := by
    unfold btree_page_h.fence_contains
    rw [f1, f2, hkk.1]
    rfl
  have hRc : (split_right env w page s mid_key new_pid new_pid0).fence_contains k =
      !keystr_lt k.keystr mid_key.keystr := by
    unfold btree_page_h.fence_contains
    rw [f3, f4, hkk.2]
    simp
  refine ⟨by rw [hLc, hRc]; simp, ?_⟩
  by_cases hc : (split_left page s mid_key new_pid).fence_contains k = true
  · rw [if_pos hc] at hspec
    refine ⟨_, _, hspec, rfl, Or.inl ⟨hc, rfl, rfl, rfl, fun hsp => ⟨?_, ?_⟩⟩⟩
    · exact btree_impl.adopt_apply_parent_ok env _ new_child_pid k hsp
    · exact btree_impl.adopt_apply_parent_mem env _ new_child_pid k hsp
  · rw [if_neg hc] at hspec
    have hc0 : (split_left page s mid_key new_pid).fence_contains k = false := by
      simpa using hc
    have hR1 : (split_right env w page s mid_key new_pid new_pid0).fence_contains k = true := by
      rw [hRc, ← hLc, hc0]
      rfl
    refine ⟨_, _, hspec, rfl, Or.inr ⟨hc0, hR1, rfl, rfl, rfl, fun hsp => ⟨?_, ?_⟩⟩⟩
    · exact btree_impl.adopt_apply_parent_ok env _ new_child_pid k hsp
    · exact btree_impl.adopt_apply_parent_mem env _ new_child_pid k hsp


/-- C25 on an interior page with the fences `[0]` and `[255]` split at the
separator `[90]`, with the new child key `[120]`: the left page `[0]..[90]` does
not contain it, the new page does and receives the separator. -/
theorem C25_combined_adopt_goes_to_one_page_witness :
    ∃ res F,
      btree_impl._ux_split_foster_apply (sm_env.sample true (⟨[90]⟩, 0) true true)
        sm_world.start sampleNode 0 ⟨[90]⟩ ⟨1, 1, 9⟩ (some ⟨[120]⟩) 11 = some res ∧
      res.new_page = some F ∧
      res.page = split_left sampleNode 0 ⟨[90]⟩ ⟨1, 1, 9⟩ ∧
      res.rc = w_rc_t.RCOK ∧
      (⟨false, 11, ⟨[120]⟩, ⟨[]⟩⟩ : btree_rec) ∈ F._pp.recs := by
  obtain ⟨_, res, F, h1, h2, h3⟩ := C25_combined_adopt_goes_to_one_page
    (sm_env.sample true (⟨[90]⟩, 0) true true) sm_world.start sampleNode 0 ⟨[90]⟩ ⟨1, 1, 9⟩
    ⟨[120]⟩ 11 7 (by decide) (by decide) rfl rfl (by decide)
  rcases h3 with ⟨hc, _⟩ | ⟨_, _, hp, _, _, hsp⟩
  · exact absurd hc (by decide)
  · exact ⟨res, F, h1, h2, hp, (hsp rfl).1, (hsp rfl).2⟩

/-- The inner loop of `probe` started beyond the last finished run leaves `res`
and `probes` as they are. -/
theorem ArchiveIndex.probe_runs_beyond (ix : ArchiveIndex) (level startPID endPID : Nat)
    (fuel index : Nat) (res : ProbeResult) (probes : List ProbeResult) (lf : Int)
    (hlf : ix.lastFinished[level]? = some lf) (h : lf < (index : Int)) :
    ArchiveIndex.probe_runs ix level startPID endPID (fuel + 1) index res probes =
      some (res, probes) := by
  rw [ArchiveIndex.probe_runs, hlf]
  simp only
  rw [if_neg (by omega)]

/-- C29: a level of which `probe` returns no run, because `findRun` answers an
index beyond the last finished run, hands to the next lower level the `runEnd` of
the local result that was never assigned, not the `startLSN` it was called with:
the lower levels are probed as if `probe` had been called with that value. -/
theorem C29_probe_level_without_run_resets_startLSN (ix : ArchiveIndex)
    (fresh : ProbeResult) (startPID endPID level index : Nat) (startLSN : lsn_t)
    (probes : List ProbeResult) (lf : Int)
    (hfind : ix.findRun startLSN (level + 1) = some index)
    (hlf : ix.lastFinished[level + 1]? = some lf) (h : lf < (index : Int)) :
    ArchiveIndex.probe_levels ix fresh startPID endPID (level + 1) startLSN probes =
      ArchiveIndex.probe_levels ix fresh startPID endPID level fresh.runEnd probes := by
  rw [ArchiveIndex.probe_levels, hfind]
  simp only
  rw [ArchiveIndex.probe_runs_beyond ix (level + 1) startPID endPID _ index _ probes lf hlf h]

/-- C29 on an index with the run `1.0 - 1.100` on level 2 and the runs
`1.0 - 1.100` and `1.100 - 1.200` on level 1, probed from the LSN `1.150`: level 2
returns no run, and level 1 returns both of its runs, the one that ends at `1.100`
included, where `findRun(1.150, 1)` is `1`. -/
theorem C29_probe_level_without_run_resets_startLSN_witness :
    sampleIndex2.findRun ⟨1, 150⟩ 1 = some 1 ∧
    sampleIndex2.probe ProbeResult.fresh 0 50 ⟨1, 150⟩ =
      some [⟨0, 50, ⟨1, 0⟩, ⟨1, 100⟩, 1, 0, 0⟩, ⟨0, 50, ⟨1, 100⟩, ⟨1, 200⟩, 1, 0, 1⟩] :=
  ⟨by decide,
   (C29_probe_level_without_run_resets_startLSN sampleIndex2 ProbeResult.fresh 0 50 1 1
      ⟨1, 150⟩ [] 0 (by decide) (by decide) (by decide)).trans (by decide)⟩

/-- The inner loop of `serializeRunInfo` copies `m` entries into the slots from
`j` on, where `m` is what is left of the block or of the run, whichever is less. -/
theorem ArchiveIndex.serializeRunInfo_fill_spec (entries : List BlockEntry) (E : Nat) :
    ∀ (remaining j currEntry : Nat) (slots : Nat → BlockEntry),
      j ≤ E → currEntry + remaining ≤ entries.length →
      ∃ (m : Nat) (slots1 : Nat → BlockEntry),
        ArchiveIndex.serializeRunInfo_fill entries (E : Int) remaining j currEntry slots =
          some (remaining - m, j + m, currEntry + m, slots1) ∧
        m ≤ remaining ∧ j + m ≤ E ∧ (m = remaining ∨ j + m = E) ∧
        (∀ t, t < j → slots1 t = slots t) ∧
        (∀ t, t < m → entries[currEntry + t]? = some (slots1 (j + t))) := by
  intro remaining
  induction remaining with
  | zero =>
    intro j currEntry slots hj _
    exact ⟨0, slots, rfl, le_refl _, hj, Or.inl rfl, fun _ _ => rfl, fun t ht => by omega⟩
  | succ r ih =>
    intro j currEntry slots hj hlen
    unfold ArchiveIndex.serializeRunInfo_fill
    by_cases hlt : j < E
    · rw [if_pos (by exact_mod_cast hlt)]
      have hcur : currEntry < entries.length := by omega
      rw [List.getElem?_eq_getElem hcur]
      simp only
      obtain ⟨m, slots1, h1, h2, h3, h4, h5, h6⟩ := ih (j + 1) (currEntry + 1)
        (fun t => if t = j then entries[currEntry] else slots t) (by omega) (by omega)
      refine ⟨m + 1, slots1, ?_, by omega, by omega, by omega, ?_, ?_⟩
      · rw [h1]
        have e1 : r - m = r + 1 - (m + 1) := by omega
        have e2 : j + 1 + m = j + (m + 1) := by omega
        have e3 : currEntry + 1 + m = currEntry + (m + 1) := by omega
        rw [e1, e2, e3]
      · intro t ht
        rw [h5 t (by omega)]
        exact if_neg (by omega)
      · intro t ht
        rcases Nat.eq_zero_or_pos t with h0 | hpos
        · subst h0
          rw [Nat.add_zero, Nat.add_zero, h5 j (by omega)]
          rw [if_pos rfl]
          exact List.getElem?_eq_getElem hcur
        · have := h6 (t - 1) (by omega)
          have e1 : currEntry + 1 + (t - 1) = currEntry + t := by omega
          have e2 : j + 1 + (t - 1) = j + t := by omega
          rw [e1, e2] at this
          exact this
    · rw [if_neg (by exact_mod_cast hlt)]
      refine ⟨0, slots, rfl, Nat.zero_le _, hj, Or.inr (by omega), fun _ _ => rfl,
        fun t ht => by omega⟩

/-- What `loadRunInfo` reads from a block of which the first `m` slots hold the
entries of the run from `currEntry` on. -/
theorem IndexBlock.read_eq (entries : List BlockEntry) (b : IndexBlock) (currEntry : Nat)
    (h : ∀ t, t < b.entries → entries[currEntry + t]? = some (b.slots t)) :
    b.read = (entries.drop currEntry).take b.entries := by
  apply List.ext_getElem?
  intro t
  unfold IndexBlock.read
  by_cases ht : t < b.entries
  · rw [List.getElem?_take_of_lt ht, List.getElem?_drop, h t ht, List.getElem?_map,
      List.getElem?_range ht]
    rfl
  · rw [List.getElem?_eq_none (by simp; omega), List.getElem?_eq_none]
    simp only [List.length_take, List.length_drop]
    omega


theorem ceil_div_step (E r m : Nat) (hE : 1 ≤ E) (hm : 1 ≤ m) (hmr : m ≤ r)
    (hc : m = r ∨ m = E) (hmE : m ≤ E) :
    (r - m + E - 1) / E + 1 = (r + E - 1) / E := by
  rcases hc with h | h
  · subst h
    have e1 : m - m + E - 1 = E - 1 := by omega
    have e2 : m + E - 1 = (m - 1) + E := by omega
    rw [e1, e2, Nat.add_div_right _ (by omega), Nat.div_eq_of_lt (by omega),
      Nat.div_eq_of_lt (by omega)]
  · subst h
    have e2 : r + m - 1 = (r - m + m - 1) + m := by omega
    rw [e2, Nat.add_div_right _ (by omega)]

/-- The outer loop of `serializeRunInfo`, with at least one entry per block: it
returns; the blocks `bs` it writes lie one behind the other from `offset` on, are
numbered from `i` on, hold between one and `entriesPerBlock` entries each, and
read one after the other they give the entries from `currEntry` on. -/
theorem ArchiveIndex.serializeRunInfo_blocks_spec (entries : List BlockEntry)
    (E blockSize : Nat) (hE : 1 ≤ E) (hbs : 0 < blockSize) :
    ∀ (fuel remaining i currEntry : Nat) (buf : IndexBlock) (f : RunFile) (offset : Nat),
      currEntry + remaining = entries.length → remaining < fuel → f.size ≤ offset →
      ∃ (f1 : RunFile) (bs : List IndexBlock),
        ArchiveIndex.serializeRunInfo_blocks entries (E : Int) blockSize fuel remaining i
          currEntry buf f offset = some f1 ∧
        bs.length = (remaining + E - 1) / E ∧
        f1.size = (if remaining = 0 then f.size else offset + bs.length * blockSize) ∧
        (∀ t b, bs[t]? = some b →
          f1.block (offset + t * blockSize) = some b ∧ b.blockNumber = i + t ∧
          1 ≤ b.entries ∧ b.entries ≤ E) ∧
        (∀ o, o < offset → f1.block o = f.block o) ∧
        bs.flatMap IndexBlock.read = entries.drop currEntry := by
  intro fuel
  induction fuel with
  | zero => intro remaining _ _ _ _ _ _ h; omega
  | succ k ih =>
    intro remaining i currEntry buf f offset hsum hfuel hsize
    unfold ArchiveIndex.serializeRunInfo_blocks
    by_cases hrem : remaining > 0
    · rw [if_pos hrem]
      obtain ⟨m, slots1, h1, h2, h3, h4, _, h6⟩ :=
        ArchiveIndex.serializeRunInfo_fill_spec entries E remaining 0 currEntry buf.slots
          (Nat.zero_le _) (by omega)
      rw [h1]
      simp only [Nat.zero_add] at h3 h4 h6 ⊢
      have hm1 : 1 ≤ m := by omega
      obtain ⟨f1, bs, g1, g2, g3, g4, g5, g6⟩ := ih (remaining - m) (i + 1) (currEntry + m)
        ⟨m, i, slots1⟩ (f.pwrite ⟨m, i, slots1⟩ blockSize offset) (offset + blockSize)
        (by omega) (by omega)
        (by simp only [RunFile.pwrite]; exact Nat.max_le.mpr ⟨by omega, le_refl _⟩)
      refine ⟨f1, ⟨m, i, slots1⟩ :: bs, g1, ?_, ?_, ?_, ?_, ?_⟩
      · rw [List.length_cons, g2]
        exact ceil_div_step E remaining m hE hm1 h2 (by omega) h3
      · rw [if_neg (by omega), g3, List.length_cons, Nat.succ_mul]
        by_cases hz : remaining - m = 0
        · rw [if_pos hz]
          have hl : bs.length = 0 := by
            rw [g2, hz]
            exact Nat.div_eq_of_lt (by omega)
          rw [hl]
          simp only [RunFile.pwrite, Nat.zero_mul, Nat.zero_add]
          exact Nat.max_eq_right (by omega)
        · rw [if_neg hz]
          omega
      · intro t b hb
        cases t with
        | zero =>
          simp only [List.getElem?_cons_zero, Option.some.injEq] at hb
          subst hb
          refine ⟨?_, rfl, hm1, h3⟩
          rw [Nat.zero_mul, Nat.add_zero, g5 offset (by omega)]
          simp only [RunFile.pwrite, if_true]
        | succ t =>
          simp only [List.getElem?_cons_succ] at hb
          obtain ⟨a1, a2, a3, a4⟩ := g4 t b hb
          refine ⟨?_, by omega, a3, a4⟩
          rw [← a1, Nat.succ_mul]
          congr 1
          omega
      · intro o ho
        rw [g5 o (by omega)]
        simp only [RunFile.pwrite]
        rw [if_neg (by omega)]
      · rw [List.flatMap_cons, g6,
          IndexBlock.read_eq entries ⟨m, i, slots1⟩ currEntry (fun t ht => h6 t ht)]
        simp only
        rw [← List.drop_drop, List.take_append_drop]
    · rw [if_neg hrem]
      have hz : remaining = 0 := by omega
      subst hz
      refine ⟨f, [], rfl, ?_, by simp, ?_, fun _ _ => rfl, ?_⟩
      · rw [List.length_nil]
        exact (Nat.div_eq_of_lt (by omega)).symm
      · intro t b hb
        simp at hb
      · rw [List.flatMap_nil]
        have : currEntry = entries.length := by omega
        rw [this, List.drop_length]


/-- The read loop of `loadRunInfo` over blocks that lie one behind the other. -/
theorem ArchiveIndex.loadRunInfo_blocks_spec (blockSize : Nat) (f : RunFile) :
    ∀ (bs : List IndexBlock) (offset : Nat) (acc : List BlockEntry),
      (∀ t b, bs[t]? = some b → f.block (offset + t * blockSize) = some b) →
      offset + bs.length * blockSize ≤ f.size →
      ArchiveIndex.loadRunInfo_blocks blockSize f bs.length offset acc =
        some (acc ++ bs.flatMap IndexBlock.read) := by
  intro bs
  induction bs with
  | nil => intro offset acc _ _; simp [ArchiveIndex.loadRunInfo_blocks]
  | cons b bs ih =>
    intro offset acc hb hsize
    rw [List.length_cons, Nat.succ_mul] at hsize
    have h0 := hb 0 b (List.getElem?_cons_zero)
    rw [Nat.zero_mul, Nat.add_zero] at h0
    rw [List.length_cons, ArchiveIndex.loadRunInfo_blocks]
    have hp : f.pread blockSize offset = some b := by
      unfold RunFile.pread
      rw [if_pos (by omega), h0]
    rw [hp]
    simp only
    rw [ih (offset + blockSize) (acc ++ b.read) ?_ (by omega), List.flatMap_cons,
      List.append_assoc]
    intro t b1 hb1
    have := hb (t + 1) b1 (by simpa using hb1)
    rw [Nat.succ_mul] at this
    rw [← this]
    congr 1
    omega

theorem vector_resize_length {T : Type} (v : List T) (n : Nat) (d : T) :
    (vector_resize v n d).length = n := by
  unfold vector_resize
  rw [List.length_take, List.length_append, List.length_replicate]
  omega

theorem to_int_of_le (n : Nat) (h : n ≤ 2147483647) : to_int (n : Int) = (n : Int) := by
  unfold to_int
  omega


theorem size_t_sub_back (q k : Nat) (hk : 1 ≤ k) (hq : q < 18446744073709551616) :
    ((((q + k : Nat) : Int) - (((k - 1 : Nat) : Int) + 1)) % 18446744073709551616).toNat
      = q := by
  omega

theorem ArchiveIndex.serializeRunInfo_eq (blockSize sizeof_BlockHeader sizeof_PageID
    sizeof_BlockEntry : Nat) (writeBuffer : IndexBlock) (run : RunInfo) (f : RunFile)
    (offset fuel : Nat) :
    ArchiveIndex.serializeRunInfo blockSize sizeof_BlockHeader sizeof_PageID
        sizeof_BlockEntry writeBuffer run f offset fuel =
      ArchiveIndex.serializeRunInfo_blocks run.entries
        (ArchiveIndex.entriesPerBlock blockSize sizeof_BlockHeader sizeof_PageID
          sizeof_BlockEntry) blockSize fuel
        (to_int (run.entries.length : Int)).toNat 0 0 writeBuffer f offset := rfl

/-- C21: a run with `n >= 1` index entries (`n` within `int`) is serialised at a
block-aligned `offset` behind the data of its file, with a block size of at least
`IO_ALIGN` that leaves room for `E >= 1` entries per block.  `serializeRunInfo`
returns.  It writes `(n + E - 1) / E` blocks one behind the other from `offset`
on, numbered 0, 1, ... in file order, each holding between 1 and `E` entries, and
read one after the other they hold the `n` entries in order.  `getBlockCounts`
finds that number of index blocks and `offset / blockSize` data blocks from the
last block, and `loadRunInfo` appends to the level of the file a run with the
same entry list. -/
theorem C21_index_blocks_roundtrip (ix : ArchiveIndex)
    (sizeof_BlockHeader sizeof_PageID sizeof_BlockEntry : Nat) (writeBuffer : IndexBlock)
    (run : RunInfo) (f : RunFile) (offset : Nat) (fstats : RunFileStats) (lastPID E : Nat)
    (hE : ArchiveIndex.entriesPerBlock ix.blockSize sizeof_BlockHeader sizeof_PageID
      sizeof_BlockEntry = (E : Int))
    (hE1 : 1 ≤ E) (hn : 1 ≤ run.entries.length) (hmax : run.entries.length ≤ 2147483647)
    (hal : IO_ALIGN ≤ ix.blockSize) (hoff : offset % ix.blockSize = 0)
    (hsize : f.size ≤ offset)
    (hfit : offset + ((run.entries.length + E - 1) / E) * ix.blockSize
      < 18446744073709551616)
    (hlevel : fstats.level > ix.maxLevel ∨
      (fstats.level < ix.runs.length ∧ fstats.level < ix.lastFinished.length)) :
    ∃ (f1 : RunFile) (bs : List IndexBlock),
      ArchiveIndex.serializeRunInfo ix.blockSize sizeof_BlockHeader sizeof_PageID
        sizeof_BlockEntry writeBuffer run f offset (run.entries.length + 1) = some f1 ∧
      bs.length = (run.entries.length + E - 1) / E ∧
      f1.size = offset + bs.length * ix.blockSize ∧
      (∀ t b, bs[t]? = some b →
        f1.block (offset + t * ix.blockSize) = some b ∧ b.blockNumber = t ∧
        1 ≤ b.entries ∧ b.entries ≤ E) ∧
      bs.flatMap IndexBlock.read = run.entries ∧
      ArchiveIndex.getBlockCounts ix.blockSize f1 =
        some (bs.length, offset / ix.blockSize) ∧
      ∃ (ix1 : ArchiveIndex) (rs : List RunInfo),
        ix.loadRunInfo f1 fstats lastPID = some ix1 ∧
        ix1.runs[fstats.level]? =
          some (rs ++ [⟨fstats.beginLSN, fstats.endLSN, lastPID, run.entries⟩]) := by
  have hbs : 0 < ix.blockSize := by unfold IO_ALIGN at hal; omega
  have hrem : (to_int (run.entries.length : Int)).toNat = run.entries.length := by
    rw [to_int_of_le _ hmax, Int.toNat_ofNat]
  obtain ⟨f1, bs, g1, g2, g3, g4, _, g6⟩ :=
    ArchiveIndex.serializeRunInfo_blocks_spec run.entries E ix.blockSize hE1 hbs
      (run.entries.length + 1) run.entries.length 0 0 writeBuffer f offset
      (by omega) (by omega) hsize
  rw [if_neg (by omega)] at g3
  rw [List.drop_zero] at g6
  have hk : 1 ≤ bs.length := by
    rw [g2]
    have e2 : run.entries.length + E - 1 = (run.entries.length - 1) + E := by omega
    rw [e2, Nat.add_div_right _ (by omega)]
    exact Nat.le_add_left 1 _
  have hblocks : ∀ t b, bs[t]? = some b →
      f1.block (offset + t * ix.blockSize) = some b ∧ b.blockNumber = t ∧
      1 ≤ b.entries ∧ b.entries ≤ E := by
    intro t b hb
    obtain ⟨a1, a2, a3, a4⟩ := g4 t b hb
    exact ⟨a1, by omega, a3, a4⟩
  have hcounts : ArchiveIndex.getBlockCounts ix.blockSize f1 =
      some (bs.length, offset / ix.blockSize) := by
    obtain ⟨last, hlast⟩ : ∃ b, bs[bs.length - 1]? = some b :=
      ⟨_, List.getElem?_eq_getElem (by omega)⟩
    obtain ⟨a1, a2, _, _⟩ := hblocks _ _ hlast
    have hmul : bs.length * ix.blockSize =
        (bs.length - 1) * ix.blockSize + ix.blockSize := by
      have : bs.length = (bs.length - 1) + 1 := by omega
      rw [this, Nat.succ_mul]
      simp
    have hfs : f1.size ≠ 0 := by rw [g3, hmul]; omega
    have hfit2 : f1.size < 18446744073709551616 := by rw [g3, g2]; exact hfit
    have hoffs : ((((f1.size : Nat) : Int) - (ix.blockSize : Int))
        % 18446744073709551616).toNat = offset + (bs.length - 1) * ix.blockSize := by
      rw [g3, hmul] at hfit2 ⊢
      omega
    have hdiv : f1.size / ix.blockSize = offset / ix.blockSize + bs.length := by
      rw [g3, Nat.add_mul_div_right _ _ hbs]
    have hpread : f1.pread IO_ALIGN (offset + (bs.length - 1) * ix.blockSize) = some last := by
      unfold RunFile.pread
      rw [if_pos (by rw [g3, hmul]; omega), a1]
    unfold ArchiveIndex.getBlockCounts
    simp only
    rw [if_neg hfs, if_neg (by omega), hoffs, hpread]
    simp only [a2, hdiv]
    have hdlt : offset / ix.blockSize < 18446744073709551616 := by
      have := Nat.div_le_self offset ix.blockSize
      omega
    have e1 : bs.length - 1 + 1 = bs.length := by omega
    have e2 : ((((offset / ix.blockSize + bs.length : Nat) : Int) -
        (((bs.length - 1 : Nat) : Int) + 1)) % 18446744073709551616).toNat =
        offset / ix.blockSize := size_t_sub_back _ _ hk hdlt
    rw [e1, e2]
  have hload : ArchiveIndex.loadRunInfo_blocks ix.blockSize f1 bs.length
      (offset / ix.blockSize * ix.blockSize) [] = some run.entries := by
    rw [Nat.div_mul_cancel (Nat.dvd_of_mod_eq_zero hoff),
      ArchiveIndex.loadRunInfo_blocks_spec ix.blockSize f1 bs offset []
        (fun t b hb => (hblocks t b hb).1) (by omega), List.nil_append, g6]
  refine ⟨f1, bs, ?_, g2, g3, hblocks, g6, hcounts, ?_⟩
  · rw [ArchiveIndex.serializeRunInfo_eq, hE, hrem]
    exact g1
  · unfold ArchiveIndex.loadRunInfo
    rw [hcounts]
    simp only [hload]
    by_cases hl : fstats.level > ix.maxLevel
    · simp only [if_pos hl]
      have h1 : fstats.level < (vector_resize ix.runs (fstats.level + 1) []).length := by
        rw [vector_resize_length]; omega
      have h2 : fstats.level <
          (vector_resize ix.lastFinished (fstats.level + 1) (0 : Int)).length := by
        rw [vector_resize_length]; omega
      rw [List.getElem?_eq_getElem h1]
      simp only [if_pos h2]
      refine ⟨_, (vector_resize ix.runs (fstats.level + 1) [])[fstats.level], rfl, ?_⟩
      simp only [List.getElem?_set_self h1]
    · rcases hlevel with h | ⟨h1, h2⟩
      · exact absurd h hl
      · simp only [if_neg hl]
        rw [List.getElem?_eq_getElem h1]
        simp only [if_pos h2]
        refine ⟨_, ix.runs[fstats.level], rfl, ?_⟩
        simp only [List.getElem?_set_self h1]


/-- C21 on a run of 70 entries, blocks of 1024 bytes with room for 63 entries
(header 8 bytes, page id 4 bytes, entry 16 bytes) and a file with 2000 bytes of
data: two index blocks are written at the offsets 2048 and 3072. -/
theorem C21_index_blocks_roundtrip_witness :
    ∃ f1 : RunFile,
      ArchiveIndex.serializeRunInfo 1024 8 4 16 ⟨0, 0, fun _ => ⟨0, 0⟩⟩ sampleLongRun
        ⟨2000, fun _ => none⟩ 2048 (sampleLongRun.entries.length + 1) = some f1 ∧
      f1.size = 4096 ∧
      ArchiveIndex.getBlockCounts 1024 f1 = some (2, 2) ∧
      ∃ (ix1 : ArchiveIndex) (rs : List RunInfo),
        (ArchiveIndex.init 1024 4).loadRunInfo f1 ⟨⟨1, 0⟩, ⟨1, 100⟩, 1⟩ 0 = some ix1 ∧
        ix1.runs[1]? = some (rs ++ [⟨⟨1, 0⟩, ⟨1, 100⟩, 0, sampleLongRun.entries⟩]) := by
  obtain ⟨f1, bs, h1, h2, h3, _, _, h6, h7⟩ := C21_index_blocks_roundtrip
    (ArchiveIndex.init 1024 4) 8 4 16 ⟨0, 0, fun _ => ⟨0, 0⟩⟩ sampleLongRun
    ⟨2000, fun _ => none⟩ 2048 ⟨⟨1, 0⟩, ⟨1, 100⟩, 1⟩ 0 63 (by decide) (by decide) (by decide)
    (by decide) (by decide) (by decide) (by decide) (by decide) (Or.inl (by decide))
  have hlen : bs.length = 2 := h2.trans (by decide)
  rw [hlen] at h3 h6
  exact ⟨f1, h1, h3, h6, h7⟩

/-- A block of the current run handed to a writer whose level has no descriptor in
the directory: `append` indexes `appendFd` out of bounds. -/
theorem WriterThread.write_unopened_level (hdr : Nat) (w : WriterThread)
    (d : ArchiveDirectory) (src : Block) (hrun : src.header.run = w.currentRun)
    (hfd : d.appendFd.length ≤ w.level) :
    WriterThread.write hdr w d src = none := by
  unfold WriterThread.write
  simp only
  rw [if_neg (by rw [hrun]; exact fun h => h rfl)]
  have hnone : ∀ (n : Nat) (lv : Nat), d.appendFd.length ≤ lv → d.append n lv = none := by
    intro n lv hlv
    unfold ArchiveDirectory.append
    rw [List.getElem?_eq_none hlv]
  split_ifs
  · rw [hnone _ _ hfd]
  · rw [hnone _ _ hfd]

/-- C24: `runSync(1, 2)` on a directory as the constructor leaves it, with the two
level-1 runs `1.0 - 1.40` and `1.40 - 1.80` and no run of level 2.  The
constructor opened `current_run` for level 1 only, so `appendFd` has the two
entries of the levels 0 and 1.  The merge produces a block of run 0; the writer
thread of level 2, whose `currentRun` is 0, calls `directory->append(src, n, 2)`
at once, which indexes `appendFd[2]`: the call has no defined result and no run
file of level 2 is produced. -/
theorem C24_runSync_writes_to_unopened_level :
    sampleMergeDir.appendFd = [-1, 3] ∧
    MergerDaemon.runSync 8 sampleMergeStats sampleMergeRecords sampleMergeDir 0 0 0 1 2
      = none ∧
    sampleMergeDir.append 80 2 = none := by
  decide

/-- What `runSync(1, 2)` would name its output on a directory that had a
descriptor for level 2: on the runs `1.0 - 1.40` and `1.40 - 1.80` the file
`archive_2_1.0-1.80`; on runs `3.0 - 3.100` and `3.100 - 3.200` whose last record
ends at `3.140` the file `archive_2_1.0-3.140`, since the begin is
`getFirstLSN(1)`, the constant `1.0`, and the end is the end of the last record
written. -/
theorem MergerDaemon.runSync_opened_level_example :
    ((MergerDaemon.runSync 8 sampleMergeStats sampleMergeRecords
        { sampleMergeDir with appendFd := [-1, 3, 4], appendPos := [0, 0, 0] }
        0 0 0 1 2).map (fun d => d.renamed)) = some [⟨⟨1, 0⟩, ⟨1, 80⟩, 2⟩] ∧
    ((MergerDaemon.runSync 8 sampleLateStats sampleLateRecords
        { sampleMergeDir with appendFd := [-1, 3, 4], appendPos := [0, 0, 0] }
        0 0 0 1 2).map (fun d => d.renamed)) = some [⟨⟨1, 0⟩, ⟨3, 140⟩, 2⟩] := by
  decide

theorem BlockAssembly.start_frame (b : BlockAssembly) (run : Int) (r : Bool × BlockAssembly)
    (h : b.start run = some r) :
    r.2.blockSize = b.blockSize ∧ (r.1 = true → r.2.pos = sizeof_BlockHeader) := by
  unfold BlockAssembly.start at h
  by_cases hf : b.writebuf.finished = true
  · rw [if_pos hf] at h
    cases h
    exact ⟨rfl, fun h => by cases h⟩
  · rw [if_neg hf] at h
    simp only at h
    by_cases hr : run ≠ b.lastRun
    · rw [if_pos hr] at h
      cases ha : b.archIndex.appendNewEntry b.level with
      | none => rw [ha] at h; cases h
      | some ix =>
        rw [ha] at h
        cases h
        exact ⟨rfl, fun _ => rfl⟩
    · rw [if_neg hr] at h
      cases h
      exact ⟨rfl, fun _ => rfl⟩

theorem BlockAssembly.add_frame (hdr : Nat) (b : BlockAssembly) (lr : logrec_t)
    (r : Bool × BlockAssembly) (h : BlockAssembly.add hdr b lr = some r) :
    r.2.blockSize = b.blockSize := by
  unfold BlockAssembly.add at h
  cases hd : b.dest with
  | none => rw [hd] at h; cases h
  | some recs =>
    rw [hd] at h
    simp only at h
    split_ifs at h <;> (cases h; rfl)

/-- A record that fits in what is left of the block is taken. -/
theorem BlockAssembly.add_fits (hdr : Nat) (b : BlockAssembly) (lr : logrec_t)
    (recs : List logrec_t) (hd : b.dest = some recs) (hb : b.bucketSize ≠ 0)
    (hfit : lr.length ≤ (b.blockSize + 2 ^ 64 - (b.pos + hdr)) % 2 ^ 64) :
    ∃ b1, BlockAssembly.add hdr b lr = some (true, b1) := by
  unfold BlockAssembly.add
  rw [hd]
  simp only
  rw [if_neg (by omega)]
  split_ifs <;> exact ⟨_, rfl⟩

theorem BlockAssembly.finish_frame (b b1 : BlockAssembly) (h : b.finish = some b1) :
    b1.blockSize = b.blockSize := by
  unfold BlockAssembly.finish at h
  cases hd : b.dest with
  | none => rw [hd] at h; cases h
  | some recs =>
    rw [hd] at h
    simp only at h
    cases hn : b.archIndex.newBlock b.buckets b.level with
    | none => rw [hn] at h; cases h
    | some ix =>
      rw [hn] at h
      cases h
      rfl


theorem ArchiverHeap.pop_frame {W : Type} (mm : mem_mgmt_t W) (h h1 : ArchiverHeap W)
    (hp : h.pop mm = some h1) :
    h1.memory = h.memory ∧ h1.w_heap.elems = h.w_heap.elems.tail := by
  unfold ArchiverHeap.pop at hp
  cases hf : h.w_heap.First with
  | none => rw [hf] at hp; cases hp
  | some e =>
    rw [hf] at hp
    simp only at hp
    split_ifs at hp <;> (cases hp; exact ⟨rfl, rfl⟩)

/-- What the loop of `selection` leaves as it is, whenever it returns. -/
theorem LogArchiver.selectionLoop_frame {W : Type} (mm : mem_mgmt_t W) (hdr : Nat)
    (run : Int) :
    ∀ (fuel : Nat) (heap heap1 : ArchiverHeap W) (b b1 : BlockAssembly),
      LogArchiver.selectionLoop mm hdr run fuel heap b = some (heap1, b1) →
      heap1.memory = heap.memory ∧ b1.blockSize = b.blockSize ∧
      b1.bucketSize = b.bucketSize ∧ b1.writebuf = b.writebuf ∧ b1.lastRun = b.lastRun ∧
      heap1.size ≤ heap.size := by
  intro fuel
  induction fuel with
  | zero => intro heap heap1 b b1 h; cases h
  | succ n ih =>
    intro heap heap1 b b1 h
    unfold LogArchiver.selectionLoop at h
    by_cases hstop : heap.size = 0 ∨ heap.topRun ≠ some run
    · rw [if_pos hstop] at h
      cases h
      exact ⟨rfl, rfl, rfl, rfl, rfl, le_refl _⟩
    · rw [if_neg hstop] at h
      cases htop : heap.top with
      | none => rw [htop] at h; cases h
      | some lr =>
        rw [htop] at h
        simp only at h
        cases hadd : BlockAssembly.add hdr b lr with
        | none => rw [hadd] at h; cases h
        | some r =>
          rw [hadd] at h
          obtain ⟨flag, b2⟩ := r
          have hbs := BlockAssembly.add_frame hdr b lr _ hadd
          cases flag with
          | false =>
            simp only at h
            cases h
            rcases BlockAssembly.add_spec hdr b lr _ hadd with ⟨_, h2⟩ | ⟨h1, _⟩
            · simp only at h2
              subst h2
              exact ⟨rfl, rfl, rfl, rfl, rfl, le_refl _⟩
            · cases h1
          | true =>
            simp only at h
            cases hpop : heap.pop mm with
            | none => rw [hpop] at h; cases h
            | some heap2 =>
              rw [hpop] at h
              simp only at h
              obtain ⟨g1, g2, g3, g4, g5, g6⟩ := ih heap2 heap1 b2 b1 h
              obtain ⟨p1, p2⟩ := ArchiverHeap.pop_frame mm heap heap2 hpop
              rcases BlockAssembly.add_spec hdr b lr _ hadd with ⟨h1, _⟩ |
                ⟨_, _, _, _, _, _, _, _, a1, a2, _, _, a5⟩
              · cases h1
              · simp only at a1 a2 a5 hbs
                refine ⟨g1.trans p1, g2.trans hbs, g3.trans a1, g4.trans a2, g5.trans a5, ?_⟩
                have : heap2.size ≤ heap.size := by
                  simp only [ArchiverHeap.size, Heap.NumElements, p2, List.length_tail]
                  omega
                omega


theorem ArchiveIndex.lastEntries_runs (ix : ArchiveIndex) (level : Nat)
    (es : List BlockEntry) (h : ix.lastEntries level = some es) :
    (ix.runs[level]?).isSome = true := by
  unfold ArchiveIndex.lastEntries at h
  cases hr : ix.runs[level]? with
  | none => rw [hr] at h; cases h
  | some rs => rfl

/-- One call of `selection` on a heap that is not empty, with a write buffer that
is not finished and records that fit in an empty block: it returns true, pops at
least one entry, and leaves the heap and the block assembly ready for the next
call. -/
theorem LogArchiver.selection_progress {W : Type} (mm : mem_mgmt_t W) (hdr : Nat)
    (heap : ArchiverHeap W) (blk : BlockAssembly)
    (hready : LogArchiver.selectionReady heap blk) (hne : heap.size ≠ 0)
    (hfin : blk.writebuf.finished = false) (hfit : LogArchiver.heapFits hdr heap blk) :
    ∃ heap1 blk1,
      LogArchiver.selection mm hdr heap blk = some (true, heap1, blk1) ∧
      heap1.size < heap.size ∧ LogArchiver.selectionReady heap1 blk1 ∧
      blk1.writebuf.finished = false ∧ LogArchiver.heapFits hdr heap1 blk1 := by
  obtain ⟨hload0, hbs, hidx0, hcont0⟩ := hready
  have hload : ∀ e ∈ heap.w_heap.elems, ∃ lr, heap.load e.slot.address = some lr :=
    fun e he => Option.isSome_iff_exists.1 (hload0 e he)
  have hidx : blk.archIndex.maxLevel < blk.level ∨
      ∃ rs, blk.archIndex.runs[blk.level]? = some rs := by
    rcases hidx0 with h | h
    · exact Or.inl h
    · exact Or.inr (Option.isSome_iff_exists.1 h)
  have hcont : heap.topRun = some blk.lastRun →
      ∃ es, blk.archIndex.lastEntries blk.level = some es :=
    fun h => Option.isSome_iff_exists.1 (hcont0 h)
  unfold LogArchiver.selection
  rw [if_neg hne]
  cases hel : heap.w_heap.elems with
  | nil =>
    exfalso
    apply hne
    simp [ArchiverHeap.size, Heap.NumElements, hel]
  | cons e rest =>
    have hrun : heap.topRun = some e.run := by
      simp [ArchiverHeap.topRun, Heap.First, hel]
    have hsize : heap.size = rest.length + 1 := by
      simp [ArchiverHeap.size, Heap.NumElements, hel]
    rw [hrun]
    simp only
    obtain ⟨r, hr⟩ := BlockAssembly.start_isSome blk e.run hidx
    obtain ⟨hs1, _, _, hs4, hs5, hs6⟩ := BlockAssembly.start_spec blk e.run r hr
    obtain ⟨hf1, hf2⟩ := BlockAssembly.start_frame blk e.run r hr
    have hr1 : r.1 = true := BlockAssembly.start_ok blk e.run r hr hfin
    rw [hr]
    obtain ⟨flag, b1⟩ := r
    simp only at hr1
    subst hr1
    simp only
    obtain ⟨hd1, _, hlr, hnew, hsame⟩ := hs6 rfl
    simp only at hd1 hlr hnew hsame hs4 hs5 hs1 hf1 hf2
    have hes : ∃ es, b1.archIndex.lastEntries b1.level = some es := by
      by_cases hq : e.run = blk.lastRun
      · obtain ⟨_, _, hai⟩ := hsame hq
        rw [hai, hs5]
        exact hcont (by rw [hrun, hq])
      · obtain ⟨_, _, hai⟩ := hnew hq
        rw [hs5]
        exact ⟨[], ArchiveIndex.appendNewEntry_lastEntries _ _ _ hai⟩
    obtain ⟨es, hes⟩ := hes
    -- the first pass of the loop takes the top record
    obtain ⟨lr, hlr0⟩ := hload e (by rw [hel]; exact List.mem_cons_self _ _)
    have htop : heap.top = some lr := by
      simp [ArchiverHeap.top, Heap.First, hel, hlr0]
    have hfit1 : lr.length ≤ (b1.blockSize + 2 ^ 64 - (b1.pos + hdr)) % 2 ^ 64 := by
      rw [hf1, hf2 trivial]
      have := hfit e (by rw [hel]; exact List.mem_cons_self _ _)
      rw [hlr0] at this
      exact this
    have hb1 : b1.bucketSize ≠ 0 := by rw [hs4]; exact hbs
    obtain ⟨b1a, hadd⟩ := BlockAssembly.add_fits hdr b1 lr [] hd1 hb1 hfit1
    obtain ⟨heapa, hpop, hela, hmema⟩ := ArchiverHeap.pop_nonempty mm heap e rest hel
    have hstep : LogArchiver.selectionLoop mm hdr e.run (heap.size + 1) heap b1 =
        LogArchiver.selectionLoop mm hdr e.run heap.size heapa b1a := by
      rw [LogArchiver.selectionLoop, if_neg (by
        intro hc
        rcases hc with hc | hc
        · exact hne hc
        · exact hc hrun), htop]
      simp only
      rw [hadd]
      simp only
      rw [hpop]
    have hbsa := BlockAssembly.add_frame hdr b1 lr _ hadd
    simp only at hbsa
    obtain ⟨hda, habs, hawb, haai, halv, halr⟩ :
        (∃ recs, b1a.dest = some recs) ∧ b1a.bucketSize = b1.bucketSize ∧
        b1a.writebuf = b1.writebuf ∧ b1a.archIndex = b1.archIndex ∧ b1a.level = b1.level ∧
        b1a.lastRun = b1.lastRun := by
      rcases BlockAssembly.add_spec hdr b1 lr _ hadd with ⟨h1, _⟩ |
        ⟨_, _, ⟨recs0, _, hdd⟩, _, _, _, _, _, a1, a2, a3, a4, a5⟩
      · cases h1
      · exact ⟨⟨_, hdd⟩, a1, a2, a3, a4, a5⟩
    obtain ⟨recsa, hda⟩ := hda
    have hloada : ∀ e1 ∈ heapa.w_heap.elems, ∃ lr1, heapa.load e1.slot.address = some lr1 := by
      intro e1 he1
      rw [hela] at he1
      obtain ⟨lr1, h1⟩ := hload e1 (by rw [hel]; exact List.mem_cons_of_mem _ he1)
      exact ⟨lr1, by simpa [ArchiverHeap.load, hmema] using h1⟩
    have hsza : heapa.size < heap.size := by
      simp only [ArchiverHeap.size, Heap.NumElements, hela, hel, List.length_cons]
      omega
    obtain ⟨heap1, b2, recs2, popped, hloop, hpre, _, hd2, hai2, hlv2, _⟩ :=
      LogArchiver.selectionLoop_spec mm hdr e.run heap.size heapa b1a recsa hsza hloada hda
        (by rw [habs]; exact hb1)
    obtain ⟨fm, fbs, fbk, fwb, flr, fsz⟩ :=
      LogArchiver.selectionLoop_frame mm hdr e.run heap.size heapa heap1 b1a b2 hloop
    have hes2 : b2.archIndex.lastEntries b2.level = some es := by
      rw [hai2, hlv2, haai, halv]
      exact hes
    obtain ⟨b3, hb3⟩ := BlockAssembly.finish_isSome b2 recs2 es hd2 hes2
    obtain ⟨_, ix, _, hnb, g3, _, _, _, _, _, g9, g10, g11⟩ := BlockAssembly.finish_spec b2 b3 hb3
    have g12 := BlockAssembly.finish_frame b2 b3 hb3
    have g13 := BlockAssembly.finish_finished b2 b3 hb3
    rw [hstep, hloop]
    simp only
    rw [hb3]
    have hmem1 : heap1.memory = heap.memory := fm.trans hmema
    have hsub : ∀ e1 ∈ heap1.w_heap.elems, e1 ∈ heap.w_heap.elems := by
      intro e1 he1
      rw [hel]
      apply List.mem_cons_of_mem
      rw [← hela, hpre]
      exact List.mem_append_right _ he1
    have hload1 : ∀ (a : Nat), heap1.load a = heap.load a := by
      intro a
      simp only [ArchiverHeap.load, hmem1]
    have hlast3 : b3.archIndex.lastEntries b3.level =
        some (es ++ b2.buckets.map (fun b => ⟨b.2, b.1⟩)) := by
      rw [g3, g11]
      exact ArchiveIndex.newBlock_lastEntries _ _ _ _ _ hnb hes2
    refine ⟨heap1, b3, rfl, by omega, ⟨?_, ?_, ?_, ?_⟩, ?_, ?_⟩
    · intro e1 he1
      rw [hload1]
      exact hload0 e1 (hsub e1 he1)
    · rw [g10, fbk, habs]
      exact hb1
    · exact Or.inr (ArchiveIndex.lastEntries_runs _ _ _ hlast3)
    · intro _
      rw [hlast3]
      rfl
    · rw [g13, fwb, hawb, hs1]
      exact hfin
    · intro e1 he1
      rw [hload1]
      have := hfit e1 (hsub e1 he1)
      unfold BlockAssembly.roomInEmptyBlock at this ⊢
      rw [g12, fbs, hbsa, hf1]
      exact this


/-- The loop `while (selection()) {}` empties the heap when every record fits in
an empty block and the write buffer is not finished. -/
theorem LogArchiver.selectAll_drains {W : Type} (mm : mem_mgmt_t W) (hdr : Nat) :
    ∀ (fuel : Nat) (heap : ArchiverHeap W) (blk : BlockAssembly),
      heap.size < fuel → LogArchiver.selectionReady heap blk →
      blk.writebuf.finished = false → LogArchiver.heapFits hdr heap blk →
      ∃ heap1 blk1,
        LogArchiver.selectAll mm hdr fuel heap blk = some (heap1, blk1) ∧ heap1.size = 0 := by
  intro fuel
  induction fuel with
  | zero => intro heap blk h; omega
  | succ n ih =>
    intro heap blk hsz hready hfin hfit
    unfold LogArchiver.selectAll
    by_cases h0 : heap.size = 0
    · have hsel : LogArchiver.selection mm hdr heap blk = some (false, heap, blk) := by
        unfold LogArchiver.selection
        rw [if_pos h0]
      rw [hsel]
      exact ⟨heap, blk, rfl, h0⟩
    · obtain ⟨heap1, blk1, hsel, hlt, hready1, hfin1, hfit1⟩ :=
        LogArchiver.selection_progress mm hdr heap blk hready h0 hfin hfit
      rw [hsel]
      exact ih heap1 blk1 (by omega) hready1 hfin1 hfit1

/-- The method `openNewRun` on a level without an open descriptor opens one: the
level gets the next descriptor and the position 0. -/
theorem ArchiveDirectory.openNewRun_opens (d : ArchiveDirectory) (level : Nat)
    (h : ¬ (d.appendFd.length > level ∧ (d.appendFd[level]?).getD (-1) ≥ 0)) :
    (d.openNewRun level).2.appendFd[level]? = some d.nextFd ∧
    (d.openNewRun level).2.appendPos[level]? = some 0 ∧
    (d.openNewRun level).2.renamed = d.renamed := by
  unfold ArchiveDirectory.openNewRun
  rw [if_neg h]
  have h1 : level < (vector_resize d.appendFd (level + 1) (-1 : Int)).length := by
    rw [vector_resize_length]; omega
  have h2 : level < (vector_resize d.appendPos (level + 1) 0).length := by
    rw [vector_resize_length]; omega
  exact ⟨by simp only [List.getElem?_set_self h1],
    by simp only [List.getElem?_set_self h2], rfl⟩

/-- Every path through `closeCurrentRun` other than the early return for a run
to which nothing was appended ends in `openNewRun(level)`: after the call the
level has the next descriptor and the position 0. -/
theorem ArchiveDirectory.closeCurrentRun_reopens (hdr : Nat) (d d1 : ArchiveDirectory)
    (runEndLSN : lsn_t) (level : Nat)
    (h : d.closeCurrentRun hdr runEndLSN level = some d1)
    (hne : ¬ (∃ fd, d.appendFd[level]? = some fd ∧ fd ≥ 0 ∧
      d.appendPos[level]? = some 0 ∧ runEndLSN = lsn_t.null)) :
    d1.appendFd[level]? = some d.nextFd ∧ d1.appendPos[level]? = some 0 := by
  unfold ArchiveDirectory.closeCurrentRun at h
  cases hfd : d.appendFd[level]? with
  | none => rw [hfd] at h; cases h
  | some fd =>
    cases hpos : d.appendPos[level]? with
    | none => rw [hfd, hpos] at h; cases h
    | some pos =>
      rw [hfd, hpos] at h
      simp only at h
      by_cases hge : fd ≥ 0
      · rw [if_pos hge] at h
        have hearly : ¬ (pos = 0 ∧ runEndLSN = lsn_t.null) := by
          intro hc
          exact hne ⟨fd, hfd, hge, by rw [hpos, hc.1], hc.2⟩
        rw [if_neg hearly] at h
        have hlen : level < d.appendFd.length := by
          rcases Nat.lt_or_ge level d.appendFd.length with hl | hl
          · exact hl
          · rw [List.getElem?_eq_none hl] at hfd
            cases hfd
        have key : ∀ d4 : ArchiveDirectory,
            d1 = (ArchiveDirectory.openNewRun
              { d4 with appendFd := d4.appendFd.set level (-1) } level).2 →
            d4.appendFd = d.appendFd → d4.nextFd = d.nextFd →
            d1.appendFd[level]? = some d.nextFd ∧ d1.appendPos[level]? = some 0 := by
          intro d4 e3 e1 e2
          have hcl : ¬ (({ d4 with appendFd := d4.appendFd.set level (-1) } :
              ArchiveDirectory).appendFd.length > level ∧
              (({ d4 with appendFd := d4.appendFd.set level (-1) } :
                ArchiveDirectory).appendFd[level]?).getD (-1) ≥ 0) := by
            intro hc
            have := hc.2
            simp only [e1, List.getElem?_set_self hlen, Option.getD_some] at this
            omega
          obtain ⟨a1, a2, _⟩ := ArchiveDirectory.openNewRun_opens _ level hcl
          rw [e3]
          exact ⟨by rw [a1]; exact congrArg some e2, a2⟩
        cases hl : d.archIndex.getLastLSN level with
        | none => rw [hl] at h; cases h
        | some lastLSN =>
          rw [hl] at h
          simp only at h
          by_cases hq : lastLSN ≠ runEndLSN
          · rw [if_pos hq] at h
            by_cases hp : pos > 0
            · rw [if_pos hp] at h
              by_cases hb : d.blockSize = 0
              · rw [if_pos hb] at h
                cases h
              · rw [if_neg hb] at h
                cases hf : d.archIndex.finishRun lastLSN runEndLSN
                    (pos + hdr - (pos + hdr) % d.blockSize + d.blockSize) level with
                | none => rw [hf] at h; cases h
                | some ix =>
                  rw [hf] at h
                  simp only [Option.map_some', Option.some.injEq] at h
                  exact key
                    { d with
                      appendPos := d.appendPos.set level
                        (pos + hdr - (pos + hdr) % d.blockSize + d.blockSize),
                      archIndex := ix,
                      renamed := d.renamed ++ [⟨lastLSN, runEndLSN, level⟩] }
                    h.symm rfl rfl
            · rw [if_neg hp] at h
              simp only [Option.map_some', Option.some.injEq] at h
              exact key { d with renamed := d.renamed ++ [⟨lastLSN, runEndLSN, level⟩] }
                h.symm rfl rfl
          · rw [if_neg hq] at h
            simp only [Option.map_some', Option.some.injEq] at h
            exact key d h.symm rfl rfl
      · rw [if_neg hge] at h
        simp only [Option.some.injEq] at h
        rw [← h]
        have hcl : ¬ (d.appendFd.length > level ∧ (d.appendFd[level]?).getD (-1) ≥ 0) := by
          intro hc
          have := hc.2
          rw [hfd, Option.getD_some] at this
          exact hge this
        obtain ⟨a1, a2, _⟩ := ArchiveDirectory.openNewRun_opens d level hcl
        exact ⟨a1, a2⟩

/-- A call of `closeCurrentRun` with an end LSN that is not null and differs from
`getLastLSN(level)`, on an open descriptor, renames `current_run` to the run file
from `getLastLSN(level)` to that end LSN. -/
theorem ArchiveDirectory.closeCurrentRun_renames (hdr : Nat) (d d1 : ArchiveDirectory)
    (runEndLSN lastLSN : lsn_t) (level : Nat) (fd : Int)
    (h : d.closeCurrentRun hdr runEndLSN level = some d1)
    (hfd : d.appendFd[level]? = some fd) (hge : fd ≥ 0) (hnn : runEndLSN ≠ lsn_t.null)
    (hl : d.archIndex.getLastLSN level = some lastLSN) (hq : lastLSN ≠ runEndLSN) :
    d1.renamed = d.renamed ++ [⟨lastLSN, runEndLSN, level⟩] := by
  unfold ArchiveDirectory.closeCurrentRun at h
  cases hpos : d.appendPos[level]? with
  | none => rw [hfd, hpos] at h; cases h
  | some pos =>
    rw [hfd, hpos] at h
    simp only at h
    rw [if_pos hge, if_neg (fun hc => hnn hc.2), hl] at h
    simp only at h
    rw [if_pos hq] at h
    have hlen : level < d.appendFd.length := by
      rcases Nat.lt_or_ge level d.appendFd.length with hl | hl
      · exact hl
      · rw [List.getElem?_eq_none hl] at hfd
        cases hfd
    have key : ∀ d4 : ArchiveDirectory,
        d1 = (ArchiveDirectory.openNewRun
          { d4 with appendFd := d4.appendFd.set level (-1) } level).2 →
        d4.appendFd = d.appendFd → d1.renamed = d4.renamed := by
      intro d4 e3 e1
      have hcl : ¬ (({ d4 with appendFd := d4.appendFd.set level (-1) } :
          ArchiveDirectory).appendFd.length > level ∧
          (({ d4 with appendFd := d4.appendFd.set level (-1) } :
            ArchiveDirectory).appendFd[level]?).getD (-1) ≥ 0) := by
        intro hc
        have := hc.2
        simp only [e1, List.getElem?_set_self hlen, Option.getD_some] at this
        omega
      obtain ⟨_, _, a3⟩ := ArchiveDirectory.openNewRun_opens _ level hcl
      rw [e3, a3]
    by_cases hp : pos > 0
    · rw [if_pos hp] at h
      by_cases hb : d.blockSize = 0
      · rw [if_pos hb] at h
        cases h
      · rw [if_neg hb] at h
        cases hf : d.archIndex.finishRun lastLSN runEndLSN
            (pos + hdr - (pos + hdr) % d.blockSize + d.blockSize) level with
        | none => rw [hf] at h; cases h
        | some ix =>
          rw [hf] at h
          simp only [Option.map_some', Option.some.injEq] at h
          exact key
            { d with
              appendPos := d.appendPos.set level
                (pos + hdr - (pos + hdr) % d.blockSize + d.blockSize),
              archIndex := ix,
              renamed := d.renamed ++ [⟨lastLSN, runEndLSN, level⟩] }
            h.symm rfl
    · rw [if_neg hp] at h
      simp only [Option.map_some', Option.some.injEq] at h
      exact key { d with renamed := d.renamed ++ [⟨lastLSN, runEndLSN, level⟩] } h.symm rfl

/-- The cases of `processFlushRequest` on a state whose heap records are in the workspace
and fit in an empty block, with a write buffer that is not finished.  Without a
pending request it returns false and changes nothing.  With a request that the
consumer has not reached it returns false, changes nothing but `control.endLSN`,
which is at least `flushReqLSN` afterwards, and keeps the request.  With a
request that the consumer has reached, the loop over `selection` ends with an
empty heap; once the writer thread has written the pending blocks and
`closeCurrentRun(flushReqLSN, 1)` has come back, the call returns true with the
empty heap, the directory as that call left it, the writer reset and
`flushReqLSN` null; the run file that this call names ends at `flushReqLSN`
(it names one when `getLastLSN(1)` differs from `flushReqLSN`). -/
theorem LogArchiver.processFlushRequest_cases {W : Type} (mm : mem_mgmt_t W) (hdr : Nat)
    (s : LogArchiverState W)
    (hready : LogArchiver.selectionReady s.heap s.blkAssemb)
    (hfin : s.blkAssemb.writebuf.finished = false)
    (hfit : LogArchiver.heapFits hdr s.heap s.blkAssemb) :
    (s.archiver.flushReqLSN = lsn_t.null →
      LogArchiver.processFlushRequest mm hdr s = some (false, s)) ∧
    (s.archiver.flushReqLSN ≠ lsn_t.null → s.nextConsumedLSN < s.archiver.flushReqLSN →
      ∃ s1, LogArchiver.processFlushRequest mm hdr s = some (false, s1) ∧
        s1.archiver.flushReqLSN = s.archiver.flushReqLSN ∧ s1.heap = s.heap ∧
        s1.blkAssemb = s.blkAssemb ∧ s1.writer = s.writer ∧
        s1.archiver.directory = s.archiver.directory ∧
        s.archiver.flushReqLSN ≤ s1.archiver.control.endLSN ∧
        (s.archiver.flushReqLSN ≤ s.archiver.control.endLSN →
          s1.archiver.control = s.archiver.control)) ∧
    (s.archiver.flushReqLSN ≠ lsn_t.null → ¬ s.nextConsumedLSN < s.archiver.flushReqLSN →
      ∃ heap1 b1,
        LogArchiver.selectAll mm hdr (s.heap.size + 1) s.heap s.blkAssemb = some (heap1, b1) ∧
        heap1.size = 0 ∧
        ∀ w1 d1 d2,
          WriterThread.writeAll hdr s.writer
            { s.archiver.directory with archIndex := b1.archIndex } b1.writebuf.released
              = some (w1, d1) →
          d1.closeCurrentRun hdr s.archiver.flushReqLSN 1 = some d2 →
          ∃ s1, LogArchiver.processFlushRequest mm hdr s = some (true, s1) ∧
            s1.heap = heap1 ∧ s1.archiver.directory = d2 ∧
            s1.archiver.flushReqLSN = lsn_t.null ∧
            s1.archiver.control = s.archiver.control ∧
            s1.writer = w1.resetCurrentRun ∧ s1.blkAssemb.writebuf.released = [] ∧
            (∀ fd lastLSN, d1.appendFd[1]? = some fd → fd ≥ 0 →
              d1.archIndex.getLastLSN 1 = some lastLSN →
              lastLSN ≠ s.archiver.flushReqLSN →
              s1.archiver.directory.renamed =
                d1.renamed ++ [⟨lastLSN, s.archiver.flushReqLSN, 1⟩])) := by
  refine ⟨?_, ?_, ?_⟩
  · intro h
    unfold LogArchiver.processFlushRequest
    simp only
    rw [if_neg (fun hc => hc h)]
  · intro hreq hlt
    unfold LogArchiver.processFlushRequest
    simp only
    rw [if_pos hreq, if_pos hlt]
    refine ⟨_, rfl, rfl, rfl, rfl, rfl, rfl, ?_, ?_⟩
    · simp only
      by_cases hc : s.archiver.control.endLSN < s.archiver.flushReqLSN
      · rw [if_pos hc]
        exact lsn_t.le_refl _
      · rw [if_neg hc]
        exact lsn_t.le_of_not_lt hc
    · intro hle
      simp only
      rw [if_neg (lsn_t.not_lt_of_le hle)]
  · intro hreq hge
    obtain ⟨heap1, b1, hsel, hz⟩ := LogArchiver.selectAll_drains mm hdr (s.heap.size + 1)
      s.heap s.blkAssemb (by omega) hready hfin hfit
    refine ⟨heap1, b1, hsel, hz, ?_⟩
    intro w1 d1 d2 hw hc
    unfold LogArchiver.processFlushRequest
    simp only
    rw [if_pos hreq, if_neg hge, hsel]
    simp only
    rw [if_neg (fun hcon => hcon hz), hw]
    simp only
    rw [hc]
    exact ⟨_, rfl, rfl, rfl, rfl, rfl, rfl, rfl, fun fd lastLSN hfd hge hl hq =>
      ArchiveDirectory.closeCurrentRun_renames hdr d1 d2 _ lastLSN 1 fd hc hfd hge hreq hl hq⟩


/-- The cases of `processFlushRequest` on a heap with one record of 40 bytes at the
LSN `1.100`, an empty archive and a flush request for the LSN `1.140`.  When the consumer has reached `1.140`
the call returns true, the heap is empty, the request is cleared and the run
`1.0 - 1.140` is closed; when the consumer is at `1.100` the call returns false
and `control.endLSN` becomes `1.140`; without a request nothing happens. -/
theorem LogArchiver.processFlushRequest_cases_example :
    (∃ heap1 b1,
      LogArchiver.selectAll Arena.mem_mgmt 8 (sampleFlushState.heap.size + 1)
        sampleFlushState.heap sampleFlushState.blkAssemb = some (heap1, b1) ∧
      heap1.size = 0) ∧
    ((LogArchiver.processFlushRequest Arena.mem_mgmt 8 sampleFlushState).map
      (fun r => (r.1, r.2.heap.size, r.2.archiver.flushReqLSN,
        r.2.archiver.directory.renamed))) =
      some (true, 0, lsn_t.null, [⟨⟨1, 0⟩, ⟨1, 140⟩, 1⟩]) ∧
    (∃ s1, LogArchiver.processFlushRequest Arena.mem_mgmt 8
        { sampleFlushState with nextConsumedLSN := ⟨1, 100⟩ } = some (false, s1) ∧
      s1.archiver.flushReqLSN = ⟨1, 140⟩ ∧ s1.heap = sampleFlushState.heap ∧
      (⟨1, 140⟩ : lsn_t) ≤ s1.archiver.control.endLSN) ∧
    LogArchiver.processFlushRequest Arena.mem_mgmt 8
        { sampleFlushState with
          archiver := { sampleFlushState.archiver with flushReqLSN := lsn_t.null } } =
      some (false, { sampleFlushState with
          archiver := { sampleFlushState.archiver with flushReqLSN := lsn_t.null } }) := by
  have hready : LogArchiver.selectionReady sampleFlushState.heap sampleFlushState.blkAssemb :=
    ⟨by decide, by decide, Or.inl (by decide), fun h => absurd h (by decide)⟩
  have hfit : LogArchiver.heapFits 8 sampleFlushState.heap sampleFlushState.blkAssemb := by
    unfold LogArchiver.heapFits
    decide
  refine ⟨?_, by decide, ?_, ?_⟩
  · obtain ⟨heap1, b1, h1, h2, _⟩ :=
      (LogArchiver.processFlushRequest_cases Arena.mem_mgmt 8 sampleFlushState hready rfl
        hfit).2.2 (by decide) (by decide)
    exact ⟨heap1, b1, h1, h2⟩
  · obtain ⟨s1, h1, h2, h3, _, _, _, h7, _⟩ :=
      (LogArchiver.processFlushRequest_cases Arena.mem_mgmt 8
        { sampleFlushState with nextConsumedLSN := ⟨1, 100⟩ } hready rfl hfit).2.1
        (by decide) (by decide)
    exact ⟨s1, h1, h2, h3, h7⟩
  · exact (LogArchiver.processFlushRequest_cases Arena.mem_mgmt 8
      { sampleFlushState with
        archiver := { sampleFlushState.archiver with flushReqLSN := lsn_t.null } }
      hready rfl hfit).1 rfl

theorem option_eq_some_getD {α : Type} (o : Option α) (d : α) (h : o.isSome = true) :
    o = some (o.getD d) := by
  cases o with
  | none => cases h
  | some r => rfl

theorem option_eq_some_pair {α β : Type} (o : Option (α × β)) (d : α × β) (a : α)
    (h : o.map Prod.fst = some a) : o = some (a, (o.getD d).2) := by
  cases o with
  | none => cases h
  | some r =>
    obtain ⟨r1, r2⟩ := r
    simp only [Option.map_some', Option.some.injEq] at h
    subst h
    rfl

/-- C23: a flush request that finds the heap empty, followed by one that finds a
record.  On an archiver as its constructors leave it, `processFlushRequest` with a
request for `1.100` that the consumer has reached returns true, with the heap
empty, the request cleared, the current run of level 1 open and the run number
of the writer thread raised to 1, while the run number of the heap stays 0.
After that a record of 40 bytes at `1.100` is pushed into the heap and a flush to
`1.140` is requested, which the consumer has reached: the heap records are in the
workspace and fit in an empty block, the write buffer is not finished, the loop
over `selection` empties the heap and releases one block
of run 0, the writer thread, whose run number is 1, calls
`closeCurrentRun(null, 1)` on the empty current run, which leaves the descriptor
`-1`, and the `append` of the block has no result; `processFlushRequest` has no
result. -/
theorem C23_processFlushRequest_after_idle_flush_has_no_result :
    ∃ s1 : LogArchiverState Arena,
      LogArchiver.processFlushRequest Arena.mem_mgmt 8 sampleIdleFlushState = some (true, s1) ∧
      s1.heap.size = 0 ∧ s1.heap.currentRun = 0 ∧ s1.archiver.flushReqLSN = lsn_t.null ∧
      s1.writer.currentRun = 1 ∧
      s1.archiver.directory.appendFd = [-1, 4] ∧ s1.archiver.directory.appendPos = [0, 0] ∧
      (sampleNextFlush s1).archiver.flushReqLSN = ⟨1, 140⟩ ∧
      ¬ (sampleNextFlush s1).nextConsumedLSN < (sampleNextFlush s1).archiver.flushReqLSN ∧
      LogArchiver.selectionReady (sampleNextFlush s1).heap (sampleNextFlush s1).blkAssemb ∧
      (sampleNextFlush s1).blkAssemb.writebuf.finished = false ∧
      LogArchiver.heapFits 8 (sampleNextFlush s1).heap (sampleNextFlush s1).blkAssemb ∧
      (sampleNextFlush s1).heap.topRun = some 0 ∧
      (∃ heap1 b1,
        LogArchiver.selectAll Arena.mem_mgmt 8 ((sampleNextFlush s1).heap.size + 1)
          (sampleNextFlush s1).heap (sampleNextFlush s1).blkAssemb = some (heap1, b1) ∧
        heap1.size = 0 ∧
        b1.writebuf.released.map (fun blk => blk.header.run) = [0] ∧
        ((ArchiveDirectory.closeCurrentRun 8
            { s1.archiver.directory with archIndex := b1.archIndex }
            (sampleNextFlush s1).writer.maxLSNInRun 1).map
              (fun d => (d.appendFd, d.appendPos))) =
          some ([-1, -1], [0, 0]) ∧
        WriterThread.writeAll 8 (sampleNextFlush s1).writer
          { (sampleNextFlush s1).archiver.directory with archIndex := b1.archIndex }
          b1.writebuf.released = none) ∧
      LogArchiver.processFlushRequest Arena.mem_mgmt 8 (sampleNextFlush s1) = none := by
  refine ⟨((LogArchiver.processFlushRequest Arena.mem_mgmt 8 sampleIdleFlushState).getD
      (false, sampleIdleFlushState)).2,
    option_eq_some_pair _ _ true (by decide), by decide, by decide, by decide, by decide,
    by decide, by decide, by decide, by decide,
    ⟨by decide, by decide, Or.inl (by decide), fun h => absurd h (by decide)⟩, by decide,
    by unfold LogArchiver.heapFits; decide, by decide, ?_, ?_⟩
  · refine ⟨_, _, option_eq_some_getD _ (sampleIdleFlushState.heap, sampleIdleFlushState.blkAssemb)
      (by decide), by decide, by decide, by decide, ?_⟩
    rw [← Option.not_isSome_iff_eq_none]
    decide
  · rw [← Option.not_isSome_iff_eq_none]
    decide

end Zero
